import Mathlib

/-!
Shallow embedding of `helix-view/src/tree.rs` (the `Tabs` / `Tree` / `Node`
split-layout core) and verification of its specification claims.

Modelling conventions:
* `ViewId` / `TabId` are natural numbers.  The backing slot maps
  (`HopSlotMap`, whose guaranteed behaviour per the spec is stable
  insertion-order iteration and key invalidation on removal) are modelled by
  `SMap`: an association list in insertion order plus a fresh-key counter.
  Keys start at 1 so that the sentinel `ViewId::default()` (= 0 here, the
  slotmap null key) is never a live key.
* Rust panics (indexing a missing key, `unwrap`, `unreachable!`) and u16
  arithmetic overflow (an arithmetic error in Rust; a panic in checked
  builds) are modelled as `Option` failure (`none`).  `u16` casts that
  silently wrap (`as u16`) are modelled with `% 65536`.
* Loops whose termination depends on the heap shape (the remove cascade, the
  layout work stack, traversal, directional search) take explicit fuel; the
  public wrappers pass `arena size + 1`, which suffices for every
  well-formed state, and fuel exhaustion is `none` like a panic.
-/

set_option linter.unusedVariables false

namespace HelixView

abbrev ViewId := Nat
abbrev TabId := Nat

/-- Integer rectangle from `crate::graphics::Rect` (external collaborator):
fields `x, y, width, height` in screen cells (u16). -/
structure Rect where
  x : Nat
  y : Nat
  width : Nat
  height : Nat
deriving DecidableEq, Repr

def Rect.rdefault : Rect := ⟨0, 0, 0, 0⟩

def Rect.left (r : Rect) : Nat := r.x

def Rect.top (r : Rect) : Nat := r.y

/-- A pane ("view"): external collaborator exposing a stable identity field
and a mutable rectangle; `doc` stands for the opaque remaining payload. -/
structure View where
  id : ViewId
  doc : Nat
  area : Rect
deriving DecidableEq, Repr

inductive Layout where
  | Horizontal
  | Vertical
deriving DecidableEq, Repr

inductive Direction where
  | Up
  | Down
  | Left
  | Right
deriving DecidableEq, Repr

structure Container where
  layout : Layout
  children : List ViewId
  area : Rect
deriving DecidableEq, Repr

def Container.cnew (l : Layout) : Container := ⟨l, [], Rect.rdefault⟩

inductive Content where
  | view (v : View)
  | container (c : Container)
deriving DecidableEq, Repr

structure Node where
  parent : ViewId
  content : Content
deriving DecidableEq, Repr

/-- `Node::container` (sentinel parent 0, always overwritten). -/
def Node.ncontainer (l : Layout) : Node := ⟨0, .container (Container.cnew l)⟩

/-- `Node::view`. -/
def Node.nview (v : View) : Node := ⟨0, .view v⟩

/-! ### The slot map model -/

/-- Association list helpers (insertion order, unique keys in practice). -/
def lookupL {α : Type} : List (Nat × α) → Nat → Option α
  | [], _ => none
  | e :: es, k => if e.1 = k then some e.2 else lookupL es k

def setL {α : Type} : List (Nat × α) → Nat → α → List (Nat × α)
  | [], _, _ => []
  | e :: es, k, a => (if e.1 = k then (k, a) else e) :: setL es k a

def eraseL {α : Type} : List (Nat × α) → Nat → List (Nat × α)
  | [], _ => []
  | e :: es, k => if e.1 = k then eraseL es k else e :: eraseL es k

/-- Slot map model: entries in insertion order plus a fresh-key counter.
Keys start at 1; 0 models the slotmap null/default key. -/
structure SMap (α : Type) where
  nextKey : Nat
  entries : List (Nat × α)
deriving DecidableEq, Repr

namespace SMap

def empty {α : Type} : SMap α := ⟨1, []⟩

def get {α : Type} (m : SMap α) (k : Nat) : Option α := lookupL m.entries k

def containsKey {α : Type} (m : SMap α) (k : Nat) : Bool := (m.get k).isSome

def insertNew {α : Type} (m : SMap α) (a : α) : SMap α × Nat :=
  (⟨m.nextKey + 1, m.entries ++ [(m.nextKey, a)]⟩, m.nextKey)

def set {α : Type} (m : SMap α) (k : Nat) (a : α) : SMap α := ⟨m.nextKey, setL m.entries k a⟩

def erase {α : Type} (m : SMap α) (k : Nat) : SMap α := ⟨m.nextKey, eraseL m.entries k⟩

def keys {α : Type} (m : SMap α) : List Nat := m.entries.map (·.1)

def modify {α : Type} (m : SMap α) (k : Nat) (f : α → α) : SMap α :=
  match m.get k with
  | some a => m.set k (f a)
  | none => m

end SMap

/-! ### Trees and the workspace set -/

/-- One workspace/tab: root container id, focused node id, bounding
rectangle, member set (`SparseSecondaryMap<ViewId, ()>`, modelled as a
duplicate-free list) and the reusable traversal scratch stack. -/
structure Tree where
  id : TabId
  root : ViewId
  focus : ViewId
  area : Rect
  nodes : List ViewId
  stack : List (ViewId × Rect)
deriving DecidableEq, Repr

/-- The workspace set: all trees, the shared node arena, the active tab. -/
structure Tabs where
  trees : SMap Tree
  nodes : SMap Node
  focus : TabId
deriving DecidableEq, Repr

/-- `SparseSecondaryMap::insert` on the member set (set semantics). -/
def memInsert (l : List ViewId) (v : ViewId) : List ViewId :=
  if v ∈ l then l else l ++ [v]

def Content.asContainer : Content → Option Container
  | .container c => some c
  | .view _ => none

def Content.asView : Content → Option View
  | .view v => some v
  | .container _ => none

namespace Tabs

/-- `Tabs::new_tree`. -/
def newTree (s : Tabs) (area : Rect) : Tabs × TabId :=
  let (nodes1, root) := s.nodes.insertNew ⟨0, .container (Container.cnew .Vertical)⟩
  let nodes2 := nodes1.modify root (fun n => { n with parent := root })
  let tree : Tree := { id := 0, root := root, focus := root, area := area, nodes := [root], stack := [] }
  let (trees1, tabId) := s.trees.insertNew tree
  let trees2 := trees1.modify tabId (fun t => { t with id := tabId })
  ({ s with nodes := nodes2, trees := trees2 }, tabId)

/-- `Tabs::new`. -/
def new (area : Rect) : Tabs :=
  let s : Tabs := { trees := SMap.empty, nodes := SMap.empty, focus := 0 }
  let (s1, tab) := s.newTree area
  { s1 with focus := tab }

/-- `Tabs::new_tab` (the new tree inherits the focused tree's area). -/
def newTab (s : Tabs) : Option (Tabs × TabId) := do
  let t ← s.trees.get s.focus
  let (s1, tab) := s.newTree t.area
  pure ({ s1 with focus := tab }, tab)

/-- `Tabs::tab_is_empty`: note that the root node is looked up by *indexing*
the arena (`&self.nodes[tab.root]`), which panics when the root id is
absent; a non-container root is `unreachable!`. -/
def tabIsEmpty (s : Tabs) (tab : TabId) : Option Bool := do
  let tree ← s.trees.get tab
  let n ← s.nodes.get tree.root
  match n.content with
  | .container co => pure co.children.isEmpty
  | .view _ => none

/-! #### The layout solver (`recalculate_tab`) -/

/-- Checked u16 addition: overflow is an arithmetic error (panic). -/
def chkAdd (a b : Nat) : Option Nat :=
  if a + b ≤ 65535 then some (a + b) else none

/-- Checked u16 subtraction: underflow is an arithmetic error (panic). -/
def chkSub (a b : Nat) : Option Nat :=
  if b ≤ a then some (a - b) else none

/-- The `Layout::Horizontal` arm of the child loop in `recalculate_tab`:
produces the child rectangles in order.  `height` is the per-child height,
`childY` the running y coordinate, the second `Nat` the number of children
still to lay out (the last child absorbs the remainder). -/
def horizRectsGo (carea : Rect) (height : Nat) : Nat → Nat → Option (List Rect)
  | _, 0 => some []
  | childY, rem + 1 => do
    let childY2 ← chkAdd childY height
    if rem = 0 then do
      let yh ← chkAdd carea.y carea.height
      let lastH ← chkSub yh childY
      pure [⟨carea.x, childY, carea.width, lastH⟩]
    else do
      let rest ← horizRectsGo carea height childY2 rem
      pure (⟨carea.x, childY, carea.width, height⟩ :: rest)

def horizRects (carea : Rect) (len : Nat) : Option (List Rect) := do
  if len % 65536 = 0 then none
  else
    let height := carea.height / (len % 65536)
    horizRectsGo carea height carea.y len

/-- The `Layout::Vertical` arm: per-child width plus a fixed 1-cell gap;
the last child absorbs the remainder up to the container's right edge. -/
def vertRectsGo (carea : Rect) (width : Nat) : Nat → Nat → Option (List Rect)
  | _, 0 => some []
  | childX, rem + 1 => do
    let step ← chkAdd width 1
    let childX2 ← chkAdd childX step
    if rem = 0 then do
      let xw ← chkAdd carea.x carea.width
      let lastW ← chkSub xw childX
      pure [⟨childX, carea.y, lastW, carea.height⟩]
    else do
      let rest ← vertRectsGo carea width childX2 rem
      pure (⟨childX, carea.y, width, carea.height⟩ :: rest)

def vertRects (carea : Rect) (len : Nat) : Option (List Rect) := do
  if len % 65536 = 0 then none
  else
    let width := carea.width / (len % 65536)
    vertRectsGo carea width carea.x len

def subdivRects (l : Layout) (carea : Rect) (len : Nat) : Option (List Rect) :=
  match l with
  | .Horizontal => horizRects carea len
  | .Vertical => vertRects carea len

/-- The iterative work-stack loop of `recalculate_tab`.  The list head is
the stack top; a container pushes its children so that the first child is
popped first. -/
def recalcLoop : Nat → Tabs → List (ViewId × Rect) → Option Tabs
  | _, s, [] => some s
  | 0, _, _ :: _ => none
  | fuel + 1, s, (key, area) :: stk => do
    let n ← s.nodes.get key
    match n.content with
    | .view v =>
      let s2 := { s with nodes := s.nodes.set key ⟨n.parent, .view { v with area := area }⟩ }
      recalcLoop fuel s2 stk
    | .container co =>
      let co2 := { co with area := area }
      let s2 := { s with nodes := s.nodes.set key ⟨n.parent, .container co2⟩ }
      let rects ← subdivRects co.layout area co.children.length
      recalcLoop fuel s2 ((co.children.zip rects) ++ stk)

/-- `Tabs::recalculate_tab`. -/
def recalcTab (s : Tabs) (tab : TabId) : Option Tabs := do
  let empty ← s.tabIsEmpty tab
  if empty then
    let tree ← s.trees.get tab
    pure { s with trees := s.trees.set tab { tree with focus := tree.root } }
  else
    let tree ← s.trees.get tab
    let s2 ← recalcLoop (s.nodes.entries.length + 1) s ((tree.root, tree.area) :: tree.stack.reverse)
    let tree2 ← s2.trees.get tab
    pure { s2 with trees := s2.trees.set tab { tree2 with stack := [] } }

/-- `Tabs::recalculate`: recompute layout for every tab (the unsafe
key-iteration in the source is equivalent to folding over the key snapshot,
since `recalculate_tab` never changes the tree key set). -/
def recalcAllGo : Tabs → List TabId → Option Tabs
  | s, [] => some s
  | s, t :: rest => do recalcAllGo (← s.recalcTab t) rest

def recalculate (s : Tabs) : Option Tabs := recalcAllGo s s.trees.keys

/-! #### Mutating operations -/

/-- `self.get_mut(node).id = node` — sets the view's identity field. -/
def setViewId (m : SMap Node) (node : ViewId) : Option (SMap Node) := do
  let n ← m.get node
  match n.content with
  | .view v => pure (m.set node ⟨n.parent, .view { v with id := node }⟩)
  | .container _ => none

/-- `Tabs::insert`, the mutation phase: everything before the final
`self.recalculate()`. -/
def insertPre (s : Tabs) (tab : TabId) (view : View) : Option (Tabs × ViewId) := do
  let tree ← s.trees.get tab
  let focus := tree.focus
  let fnode ← s.nodes.get focus
  let parent := fnode.parent
  let ins := s.nodes.insertNew ⟨parent, .view view⟩
  let nodes1 := ins.1
  let node := ins.2
  let nodes2 ← setViewId nodes1 node
  let pnode ← nodes2.get parent
  let co ← pnode.content.asContainer
  let pos ← if co.children.isEmpty then pure 0
            else (co.children.findIdx? (· == focus)).map (· + 1)
  let nodes3 := nodes2.set parent ⟨pnode.parent, .container { co with children := co.children.insertIdx pos node }⟩
  let tree2 ← s.trees.get tab
  let s2 := { s with nodes := nodes3,
                     trees := s.trees.set tab { tree2 with focus := node, nodes := memInsert tree2.nodes node } }
  pure (s2, node)

/-- `Tabs::insert`: the mutation phase, then `self.recalculate()`. -/
def insert (s : Tabs) (tab : TabId) (view : View) : Option (Tabs × ViewId) := do
  let r ← s.insertPre tab view
  let s3 ← r.1.recalculate
  pure (s3, r.2)

/-- `Tabs::split`, the mutation phase: everything before the final
`self.recalculate()`. -/
def splitPre (s : Tabs) (tab : TabId) (view : View) (layout : Layout) : Option (Tabs × ViewId) := do
  let tree ← s.trees.get tab
  let focus := tree.focus
  let fnode ← s.nodes.get focus
  let parent := fnode.parent
  let ins := s.nodes.insertNew ⟨0, .view view⟩
  let nodes1 := ins.1
  let node := ins.2
  let nodes2 ← setViewId nodes1 node
  let pnode ← nodes2.get parent
  let co ← pnode.content.asContainer
  let nodesAfter ←
    if co.layout = layout then do
      let pos ← if co.children.isEmpty then pure 0
                else (co.children.findIdx? (· == focus)).map (· + 1)
      let nodes3 := nodes2.set parent ⟨pnode.parent, .container { co with children := co.children.insertIdx pos node }⟩
      let nodes4 := nodes3.modify node (fun n => { n with parent := parent })
      pure nodes4
    else do
      let ins2 := nodes2.insertNew ⟨parent, .container (Container.cnew layout)⟩
      let nodes3 := ins2.1
      let splitId := ins2.2
      let nodes4 := nodes3.set splitId ⟨parent, .container ⟨layout, [focus, node], Rect.rdefault⟩⟩
      let nodes5 := nodes4.modify focus (fun n => { n with parent := splitId })
      let nodes6 := nodes5.modify node (fun n => { n with parent := splitId })
      let pnode2 ← nodes6.get parent
      let co2 ← pnode2.content.asContainer
      let pos ← co2.children.findIdx? (· == focus)
      pure (nodes6.set parent ⟨pnode2.parent, .container { co2 with children := co2.children.set pos splitId }⟩)
  let tree2 ← s.trees.get tab
  let s2 := { s with nodes := nodesAfter,
                     trees := s.trees.set tab { tree2 with focus := node, nodes := memInsert tree2.nodes node } }
  pure (s2, node)

/-- `Tabs::split`: the mutation phase, then `self.recalculate()`. -/
def split (s : Tabs) (tab : TabId) (view : View) (layout : Layout) : Option (Tabs × ViewId) := do
  let r ← s.splitPre tab view layout
  let s3 ← r.1.recalculate
  pure (s3, r.2)

/-! #### Traversal, prev/next -/

/-- The forward `Traverse` iterator run to completion: depth-first pre-order
over panes.  The accumulator is reversed at the end. -/
def traverseFwdGo : Nat → Tabs → List ViewId → List ViewId → Option (List ViewId)
  | _, _, acc, [] => some acc.reverse
  | 0, _, _, _ :: _ => none
  | fuel + 1, s, acc, key :: stk => do
    let n ← s.nodes.get key
    match n.content with
    | .view _ => traverseFwdGo fuel s (key :: acc) stk
    | .container co => traverseFwdGo fuel s acc (co.children ++ stk)

/-- The backward iterator (`DoubleEndedIterator::next_back`) run to
completion: children are pushed unreversed, so panes come out in mirrored
(reverse pre-order) order. -/
def traverseBwdGo : Nat → Tabs → List ViewId → List ViewId → Option (List ViewId)
  | _, _, acc, [] => some acc.reverse
  | 0, _, _, _ :: _ => none
  | fuel + 1, s, acc, key :: stk => do
    let n ← s.nodes.get key
    match n.content with
    | .view _ => traverseBwdGo fuel s (key :: acc) stk
    | .container co => traverseBwdGo fuel s acc (co.children.reverse ++ stk)

def traverseList (s : Tabs) (tab : TabId) : Option (List ViewId) := do
  let tree ← s.trees.get tab
  traverseFwdGo (s.nodes.entries.length + 1) s [] [tree.root]

def traverseRevList (s : Tabs) (tab : TabId) : Option (List ViewId) := do
  let tree ← s.trees.get tab
  traverseBwdGo (s.nodes.entries.length + 1) s [] [tree.root]

/-- `Tabs::prev`: previous pane in traversal order, wrapping to the last. -/
def prev (s : Tabs) (tab : TabId) : Option ViewId := do
  let tree ← s.trees.get tab
  let l ← s.traverseRevList tab
  match (l.dropWhile (· ≠ tree.focus)).drop 1 with
  | x :: _ => pure x
  | [] => l.head?

/-- `Tabs::next`: next pane in traversal order, wrapping to the first. -/
def next (s : Tabs) (tab : TabId) : Option ViewId := do
  let tree ← s.trees.get tab
  let l ← s.traverseList tab
  match (l.dropWhile (· ≠ tree.focus)).drop 1 with
  | x :: _ => pure x
  | [] => l.head?

/-- `Tabs::set_focused_view` (`get_tree_mut` panics on a missing tab). -/
def setFocusedView (s : Tabs) (tab : TabId) (v : ViewId) : Option Tabs := do
  let tree ← s.trees.get tab
  pure { s with trees := s.trees.set tab { tree with focus := v } }

/-! #### Remove -/

/-- The cascade loop of `Tabs::remove`.  Each iteration detaches `index`
from its parent container's child list, pushes the parent when it became an
empty non-root container, and removes `index` from the member set and the
arena.  Fuel bounds iterations; every iteration removes a live arena key. -/
def removeLoop : Nat → Tabs → TabId → List ViewId → Option Tabs
  | _, s, _, [] => some s
  | 0, _, _, _ :: _ => none
  | fuel + 1, s, tab, index :: stack => do
    let n ← s.nodes.get index
    let parentId := n.parent
    let pn ← s.nodes.get parentId
    let (s1, stack1) ←
      match pn.content with
      | .container co =>
        match co.children.findIdx? (· == index) with
        | some pos => do
          let co2 := { co with children := co.children.eraseIdx pos }
          let s2 := { s with nodes := s.nodes.set parentId ⟨pn.parent, .container co2⟩ }
          let tree ← s2.trees.get tab
          if co2.children.isEmpty ∧ parentId ≠ tree.root then
            pure (s2, parentId :: stack)
          else
            pure (s2, stack)
        | none => pure (s, stack)
      | .view _ => pure (s, stack)
    let tree1 ← s1.trees.get tab
    let s2 := { s1 with trees := s1.trees.set tab { tree1 with nodes := tree1.nodes.filter (· ≠ index) },
                        nodes := s1.nodes.erase index }
    removeLoop fuel s2 tab stack1

/-- `Tabs::remove`, the mutation phase: the focus move and the removal
cascade, before the final `self.recalculate()`.  Focus is moved to `prev`
only when the removed node is the focus of the tree *and* that tree is the
active tab (`self.focus == tree.id`). -/
def removePre (s : Tabs) (tab : TabId) (index : ViewId) : Option Tabs := do
  let tree ← s.trees.get tab
  let s1 ←
    if s.focus = tree.id ∧ tree.focus = index then do
      let prevView ← s.prev tab
      let tree2 ← s.trees.get tab
      pure { s with trees := s.trees.set tab { tree2 with focus := prevView } }
    else
      pure s
  removeLoop (s1.nodes.entries.length + 1) s1 tab [index]

/-- `Tabs::remove`: the mutation phase, then `self.recalculate()`. -/
def remove (s : Tabs) (tab : TabId) (index : ViewId) : Option Tabs := do
  let s2 ← s.removePre tab index
  s2.recalculate

/-! #### Resize -/

/-- `Tabs::resize_tab`. -/
def resizeTab (s : Tabs) (tab : TabId) (area : Rect) : Option (Tabs × Bool) := do
  let tree ← s.trees.get tab
  if tree.area ≠ area then do
    let s1 := { s with trees := s.trees.set tab { tree with area := area } }
    let s2 ← s1.recalcTab tab
    pure (s2, true)
  else
    pure (s, false)

def resizeGo : Tabs → Rect → Bool → List TabId → Option (Tabs × Bool)
  | s, _, acc, [] => some (s, acc)
  | s, area, acc, t :: rest => do
    let (s1, b) ← s.resizeTab t area
    resizeGo s1 area (acc || b) rest

/-- `Tabs::resize`: resize every tab, or-ing the per-tab results. -/
def resize (s : Tabs) (area : Rect) : Option (Tabs × Bool) :=
  resizeGo s area false s.trees.keys

/-! #### Directional search -/

/-- u16 value reinterpreted as i16 (`as i16` wraps silently). -/
def asI16 (n : Nat) : Int :=
  if n % 65536 < 32768 then (n % 65536 : Int) else (n % 65536 : Int) - 65536

/-- Checked i16 subtraction. -/
def i16Sub (a b : Int) : Option Int :=
  if -32768 ≤ a - b ∧ a - b ≤ 32767 then some (a - b) else none

/-- Checked i16 `abs` (panics on `i16::MIN`). -/
def i16Abs (a : Int) : Option Int :=
  if a = -32768 then none else some a.natAbs

def i16AbsDiff (a b : Nat) : Option Int := do
  i16Abs (← i16Sub (asI16 a) (asI16 b))

/-- `Iterator::min_by_key` on precomputed keys: first minimal element. -/
def minByKey : List (ViewId × Int) → Option (ViewId × Int)
  | [] => none
  | (v, k) :: rest =>
    match minByKey rest with
    | none => some (v, k)
    | some (v2, k2) => if k2 < k then some (v2, k2) else some (v, k)

/-- One x-coordinate (resp. y) of a node's stored rectangle. -/
def nodeLeft (n : Node) : Nat :=
  match n.content with
  | .view v => v.area.left
  | .container c => c.area.left

def nodeTop (n : Node) : Nat :=
  match n.content with
  | .view v => v.area.top
  | .container c => c.area.top

/-- The descent loop of `find_child`: while the candidate is a container,
pick the child minimising the i16 distance between the focused pane's
coordinate and the child's corresponding edge. -/
def descendGo (s : Tabs) (cx cy : Nat) : Nat → ViewId → Option (Option ViewId)
  | 0, _ => none
  | fuel + 1, childId => do
    let n ← s.nodes.get childId
    match n.content with
    | .view _ => pure (some childId)
    | .container co =>
      let keyed ← co.children.mapM (fun cid => do
        let cn ← s.nodes.get cid
        let coord := match co.layout with
          | .Vertical => nodeLeft cn
          | .Horizontal => nodeTop cn
        let cur := match co.layout with
          | .Vertical => cx
          | .Horizontal => cy
        let d ← i16AbsDiff cur coord
        pure (cid, d))
      match minByKey keyed with
      | none => pure none
      | some (c, _) => descendGo s cx cy fuel c

/-- `Tabs::find_child`.  The outer `Option` is panic; the inner one is the
"no such sibling" result. -/
def findChild (s : Tabs) (tab : TabId) (id : ViewId) (children : List ViewId) (dir : Direction) :
    Option (Option ViewId) := do
  match s.trees.get tab with
  | none => pure none
  | some tree =>
    let step : Option ViewId :=
      match dir with
      | .Up | .Left => ((children.reverse.dropWhile (· ≠ id)).drop 1).head?
      | .Down | .Right => ((children.dropWhile (· ≠ id)).drop 1).head?
    match step with
    | none => pure none
    | some childId0 => do
      let fn ← s.nodes.get tree.focus
      let fv ← fn.content.asView
      descendGo s fv.area.left fv.area.top (s.nodes.entries.length + 1) childId0

/-- The recursive ascent of `Tabs::find_split_in_direction`. -/
def findSplitGo (s : Tabs) (tab : TabId) (dir : Direction) : Nat → ViewId → Option (Option ViewId)
  | 0, _ => none
  | fuel + 1, id => do
    let n ← s.nodes.get id
    let parent := n.parent
    if parent = id then
      pure none
    else do
      let pn ← s.nodes.get parent
      let co ← pn.content.asContainer
      match dir, co.layout with
      | .Up, .Vertical | .Left, .Horizontal | .Right, .Horizontal | .Down, .Vertical =>
        findSplitGo s tab dir fuel parent
      | _, _ => do
        let r ← s.findChild tab id co.children dir
        match r with
        | some found => pure (some found)
        | none => findSplitGo s tab dir fuel parent

/-- `Tabs::find_split_in_direction`. -/
def findSplitInDirection (s : Tabs) (tab : TabId) (id : ViewId) (dir : Direction) :
    Option (Option ViewId) :=
  findSplitGo s tab dir (s.nodes.entries.length + 1) id

/-! #### Swap -/

/-- The body of `swap_split_in_direction` once the target is known.  The
`Bool` is `Some(())` vs `None` in Rust (`false` paths perform no mutation);
the outer `Option` is panic. -/
def swapWithTarget (s : Tabs) (focus target : ViewId) : Option (Tabs × Bool) := do
  let fn ← s.nodes.get focus
  let tn ← s.nodes.get target
  let focusParent := fn.parent
  let targetParent := tn.parent
  if focusParent = targetParent then
    let parent := focusParent
    match s.nodes.get parent with
    | none => pure (s, false)
    | some pn =>
      if parent = focus ∨ parent = target ∨ focus = target then pure (s, false)
      else do
        let pco ← pn.content.asContainer
        let fv ← fn.content.asView
        let tv ← tn.content.asView
        match pco.children.findIdx? (· == fv.id), pco.children.findIdx? (· == tv.id) with
        | some fpos, some tpos =>
          let children2 := (pco.children.set fpos tv.id).set tpos fv.id
          let nodes1 := s.nodes.set parent ⟨pn.parent, .container { pco with children := children2 }⟩
          let nodes2 := nodes1.set focus ⟨fn.parent, .view { fv with area := tv.area }⟩
          let nodes3 := nodes2.set target ⟨tn.parent, .view { tv with area := fv.area }⟩
          pure ({ s with nodes := nodes3 }, true)
        | _, _ => pure (s, false)
  else
    match s.nodes.get focusParent, s.nodes.get targetParent with
    | some fpn, some tpn =>
      if focusParent = targetParent ∨ focusParent = focus ∨ focusParent = target ∨
         targetParent = focus ∨ targetParent = target ∨ focus = target then pure (s, false)
      else do
        let fpc ← fpn.content.asContainer
        let tpc ← tpn.content.asContainer
        let fv ← fn.content.asView
        let tv ← tn.content.asView
        match fpc.children.findIdx? (· == fv.id), tpc.children.findIdx? (· == tv.id) with
        | some fpos, some tpos =>
          let fpc2 := { fpc with children := fpc.children.set fpos tv.id }
          let tpc2 := { tpc with children := tpc.children.set tpos fv.id }
          let nodes1 := s.nodes.set focusParent ⟨fpn.parent, .container fpc2⟩
          let nodes2 := nodes1.set targetParent ⟨tpn.parent, .container tpc2⟩
          let nodes3 := nodes2.set focus ⟨targetParent, .view { fv with area := tv.area }⟩
          let nodes4 := nodes3.set target ⟨focusParent, .view { tv with area := fv.area }⟩
          pure ({ s with nodes := nodes4 }, true)
        | _, _ => pure (s, false)
    | _, _ => pure (s, false)

/-- `Tabs::swap_split_in_direction`. -/
def swapSplitInDirection (s : Tabs) (tab : TabId) (dir : Direction) : Option (Tabs × Bool) := do
  let tree ← s.trees.get tab
  let focus := tree.focus
  let r ← s.findSplitInDirection tab focus dir
  match r with
  | none => pure (s, false)
  | some target => s.swapWithTarget focus target

end Tabs

/-! ### Spec-modelled operation: closing a workspace -/

/-- Modelled from the spec: `close_workspace(id)` — the excerpted source
(`tree.rs`) declares no tab-closing operation, so this follows §4.2 of the
spec verbatim: refused (`none`) when only one workspace remains; otherwise
every member node is removed from the arena, the tree is removed, and if
the closed tree was active, the previous workspace in iteration order is
re-activated, wrapping to the last when none precedes. -/
def Tabs.closeWorkspace (s : Tabs) (tab : TabId) : Option (Tabs × TabId) :=
  if s.trees.entries.length ≤ 1 then none
  else
    match s.trees.get tab with
    | none => none
    | some tree =>
      let nodes2 := tree.nodes.foldl (fun m v => m.erase v) s.nodes
      let trees2 := s.trees.erase tab
      let nextActive :=
        if s.focus = tab then
          match (s.trees.keys.takeWhile (· ≠ tab)).getLast? with
          | some k => k
          | none => ((s.trees.keys.filter (· ≠ tab)).getLast?).getD 0
        else s.focus
      some ({ trees := trees2, nodes := nodes2, focus := nextActive }, nextActive)

/-! ### Operation sequences (for the member-set invariant claim)

The spec's mutating interface on one workspace: `insert(workspace, pane)`,
`split(workspace, pane, axis)`, `remove(workspace, pane)`; per §4.2 the
`remove` argument is a pane of that workspace (acting on anything else is a
programmer error), so the sequence semantics guards it accordingly. -/

inductive Op where
  | ins (tab : TabId) (v : View)
  | spl (tab : TabId) (v : View) (l : Layout)
  | rem (tab : TabId) (v : ViewId)

def isPaneAt (s : Tabs) (v : ViewId) : Bool :=
  match s.nodes.get v with
  | some n => match n.content with
    | .view _ => true
    | .container _ => false
  | none => false

def applyOp (s : Tabs) : Op → Option Tabs
  | .ins tab v => (s.insert tab v).map (·.1)
  | .spl tab v l => (s.split tab v l).map (·.1)
  | .rem tab v =>
    match s.trees.get tab with
    | some tree => if v ∈ tree.nodes ∧ isPaneAt s v then s.remove tab v else none
    | none => none

def runSeq (s : Tabs) : List Op → Option Tabs
  | [] => some s
  | op :: ops => (applyOp s op).bind (fun s2 => runSeq s2 ops)

/-! ### Reachability (the spec's "reachable from root via children") -/

/-- Node ids reachable from `root` by following container children lists. -/
inductive Reach (a : SMap Node) (root : ViewId) : ViewId → Prop where
  | root : Reach a root root
  | child {c ch : ViewId} {n : Node} {co : Container} :
      Reach a root c → a.get c = some n → n.content = .container co →
      ch ∈ co.children → Reach a root ch

/-! ### Shape witnesses -/

mutual
inductive RTree where
  | pane (id : ViewId)
  | cont (id : ViewId) (cs : RForest)
inductive RForest where
  | nil
  | cons (t : RTree) (ts : RForest)
end

def RTree.rootId : RTree → ViewId
  | .pane i => i
  | .cont i _ => i

def RForest.rootIds : RForest → List ViewId
  | .nil => []
  | .cons t ts => t.rootId :: ts.rootIds

mutual
def RTree.ids : RTree → List ViewId
  | .pane i => [i]
  | .cont i cs => i :: cs.idsF
def RForest.idsF : RForest → List ViewId
  | .nil => []
  | .cons t ts => t.ids ++ ts.idsF
end

mutual
def RTree.panes : RTree → List ViewId
  | .pane i => [i]
  | .cont _ cs => cs.panesF
def RForest.panesF : RForest → List ViewId
  | .nil => []
  | .cons t ts => t.panes ++ ts.panesF
end

mutual
def RTree.rsize : RTree → Nat
  | .pane _ => 1
  | .cont _ cs => 1 + cs.rsizeF
def RForest.rsizeF : RForest → Nat
  | .nil => 0
  | .cons t ts => t.rsize + ts.rsizeF
end

def RForest.toList : RForest → List RTree
  | .nil => []
  | .cons t ts => t :: ts.toList

mutual
/-- Does the arena realise shape `t`, with `parent` the expected stored
parent pointer of its root (the tree root is its own parent)?  Pane nodes
must also carry their own key in the view's identity field, which every
creation path (`insert`/`split`) establishes. -/
def shapeOk (a : SMap Node) (parent : ViewId) : RTree → Bool
  | .pane i =>
    match a.get i with
    | some n =>
      match n.content with
      | .view v => decide (n.parent = parent) && decide (v.id = i)
      | .container _ => false
    | none => false
  | .cont i cs =>
    match a.get i with
    | some n =>
      match n.content with
      | .container co =>
        decide (n.parent = parent) && decide (co.children = cs.rootIds) && shapeOkF a i cs
      | .view _ => false
    | none => false
def shapeOkF (a : SMap Node) (parent : ViewId) : RForest → Bool
  | .nil => true
  | .cons t ts => shapeOk a parent t && shapeOkF a parent ts
end

/-- Structural skeleton of a node: everything except the rectangles. -/
def Node.skel : Node → ViewId × (ViewId × Nat) ⊕ ViewId × Layout × List ViewId
  | ⟨p, .view v⟩ => .inl (p, v.id, v.doc)
  | ⟨p, .container c⟩ => .inr (p, c.layout, c.children)

mutual
/-- The part of `shapeOk` the traversal and layout machines depend on:
node constructors and children lists only (no parent pointers, no view
identity fields). -/
def structOk (a : SMap Node) : RTree → Bool
  | .pane i =>
    match a.get i with
    | some n =>
      match n.content with
      | .view _ => true
      | .container _ => false
    | none => false
  | .cont i cs =>
    match a.get i with
    | some n =>
      match n.content with
      | .container co => decide (co.children = cs.rootIds) && structOkF a cs
      | .view _ => false
    | none => false
def structOkF (a : SMap Node) : RForest → Bool
  | .nil => true
  | .cons t ts => structOk a t && structOkF a ts
end

/-! Forest-of-subtrees bookkeeping for the iterative machines. -/

def rootsOfL (l : List RTree) : List ViewId := l.map RTree.rootId

def panesOfL : List RTree → List ViewId
  | [] => []
  | t :: ts => t.panes ++ panesOfL ts

/-- Panes emitted by the backward (mirrored) traversal of a stack. -/
def mirrorOfL : List RTree → List ViewId
  | [] => []
  | t :: ts => t.panes.reverse ++ mirrorOfL ts

def sizeOfL : List RTree → Nat
  | [] => 0
  | t :: ts => t.rsize + sizeOfL ts

def flatIdsL : List (RTree × Rect) → List ViewId
  | [] => []
  | p :: fs => p.1.ids ++ flatIdsL fs

def sizeSumL : List (RTree × Rect) → Nat
  | [] => 0
  | p :: fs => p.1.rsize + sizeSumL fs

def stackOfL (fs : List (RTree × Rect)) : List (ViewId × Rect) :=
  fs.map (fun p => (p.1.rootId, p.2))

def zipF : RForest → List Rect → List (RTree × Rect)
  | .nil, _ => []
  | .cons _ _, [] => []
  | .cons t ts, r :: rs => (t, r) :: zipF ts rs

/-- Is the shape witness an empty root container (an empty workspace)? -/
def rootEmpty : RTree → Bool
  | .cont _ .nil => true
  | _ => false

/-- The next element after the first occurrence of `f`, wrapping to the
head — the list semantics of `Tabs::next` (and, on the reversed list, of
`Tabs::prev`). -/
def wnext (l : List ViewId) (f : ViewId) : Option ViewId :=
  match (l.dropWhile (· ≠ f)).drop 1 with
  | x :: _ => some x
  | [] => l.head?

/-! ### Layout-result predicates -/

/-- The stored rectangle of a node (pane or container). -/
def childAreaOf (a : SMap Node) (i : ViewId) : Option Rect := do
  let n ← a.get i
  match n.content with
  | .view v => pure v.area
  | .container c => pure c.area

/-- Child rectangles tile a Horizontal container: starting at `y`, each
child spans the full width at the running y, and the final y lands exactly
on the container's bottom edge (no gap, no overlap). -/
def tilesH (carea : Rect) : Nat → List Rect → Prop
  | y, [] => y = carea.y + carea.height
  | y, r :: rest => r.x = carea.x ∧ r.width = carea.width ∧ r.y = y ∧ tilesH carea (y + r.height) rest

/-- Child rectangles tile a Vertical container: each child spans the full
height, consecutive children are separated by exactly a 1-cell gap, and the
last child's right edge is exactly the container's right edge. -/
def tilesV (carea : Rect) : Nat → List Rect → Prop
  | _, [] => False
  | x, [r] => r.y = carea.y ∧ r.height = carea.height ∧ r.x = x ∧ x + r.width = carea.x + carea.width
  | x, r :: rest => r.y = carea.y ∧ r.height = carea.height ∧ r.x = x ∧ tilesV carea (x + r.width + 1) rest

def tiles (l : Layout) (carea : Rect) (rects : List Rect) : Prop :=
  match l with
  | .Horizontal => tilesH carea carea.y rects
  | .Vertical => tilesV carea carea.x rects

mutual
/-- After a layout pass, subtree `t` carries exactly the rectangles derived
from seeding its root with `r` and subdividing recursively. -/
def Assigned (a : SMap Node) : RTree → Rect → Prop
  | .pane i, r => ∃ n v, a.get i = some n ∧ n.content = .view v ∧ v.area = r
  | .cont i cs, r => ∃ n co rects, a.get i = some n ∧ n.content = .container co ∧ co.area = r ∧
      Tabs.subdivRects co.layout r cs.rootIds.length = some rects ∧ AssignedF a cs rects
def AssignedF (a : SMap Node) : RForest → List Rect → Prop
  | .nil, rs => rs = []
  | .cons t ts, rs => ∃ r rs2, rs = r :: rs2 ∧ Assigned a t r ∧ AssignedF a ts rs2
end

/-! ### Well-formedness -/

/-- Well-formedness of one tree against the arena, with shape witness
`rt`.  The member set registers the root and exactly the panes (split
containers are created without registration — see the C1 analysis). -/
structure TreeWF (a : SMap Node) (tree : Tree) (rt : RTree) : Prop where
  is_cont : ∃ cs, rt = .cont tree.root cs
  shape : shapeOk a tree.root rt = true
  nodup : rt.ids.Nodup
  members : ∀ v, v ∈ tree.nodes ↔ (v = tree.root ∨ v ∈ rt.panes)
  members_nodup : tree.nodes.Nodup
  stack_empty : tree.stack = []

/-- Global well-formedness, with one shape witness per tab. -/
structure InvW (s : Tabs) (w : TabId → RTree) : Prop where
  nodes_nodup : s.nodes.keys.Nodup
  nodes_lt : ∀ k ∈ s.nodes.keys, k < s.nodes.nextKey
  trees_nodup : s.trees.keys.Nodup
  trees_lt : ∀ k ∈ s.trees.keys, k < s.trees.nextKey
  tree_id : ∀ k t, s.trees.get k = some t → t.id = k
  wf : ∀ k t, s.trees.get k = some t → TreeWF s.nodes t (w k)
  disj : ∀ k1 k2 t1 t2, s.trees.get k1 = some t1 → s.trees.get k2 = some t2 → k1 ≠ k2 →
    ∀ v, v ∈ (w k1).ids → v ∉ (w k2).ids
  focus_lt : ∀ k t, s.trees.get k = some t → t.focus < s.nodes.nextKey
  focus_mem : ∀ k t, s.trees.get k = some t → s.nodes.containsKey t.focus = true →
    t.focus ∈ (w k).ids

def Inv (s : Tabs) : Prop := ∃ w, InvW s w

/-! ### Hypothesis package for the swap round-trip claim -/

/-- First-occurrence discipline needed for `swap_split_in_direction` to be
self-inverse: within a shared parent the two identity fields occur at most
once in the child list; across two parents neither identity occurs in the
other parent's child list.  Both hold in every well-formed tree. -/
def swapBackCond (s : Tabs) (tab : TabId) (target : ViewId) : Bool :=
  match s.trees.get tab with
  | none => false
  | some tree =>
    match s.nodes.get tree.focus, s.nodes.get target with
    | some fn, some tn =>
      match fn.content, tn.content with
      | .view fv, .view tv =>
        if fn.parent = tn.parent then
          match s.nodes.get fn.parent with
          | some pn =>
            match pn.content with
            | .container co => decide (co.children.count fv.id ≤ 1) && decide (co.children.count tv.id ≤ 1)
            | .view _ => true
          | none => true
        else
          match s.nodes.get fn.parent, s.nodes.get tn.parent with
          | some fpn, some tpn =>
            match fpn.content, tpn.content with
            | .container fpc, .container tpc =>
              decide (fv.id ∉ tpc.children) && decide (tv.id ∉ fpc.children)
            | _, _ => true
          | _, _ => true
      | _, _ => true
    | _, _ => true

/-! ### Witness surgery for the removal cascade -/

/-- Is `t` precisely the removable leaf node `i`: a pane or a container
with no children? -/
def isLeafR : RTree → ViewId → Bool
  | .pane x, i => decide (x = i)
  | .cont x .nil, i => decide (x = i)
  | .cont _ (.cons _ _), _ => false

mutual
/-- Does the forest contain the removable leaf `i` (at any depth)? -/
def isLeafF : RForest → ViewId → Bool
  | .nil, _ => false
  | .cons t ts, i => isLeafR t i || isLeafT t i || isLeafF ts i
/-- Does the tree contain the removable leaf `i` strictly inside? -/
def isLeafT : RTree → ViewId → Bool
  | .pane _, _ => false
  | .cont _ cs, i => isLeafF cs i
end

mutual
/-- Drop the element whose root id is `x` from the forest, searching
recursively. -/
def dropNodeF : RForest → ViewId → RForest
  | .nil, _ => .nil
  | .cons t ts, x =>
    if t.rootId = x then ts
    else .cons (dropNodeT t x) (dropNodeF ts x)
def dropNodeT : RTree → ViewId → RTree
  | .pane j, _ => .pane j
  | .cont j cs, x => .cont j (dropNodeF cs x)
end

/-! ### Decidable per-tab shape packages (for whole-set layout passes) -/

/-- Decidable per-tab package: the witness is a container rooted at the
tree's root, realised in the arena, duplicate-free, with an empty work
stack. -/
def tabShapeB (a : SMap Node) (tree : Tree) (rt : RTree) : Bool :=
  (match rt with
   | .cont i _ => decide (i = tree.root)
   | .pane _ => false) &&
  shapeOk a tree.root rt && decide rt.ids.Nodup && decide (tree.stack = [])

/-- Pairwise id-disjointness of the per-tab shape witnesses along a tab
list (checked in both directions). -/
def disjB (w : TabId → RTree) : List TabId → Bool
  | [] => true
  | j :: rest =>
    rest.all (fun j2 =>
      (w j).ids.all (fun v => decide (v ∉ (w j2).ids)) &&
      (w j2).ids.all (fun v => decide (v ∉ (w j).ids))) &&
    disjB w rest

/-- Every tab of the set exists and satisfies its per-tab package, and the
per-tab id sets are pairwise disjoint. -/
def allTabsShapeB (s : Tabs) (w : TabId → RTree) : Bool :=
  (s.trees.keys.all (fun j =>
    match s.trees.get j with
    | none => false
    | some trj => tabShapeB s.nodes trj (w j))) &&
  disjB w s.trees.keys

/-! ### Concrete states used by witnesses and counterexamples -/

def Tree.tdefault : Tree := ⟨0, 0, 0, Rect.rdefault, [], []⟩

def demoRect : Rect := ⟨0, 0, 180, 80⟩

/-- The §8 scenario: empty 180×80 workspace; insert A; split B vertically;
refocus A; split C horizontally; refocus A; split D vertically.
Ids: root=1, A=2, B=3, C=4, split containers 5 and 7, D=6. -/
def scenarioStateO : Option Tabs := do
  let s0 := Tabs.new demoRect
  let (s1, _) ← s0.insert 1 ⟨0, 10, Rect.rdefault⟩
  let (s2, _) ← s1.split 1 ⟨0, 20, Rect.rdefault⟩ .Vertical
  let s3 ← s2.setFocusedView 1 2
  let (s4, _) ← s3.split 1 ⟨0, 30, Rect.rdefault⟩ .Horizontal
  let s5 ← s4.setFocusedView 1 2
  let (s6, _) ← s5.split 1 ⟨0, 40, Rect.rdefault⟩ .Vertical
  pure s6

def scenarioState : Tabs := scenarioStateO.getD (Tabs.new demoRect)

/-- Shape witness for `scenarioState`'s single tree (children forest and
full tree). -/
def scenCS : RForest :=
  .cons (.cont 5 (.cons (.cont 7 (.cons (.pane 2) (.cons (.pane 6) .nil)))
    (.cons (.pane 4) .nil))) (.cons (.pane 3) .nil)

def scenRT : RTree := .cont 1 scenCS

def c2After : Tabs := (scenarioState.recalcTab 1).getD scenarioState

def c2Node5 : Node := (c2After.nodes.get 5).getD ⟨0, .view ⟨0, 0, Rect.rdefault⟩⟩

def c2Co5 : Container := (c2Node5.content.asContainer).getD (Container.cnew .Vertical)

/-- Insert A then split horizontally: the axis change creates container 4,
which is reachable from the root but never registered as a member. -/
def c1SeqState : Tabs :=
  (runSeq (Tabs.new demoRect)
    [.ins 1 ⟨0, 10, Rect.rdefault⟩, .spl 1 ⟨0, 20, Rect.rdefault⟩ .Horizontal]).getD
    (Tabs.new demoRect)

/-- Two tabs; tab 1 (inactive) holds panes 2 and 3 with focus 3. -/
def c5StateO : Option Tabs := do
  let s0 := Tabs.new demoRect
  let (s1, _) ← s0.insert 1 ⟨0, 10, Rect.rdefault⟩
  let (s2, _) ← s1.insert 1 ⟨0, 20, Rect.rdefault⟩
  let (s3, _) ← s2.newTab
  pure s3

def c5State : Tabs := c5StateO.getD (Tabs.new demoRect)

def c5After : Tabs := (c5State.remove 1 3).getD c5State

/-- A single tab with two panes (2, 3), focus on 3, active - for the
amended remove claim and the next/prev round trip. -/
def twoPaneStateO : Option Tabs := do
  let s0 := Tabs.new demoRect
  let (s1, _) ← s0.insert 1 ⟨0, 10, Rect.rdefault⟩
  let (s2, _) ← s1.insert 1 ⟨0, 20, Rect.rdefault⟩
  pure s2

def twoPaneState : Tabs := twoPaneStateO.getD (Tabs.new demoRect)

def twoPaneRT : RTree := .cont 1 (.cons (.pane 2) (.cons (.pane 3) .nil))

/-- The workspace record of `twoPaneState`. -/
def c5Tr : Tree :=
  Tree.mk 1 1 3 (Rect.mk 0 0 180 80) [1, 2, 3] []

/-- The state after removing pane 3 from `twoPaneState`. -/
def c5Out : Tabs :=
  Tabs.mk
    (SMap.mk 2 [(1, Tree.mk 1 1 2 (Rect.mk 0 0 180 80) [1, 2] [])])
    (SMap.mk 4
      [(1, Node.mk 1 (.container (Container.mk .Vertical [2] (Rect.mk 0 0 180 80)))),
       (2, Node.mk 1 (.view (View.mk 2 10 (Rect.mk 0 0 180 80))))])
    1

/-- A workspace whose root is gone from the arena. -/
def c9State : Tabs :=
  { Tabs.new demoRect with nodes := (Tabs.new demoRect).nodes.erase 1 }

/-- Two workspaces (1 and 2), tab 2 active. -/
def c6StateO : Option Tabs := (Tabs.new demoRect).newTab.map (·.1)

def c6State : Tabs := c6StateO.getD (Tabs.new demoRect)

/-- Workspace for the swap round trip: root 1 (Vertical, children 2 and 5),
container 2 holds the focused pane 3 and pane 4; container 5 references
pane 4 as well, so that a second rightward search from pane 3's new
position descends back onto pane 4 - the one situation in which the same
target is located twice in a row. -/
def swapDemo : Tabs :=
  { trees := ⟨2, [(1, { id := 1, root := 1, focus := 3, area := ⟨0, 0, 80, 40⟩,
                        nodes := [1, 3, 4], stack := [] })]⟩,
    nodes := ⟨6, [
      (1, ⟨1, .container ⟨.Vertical, [2, 5], ⟨0, 0, 80, 40⟩⟩⟩),
      (2, ⟨1, .container ⟨.Vertical, [3, 4], ⟨0, 0, 40, 40⟩⟩⟩),
      (3, ⟨2, .view ⟨3, 100, ⟨0, 0, 20, 40⟩⟩⟩),
      (4, ⟨2, .view ⟨4, 200, ⟨21, 0, 19, 40⟩⟩⟩),
      (5, ⟨1, .container ⟨.Vertical, [4], ⟨41, 0, 39, 40⟩⟩⟩)]⟩,
    focus := 1 }

def swapDemo2 : Tabs := ((swapDemo.swapSplitInDirection 1 .Right).getD (swapDemo, false)).1

/-! ### Witness surgery for insert and split -/

/-- Mirror of `List.insertIdx` on forests (out-of-range inserts nothing,
matching `List.insertIdx`). -/
def insertIdxF : Nat → RTree → RForest → RForest
  | 0, t, cs => .cons t cs
  | _ + 1, _, .nil => .nil
  | n + 1, t, .cons u us => .cons u (insertIdxF n t us)

mutual
/-- Insert the pane `x` at index `pos` of the child forest of container
`p` (insert, and the matching-axis branch of split). -/
def addChildT (p : ViewId) (pos : Nat) (x : ViewId) : RTree → RTree
  | .pane i => .pane i
  | .cont i cs =>
    if i = p then .cont i (insertIdxF pos (.pane x) cs)
    else .cont i (addChildF p pos x cs)
def addChildF (p : ViewId) (pos : Nat) (x : ViewId) : RForest → RForest
  | .nil => .nil
  | .cons t ts => .cons (addChildT p pos x t) (addChildF p pos x ts)
end

mutual
/-- Wrap the subtree rooted at `f` in a new container `sid` whose second
child is the new pane `x` (the axis-changing branch of split). -/
def wrapT (f sid x : ViewId) : RTree → RTree
  | .pane i =>
    if i = f then .cont sid (.cons (.pane i) (.cons (.pane x) .nil)) else .pane i
  | .cont i cs =>
    if i = f then .cont sid (.cons (.cont i cs) (.cons (.pane x) .nil))
    else .cont i (wrapF f sid x cs)
def wrapF (f sid x : ViewId) : RForest → RForest
  | .nil => .nil
  | .cons t ts => .cons (wrapT f sid x t) (wrapF f sid x ts)
end

/-! ## Theorems -/

/-- C3: in the 180×80 scenario (insert A=2, split B=3 vertically, refocus
A, split C=4 horizontally, refocus A, split D=6 vertically),
`find_split_in_direction(D, Right)` reaches B and
`find_split_in_direction(D, Up)` is `None`; and in general, whenever the
recursive ascent reaches a node that is its own parent (the root), the
search returns `None`. -/
theorem c3_scenario_and_root_base :
    scenarioStateO = some scenarioState ∧
    scenarioState.findSplitInDirection 1 6 .Right = some (some 3) ∧
    scenarioState.findSplitInDirection 1 6 .Up = some none ∧
    (∀ (s : Tabs) (tab : TabId) (id : ViewId) (dir : Direction) (n : Node),
      s.nodes.get id = some n → n.parent = id →
      s.findSplitInDirection tab id dir = some none) := by
  refine ⟨by decide, by decide, by decide, ?_⟩
  intro s tab id dir n hget hpar
  unfold Tabs.findSplitInDirection Tabs.findSplitGo
  simp [hget, hpar, Option.bind]

/-- C3 witness: the root-base-case clause applied at the scenario's root. -/
theorem c3_witness :
    scenarioState.findSplitInDirection 1 1 .Left = some none :=
  c3_scenario_and_root_base.2.2.2 scenarioState 1 1 .Left
    ((scenarioState.nodes.get 1).getD ⟨1, .container (Container.cnew .Vertical)⟩)
    (by decide) (by decide)

/-- C9 counterexample: a workspace whose root id is absent from the arena
makes the emptiness check fail (`none`, the model of the indexing panic in
`tab_is_empty`) instead of reporting the workspace empty. -/
theorem c9_missing_root_panics :
    (c9State.trees.get 1).isSome = true ∧
    ((c9State.trees.get 1).getD Tree.tdefault).root = 1 ∧
    c9State.nodes.get 1 = none ∧
    c9State.tabIsEmpty 1 = none := by
  exact ⟨by decide, by decide, by decide, by decide⟩

/-- C9 amended: when the workspace's root node id is absent from the node
arena, the emptiness check fails (the arena indexing panics) rather than
reporting the workspace empty. -/
theorem c9_missing_root_fails (s : Tabs) (tab : TabId) (tree : Tree)
    (htree : s.trees.get tab = some tree) (hroot : s.nodes.get tree.root = none) :
    s.tabIsEmpty tab = none := by
  unfold Tabs.tabIsEmpty
  simp [htree, hroot, Option.bind]

/-- C9 witness. -/
theorem c9_witness : c9State.tabIsEmpty 1 = none :=
  c9_missing_root_fails c9State 1 ((c9State.trees.get 1).getD Tree.tdefault)
    (by decide) (by decide)

/-- C5 counterexample: in `c5State`, tab 1 is not the active tab, its focus
is pane 3, and the previous pane in traversal order is 2; removing pane 3
succeeds and deletes it from the arena, yet the tree's focus is left at the
(now dangling) id 3 instead of being moved to the previous pane - `remove`
moves focus only when `self.focus == tree.id`. -/
theorem c5_inactive_tab_focus_not_moved :
    ((c5State.trees.get 1).getD Tree.tdefault).focus = 3 ∧
    c5State.focus = 2 ∧
    c5State.prev 1 = some 2 ∧
    c5State.remove 1 3 = some c5After ∧
    ((c5After.trees.get 1).getD Tree.tdefault).focus = 3 ∧
    c5After.nodes.get 3 = none := by
  exact ⟨by decide, by decide, by decide, by decide, by decide, by decide⟩

/-- C1 counterexample: after `insert A; split(A, Horizontal)` the split
container (id 4) is reachable from the root by following children lists,
but is not registered in the tree's member set. -/
theorem c1_split_container_unregistered :
    ((c1SeqState.trees.get 1).getD Tree.tdefault).root = 1 ∧
    Reach c1SeqState.nodes 1 4 ∧
    4 ∉ ((c1SeqState.trees.get 1).getD Tree.tdefault).nodes := by
  refine ⟨by decide, ?_, by decide⟩
  exact Reach.child Reach.root rfl rfl (by decide)

/-! ### Arena lemmas -/

theorem lookupL_some_mem {α : Type} {es : List (Nat × α)} {k : Nat} {v : α}
    (h : lookupL es k = some v) : (k, v) ∈ es := by
  induction es with
  | nil => simp [lookupL] at h
  | cons e es ih =>
    obtain ⟨k1, v1⟩ := e
    by_cases he : k1 = k
    · subst he
      simp [lookupL] at h
      subst h
      exact List.mem_cons_self _ _
    · simp [lookupL, he] at h
      exact List.mem_cons_of_mem _ (ih h)

theorem lookupL_eq_none_iff {α : Type} (es : List (Nat × α)) (k : Nat) :
    lookupL es k = none ↔ k ∉ es.map Prod.fst := by
  induction es with
  | nil => simp [lookupL]
  | cons e es ih =>
    by_cases he : e.1 = k
    · simp [lookupL, he]
    · simp [lookupL, he, ih]
      intro h
      exact fun hh => he hh.symm

theorem lookupL_isSome_iff {α : Type} (es : List (Nat × α)) (k : Nat) :
    (lookupL es k).isSome = true ↔ k ∈ es.map Prod.fst := by
  induction es with
  | nil => simp [lookupL]
  | cons e es ih =>
    by_cases he : e.1 = k
    · simp [lookupL, he]
    · rw [lookupL, if_neg he, ih, List.map_cons, List.mem_cons]
      constructor
      · exact Or.inr
      · rintro (h | h)
        · exact absurd h.symm he
        · exact h

theorem lookupL_append_left {α : Type} {l1 : List (Nat × α)} (l2 : List (Nat × α)) {k : Nat} {v : α}
    (h : lookupL l1 k = some v) : lookupL (l1 ++ l2) k = some v := by
  induction l1 with
  | nil => simp [lookupL] at h
  | cons e es ih =>
    by_cases he : e.1 = k <;> simp_all [lookupL, he]

theorem lookupL_append_right {α : Type} {l1 : List (Nat × α)} (l2 : List (Nat × α)) {k : Nat}
    (h : lookupL l1 k = none) : lookupL (l1 ++ l2) k = lookupL l2 k := by
  induction l1 with
  | nil => simp [lookupL]
  | cons e es ih =>
    by_cases he : e.1 = k <;> simp_all [lookupL, he]

theorem lookupL_setL {α : Type} (es : List (Nat × α)) (k : Nat) (a : α) (j : Nat) :
    lookupL (setL es k a) j =
      if j = k then Option.map (fun _ => a) (lookupL es k) else lookupL es j := by
  induction es with
  | nil => simp [lookupL, setL, ite_self]
  | cons e es ih =>
    obtain ⟨k1, v1⟩ := e
    simp only [setL]
    by_cases he : k1 = k
    · subst he
      by_cases hj : j = k1
      · subst hj
        simp [lookupL, ih]
      · have hk1j : ¬ k1 = j := fun hh => hj hh.symm
        simp [lookupL, hj, hk1j, ih]
    · by_cases hj : j = k
      · subst hj
        have hk1j : ¬ k1 = j := he
        simp [lookupL, hk1j, ih]
      · by_cases hej : k1 = j
        · subst hej
          simp [lookupL, ih, hj]
        · simp [lookupL, he, hej, hj, ih]

theorem lookupL_eraseL {α : Type} (es : List (Nat × α)) (k : Nat) (j : Nat) :
    lookupL (eraseL es k) j = if j = k then none else lookupL es j := by
  induction es with
  | nil => simp [lookupL, eraseL, ite_self]
  | cons e es ih =>
    obtain ⟨k1, v1⟩ := e
    simp only [eraseL]
    by_cases he : k1 = k
    · subst he
      by_cases hj : j = k1
      · subst hj
        simp [lookupL, ih]
      · have hk1j : ¬ k1 = j := fun hh => hj hh.symm
        simp [lookupL, hj, hk1j, ih]
    · by_cases hj : j = k
      · subst hj
        have hk1j : ¬ k1 = j := he
        simp [lookupL, hk1j, ih]
      · by_cases hej : k1 = j
        · subst hej
          simp [lookupL, ih, hj]
        · simp [lookupL, he, hej, hj, ih]

theorem map_fst_setL {α : Type} (es : List (Nat × α)) (k : Nat) (a : α) :
    (setL es k a).map Prod.fst = es.map Prod.fst := by
  induction es with
  | nil => simp [setL]
  | cons e es ih => by_cases he : e.1 = k <;> simp [setL, he, ih]

theorem map_fst_eraseL {α : Type} (es : List (Nat × α)) (k : Nat) :
    (eraseL es k).map Prod.fst = (es.map Prod.fst).filter (· ≠ k) := by
  induction es with
  | nil => simp [eraseL]
  | cons e es ih =>
    by_cases he : e.1 = k <;> simp [eraseL, he, ih, List.filter_cons]

namespace SMap

theorem get_set {α : Type} (m : SMap α) (k : Nat) (a : α) (j : Nat) :
    (m.set k a).get j = if j = k then Option.map (fun _ => a) (m.get k) else m.get j :=
  lookupL_setL m.entries k a j

theorem get_set_self {α : Type} {m : SMap α} {k : Nat} {v : α} (a : α) (h : m.get k = some v) :
    (m.set k a).get k = some a := by
  simp [get_set, h]

theorem get_set_ne {α : Type} (m : SMap α) (k : Nat) (a : α) {j : Nat} (h : j ≠ k) :
    (m.set k a).get j = m.get j := by
  simp [get_set, h]

theorem get_erase {α : Type} (m : SMap α) (k : Nat) (j : Nat) :
    (m.erase k).get j = if j = k then none else m.get j :=
  lookupL_eraseL m.entries k j

theorem get_insertNew_ne {α : Type} (m : SMap α) (a : α) {j : Nat} (h : j ≠ m.nextKey) :
    (m.insertNew a).1.get j = m.get j := by
  show lookupL (m.entries ++ [(m.nextKey, a)]) j = lookupL m.entries j
  cases hg : lookupL m.entries j with
  | some v => exact lookupL_append_left _ hg
  | none =>
    rw [lookupL_append_right _ hg, lookupL]
    have : ¬ m.nextKey = j := fun hh => h hh.symm
    simp [lookupL, this]

theorem get_insertNew_self {α : Type} (m : SMap α) (a : α) (h : m.get m.nextKey = none) :
    (m.insertNew a).1.get m.nextKey = some a := by
  show lookupL (m.entries ++ [(m.nextKey, a)]) m.nextKey = some a
  rw [lookupL_append_right _ h, lookupL]
  simp

theorem keys_set {α : Type} (m : SMap α) (k : Nat) (a : α) :
    (m.set k a).keys = m.keys :=
  map_fst_setL m.entries k a

theorem keys_erase {α : Type} (m : SMap α) (k : Nat) :
    (m.erase k).keys = m.keys.filter (· ≠ k) :=
  map_fst_eraseL m.entries k

theorem keys_insertNew {α : Type} (m : SMap α) (a : α) :
    (m.insertNew a).1.keys = m.keys ++ [m.nextKey] := by
  simp [keys, insertNew]

theorem containsKey_iff {α : Type} (m : SMap α) (k : Nat) :
    m.containsKey k = true ↔ k ∈ m.keys :=
  lookupL_isSome_iff m.entries k

theorem get_some_mem_keys {α : Type} {m : SMap α} {k : Nat} {v : α} (h : m.get k = some v) :
    k ∈ m.keys := by
  rw [← containsKey_iff]
  simp [containsKey, h]

theorem get_none_of_not_mem_keys {α : Type} {m : SMap α} {k : Nat} (h : k ∉ m.keys) :
    m.get k = none :=
  (lookupL_eq_none_iff m.entries k).mpr h

theorem nextKey_set {α : Type} (m : SMap α) (k : Nat) (a : α) : (m.set k a).nextKey = m.nextKey := rfl

theorem nextKey_erase {α : Type} (m : SMap α) (k : Nat) : (m.erase k).nextKey = m.nextKey := rfl

theorem nextKey_insertNew {α : Type} (m : SMap α) (a : α) :
    (m.insertNew a).1.nextKey = m.nextKey + 1 := rfl

theorem modify_eq {α : Type} (m : SMap α) (k : Nat) (f : α → α) {v : α} (h : m.get k = some v) :
    m.modify k f = m.set k (f v) := by
  simp [modify, h]

end SMap

/-! ### Skeleton and shape lemmas -/

theorem skel_eq_cases {n n2 : Node} (h : n2.skel = n.skel) :
    (∃ p i d r r2, n = ⟨p, .view ⟨i, d, r⟩⟩ ∧ n2 = ⟨p, .view ⟨i, d, r2⟩⟩) ∨
    (∃ p l ch ar ar2, n = ⟨p, .container ⟨l, ch, ar⟩⟩ ∧ n2 = ⟨p, .container ⟨l, ch, ar2⟩⟩) := by
  obtain ⟨pn, cn⟩ := n
  obtain ⟨p2, c2⟩ := n2
  cases cn with
  | view v =>
    obtain ⟨vi, vd, vr⟩ := v
    cases c2 with
    | view v2 =>
      obtain ⟨wi, wd, wr⟩ := v2
      simp [Node.skel] at h
      exact Or.inl ⟨pn, vi, vd, vr, wr, by simp [h.1, h.2.1, h.2.2]⟩
    | container c2 => simp [Node.skel] at h
  | container c =>
    obtain ⟨cl, cch, car⟩ := c
    cases c2 with
    | view v2 => simp [Node.skel] at h
    | container c2 =>
      obtain ⟨dl, dch, dar⟩ := c2
      simp [Node.skel] at h
      exact Or.inr ⟨pn, cl, cch, car, dar, by simp [h.1, h.2.1, h.2.2]⟩

theorem skelmap_none {a a2 : SMap Node}
    (h : ∀ i, (a2.get i).map Node.skel = (a.get i).map Node.skel) {i : ViewId}
    (hg : a.get i = none) : a2.get i = none := by
  have := h i
  rw [hg] at this
  simpa using this

theorem skelmap_some {a a2 : SMap Node}
    (h : ∀ i, (a2.get i).map Node.skel = (a.get i).map Node.skel) {i : ViewId} {n : Node}
    (hg : a.get i = some n) : ∃ n2, a2.get i = some n2 ∧ n2.skel = n.skel := by
  have hh := h i
  rw [hg] at hh
  cases hg2 : a2.get i with
  | none => rw [hg2] at hh; simp at hh
  | some n2 =>
    rw [hg2] at hh
    simp at hh
    exact ⟨n2, rfl, hh⟩

mutual
theorem shapeOk_congr (a a2 : SMap Node)
    (h : ∀ i, (a2.get i).map Node.skel = (a.get i).map Node.skel)
    (parent : ViewId) (t : RTree) : shapeOk a2 parent t = shapeOk a parent t :=
  match t with
  | .pane i => by
    cases hg : a.get i with
    | none => rw [shapeOk, shapeOk, hg, skelmap_none h hg]
    | some n =>
      obtain ⟨n2, hg2, hsk⟩ := skelmap_some h hg
      rw [shapeOk, shapeOk, hg, hg2]
      rcases skel_eq_cases hsk with ⟨p, vi, vd, r, r2, rfl, rfl⟩ | ⟨p, l, ch, ar, ar2, rfl, rfl⟩ <;> rfl
  | .cont i cs => by
    cases hg : a.get i with
    | none => rw [shapeOk, shapeOk, hg, skelmap_none h hg]
    | some n =>
      obtain ⟨n2, hg2, hsk⟩ := skelmap_some h hg
      rw [shapeOk, shapeOk, hg, hg2]
      rcases skel_eq_cases hsk with ⟨p, vi, vd, r, r2, rfl, rfl⟩ | ⟨p, l, ch, ar, ar2, rfl, rfl⟩
      · rfl
      · simp only [shapeOkF_congr a a2 h i cs]
theorem shapeOkF_congr (a a2 : SMap Node)
    (h : ∀ i, (a2.get i).map Node.skel = (a.get i).map Node.skel)
    (parent : ViewId) (f : RForest) : shapeOkF a2 parent f = shapeOkF a parent f :=
  match f with
  | .nil => rfl
  | .cons t ts => by
    rw [shapeOkF, shapeOkF, shapeOk_congr a a2 h parent t, shapeOkF_congr a a2 h parent ts]
end

mutual
theorem structOk_congr (a a2 : SMap Node)
    (h : ∀ i, (a2.get i).map Node.skel = (a.get i).map Node.skel)
    (t : RTree) : structOk a2 t = structOk a t :=
  match t with
  | .pane i => by
    cases hg : a.get i with
    | none => rw [structOk, structOk, hg, skelmap_none h hg]
    | some n =>
      obtain ⟨n2, hg2, hsk⟩ := skelmap_some h hg
      rw [structOk, structOk, hg, hg2]
      rcases skel_eq_cases hsk with ⟨p, vi, vd, r, r2, rfl, rfl⟩ | ⟨p, l, ch, ar, ar2, rfl, rfl⟩ <;> rfl
  | .cont i cs => by
    cases hg : a.get i with
    | none => rw [structOk, structOk, hg, skelmap_none h hg]
    | some n =>
      obtain ⟨n2, hg2, hsk⟩ := skelmap_some h hg
      rw [structOk, structOk, hg, hg2]
      rcases skel_eq_cases hsk with ⟨p, vi, vd, r, r2, rfl, rfl⟩ | ⟨p, l, ch, ar, ar2, rfl, rfl⟩
      · rfl
      · simp only [structOkF_congr a a2 h cs]
theorem structOkF_congr (a a2 : SMap Node)
    (h : ∀ i, (a2.get i).map Node.skel = (a.get i).map Node.skel)
    (f : RForest) : structOkF a2 f = structOkF a f :=
  match f with
  | .nil => rfl
  | .cons t ts => by
    rw [structOkF, structOkF, structOk_congr a a2 h t, structOkF_congr a a2 h ts]
end

mutual
theorem shapeOk_structOk {a : SMap Node} {parent : ViewId} {t : RTree}
    (h : shapeOk a parent t = true) : structOk a t = true :=
  match t with
  | .pane i => by
    rw [shapeOk] at h
    rw [structOk]
    cases hg : a.get i with
    | none => rw [hg] at h; exact h
    | some n =>
      obtain ⟨np, nc⟩ := n
      rw [hg] at h
      cases nc with
      | view v => rfl
      | container c => exact h
  | .cont i cs => by
    rw [shapeOk] at h
    rw [structOk]
    cases hg : a.get i with
    | none => rw [hg] at h; exact h
    | some n =>
      obtain ⟨np, nc⟩ := n
      rw [hg] at h
      cases nc with
      | view v => exact h
      | container c =>
        simp only [Bool.and_eq_true, decide_eq_true_eq] at h
        simp only [Bool.and_eq_true, decide_eq_true_eq]
        exact ⟨h.1.2, shapeOkF_structOkF h.2⟩
theorem shapeOkF_structOkF {a : SMap Node} {parent : ViewId} {f : RForest}
    (h : shapeOkF a parent f = true) : structOkF a f = true :=
  match f with
  | .nil => rfl
  | .cons t ts => by
    rw [shapeOkF] at h
    rw [structOkF]
    simp only [Bool.and_eq_true] at h ⊢
    exact ⟨shapeOk_structOk h.1, shapeOkF_structOkF h.2⟩
end

mutual
theorem structOk_ids_some {a : SMap Node} {t : RTree} (h : structOk a t = true) :
    ∀ i ∈ t.ids, (a.get i).isSome = true :=
  match t with
  | .pane j => by
    intro i hi
    rw [RTree.ids] at hi
    simp at hi
    subst hi
    rw [structOk] at h
    cases hg : a.get i with
    | none => rw [hg] at h; exact absurd h (by simp)
    | some n => simp [hg]
  | .cont j cs => by
    intro i hi
    rw [RTree.ids] at hi
    rw [structOk] at h
    cases hg : a.get j with
    | none => rw [hg] at h; exact absurd h (by simp)
    | some n =>
      obtain ⟨np, nc⟩ := n
      rw [hg] at h
      rcases List.mem_cons.mp hi with rfl | hi2
      · simp [hg]
      · cases nc with
        | view v => exact absurd h (by simp)
        | container c =>
          simp only [Bool.and_eq_true] at h
          exact structOkF_ids_some h.2 i hi2
theorem structOkF_ids_some {a : SMap Node} {f : RForest} (h : structOkF a f = true) :
    ∀ i ∈ f.idsF, (a.get i).isSome = true :=
  match f with
  | .nil => by intro i hi; rw [RForest.idsF] at hi; exact absurd hi (List.not_mem_nil i)
  | .cons t ts => by
    intro i hi
    rw [RForest.idsF] at hi
    rw [structOkF] at h
    simp only [Bool.and_eq_true] at h
    rcases List.mem_append.mp hi with h1 | h2
    · exact structOk_ids_some h.1 i h1
    · exact structOkF_ids_some h.2 i h2
end

mutual
theorem rsize_eq_length_ids (t : RTree) : t.rsize = t.ids.length :=
  match t with
  | .pane i => rfl
  | .cont i cs => by
    rw [RTree.rsize, RTree.ids, List.length_cons, rsizeF_eq_length_idsF cs, Nat.add_comm]
theorem rsizeF_eq_length_idsF (f : RForest) : f.rsizeF = f.idsF.length :=
  match f with
  | .nil => rfl
  | .cons t ts => by
    rw [RForest.rsizeF, RForest.idsF, List.length_append, rsize_eq_length_ids t,
      rsizeF_eq_length_idsF ts]
end

mutual
theorem panes_subset_ids (t : RTree) : ∀ i ∈ t.panes, i ∈ t.ids :=
  match t with
  | .pane j => by intro i hi; rw [RTree.panes] at hi; rw [RTree.ids]; exact hi
  | .cont j cs => by
    intro i hi
    rw [RTree.panes] at hi
    rw [RTree.ids]
    exact List.mem_cons_of_mem _ (panesF_subset_idsF cs i hi)
theorem panesF_subset_idsF (f : RForest) : ∀ i ∈ f.panesF, i ∈ f.idsF :=
  match f with
  | .nil => by intro i hi; rw [RForest.panesF] at hi; exact absurd hi (List.not_mem_nil i)
  | .cons t ts => by
    intro i hi
    rw [RForest.panesF] at hi
    rw [RForest.idsF]
    rcases List.mem_append.mp hi with h1 | h2
    · exact List.mem_append.mpr (Or.inl (panes_subset_ids t i h1))
    · exact List.mem_append.mpr (Or.inr (panesF_subset_idsF ts i h2))
end

/-! ### Forest bookkeeping lemmas -/

theorem structOkF_toList {a : SMap Node} : ∀ {f : RForest}, structOkF a f = true →
    ∀ t ∈ f.toList, structOk a t = true
  | .nil, h => by intro t ht; exact absurd ht (List.not_mem_nil t)
  | .cons t ts, h => by
    rw [structOkF] at h
    simp only [Bool.and_eq_true] at h
    intro t2 ht2
    rw [RForest.toList] at ht2
    rcases List.mem_cons.mp ht2 with rfl | hmem
    · exact h.1
    · exact structOkF_toList h.2 t2 hmem

theorem rootIds_eq_rootsOfL_toList : ∀ (f : RForest), f.rootIds = rootsOfL f.toList
  | .nil => rfl
  | .cons t ts => by
    rw [RForest.rootIds, RForest.toList, rootsOfL, List.map_cons,
      rootIds_eq_rootsOfL_toList ts]
    rfl

theorem panesF_eq_panesOfL_toList : ∀ (f : RForest), f.panesF = panesOfL f.toList
  | .nil => rfl
  | .cons t ts => by
    rw [RForest.panesF, RForest.toList, panesOfL, panesF_eq_panesOfL_toList ts]

theorem rsizeF_eq_sizeOfL_toList : ∀ (f : RForest), f.rsizeF = sizeOfL f.toList
  | .nil => rfl
  | .cons t ts => by
    rw [RForest.rsizeF, RForest.toList, sizeOfL, rsizeF_eq_sizeOfL_toList ts]

theorem idsF_eq_idsOfL_toList : ∀ (f : RForest), f.idsF = (f.toList.map RTree.ids).flatten
  | .nil => rfl
  | .cons t ts => by
    rw [RForest.idsF, RForest.toList, List.map_cons, List.flatten_cons,
      idsF_eq_idsOfL_toList ts]

theorem panesOfL_append (l1 l2 : List RTree) :
    panesOfL (l1 ++ l2) = panesOfL l1 ++ panesOfL l2 := by
  induction l1 with
  | nil => rfl
  | cons t ts ih => rw [List.cons_append, panesOfL, panesOfL, ih, List.append_assoc]

theorem mirrorOfL_append (l1 l2 : List RTree) :
    mirrorOfL (l1 ++ l2) = mirrorOfL l1 ++ mirrorOfL l2 := by
  induction l1 with
  | nil => rfl
  | cons t ts ih => rw [List.cons_append, mirrorOfL, mirrorOfL, ih, List.append_assoc]

theorem sizeOfL_append (l1 l2 : List RTree) :
    sizeOfL (l1 ++ l2) = sizeOfL l1 + sizeOfL l2 := by
  induction l1 with
  | nil => simp [sizeOfL]
  | cons t ts ih => rw [List.cons_append, sizeOfL, sizeOfL, ih, Nat.add_assoc]

theorem rootsOfL_append (l1 l2 : List RTree) :
    rootsOfL (l1 ++ l2) = rootsOfL l1 ++ rootsOfL l2 :=
  List.map_append _ l1 l2

theorem mirrorOfL_reverse (l : List RTree) :
    mirrorOfL l.reverse = (panesOfL l).reverse := by
  induction l with
  | nil => rfl
  | cons t ts ih =>
    rw [List.reverse_cons, mirrorOfL_append, ih, panesOfL, List.reverse_append, mirrorOfL,
      mirrorOfL, List.append_nil]

theorem rsize_pos (t : RTree) : 1 ≤ t.rsize := by
  cases t with
  | pane i => simp [RTree.rsize]
  | cont i cs => rw [RTree.rsize]; omega

/-! ### Traversal machine correspondence -/

theorem traverseFwdGo_forest : ∀ (fuel : Nat) (ts : List RTree) (s : Tabs) (acc : List ViewId),
    (∀ t ∈ ts, structOk s.nodes t = true) → sizeOfL ts ≤ fuel →
    Tabs.traverseFwdGo fuel s acc (rootsOfL ts) = some (acc.reverse ++ panesOfL ts) := by
  intro fuel
  induction fuel with
  | zero =>
    intro ts s acc hok hsz
    cases ts with
    | nil => simp [rootsOfL, Tabs.traverseFwdGo, panesOfL]
    | cons t ts2 =>
      exfalso
      have := rsize_pos t
      rw [sizeOfL] at hsz
      omega
  | succ fuel ih =>
    intro ts s acc hok hsz
    cases ts with
    | nil => simp [rootsOfL, Tabs.traverseFwdGo, panesOfL]
    | cons t ts2 =>
      have hs := hok _ (List.mem_cons_self t ts2)
      have hok2 : ∀ t2 ∈ ts2, structOk s.nodes t2 = true :=
        fun t2 ht2 => hok t2 (List.mem_cons_of_mem _ ht2)
      cases t with
      | pane i =>
        rw [structOk] at hs
        cases hg : s.nodes.get i with
        | none => rw [hg] at hs; simp at hs
        | some n =>
          obtain ⟨np, nc⟩ := n
          rw [hg] at hs
          cases nc with
          | container c => simp at hs
          | view v =>
            show Tabs.traverseFwdGo (fuel + 1) s acc (i :: rootsOfL ts2) = _
            rw [Tabs.traverseFwdGo]
            simp only [hg, Option.some_bind]
            rw [sizeOfL, RTree.rsize] at hsz
            rw [ih ts2 s (i :: acc) hok2 (by omega)]
            simp [panesOfL, RTree.panes]
      | cont i cs =>
        rw [structOk] at hs
        cases hg : s.nodes.get i with
        | none => rw [hg] at hs; simp at hs
        | some n =>
          obtain ⟨np, nc⟩ := n
          rw [hg] at hs
          cases nc with
          | view v => simp at hs
          | container co =>
            simp only [Bool.and_eq_true, decide_eq_true_eq] at hs
            show Tabs.traverseFwdGo (fuel + 1) s acc (i :: rootsOfL ts2) = _
            rw [Tabs.traverseFwdGo]
            simp only [hg]
            show Tabs.traverseFwdGo fuel s acc (co.children ++ rootsOfL ts2) = _
            have hstk : co.children ++ rootsOfL ts2 = rootsOfL (cs.toList ++ ts2) := by
              rw [hs.1, rootIds_eq_rootsOfL_toList, rootsOfL_append]
            rw [hstk]
            rw [sizeOfL, RTree.rsize] at hsz
            have hok3 : ∀ t2 ∈ cs.toList ++ ts2, structOk s.nodes t2 = true := by
              intro t2 ht2
              rcases List.mem_append.mp ht2 with h1 | h2
              · exact structOkF_toList hs.2 t2 h1
              · exact hok2 t2 h2
            have hsz3 : sizeOfL (cs.toList ++ ts2) ≤ fuel := by
              rw [sizeOfL_append, ← rsizeF_eq_sizeOfL_toList]
              omega
            rw [ih (cs.toList ++ ts2) s acc hok3 hsz3]
            rw [panesOfL_append, panesOfL, RTree.panes, panesF_eq_panesOfL_toList]

theorem traverseBwdGo_forest : ∀ (fuel : Nat) (ts : List RTree) (s : Tabs) (acc : List ViewId),
    (∀ t ∈ ts, structOk s.nodes t = true) → sizeOfL ts ≤ fuel →
    Tabs.traverseBwdGo fuel s acc (rootsOfL ts) = some (acc.reverse ++ mirrorOfL ts) := by
  intro fuel
  induction fuel with
  | zero =>
    intro ts s acc hok hsz
    cases ts with
    | nil => simp [rootsOfL, Tabs.traverseBwdGo, mirrorOfL]
    | cons t ts2 =>
      exfalso
      have := rsize_pos t
      rw [sizeOfL] at hsz
      omega
  | succ fuel ih =>
    intro ts s acc hok hsz
    cases ts with
    | nil => simp [rootsOfL, Tabs.traverseBwdGo, mirrorOfL]
    | cons t ts2 =>
      have hs := hok _ (List.mem_cons_self t ts2)
      have hok2 : ∀ t2 ∈ ts2, structOk s.nodes t2 = true :=
        fun t2 ht2 => hok t2 (List.mem_cons_of_mem _ ht2)
      cases t with
      | pane i =>
        rw [structOk] at hs
        cases hg : s.nodes.get i with
        | none => rw [hg] at hs; simp at hs
        | some n =>
          obtain ⟨np, nc⟩ := n
          rw [hg] at hs
          cases nc with
          | container c => simp at hs
          | view v =>
            show Tabs.traverseBwdGo (fuel + 1) s acc (i :: rootsOfL ts2) = _
            rw [Tabs.traverseBwdGo]
            simp only [hg, Option.some_bind]
            rw [sizeOfL, RTree.rsize] at hsz
            rw [ih ts2 s (i :: acc) hok2 (by omega)]
            simp [mirrorOfL, RTree.panes]
      | cont i cs =>
        rw [structOk] at hs
        cases hg : s.nodes.get i with
        | none => rw [hg] at hs; simp at hs
        | some n =>
          obtain ⟨np, nc⟩ := n
          rw [hg] at hs
          cases nc with
          | view v => simp at hs
          | container co =>
            simp only [Bool.and_eq_true, decide_eq_true_eq] at hs
            show Tabs.traverseBwdGo (fuel + 1) s acc (i :: rootsOfL ts2) = _
            rw [Tabs.traverseBwdGo]
            simp only [hg]
            show Tabs.traverseBwdGo fuel s acc (co.children.reverse ++ rootsOfL ts2) = _
            have hstk : co.children.reverse ++ rootsOfL ts2 = rootsOfL (cs.toList.reverse ++ ts2) := by
              rw [hs.1, rootIds_eq_rootsOfL_toList, rootsOfL_append]
              simp [rootsOfL, List.map_reverse]
            rw [hstk]
            rw [sizeOfL, RTree.rsize] at hsz
            have hok3 : ∀ t2 ∈ cs.toList.reverse ++ ts2, structOk s.nodes t2 = true := by
              intro t2 ht2
              rcases List.mem_append.mp ht2 with h1 | h2
              · exact structOkF_toList hs.2 t2 (List.mem_reverse.mp h1)
              · exact hok2 t2 h2
            have hsz3 : sizeOfL (cs.toList.reverse ++ ts2) ≤ fuel := by
              rw [sizeOfL_append]
              have : sizeOfL cs.toList.reverse = sizeOfL cs.toList := by
                clear hsz hok3 hok2 hok hs hg ih
                induction cs.toList with
                | nil => rfl
                | cons x xs ihx =>
                  rw [List.reverse_cons, sizeOfL_append, sizeOfL, sizeOfL, sizeOfL]
                  omega
              rw [this, ← rsizeF_eq_sizeOfL_toList]
              omega
            rw [ih (cs.toList.reverse ++ ts2) s acc hok3 hsz3]
            rw [mirrorOfL_append, mirrorOfL, RTree.panes, mirrorOfL_reverse,
              ← panesF_eq_panesOfL_toList]

/-- Shape size is bounded by the arena size. -/
theorem rsize_le_arena {a : SMap Node} {t : RTree} (hok : structOk a t = true)
    (hnodup : t.ids.Nodup) : t.rsize ≤ a.entries.length := by
  rw [rsize_eq_length_ids]
  have hsub : t.ids ⊆ a.keys := by
    intro i hi
    have := structOk_ids_some hok i hi
    rw [Option.isSome_iff_exists] at this
    obtain ⟨n, hn⟩ := this
    exact SMap.get_some_mem_keys hn
  have := (List.subperm_of_subset hnodup hsub).length_le
  simpa [SMap.keys] using this

/-- The full forward traversal of a well-shaped tree lists its panes in
depth-first pre-order. -/
theorem traverseList_eq {s : Tabs} {tab : TabId} {tree : Tree} {rt : RTree}
    (htree : s.trees.get tab = some tree) (hok : structOk s.nodes rt = true)
    (hroot : rt.rootId = tree.root) (hnodup : rt.ids.Nodup) :
    s.traverseList tab = some rt.panes := by
  unfold Tabs.traverseList
  rw [htree]
  show Tabs.traverseFwdGo (s.nodes.entries.length + 1) s [] [tree.root] = some rt.panes
  have h1 : [tree.root] = rootsOfL [rt] := by simp [rootsOfL, hroot]
  rw [h1, traverseFwdGo_forest _ [rt] s []
    (by intro t ht; rcases List.mem_singleton.mp ht with rfl; exact hok)
    (by rw [sizeOfL, sizeOfL]; have := rsize_le_arena hok hnodup; omega)]
  simp [panesOfL]

/-! ### Wrapping successor lemmas -/

theorem exists_split_first {l : List ViewId} {f : ViewId} (h : f ∈ l) :
    ∃ a rest, l = a ++ f :: rest ∧ f ∉ a := by
  induction l with
  | nil => exact absurd h (List.not_mem_nil f)
  | cons x xs ih =>
    by_cases hx : x = f
    · subst hx
      exact ⟨[], xs, rfl, List.not_mem_nil x⟩
    · rcases List.mem_cons.mp h with h1 | h2
      · exact absurd h1.symm hx
      · obtain ⟨a, rest, rfl, hfa⟩ := ih h2
        refine ⟨x :: a, rest, rfl, ?_⟩
        intro hmem
        rcases List.mem_cons.mp hmem with h3 | h4
        · exact hx h3.symm
        · exact hfa h4

theorem dropWhile_ne_first {a rest : List ViewId} {f : ViewId} (ha : f ∉ a) :
    ((a ++ f :: rest).dropWhile (· ≠ f)) = f :: rest := by
  induction a with
  | nil => simp [List.dropWhile]
  | cons x xs ih =>
    have hx : x ≠ f := fun hh => ha (hh ▸ List.mem_cons_self x xs)
    have ha2 : f ∉ xs := fun hh => ha (List.mem_cons_of_mem _ hh)
    simpa [List.dropWhile, hx] using ih ha2

theorem wnext_spec {l : List ViewId} {f : ViewId} (hnodup : l.Nodup) (hf : f ∈ l)
    (hlen : 2 ≤ l.length) :
    ∃ g, wnext l f = some g ∧ g ∈ l ∧ g ≠ f ∧ wnext l.reverse g = some f := by
  obtain ⟨a, rest, rfl, hfa⟩ := exists_split_first hf
  have hsubnodup : (f :: rest).Nodup := ((List.sublist_append_right a _).nodup hnodup)
  cases rest with
  | cons g rest2 =>
    refine ⟨g, ?_, ?_, ?_, ?_⟩
    · rw [wnext, dropWhile_ne_first hfa]
      simp
    · exact List.mem_append.mpr (Or.inr (List.mem_cons_of_mem f (List.mem_cons_self g rest2)))
    · intro hgf
      subst hgf
      exact (List.nodup_cons.mp hsubnodup).1 (List.mem_cons_self g rest2)
    · have hrev : (a ++ f :: g :: rest2).reverse = rest2.reverse ++ g :: f :: a.reverse := by
        simp
      rw [hrev, wnext]
      have hg2 : g ∉ rest2.reverse := by
        rw [List.mem_reverse]
        exact (List.nodup_cons.mp ((List.nodup_cons.mp hsubnodup).2)).1
      rw [dropWhile_ne_first hg2]
      simp
  | nil =>
    cases a with
    | nil => simp at hlen
    | cons x a2 =>
      refine ⟨x, ?_, List.mem_cons_self _ _ |> fun h => List.mem_append.mpr (Or.inl h), ?_, ?_⟩
      · rw [wnext, dropWhile_ne_first hfa]
        simp
      · intro hxf
        exact hfa (hxf ▸ List.mem_cons_self x a2)
      · have hrev : ((x :: a2) ++ [f]).reverse = (f :: a2.reverse) ++ x :: [] := by
          simp
        rw [hrev, wnext]
        have hx2 : x ∉ f :: a2.reverse := by
          intro hmem
          rcases List.mem_cons.mp hmem with h1 | h2
          · exact hfa (h1 ▸ List.mem_cons_self x a2)
          · rw [List.mem_reverse] at h2
            have : (x :: a2).Nodup := ((List.sublist_append_left (x :: a2) [f]).nodup hnodup)
            exact (List.nodup_cons.mp this).1 h2
        rw [dropWhile_ne_first hx2]
        simp

theorem wnext_last {l : List ViewId} {f : ViewId} (hnodup : l.Nodup)
    (hlast : l.getLast? = some f) : wnext l f = l.head? := by
  have hne : l ≠ [] := by
    intro h
    subst h
    simp at hlast
  have hl : l.dropLast ++ [l.getLast hne] = l := List.dropLast_append_getLast hne
  have hgl : l.getLast hne = f := by
    have := List.getLast?_eq_getLast l hne
    rw [hlast] at this
    exact (Option.some_inj.mp this).symm
  rw [hgl] at hl
  have hfa : f ∉ l.dropLast := by
    intro hmem
    have := hl ▸ hnodup
    rw [List.nodup_append] at this
    exact this.2.2 hmem (List.mem_singleton_self f)
  conv_lhs => rw [← hl]
  rw [wnext, dropWhile_ne_first hfa]
  simp [hl]

theorem wnext_head_rev {l : List ViewId} {f : ViewId} (hnodup : l.Nodup)
    (hhead : l.head? = some f) : wnext l.reverse f = l.getLast? := by
  have h1 : l.reverse.getLast? = some f := by rw [List.getLast?_reverse]; exact hhead
  rw [wnext_last (List.nodup_reverse.mpr hnodup) h1, List.head?_reverse]

/-- The full backward traversal lists the panes in reverse pre-order. -/
theorem traverseRevList_eq {s : Tabs} {tab : TabId} {tree : Tree} {rt : RTree}
    (htree : s.trees.get tab = some tree) (hok : structOk s.nodes rt = true)
    (hroot : rt.rootId = tree.root) (hnodup : rt.ids.Nodup) :
    s.traverseRevList tab = some rt.panes.reverse := by
  unfold Tabs.traverseRevList
  rw [htree]
  show Tabs.traverseBwdGo (s.nodes.entries.length + 1) s [] [tree.root] = some rt.panes.reverse
  have h1 : [tree.root] = rootsOfL [rt] := by simp [rootsOfL, hroot]
  rw [h1, traverseBwdGo_forest _ [rt] s []
    (by intro t ht; rcases List.mem_singleton.mp ht with rfl; exact hok)
    (by rw [sizeOfL, sizeOfL]; have := rsize_le_arena hok hnodup; omega)]
  simp [mirrorOfL]

theorem next_eq_wnext {s : Tabs} {tab : TabId} {tree : Tree} {rt : RTree}
    (htree : s.trees.get tab = some tree) (hok : structOk s.nodes rt = true)
    (hroot : rt.rootId = tree.root) (hnodup : rt.ids.Nodup) :
    s.next tab = wnext rt.panes tree.focus := by
  have htrav := traverseList_eq htree hok hroot hnodup
  unfold Tabs.next
  rw [htree]
  show (s.traverseList tab).bind (fun l =>
    match (l.dropWhile (· ≠ tree.focus)).drop 1 with
    | x :: _ => some x
    | [] => l.head?) = wnext rt.panes tree.focus
  rw [htrav]
  rfl

mutual
theorem panes_sublist_ids (t : RTree) : t.panes.Sublist t.ids :=
  match t with
  | .pane i => by rw [RTree.panes, RTree.ids]
  | .cont i cs => by
    rw [RTree.panes, RTree.ids]
    exact (panesF_sublist_idsF cs).cons i
theorem panesF_sublist_idsF (f : RForest) : f.panesF.Sublist f.idsF :=
  match f with
  | .nil => by rw [RForest.panesF, RForest.idsF]
  | .cons t ts => by
    rw [RForest.panesF, RForest.idsF]
    exact (panes_sublist_ids t).append (panesF_sublist_idsF ts)
end

theorem prev_eq_wnext_rev {s : Tabs} {tab : TabId} {tree : Tree} {rt : RTree}
    (htree : s.trees.get tab = some tree) (hok : structOk s.nodes rt = true)
    (hroot : rt.rootId = tree.root) (hnodup : rt.ids.Nodup) :
    s.prev tab = wnext rt.panes.reverse tree.focus := by
  have htrav := traverseRevList_eq htree hok hroot hnodup
  unfold Tabs.prev
  rw [htree]
  show (s.traverseRevList tab).bind (fun l =>
    match (l.dropWhile (· ≠ tree.focus)).drop 1 with
    | x :: _ => some x
    | [] => l.head?) = wnext rt.panes.reverse tree.focus
  rw [htrav]
  rfl

/-- C7: with at least two panes, `next` then `prev` (and `prev` then
`next`) returns to the original focus, and both wrap around the ends of
the depth-first pre-order. -/
theorem c7_next_prev_roundtrip (s : Tabs) (tab : TabId) (tree : Tree) (rt : RTree)
    (htree : s.trees.get tab = some tree)
    (hshape : shapeOk s.nodes tree.root rt = true)
    (hroot : rt.rootId = tree.root)
    (hnodup : rt.ids.Nodup)
    (hlen : 2 ≤ rt.panes.length)
    (hfocus : tree.focus ∈ rt.panes) :
    (∃ nx s1, s.next tab = some nx ∧ s.setFocusedView tab nx = some s1 ∧
      s1.prev tab = some tree.focus) ∧
    (∃ pv s2, s.prev tab = some pv ∧ s.setFocusedView tab pv = some s2 ∧
      s2.next tab = some tree.focus) ∧
    (rt.panes.getLast? = some tree.focus → s.next tab = rt.panes.head?) ∧
    (rt.panes.head? = some tree.focus → s.prev tab = rt.panes.getLast?) := by
  have hstruct := shapeOk_structOk hshape
  have hpnodup : rt.panes.Nodup := (panes_sublist_ids rt).nodup hnodup
  refine ⟨?_, ?_, ?_, ?_⟩
  · obtain ⟨g, hg, hgmem, hgne, hback⟩ := wnext_spec hpnodup hfocus hlen
    refine ⟨g, { s with trees := s.trees.set tab { tree with focus := g } }, ?_, ?_, ?_⟩
    · rw [next_eq_wnext htree hstruct hroot hnodup, hg]
    · unfold Tabs.setFocusedView
      rw [htree]
      rfl
    · have htree2 : ({ s with trees := s.trees.set tab { tree with focus := g } } : Tabs).trees.get tab
        = some { tree with focus := g } := SMap.get_set_self _ htree
      rw [prev_eq_wnext_rev htree2 hstruct hroot hnodup]
      exact hback
  · have hfocusrev : tree.focus ∈ rt.panes.reverse := List.mem_reverse.mpr hfocus
    have hlenrev : 2 ≤ rt.panes.reverse.length := by simpa using hlen
    obtain ⟨g, hg, hgmem, hgne, hback⟩ :=
      wnext_spec (List.nodup_reverse.mpr hpnodup) hfocusrev hlenrev
    rw [List.reverse_reverse] at hback
    refine ⟨g, { s with trees := s.trees.set tab { tree with focus := g } }, ?_, ?_, ?_⟩
    · rw [prev_eq_wnext_rev htree hstruct hroot hnodup, hg]
    · unfold Tabs.setFocusedView
      rw [htree]
      rfl
    · have htree2 : ({ s with trees := s.trees.set tab { tree with focus := g } } : Tabs).trees.get tab
        = some { tree with focus := g } := SMap.get_set_self _ htree
      rw [next_eq_wnext htree2 hstruct hroot hnodup]
      exact hback
  · intro hlast
    rw [next_eq_wnext htree hstruct hroot hnodup]
    exact wnext_last hpnodup hlast
  · intro hhead
    rw [prev_eq_wnext_rev htree hstruct hroot hnodup]
    exact wnext_head_rev hpnodup hhead

/-- C7 witness: the two-pane workspace with the last pane focused wraps
`next` to the first pane. -/
theorem c7_witness : twoPaneState.next 1 = twoPaneRT.panes.head? :=
  (c7_next_prev_roundtrip twoPaneState 1 ((twoPaneState.trees.get 1).getD Tree.tdefault)
    twoPaneRT (by decide) (by decide) (by decide) (by decide) (by decide)
    (by decide)).2.2.1 (by decide)

/-! ### Layout solver lemmas -/

theorem chkAdd_some {a b c : Nat} (h : Tabs.chkAdd a b = some c) :
    c = a + b ∧ a + b ≤ 65535 := by
  unfold Tabs.chkAdd at h
  by_cases hc : a + b ≤ 65535
  · rw [if_pos hc] at h
    exact ⟨(Option.some_inj.mp h).symm, hc⟩
  · rw [if_neg hc] at h
    exact absurd h (by simp)

theorem chkSub_some {a b c : Nat} (h : Tabs.chkSub a b = some c) :
    c = a - b ∧ b ≤ a := by
  unfold Tabs.chkSub at h
  by_cases hc : b ≤ a
  · rw [if_pos hc] at h
    exact ⟨(Option.some_inj.mp h).symm, hc⟩
  · rw [if_neg hc] at h
    exact absurd h (by simp)

theorem horizRectsGo_length {carea : Rect} {height : Nat} :
    ∀ {rem childY : Nat} {rects : List Rect},
    Tabs.horizRectsGo carea height childY rem = some rects → rects.length = rem := by
  intro rem
  induction rem with
  | zero =>
    intro childY rects h
    rw [Tabs.horizRectsGo] at h
    simp at h
    simp [← h]
  | succ rem ih =>
    intro childY rects h
    rw [Tabs.horizRectsGo] at h
    cases hadd : Tabs.chkAdd childY height with
    | none => rw [hadd] at h; simp at h
    | some childY2 =>
      rw [hadd] at h
      simp only [Option.bind_eq_bind, Option.some_bind] at h
      by_cases hrem0 : rem = 0
      · subst hrem0
        rw [if_pos rfl] at h
        cases hyh : Tabs.chkAdd carea.y carea.height with
        | none => rw [hyh] at h; simp at h
        | some yh =>
          rw [hyh] at h
          simp only [Option.bind_eq_bind, Option.some_bind] at h
          cases hsub : Tabs.chkSub yh childY with
          | none => rw [hsub] at h; simp at h
          | some lastH =>
            rw [hsub] at h
            simp at h
            simp [← h]
      · rw [if_neg hrem0] at h
        cases hrest : Tabs.horizRectsGo carea height childY2 rem with
        | none => rw [hrest] at h; simp at h
        | some rest =>
          rw [hrest] at h
          simp at h
          rw [← h]
          simp [ih hrest]

theorem vertRectsGo_length {carea : Rect} {width : Nat} :
    ∀ {rem childX : Nat} {rects : List Rect},
    Tabs.vertRectsGo carea width childX rem = some rects → rects.length = rem := by
  intro rem
  induction rem with
  | zero =>
    intro childX rects h
    rw [Tabs.vertRectsGo] at h
    simp at h
    simp [← h]
  | succ rem ih =>
    intro childX rects h
    rw [Tabs.vertRectsGo] at h
    cases hstep : Tabs.chkAdd width 1 with
    | none => rw [hstep] at h; simp at h
    | some step =>
      rw [hstep] at h
      simp only [Option.bind_eq_bind, Option.some_bind] at h
      cases hadd : Tabs.chkAdd childX step with
      | none => rw [hadd] at h; simp at h
      | some childX2 =>
        rw [hadd] at h
        simp only [Option.bind_eq_bind, Option.some_bind] at h
        by_cases hrem0 : rem = 0
        · subst hrem0
          rw [if_pos rfl] at h
          cases hxw : Tabs.chkAdd carea.x carea.width with
          | none => rw [hxw] at h; simp at h
          | some xw =>
            rw [hxw] at h
            simp only [Option.bind_eq_bind, Option.some_bind] at h
            cases hsub : Tabs.chkSub xw childX with
            | none => rw [hsub] at h; simp at h
            | some lastW =>
              rw [hsub] at h
              simp at h
              simp [← h]
        · rw [if_neg hrem0] at h
          cases hrest : Tabs.vertRectsGo carea width childX2 rem with
          | none => rw [hrest] at h; simp at h
          | some rest =>
            rw [hrest] at h
            simp at h
            rw [← h]
            simp [ih hrest]

theorem subdivRects_length {l : Layout} {carea : Rect} {len : Nat} {rects : List Rect}
    (h : Tabs.subdivRects l carea len = some rects) : rects.length = len := by
  cases l with
  | Horizontal =>
    unfold Tabs.subdivRects Tabs.horizRects at h
    by_cases h0 : len % 65536 = 0
    · rw [if_pos h0] at h; simp at h
    · rw [if_neg h0] at h
      exact horizRectsGo_length h
  | Vertical =>
    unfold Tabs.subdivRects Tabs.vertRects at h
    by_cases h0 : len % 65536 = 0
    · rw [if_pos h0] at h; simp at h
    · rw [if_neg h0] at h
      exact vertRectsGo_length h

theorem horizRectsGo_tiles {carea : Rect} {height : Nat} :
    ∀ {rem childY : Nat} {rects : List Rect}, 1 ≤ rem →
    Tabs.horizRectsGo carea height childY rem = some rects → tilesH carea childY rects := by
  intro rem
  induction rem with
  | zero => intro childY rects h1; omega
  | succ rem ih =>
    intro childY rects h1 h
    rw [Tabs.horizRectsGo] at h
    cases hadd : Tabs.chkAdd childY height with
    | none => rw [hadd] at h; simp at h
    | some childY2 =>
      rw [hadd] at h
      simp only [Option.bind_eq_bind, Option.some_bind] at h
      by_cases hrem0 : rem = 0
      · subst hrem0
        rw [if_pos rfl] at h
        cases hyh : Tabs.chkAdd carea.y carea.height with
        | none => rw [hyh] at h; simp at h
        | some yh =>
          rw [hyh] at h
          simp only [Option.bind_eq_bind, Option.some_bind] at h
          cases hsub : Tabs.chkSub yh childY with
          | none => rw [hsub] at h; simp at h
          | some lastH =>
            rw [hsub] at h
            simp at h
            rw [← h]
            obtain ⟨hyh1, hyh2⟩ := chkAdd_some hyh
            obtain ⟨hs1, hs2⟩ := chkSub_some hsub
            rw [tilesH]
            refine ⟨rfl, rfl, rfl, ?_⟩
            rw [tilesH]
            show childY + lastH = carea.y + carea.height
            omega
      · rw [if_neg hrem0] at h
        cases hrest : Tabs.horizRectsGo carea height childY2 rem with
        | none => rw [hrest] at h; simp at h
        | some rest =>
          rw [hrest] at h
          simp at h
          rw [← h]
          obtain ⟨ha1, ha2⟩ := chkAdd_some hadd
          rw [tilesH]
          refine ⟨rfl, rfl, rfl, ?_⟩
          have hthis := ih (by omega) hrest
          show tilesH carea (childY + height) rest
          rw [← ha1]
          exact hthis

theorem vertRectsGo_tiles {carea : Rect} {width : Nat} :
    ∀ {rem childX : Nat} {rects : List Rect}, 1 ≤ rem →
    Tabs.vertRectsGo carea width childX rem = some rects → tilesV carea childX rects := by
  intro rem
  induction rem with
  | zero => intro childX rects h1; omega
  | succ rem ih =>
    intro childX rects h1 h
    rw [Tabs.vertRectsGo] at h
    cases hstep : Tabs.chkAdd width 1 with
    | none => rw [hstep] at h; simp at h
    | some step =>
      rw [hstep] at h
      simp only [Option.bind_eq_bind, Option.some_bind] at h
      cases hadd : Tabs.chkAdd childX step with
      | none => rw [hadd] at h; simp at h
      | some childX2 =>
        rw [hadd] at h
        simp only [Option.bind_eq_bind, Option.some_bind] at h
        by_cases hrem0 : rem = 0
        · subst hrem0
          rw [if_pos rfl] at h
          cases hxw : Tabs.chkAdd carea.x carea.width with
          | none => rw [hxw] at h; simp at h
          | some xw =>
            rw [hxw] at h
            simp only [Option.bind_eq_bind, Option.some_bind] at h
            cases hsub : Tabs.chkSub xw childX with
            | none => rw [hsub] at h; simp at h
            | some lastW =>
              rw [hsub] at h
              simp at h
              rw [← h]
              obtain ⟨hx1, hx2⟩ := chkAdd_some hxw
              obtain ⟨hs1, hs2⟩ := chkSub_some hsub
              rw [tilesV]
              refine ⟨rfl, rfl, rfl, ?_⟩
              show childX + lastW = carea.x + carea.width
              omega
        · rw [if_neg hrem0] at h
          cases hrest : Tabs.vertRectsGo carea width childX2 rem with
          | none => rw [hrest] at h; simp at h
          | some rest =>
            rw [hrest] at h
            simp at h
            rw [← h]
            obtain ⟨hst1, hst2⟩ := chkAdd_some hstep
            obtain ⟨ha1, ha2⟩ := chkAdd_some hadd
            have hrest2 : rest ≠ [] := by
              intro hnil
              have := vertRectsGo_length hrest
              rw [hnil] at this
              simp at this
              omega
            obtain ⟨r2, rest2, rfl⟩ := List.exists_cons_of_ne_nil hrest2
            rw [tilesV]
            refine ⟨rfl, rfl, rfl, ?_⟩
            have hthis := ih (by omega) hrest
            have hcx : childX2 = childX + width + 1 := by omega
            show tilesV carea (childX + width + 1) (r2 :: rest2)
            rw [← hcx]
            exact hthis
            simp

theorem subdivRects_tiles {l : Layout} {carea : Rect} {len : Nat} {rects : List Rect}
    (hlen : 1 ≤ len) (h : Tabs.subdivRects l carea len = some rects) :
    tiles l carea rects := by
  cases l with
  | Horizontal =>
    unfold Tabs.subdivRects Tabs.horizRects at h
    by_cases h0 : len % 65536 = 0
    · rw [if_pos h0] at h; simp at h
    · rw [if_neg h0] at h
      exact horizRectsGo_tiles hlen h
  | Vertical =>
    unfold Tabs.subdivRects Tabs.vertRects at h
    by_cases h0 : len % 65536 = 0
    · rw [if_pos h0] at h; simp at h
    · rw [if_neg h0] at h
      exact vertRectsGo_tiles hlen h

/-! ### Forest/zip bookkeeping for the layout machine -/

theorem stackOfL_zipF : ∀ (cs : RForest) (rects : List Rect),
    cs.rootIds.zip rects = stackOfL (zipF cs rects)
  | .nil, _ => rfl
  | .cons t ts, [] => rfl
  | .cons t ts, r :: rs => by
    rw [RForest.rootIds, List.zip_cons_cons, zipF, stackOfL, List.map_cons,
      stackOfL_zipF ts rs]
    rfl

theorem sizeSumL_zipF : ∀ (cs : RForest) (rects : List Rect),
    rects.length = cs.rootIds.length → sizeSumL (zipF cs rects) = cs.rsizeF
  | .nil, rects, h => rfl
  | .cons t ts, [], h => by rw [RForest.rootIds] at h; simp at h
  | .cons t ts, r :: rs, h => by
    rw [RForest.rootIds] at h
    simp only [List.length_cons] at h
    rw [zipF, sizeSumL, RForest.rsizeF, sizeSumL_zipF ts rs (by omega)]

theorem flatIdsL_zipF : ∀ (cs : RForest) (rects : List Rect),
    rects.length = cs.rootIds.length → flatIdsL (zipF cs rects) = cs.idsF
  | .nil, rects, h => rfl
  | .cons t ts, [], h => by rw [RForest.rootIds] at h; simp at h
  | .cons t ts, r :: rs, h => by
    rw [RForest.rootIds] at h
    simp only [List.length_cons] at h
    rw [zipF, flatIdsL, RForest.idsF, flatIdsL_zipF ts rs (by omega)]

theorem mem_zipF : ∀ {cs : RForest} {rects : List Rect} {p : RTree × Rect},
    p ∈ zipF cs rects → p.1 ∈ cs.toList
  | .nil, rects, p, h => absurd h (List.not_mem_nil p)
  | .cons t ts, [], p, h => absurd h (List.not_mem_nil p)
  | .cons t ts, r :: rs, p, h => by
    rw [zipF] at h
    rw [RForest.toList]
    rcases List.mem_cons.mp h with rfl | h2
    · exact List.mem_cons_self _ _
    · exact List.mem_cons_of_mem _ (mem_zipF h2)

theorem AssignedF_of_zipF {a : SMap Node} : ∀ {cs : RForest} {rects : List Rect},
    rects.length = cs.rootIds.length →
    (∀ p ∈ zipF cs rects, Assigned a p.1 p.2) → AssignedF a cs rects
  | .nil, [], h, hall => by rw [AssignedF]
  | .nil, r :: rs, h, hall => by rw [RForest.rootIds] at h; simp at h
  | .cons t ts, [], h, hall => by rw [RForest.rootIds] at h; simp at h
  | .cons t ts, r :: rs, h, hall => by
    rw [RForest.rootIds] at h
    simp only [List.length_cons] at h
    rw [AssignedF]
    refine ⟨r, rs, rfl, ?_, ?_⟩
    · exact hall (t, r) (by rw [zipF]; exact List.mem_cons_self _ _)
    · exact AssignedF_of_zipF (by omega)
        (fun p hp => hall p (by rw [zipF]; exact List.mem_cons_of_mem _ hp))

theorem flatIdsL_append (l1 l2 : List (RTree × Rect)) :
    flatIdsL (l1 ++ l2) = flatIdsL l1 ++ flatIdsL l2 := by
  induction l1 with
  | nil => rfl
  | cons p ps ih => rw [List.cons_append, flatIdsL, flatIdsL, ih, List.append_assoc]

theorem sizeSumL_append (l1 l2 : List (RTree × Rect)) :
    sizeSumL (l1 ++ l2) = sizeSumL l1 + sizeSumL l2 := by
  induction l1 with
  | nil => simp [sizeSumL]
  | cons p ps ih => rw [List.cons_append, sizeSumL, sizeSumL, ih, Nat.add_assoc]

theorem stackOfL_append (l1 l2 : List (RTree × Rect)) :
    stackOfL (l1 ++ l2) = stackOfL l1 ++ stackOfL l2 :=
  List.map_append _ l1 l2

mutual
theorem Assigned_congr {a a2 : SMap Node} : ∀ {t : RTree} {r : Rect},
    (∀ i ∈ t.ids, a2.get i = a.get i) → Assigned a t r → Assigned a2 t r
  | .pane i, r, hcong, hA => by
    rw [Assigned] at hA ⊢
    obtain ⟨n, v, hg, hc, ha⟩ := hA
    exact ⟨n, v, by rw [hcong i (by rw [RTree.ids]; exact List.mem_singleton_self i)]; exact hg,
      hc, ha⟩
  | .cont i cs, r, hcong, hA => by
    rw [Assigned] at hA ⊢
    obtain ⟨n, co, rects, hg, hc, ha, hsub, hF⟩ := hA
    refine ⟨n, co, rects, ?_, hc, ha, hsub, ?_⟩
    · rw [hcong i (by rw [RTree.ids]; exact List.mem_cons_self _ _)]
      exact hg
    · exact AssignedF_congr
        (fun j hj => hcong j (by rw [RTree.ids]; exact List.mem_cons_of_mem _ hj)) hF
theorem AssignedF_congr {a a2 : SMap Node} : ∀ {f : RForest} {rs : List Rect},
    (∀ i ∈ f.idsF, a2.get i = a.get i) → AssignedF a f rs → AssignedF a2 f rs
  | .nil, rs, hcong, hF => by rw [AssignedF] at hF ⊢; exact hF
  | .cons t ts, rs, hcong, hF => by
    rw [AssignedF] at hF ⊢
    obtain ⟨r, rs2, rfl, hA, hF2⟩ := hF
    refine ⟨r, rs2, rfl, ?_, ?_⟩
    · exact Assigned_congr
        (fun j hj => hcong j (by rw [RForest.idsF]; exact List.mem_append.mpr (Or.inl hj))) hA
    · exact AssignedF_congr
        (fun j hj => hcong j (by rw [RForest.idsF]; exact List.mem_append.mpr (Or.inr hj))) hF2
end

/-! ### The layout machine -/

theorem recalcLoop_spec : ∀ (fuel : Nat) (fs : List (RTree × Rect)) (s s2 : Tabs),
    (∀ p ∈ fs, structOk s.nodes p.1 = true) →
    (flatIdsL fs).Nodup →
    sizeSumL fs ≤ fuel →
    Tabs.recalcLoop fuel s (stackOfL fs) = some s2 →
    s2.trees = s.trees ∧ s2.nodes.nextKey = s.nodes.nextKey ∧
    (∀ k, (s2.nodes.get k).map Node.skel = (s.nodes.get k).map Node.skel) ∧
    (∀ k, k ∉ flatIdsL fs → s2.nodes.get k = s.nodes.get k) ∧
    (∀ p ∈ fs, Assigned s2.nodes p.1 p.2) := by
  intro fuel
  induction fuel with
  | zero =>
    intro fs s s2 hok hnodup hsz hrun
    cases fs with
    | nil =>
      rw [show stackOfL [] = [] from rfl, Tabs.recalcLoop] at hrun
      obtain rfl : s = s2 := Option.some_inj.mp hrun
      exact ⟨rfl, rfl, fun k => rfl, fun k _ => rfl, fun p hp => absurd hp (List.not_mem_nil p)⟩
    | cons p fs2 =>
      exfalso
      have := rsize_pos p.1
      rw [sizeSumL] at hsz
      omega
  | succ fuel ih =>
    intro fs s s2 hok hnodup hsz hrun
    cases fs with
    | nil =>
      rw [show stackOfL [] = [] from rfl, Tabs.recalcLoop] at hrun
      obtain rfl : s = s2 := Option.some_inj.mp hrun
      exact ⟨rfl, rfl, fun k => rfl, fun k _ => rfl, fun p hp => absurd hp (List.not_mem_nil p)⟩
    | cons p fs2 =>
      obtain ⟨t, r⟩ := p
      have hokt := hok _ (List.mem_cons_self _ _)
      have hokrest : ∀ q ∈ fs2, structOk s.nodes q.1 = true :=
        fun q hq => hok q (List.mem_cons_of_mem _ hq)
      cases t with
      | pane i =>
        rw [structOk] at hokt
        cases hg : s.nodes.get i with
        | none => rw [hg] at hokt; simp at hokt
        | some n =>
          obtain ⟨np, nc⟩ := n
          rw [hg] at hokt
          cases nc with
          | container c => simp at hokt
          | view v =>
            rw [show stackOfL ((RTree.pane i, r) :: fs2) = (i, r) :: stackOfL fs2 from rfl,
              Tabs.recalcLoop] at hrun
            rw [hg] at hrun
            simp only [Option.bind_eq_bind, Option.some_bind] at hrun
            set s1 : Tabs :=
              { s with nodes := s.nodes.set i ⟨np, .view { v with area := r }⟩ } with hs1
            have hskel1 : ∀ k, (s1.nodes.get k).map Node.skel = (s.nodes.get k).map Node.skel := by
              intro k
              by_cases hk : k = i
              · subst hk
                rw [show s1.nodes = s.nodes.set k ⟨np, .view { v with area := r }⟩ from rfl,
                  SMap.get_set, if_pos rfl, hg]
                rfl
              · rw [show s1.nodes = s.nodes.set i ⟨np, .view { v with area := r }⟩ from rfl,
                  SMap.get_set_ne _ _ _ hk]
            have hflat : flatIdsL ((RTree.pane i, r) :: fs2) = i :: flatIdsL fs2 := rfl
            rw [hflat] at hnodup
            have hnodup2 := (List.nodup_cons.mp hnodup).2
            have hinotin := (List.nodup_cons.mp hnodup).1
            have hsz2 : sizeSumL fs2 ≤ fuel := by
              rw [sizeSumL, RTree.rsize] at hsz
              omega
            have hok2 : ∀ q ∈ fs2, structOk s1.nodes q.1 = true := by
              intro q hq
              rw [structOk_congr s.nodes s1.nodes hskel1 q.1]
              exact hokrest q hq
            obtain ⟨htrees, hnext, hskel2, huntouched, hassigned⟩ :=
              ih fs2 s1 s2 hok2 hnodup2 hsz2 hrun
            have hgets1 : s1.nodes.get i = some ⟨np, .view { v with area := r }⟩ := by
              rw [show s1.nodes = s.nodes.set i ⟨np, .view { v with area := r }⟩ from rfl]
              exact SMap.get_set_self _ hg
            refine ⟨htrees, hnext, ?_, ?_, ?_⟩
            · intro k
              rw [hskel2 k, hskel1 k]
            · intro k hk
              rw [hflat] at hk
              have hk1 : k ≠ i := fun hh => hk (hh ▸ List.mem_cons_self i _)
              have hk2 : k ∉ flatIdsL fs2 := fun hh => hk (List.mem_cons_of_mem _ hh)
              rw [huntouched k hk2,
                show s1.nodes = s.nodes.set i ⟨np, .view { v with area := r }⟩ from rfl,
                SMap.get_set_ne _ _ _ hk1]
            · intro q hq
              rcases List.mem_cons.mp hq with rfl | hq2
              · rw [Assigned]
                refine ⟨⟨np, .view { v with area := r }⟩, { v with area := r }, ?_, rfl, rfl⟩
                rw [huntouched i hinotin]
                exact hgets1
              · exact hassigned q hq2
      | cont i cs =>
        rw [structOk] at hokt
        cases hg : s.nodes.get i with
        | none => rw [hg] at hokt; simp at hokt
        | some n =>
          obtain ⟨np, nc⟩ := n
          rw [hg] at hokt
          cases nc with
          | view v => simp at hokt
          | container co =>
            simp only [Bool.and_eq_true, decide_eq_true_eq] at hokt
            obtain ⟨hch, hokF⟩ := hokt
            rw [show stackOfL ((RTree.cont i cs, r) :: fs2) = (i, r) :: stackOfL fs2 from rfl,
              Tabs.recalcLoop] at hrun
            rw [hg] at hrun
            simp only [Option.bind_eq_bind, Option.some_bind] at hrun
            set s1 : Tabs :=
              { s with nodes := s.nodes.set i ⟨np, .container { co with area := r }⟩ } with hs1
            cases hsubdiv : Tabs.subdivRects co.layout r co.children.length with
            | none => rw [hsubdiv] at hrun; simp at hrun
            | some rects =>
              rw [hsubdiv] at hrun
              simp only [Option.bind_eq_bind, Option.some_bind] at hrun
              have hlen : rects.length = cs.rootIds.length := by
                rw [subdivRects_length hsubdiv, hch]
              have hstk : co.children.zip rects ++ stackOfL fs2
                  = stackOfL (zipF cs rects ++ fs2) := by
                rw [hch, stackOfL_zipF, stackOfL_append]
              rw [hstk] at hrun
              have hskel1 : ∀ k, (s1.nodes.get k).map Node.skel
                  = (s.nodes.get k).map Node.skel := by
                intro k
                by_cases hk : k = i
                · subst hk
                  rw [show s1.nodes = s.nodes.set k ⟨np, .container { co with area := r }⟩ from rfl,
                    SMap.get_set, if_pos rfl, hg]
                  rfl
                · rw [show s1.nodes = s.nodes.set i ⟨np, .container { co with area := r }⟩ from rfl,
                    SMap.get_set_ne _ _ _ hk]
              have hflat : flatIdsL ((RTree.cont i cs, r) :: fs2)
                  = (i :: cs.idsF) ++ flatIdsL fs2 := rfl
              rw [hflat] at hnodup
              have hnodup2 : (flatIdsL (zipF cs rects ++ fs2)).Nodup := by
                rw [flatIdsL_append, flatIdsL_zipF cs rects hlen]
                have : ((i :: cs.idsF) ++ flatIdsL fs2) = i :: (cs.idsF ++ flatIdsL fs2) := rfl
                rw [this] at hnodup
                exact (List.nodup_cons.mp hnodup).2
              have hinotin : i ∉ cs.idsF ++ flatIdsL fs2 := by
                have : ((i :: cs.idsF) ++ flatIdsL fs2) = i :: (cs.idsF ++ flatIdsL fs2) := rfl
                rw [this] at hnodup
                exact (List.nodup_cons.mp hnodup).1
              have hsz2 : sizeSumL (zipF cs rects ++ fs2) ≤ fuel := by
                rw [sizeSumL_append, sizeSumL_zipF cs rects hlen]
                rw [sizeSumL, RTree.rsize] at hsz
                omega
              have hok2 : ∀ q ∈ zipF cs rects ++ fs2, structOk s1.nodes q.1 = true := by
                intro q hq
                rw [structOk_congr s.nodes s1.nodes hskel1 q.1]
                rcases List.mem_append.mp hq with h1 | h2
                · exact structOkF_toList hokF q.1 (mem_zipF h1)
                · exact hokrest q h2
              obtain ⟨htrees, hnext, hskel2, huntouched, hassigned⟩ :=
                ih (zipF cs rects ++ fs2) s1 s2 hok2 hnodup2 hsz2 hrun
              have hgets1 : s1.nodes.get i = some ⟨np, .container { co with area := r }⟩ := by
                rw [show s1.nodes = s.nodes.set i ⟨np, .container { co with area := r }⟩ from rfl]
                exact SMap.get_set_self _ hg
              have huni : s2.nodes.get i = some ⟨np, .container { co with area := r }⟩ := by
                rw [huntouched i (by rw [flatIdsL_append, flatIdsL_zipF cs rects hlen]
                                     exact hinotin)]
                exact hgets1
              refine ⟨htrees, hnext, ?_, ?_, ?_⟩
              · intro k
                rw [hskel2 k, hskel1 k]
              · intro k hk
                rw [hflat] at hk
                have hk1 : k ≠ i := by
                  intro hh
                  subst hh
                  exact hk (List.mem_append.mpr (Or.inl (List.mem_cons_self k _)))
                have hk2 : k ∉ flatIdsL (zipF cs rects ++ fs2) := by
                  rw [flatIdsL_append, flatIdsL_zipF cs rects hlen]
                  intro hh
                  rcases List.mem_append.mp hh with h1 | h2
                  · exact hk (List.mem_append.mpr (Or.inl (List.mem_cons_of_mem _ h1)))
                  · exact hk (List.mem_append.mpr (Or.inr h2))
                rw [huntouched k hk2,
                  show s1.nodes = s.nodes.set i ⟨np, .container { co with area := r }⟩ from rfl,
                  SMap.get_set_ne _ _ _ hk1]
              · intro q hq
                rcases List.mem_cons.mp hq with rfl | hq2
                · rw [Assigned]
                  refine ⟨⟨np, .container { co with area := r }⟩, { co with area := r }, rects,
                    huni, rfl, rfl, ?_, ?_⟩
                  · show Tabs.subdivRects co.layout r cs.rootIds.length = some rects
                    rw [← hch]
                    exact hsubdiv
                  · exact AssignedF_of_zipF hlen
                      (fun q hq => hassigned q (List.mem_append.mpr (Or.inl hq)))
                · exact hassigned q (List.mem_append.mpr (Or.inr hq2))

/-! ### recalculate_tab specifications -/

theorem shapeOk_cont_elim {a : SMap Node} {p i : ViewId} {cs : RForest}
    (h : shapeOk a p (.cont i cs) = true) :
    ∃ co, a.get i = some ⟨p, .container co⟩ ∧ co.children = cs.rootIds ∧
      shapeOkF a i cs = true := by
  rw [shapeOk] at h
  cases hg : a.get i with
  | none => rw [hg] at h; simp at h
  | some n =>
    obtain ⟨np, nc⟩ := n
    rw [hg] at h
    cases nc with
    | view v => simp at h
    | container co =>
      simp only [Bool.and_eq_true, decide_eq_true_eq] at h
      refine ⟨co, ?_, h.1.2, h.2⟩
      rw [h.1.1]

theorem shapeOk_pane_elim {a : SMap Node} {p i : ViewId}
    (h : shapeOk a p (.pane i) = true) :
    ∃ v, a.get i = some ⟨p, .view v⟩ ∧ v.id = i := by
  rw [shapeOk] at h
  cases hg : a.get i with
  | none => rw [hg] at h; simp at h
  | some n =>
    obtain ⟨np, nc⟩ := n
    rw [hg] at h
    cases nc with
    | container co => simp at h
    | view v =>
      simp only [Bool.and_eq_true, decide_eq_true_eq] at h
      refine ⟨v, ?_, h.2⟩
      rw [h.1]

theorem tabIsEmpty_of_shape {s : Tabs} {tab : TabId} {tree : Tree} {cs : RForest}
    (htree : s.trees.get tab = some tree)
    (hshape : shapeOk s.nodes tree.root (.cont tree.root cs) = true) :
    s.tabIsEmpty tab = some cs.rootIds.isEmpty := by
  obtain ⟨co, hg, hch, _⟩ := shapeOk_cont_elim hshape
  unfold Tabs.tabIsEmpty
  rw [htree]
  simp only [Option.bind_eq_bind, Option.some_bind]
  rw [hg]
  simp only [Option.bind_eq_bind, Option.some_bind]
  rw [hch]
  rfl

/-- An empty workspace skips the geometry pass and forces focus to root. -/
theorem recalcTab_spec_empty {s : Tabs} {tab : TabId} {tree : Tree}
    (htree : s.trees.get tab = some tree)
    (hshape : shapeOk s.nodes tree.root (.cont tree.root .nil) = true) :
    s.recalcTab tab = some { s with trees := s.trees.set tab { tree with focus := tree.root } } := by
  have hempty := tabIsEmpty_of_shape htree hshape
  unfold Tabs.recalcTab
  rw [hempty]
  simp only [Option.bind_eq_bind, Option.some_bind]
  rw [show (RForest.nil.rootIds).isEmpty = true from rfl, if_pos rfl, htree]
  rfl

/-- A non-empty workspace runs the stack machine: trees are untouched,
node skeletons are preserved, only the tree's ids change, and the final
rectangles are exactly the recursive subdivision of the tree's area. -/
theorem recalcTab_spec_nonempty {s s2 : Tabs} {tab : TabId} {tree : Tree} {cs : RForest}
    (htree : s.trees.get tab = some tree)
    (hshape : shapeOk s.nodes tree.root (.cont tree.root cs) = true)
    (hnodup : (RTree.cont tree.root cs).ids.Nodup)
    (hne : cs ≠ .nil)
    (hstack : tree.stack = [])
    (hrun : s.recalcTab tab = some s2) :
    (∀ j, s2.trees.get j = s.trees.get j) ∧
    s2.nodes.nextKey = s.nodes.nextKey ∧
    (∀ k, (s2.nodes.get k).map Node.skel = (s.nodes.get k).map Node.skel) ∧
    (∀ k, k ∉ (RTree.cont tree.root cs).ids → s2.nodes.get k = s.nodes.get k) ∧
    Assigned s2.nodes (.cont tree.root cs) tree.area := by
  have hempty := tabIsEmpty_of_shape htree hshape
  have hcsne : cs.rootIds.isEmpty = false := by
    cases cs with
    | nil => exact absurd rfl hne
    | cons t ts => rfl
  unfold Tabs.recalcTab at hrun
  rw [hempty] at hrun
  simp only [Option.bind_eq_bind, Option.some_bind] at hrun
  rw [hcsne] at hrun
  rw [if_neg (by simp)] at hrun
  rw [htree] at hrun
  simp only [Option.bind_eq_bind, Option.some_bind] at hrun
  rw [hstack] at hrun
  cases hmid : Tabs.recalcLoop (s.nodes.entries.length + 1) s
      ((tree.root, tree.area) :: List.reverse []) with
  | none => rw [hmid] at hrun; simp at hrun
  | some smid =>
    rw [hmid] at hrun
    simp only [Option.bind_eq_bind, Option.some_bind] at hrun
    have hstk :
        ((tree.root, tree.area) :: List.reverse [] : List (ViewId × Rect))
          = stackOfL [(RTree.cont tree.root cs, tree.area)] := rfl
    rw [hstk] at hmid
    have hstruct := shapeOk_structOk hshape
    have hszb : sizeSumL [(RTree.cont tree.root cs, tree.area)] ≤ s.nodes.entries.length + 1 := by
      rw [sizeSumL, sizeSumL]
      show (RTree.cont tree.root cs).rsize + 0 ≤ s.nodes.entries.length + 1
      have := rsize_le_arena hstruct hnodup
      omega
    have hflat : flatIdsL [(RTree.cont tree.root cs, tree.area)]
        = (RTree.cont tree.root cs).ids := by
      rw [flatIdsL, flatIdsL, List.append_nil]
    obtain ⟨htrees, hnext, hskel, hunt, hass⟩ :=
      recalcLoop_spec _ [(RTree.cont tree.root cs, tree.area)] s smid
        (by intro p hp; rcases List.mem_singleton.mp hp with rfl; exact hstruct)
        (by rw [hflat]; exact hnodup) hszb hmid
    rw [htrees, htree] at hrun
    simp only [Option.bind_eq_bind, Option.some_bind] at hrun
    have htreeeq : ({ tree with stack := [] } : Tree) = tree := by
      obtain ⟨a1, a2, a3, a4, a5, a6⟩ := tree
      simp only at hstack
      rw [hstack]
    rw [htreeeq] at hrun
    obtain rfl : ({ trees := s.trees.set tab tree, nodes := smid.nodes, focus := smid.focus } : Tabs) = s2 := Option.some_inj.mp (by exact hrun)
    refine ⟨?_, hnext, hskel, ?_, ?_⟩
    · intro j
      show (s.trees.set tab tree).get j = s.trees.get j
      rw [SMap.get_set]
      by_cases hj : j = tab
      · subst hj
        rw [if_pos rfl, htree]
        rfl
      · rw [if_neg hj]
    · intro k hk
      rw [← hflat] at hk
      exact hunt k hk
    · exact hass _ (List.mem_singleton_self _)

/-! ### From Assigned to the tiling statement -/

theorem Assigned_rootArea {a : SMap Node} : ∀ {t : RTree} {r : Rect},
    Assigned a t r → childAreaOf a t.rootId = some r
  | .pane i, r, h => by
    rw [Assigned] at h
    obtain ⟨n, v, hg, hc, ha⟩ := h
    rw [RTree.rootId]
    unfold childAreaOf
    rw [hg]
    simp only [Option.bind_eq_bind, Option.some_bind]
    rw [hc]
    show some v.area = some r
    rw [ha]
  | .cont i cs, r, h => by
    rw [Assigned] at h
    obtain ⟨n, co, rects, hg, hc, ha, _, _⟩ := h
    rw [RTree.rootId]
    unfold childAreaOf
    rw [hg]
    simp only [Option.bind_eq_bind, Option.some_bind]
    rw [hc]
    show some co.area = some r
    rw [ha]

theorem mapM_childAreaOf {a : SMap Node} : ∀ {cs : RForest} {rects : List Rect},
    AssignedF a cs rects → cs.rootIds.mapM (childAreaOf a) = some rects
  | .nil, rects, h => by
    rw [AssignedF] at h
    subst h
    rfl
  | .cons t ts, rects, h => by
    rw [AssignedF] at h
    obtain ⟨r, rs2, rfl, hA, hF⟩ := h
    rw [RForest.rootIds, List.mapM_cons, Assigned_rootArea hA, mapM_childAreaOf hF]
    rfl

theorem subdivRects_len_pos {l : Layout} {carea : Rect} {len : Nat} {rects : List Rect}
    (h : Tabs.subdivRects l carea len = some rects) : 1 ≤ len := by
  by_contra hlt
  have hlen0 : len = 0 := by omega
  subst hlen0
  cases l with
  | Horizontal => unfold Tabs.subdivRects Tabs.horizRects at h; simp at h
  | Vertical => unfold Tabs.subdivRects Tabs.vertRects at h; simp at h

theorem structOk_cont_elim {a : SMap Node} {i : ViewId} {cs : RForest}
    (h : structOk a (.cont i cs) = true) :
    ∃ np co, a.get i = some ⟨np, .container co⟩ ∧ co.children = cs.rootIds ∧
      structOkF a cs = true := by
  rw [structOk] at h
  cases hg : a.get i with
  | none => rw [hg] at h; simp at h
  | some n =>
    obtain ⟨np, nc⟩ := n
    rw [hg] at h
    cases nc with
    | view v => simp at h
    | container co =>
      simp only [Bool.and_eq_true, decide_eq_true_eq] at h
      exact ⟨np, co, rfl, h.1, h.2⟩

mutual
theorem Assigned_tiles {a : SMap Node} : ∀ {t : RTree} {r : Rect},
    structOk a t = true → Assigned a t r →
    ∀ c n co, c ∈ t.ids → a.get c = some n → n.content = .container co →
    ∃ rects, co.children.mapM (childAreaOf a) = some rects ∧ tiles co.layout co.area rects
  | .pane i, r, hok, hA => by
    intro c n co hc hg hcont
    rw [RTree.ids] at hc
    rcases List.mem_singleton.mp hc with rfl
    rw [Assigned] at hA
    obtain ⟨n2, v, hg2, hcv, _⟩ := hA
    rw [hg] at hg2
    obtain rfl := Option.some_inj.mp hg2
    rw [hcont] at hcv
    exact absurd hcv (by simp)
  | .cont i cs, r, hok, hA => by
    intro c n co hc hg hcont
    rw [RTree.ids] at hc
    rw [Assigned] at hA
    obtain ⟨n2, co2, rects, hg2, hc2, ha2, hsub2, hF2⟩ := hA
    obtain ⟨np3, co3, hg3, hch3, hokF3⟩ := structOk_cont_elim hok
    rw [hg2] at hg3
    have hn2 : n2 = ⟨np3, .container co3⟩ := Option.some_inj.mp hg3
    have hco32 : co2 = co3 := by
      rw [hn2] at hc2
      have h2 : Content.container co3 = Content.container co2 := hc2
      injection h2 with hh
      exact hh.symm
    rcases List.mem_cons.mp hc with rfl | hcdeep
    · rw [hg] at hg2
      have hn : n = n2 := Option.some_inj.mp hg2
      have hco : co = co2 := by
        rw [hn, hn2] at hcont
        have h2 : Content.container co3 = Content.container co := hcont
        injection h2 with hh
        rw [hco32]
        exact hh.symm
      refine ⟨rects, ?_, ?_⟩
      · rw [hco, hco32, hch3, mapM_childAreaOf hF2]
      · have hlenpos := subdivRects_len_pos hsub2
        rw [← ha2] at hsub2
        rw [hco]
        exact subdivRects_tiles hlenpos hsub2
    · exact AssignedF_tiles hokF3 hF2 c n co hcdeep hg hcont
theorem AssignedF_tiles {a : SMap Node} : ∀ {f : RForest} {rs : List Rect},
    structOkF a f = true → AssignedF a f rs →
    ∀ c n co, c ∈ f.idsF → a.get c = some n → n.content = .container co →
    ∃ rects, co.children.mapM (childAreaOf a) = some rects ∧ tiles co.layout co.area rects
  | .nil, rs, hok, hF => by
    intro c n co hc
    rw [RForest.idsF] at hc
    exact absurd hc (List.not_mem_nil c)
  | .cons t ts, rs, hok, hF => by
    intro c n co hc hg hcont
    rw [RForest.idsF] at hc
    rw [structOkF] at hok
    simp only [Bool.and_eq_true] at hok
    rw [AssignedF] at hF
    obtain ⟨r, rs2, rfl, hA, hF2⟩ := hF
    rcases List.mem_append.mp hc with h1 | h2
    · exact Assigned_tiles hok.1 hA c n co h1 hg hcont
    · exact AssignedF_tiles hok.2 hF2 c n co h2 hg hcont
end

/-- C2: after a completed Layout Solver pass on a non-empty workspace,
every container's children rectangles tile it: on the Horizontal axis the
heights partition the container exactly with full-width children; on the
Vertical axis full-height children are separated by exactly 1 cell and the
last child's right edge coincides with the container's right edge. -/
theorem c2_layout_tiles (s s2 : Tabs) (tab : TabId) (tree : Tree) (cs : RForest)
    (htree : s.trees.get tab = some tree)
    (hshape : shapeOk s.nodes tree.root (.cont tree.root cs) = true)
    (hnodup : (RTree.cont tree.root cs).ids.Nodup)
    (hne : cs ≠ RForest.nil)
    (hstack : tree.stack = [])
    (hrun : s.recalcTab tab = some s2) :
    ∀ c n co, c ∈ (RTree.cont tree.root cs).ids → s2.nodes.get c = some n →
      n.content = .container co →
      ∃ rects, co.children.mapM (childAreaOf s2.nodes) = some rects ∧
        tiles co.layout co.area rects := by
  obtain ⟨htrees, hnext, hskel, hunt, hass⟩ :=
    recalcTab_spec_nonempty htree hshape hnodup hne hstack hrun
  have hstruct2 : structOk s2.nodes (.cont tree.root cs) = true := by
    rw [structOk_congr s.nodes s2.nodes hskel]
    exact shapeOk_structOk hshape
  exact Assigned_tiles hstruct2 hass

/-- C2 witness: the horizontal split container (id 5) of the scenario
state tiles its area after a pass. -/
theorem c2_witness :
    ∃ rects, c2Co5.children.mapM (childAreaOf c2After.nodes) = some rects ∧
      tiles c2Co5.layout c2Co5.area rects :=
  c2_layout_tiles scenarioState c2After 1 ((scenarioState.trees.get 1).getD Tree.tdefault)
    scenCS (by decide) (by decide) (by decide)
    (fun h => RForest.noConfusion h) (by decide) (by decide)
    5 c2Node5 c2Co5 (by decide) (by decide) (by decide)

/-! ### Resize (`resize_tab` / `resize`) -/

/-- The layout stack machine never touches the tree table or the focus. -/
theorem recalcLoop_trees : ∀ (fuel : Nat) (l : List (ViewId × Rect)) (s s2 : Tabs),
    Tabs.recalcLoop fuel s l = some s2 → s2.trees = s.trees ∧ s2.focus = s.focus
  | 0, [], s, s2, h => by
    rw [Tabs.recalcLoop] at h
    obtain rfl : s = s2 := Option.some_inj.mp h
    exact ⟨rfl, rfl⟩
  | fuel + 1, [], s, s2, h => by
    rw [Tabs.recalcLoop] at h
    obtain rfl : s = s2 := Option.some_inj.mp h
    exact ⟨rfl, rfl⟩
  | 0, p :: stk, s, s2, h => by
    rw [Tabs.recalcLoop] at h
    cases h
  | fuel + 1, (key, area) :: stk, s, s2, h => by
    rw [Tabs.recalcLoop] at h
    cases hg : s.nodes.get key with
    | none => rw [hg] at h; simp at h
    | some n =>
      rw [hg] at h
      simp only [Option.bind_eq_bind, Option.some_bind] at h
      obtain ⟨np, nc⟩ := n
      cases nc with
      | view v =>
        have h2 : Tabs.recalcLoop fuel
            { s with nodes := s.nodes.set key ⟨np, .view { v with area := area }⟩ } stk
            = some s2 := h
        have h3 := recalcLoop_trees fuel stk _ s2 h2
        exact h3
      | container co =>
        have h2 : (Tabs.subdivRects co.layout area co.children.length).bind
            (fun rects => Tabs.recalcLoop fuel
              { s with nodes := s.nodes.set key ⟨np, .container { co with area := area }⟩ }
              (co.children.zip rects ++ stk))
            = some s2 := h
        cases hr : Tabs.subdivRects co.layout area co.children.length with
        | none => rw [hr] at h2; simp at h2
        | some rects =>
          rw [hr] at h2
          simp only [Option.some_bind] at h2
          have h3 := recalcLoop_trees fuel _ _ s2 h2
          exact h3

/-- `recalculate_tab` can change the tree table only at the addressed tab,
and there it preserves the stored area, root and id. -/
theorem recalcTab_record {s s2 : Tabs} {tab : TabId} (h : s.recalcTab tab = some s2) :
    (∀ j, j ≠ tab → s2.trees.get j = s.trees.get j) ∧
    s2.trees.nextKey = s.trees.nextKey ∧
    ∃ tr tr2, s.trees.get tab = some tr ∧ s2.trees.get tab = some tr2 ∧
      tr2.area = tr.area ∧ tr2.root = tr.root ∧ tr2.id = tr.id ∧
      tr2.nodes = tr.nodes ∧ (tr2.stack = tr.stack ∨ tr2.stack = []) ∧
      (tr2.focus = tr.focus ∨ tr2.focus = tr.root) := by
  unfold Tabs.recalcTab at h
  cases he : s.tabIsEmpty tab with
  | none => rw [he] at h; simp at h
  | some bempty =>
    rw [he] at h
    simp only [Option.bind_eq_bind, Option.some_bind] at h
    cases bempty with
    | true =>
      rw [if_pos rfl] at h
      cases htr : s.trees.get tab with
      | none => rw [htr] at h; simp at h
      | some tr =>
        rw [htr] at h
        simp only [Option.bind_eq_bind, Option.some_bind] at h
        obtain rfl : ({ s with trees := s.trees.set tab { tr with focus := tr.root } } : Tabs) = s2 :=
          Option.some_inj.mp h
        refine ⟨?_, rfl, tr, { tr with focus := tr.root }, rfl, ?_, rfl, rfl, rfl, rfl,
          Or.inl rfl, Or.inr rfl⟩
        · intro j hj
          exact SMap.get_set_ne s.trees tab _ hj
        · exact SMap.get_set_self _ htr
    | false =>
      rw [if_neg (by simp)] at h
      cases htr : s.trees.get tab with
      | none => rw [htr] at h; simp at h
      | some tr =>
        rw [htr] at h
        simp only [Option.bind_eq_bind, Option.some_bind] at h
        cases hmid : Tabs.recalcLoop (s.nodes.entries.length + 1) s
            ((tr.root, tr.area) :: tr.stack.reverse) with
        | none => rw [hmid] at h; simp at h
        | some smid =>
          rw [hmid] at h
          simp only [Option.bind_eq_bind, Option.some_bind] at h
          have htrees := (recalcLoop_trees _ _ _ _ hmid).1
          cases htr2 : smid.trees.get tab with
          | none => rw [htr2] at h; simp at h
          | some tr2m =>
            rw [htr2] at h
            simp only [Option.bind_eq_bind, Option.some_bind] at h
            obtain rfl :
                ({ smid with trees := smid.trees.set tab { tr2m with stack := [] } } : Tabs) = s2 :=
              Option.some_inj.mp h
            have htr2b := htr2
            rw [htrees, htr] at htr2b
            have htr2m : tr2m = tr := Option.some_inj.mp htr2b.symm
            refine ⟨?_, ?_, tr, { tr2m with stack := [] }, rfl, ?_, ?_, ?_, ?_, ?_,
              Or.inr rfl, ?_⟩
            · intro j hj
              show (smid.trees.set tab _).get j = s.trees.get j
              rw [SMap.get_set_ne smid.trees tab _ hj, htrees]
            · show smid.trees.nextKey = s.trees.nextKey
              rw [htrees]
            · exact SMap.get_set_self _ htr2
            · show tr2m.area = tr.area
              exact congrArg Tree.area htr2m
            · show tr2m.root = tr.root
              exact congrArg Tree.root htr2m
            · show tr2m.id = tr.id
              exact congrArg Tree.id htr2m
            · show tr2m.nodes = tr.nodes
              exact congrArg Tree.nodes htr2m
            · show tr2m.focus = tr.focus ∨ tr2m.focus = tr.root
              exact Or.inl (congrArg Tree.focus htr2m)

/-- A successful `resize_tab` reports `true` exactly when the stored
rectangle differed from the requested one, and leaves every other tab's
tree record unchanged. -/
theorem resizeTab_success {s s2 : Tabs} {tab : TabId} {area : Rect} {b : Bool}
    (h : s.resizeTab tab area = some (s2, b)) :
    ∃ tr, s.trees.get tab = some tr ∧ (b = true ↔ tr.area ≠ area) ∧
      (∀ j, j ≠ tab → s2.trees.get j = s.trees.get j) := by
  unfold Tabs.resizeTab at h
  cases htr : s.trees.get tab with
  | none => rw [htr] at h; simp at h
  | some tr =>
    rw [htr] at h
    simp only [Option.bind_eq_bind, Option.some_bind] at h
    by_cases harea : tr.area = area
    · rw [if_neg (fun hc => hc harea)] at h
      have h2 : ((s, false) : Tabs × Bool) = (s2, b) := Option.some_inj.mp h
      obtain ⟨rfl, rfl⟩ := Prod.mk.inj h2
      exact ⟨tr, rfl, by simp [harea], fun j _ => rfl⟩
    · rw [if_pos harea] at h
      cases hrc : Tabs.recalcTab { s with trees := s.trees.set tab { tr with area := area } } tab with
      | none => rw [hrc] at h; simp at h
      | some s3 =>
        rw [hrc] at h
        simp only [Option.some_bind] at h
        have h2 : ((s3, true) : Tabs × Bool) = (s2, b) := Option.some_inj.mp h
        obtain ⟨rfl, rfl⟩ := Prod.mk.inj h2
        refine ⟨tr, rfl, by simp [harea], ?_⟩
        intro j hj
        have hframe := (recalcTab_record hrc).1 j hj
        rw [hframe]
        exact SMap.get_set_ne s.trees tab _ hj

/-- The fold of `resize_tab` over a duplicate-free tab list returns `true`
exactly when the accumulator was `true` or some listed tab's stored
rectangle differed. -/
theorem resizeGo_spec : ∀ (l : List TabId) (s : Tabs) (acc : Bool) {area : Rect}
    {s2 : Tabs} {b : Bool},
    l.Nodup →
    Tabs.resizeGo s area acc l = some (s2, b) →
    (b = true ↔ acc = true ∨ ∃ t ∈ l, ∃ tr, s.trees.get t = some tr ∧ tr.area ≠ area)
  | [], s, acc, area, s2, b, _, h => by
    rw [Tabs.resizeGo] at h
    have h2 : ((s, acc) : Tabs × Bool) = (s2, b) := Option.some_inj.mp h
    obtain ⟨rfl, rfl⟩ := Prod.mk.inj h2
    simp
  | t :: rest, s, acc, area, s2, b, hnodup, h => by
    rw [Tabs.resizeGo] at h
    cases hrt : s.resizeTab t area with
    | none => rw [hrt] at h; simp at h
    | some p =>
      obtain ⟨s1, b1⟩ := p
      rw [hrt] at h
      simp only [Option.bind_eq_bind, Option.some_bind] at h
      have hnd := List.nodup_cons.mp hnodup
      have ih := resizeGo_spec rest s1 (acc || b1) hnd.2 h
      obtain ⟨tr, htr, hflag, hframe⟩ := resizeTab_success hrt
      rw [ih, Bool.or_eq_true]
      constructor
      · rintro ((hacc | hb1) | ⟨t2, ht2, tr2, hg, hne⟩)
        · exact Or.inl hacc
        · exact Or.inr ⟨t, List.mem_cons_self t rest, tr, htr, hflag.mp hb1⟩
        · have hne2 : t2 ≠ t := fun hh => hnd.1 (hh ▸ ht2)
          refine Or.inr ⟨t2, List.mem_cons_of_mem t ht2, tr2, ?_, hne⟩
          rw [← hframe t2 hne2]
          exact hg
      · rintro (hacc | ⟨t2, ht2, tr2, hg, hne⟩)
        · exact Or.inl (Or.inl hacc)
        · rcases List.mem_cons.mp ht2 with rfl | hdeep
          · rw [htr] at hg
            obtain rfl := Option.some_inj.mp hg
            exact Or.inl (Or.inr (hflag.mpr hne))
          · have hne2 : t2 ≠ t := fun hh => hnd.1 (hh ▸ hdeep)
            refine Or.inr ⟨t2, hdeep, tr2, ?_, hne⟩
            rw [hframe t2 hne2]
            exact hg

/-- C8: `resize_tab` on a workspace whose stored rectangle already equals
the requested one is a no-op returning `false`; otherwise (when it
completes) it returns `true`, stores the new rectangle for that workspace,
and leaves every other workspace's tree record unchanged; `resize` folds
this over all workspaces and returns `true` exactly when at least one
workspace's stored rectangle differed from the request. -/
theorem c8_resize (s : Tabs) (tab : TabId) (area : Rect) (tr : Tree)
    (htr : s.trees.get tab = some tr) :
    (tr.area = area → s.resizeTab tab area = some (s, false)) ∧
    (∀ s2 b, tr.area ≠ area → s.resizeTab tab area = some (s2, b) →
      b = true ∧ (∃ tr2, s2.trees.get tab = some tr2 ∧ tr2.area = area ∧ tr2.root = tr.root) ∧
      (∀ j, j ≠ tab → s2.trees.get j = s.trees.get j)) ∧
    (∀ s2 b, s.trees.keys.Nodup → s.resize area = some (s2, b) →
      (b = true ↔ ∃ t tr2, s.trees.get t = some tr2 ∧ tr2.area ≠ area)) := by
  refine ⟨?_, ?_, ?_⟩
  · intro heq
    unfold Tabs.resizeTab
    rw [htr]
    simp only [Option.bind_eq_bind, Option.some_bind]
    rw [if_neg (fun hc => hc heq)]
    rfl
  · intro s2 b hne h
    unfold Tabs.resizeTab at h
    rw [htr] at h
    simp only [Option.bind_eq_bind, Option.some_bind] at h
    rw [if_pos hne] at h
    cases hrc : Tabs.recalcTab { s with trees := s.trees.set tab { tr with area := area } } tab with
    | none => rw [hrc] at h; simp at h
    | some s3 =>
      rw [hrc] at h
      simp only [Option.some_bind] at h
      have h2 : ((s3, true) : Tabs × Bool) = (s2, b) := Option.some_inj.mp h
      obtain ⟨rfl, rfl⟩ := Prod.mk.inj h2
      obtain ⟨hframe, _, tr1, tr2, htr1, htr2, harea2, hroot2, _, _, _, _⟩ := recalcTab_record hrc
      have htr1eq : tr1 = { tr with area := area } := by
        rw [SMap.get_set_self _ htr] at htr1
        exact Option.some_inj.mp htr1.symm
      subst htr1eq
      refine ⟨rfl, ⟨tr2, htr2, harea2, hroot2⟩, ?_⟩
      intro j hj
      rw [hframe j hj]
      exact SMap.get_set_ne s.trees tab _ hj
  · intro s2 b hnodup h
    have := resizeGo_spec s.trees.keys s false hnodup h
    rw [this]
    constructor
    · rintro (hf | ⟨t, _, tr2, hg, hne⟩)
      · cases hf
      · exact ⟨t, tr2, hg, hne⟩
    · rintro ⟨t, tr2, hg, hne⟩
      exact Or.inr ⟨t, SMap.get_some_mem_keys hg, tr2, hg, hne⟩

/-- C8 witness: resizing the scenario workspace to its current rectangle
is a no-op returning `false`. -/
theorem c8_witness : scenarioState.resizeTab 1 demoRect = some (scenarioState, false) :=
  (c8_resize scenarioState 1 demoRect ((scenarioState.trees.get 1).getD Tree.tdefault)
    (by decide)).1 (by decide)

/-! ### Whole-set layout passes (`recalculate`) -/

theorem tabShapeB_spec {a : SMap Node} {tree : Tree} {rt : RTree}
    (h : tabShapeB a tree rt = true) :
    (∃ cs, rt = .cont tree.root cs) ∧ shapeOk a tree.root rt = true ∧
      rt.ids.Nodup ∧ tree.stack = [] := by
  cases rt with
  | pane i =>
    rw [tabShapeB] at h
    simp at h
  | cont i cs =>
    rw [tabShapeB] at h
    simp only [Bool.and_eq_true, decide_eq_true_eq] at h
    obtain ⟨⟨⟨hi, hs⟩, hn⟩, hst⟩ := h
    subst hi
    exact ⟨⟨cs, rfl⟩, hs, hn, hst⟩

theorem tabShapeB_congr {a a2 : SMap Node}
    (h : ∀ i, (a2.get i).map Node.skel = (a.get i).map Node.skel)
    (tree : Tree) (rt : RTree) : tabShapeB a2 tree rt = tabShapeB a tree rt := by
  rw [tabShapeB.eq_def, tabShapeB.eq_def, shapeOk_congr a a2 h]

theorem disjB_spec {w : TabId → RTree} : ∀ {l : List TabId}, disjB w l = true →
    ∀ j1 ∈ l, ∀ j2 ∈ l, j1 ≠ j2 → ∀ v ∈ (w j1).ids, v ∉ (w j2).ids
  | [], _, j1, h1, _, _, _, _, _ => absurd h1 (List.not_mem_nil j1)
  | j :: rest, h, j1, h1, j2, h2, hne, v, hv => by
    rw [disjB, Bool.and_eq_true] at h
    obtain ⟨hhead, htail⟩ := h
    rw [List.all_eq_true] at hhead
    rcases List.mem_cons.mp h1 with rfl | h1r
    · rcases List.mem_cons.mp h2 with rfl | h2r
      · exact absurd rfl hne
      · have h3 := hhead j2 h2r
        simp only [Bool.and_eq_true, List.all_eq_true, decide_eq_true_eq] at h3
        exact h3.1 v hv
    · rcases List.mem_cons.mp h2 with rfl | h2r
      · have h3 := hhead j1 h1r
        simp only [Bool.and_eq_true, List.all_eq_true, decide_eq_true_eq] at h3
        exact h3.2 v hv
      · exact disjB_spec htail j1 h1r j2 h2r hne v hv

theorem allTabsShapeB_spec {s : Tabs} {w : TabId → RTree} (h : allTabsShapeB s w = true) :
    (∀ j ∈ s.trees.keys, ∃ trj, s.trees.get j = some trj ∧ tabShapeB s.nodes trj (w j) = true) ∧
    (∀ j1 ∈ s.trees.keys, ∀ j2 ∈ s.trees.keys, j1 ≠ j2 → ∀ v ∈ (w j1).ids, v ∉ (w j2).ids) := by
  rw [allTabsShapeB, Bool.and_eq_true] at h
  obtain ⟨hall, hdisj⟩ := h
  rw [List.all_eq_true] at hall
  refine ⟨?_, disjB_spec hdisj⟩
  intro j hj
  have h2 := hall j hj
  cases hg : s.trees.get j with
  | none => rw [hg] at h2; simp at h2
  | some trj =>
    rw [hg] at h2
    exact ⟨trj, rfl, h2⟩

/-- Uniform arena conclusions of one `recalculate_tab` pass under the
per-tab package: skeletons preserved, next key preserved, nodes outside
the tab's ids untouched, and the tab's subtree assigned from its stored
area (when non-empty). -/
theorem recalcTab_nodes_spec {s s2 : Tabs} {tab : TabId} {tree : Tree} {rt : RTree}
    (htree : s.trees.get tab = some tree)
    (hpkg : tabShapeB s.nodes tree rt = true)
    (hrun : s.recalcTab tab = some s2) :
    (∀ k, (s2.nodes.get k).map Node.skel = (s.nodes.get k).map Node.skel) ∧
    s2.nodes.nextKey = s.nodes.nextKey ∧
    (∀ k, k ∉ rt.ids → s2.nodes.get k = s.nodes.get k) ∧
    (∀ cs, rt = .cont tree.root cs → cs ≠ .nil →
      (∀ j, s2.trees.get j = s.trees.get j) ∧
      Assigned s2.nodes (.cont tree.root cs) tree.area) := by
  obtain ⟨⟨cs, rfl⟩, hshape, hnodup, hstack⟩ := tabShapeB_spec hpkg
  cases cs with
  | nil =>
    have heq := recalcTab_spec_empty htree hshape
    rw [heq] at hrun
    obtain rfl := Option.some_inj.mp hrun
    refine ⟨fun k => rfl, rfl, fun k _ => rfl, ?_⟩
    intro cs2 heq2 hne2
    injection heq2 with h1 h2
    subst h2
    exact absurd rfl hne2
  | cons t ts =>
    obtain ⟨htrees, hnext, hskel, hunt, hass⟩ :=
      recalcTab_spec_nonempty htree hshape hnodup (fun hh => RForest.noConfusion hh) hstack hrun
    refine ⟨hskel, hnext, hunt, ?_⟩
    intro cs2 heq2 hne2
    injection heq2 with h1 h2
    subst h2
    exact ⟨htrees, hass⟩

/-- The whole-set layout fold: over a duplicate-free tab list whose tabs
all carry disjoint shape packages, the pass preserves all skeletons, both
next keys, nodes outside the listed tabs' ids, and all unlisted tree
records; every listed tab keeps its area, root, id and member list, and a
non-empty listed tab ends up assigned from its own stored area. -/
theorem recalcAllGo_spec (w : TabId → RTree) :
    ∀ (l : List TabId) (s s2 : Tabs),
    l.Nodup →
    (∀ j ∈ l, ∃ trj, s.trees.get j = some trj ∧ tabShapeB s.nodes trj (w j) = true) →
    (∀ j1 ∈ l, ∀ j2 ∈ l, j1 ≠ j2 → ∀ v ∈ (w j1).ids, v ∉ (w j2).ids) →
    Tabs.recalcAllGo s l = some s2 →
    (∀ k, (s2.nodes.get k).map Node.skel = (s.nodes.get k).map Node.skel) ∧
    s2.nodes.nextKey = s.nodes.nextKey ∧
    s2.trees.nextKey = s.trees.nextKey ∧
    (∀ k, (∀ j ∈ l, k ∉ (w j).ids) → s2.nodes.get k = s.nodes.get k) ∧
    (∀ j, j ∉ l → s2.trees.get j = s.trees.get j) ∧
    (∀ j ∈ l, ∀ trj, s.trees.get j = some trj →
      ∃ trj2, s2.trees.get j = some trj2 ∧ trj2.area = trj.area ∧ trj2.root = trj.root ∧
        trj2.id = trj.id ∧ trj2.nodes = trj.nodes ∧
        (trj2.stack = trj.stack ∨ trj2.stack = []) ∧
        (trj2.focus = trj.focus ∨ trj2.focus = trj.root) ∧
        (∀ cs, w j = .cont trj.root cs → cs ≠ .nil →
          s2.trees.get j = some trj ∧
          Assigned s2.nodes (.cont trj.root cs) trj.area))
  | [], s, s2, _, _, _, h => by
    rw [Tabs.recalcAllGo] at h
    obtain rfl := Option.some_inj.mp h
    exact ⟨fun k => rfl, rfl, rfl, fun k _ => rfl, fun j _ => rfl,
      fun j hj => absurd hj (List.not_mem_nil j)⟩
  | t :: rest, s, s2, hnodup, hex, hdisj, h => by
    rw [Tabs.recalcAllGo] at h
    cases hrc : s.recalcTab t with
    | none => rw [hrc] at h; simp at h
    | some s1 =>
      rw [hrc] at h
      simp only [Option.bind_eq_bind, Option.some_bind] at h
      have hnd := List.nodup_cons.mp hnodup
      obtain ⟨trt, htrt, hpkgt⟩ := hex t (List.mem_cons_self t rest)
      obtain ⟨hskel1, hnext1, hunt1, hass1⟩ := recalcTab_nodes_spec htrt hpkgt hrc
      obtain ⟨hframe1, htnk1, tr1a, tr1b, htr1a, htr1b, harea1, hroot1, hid1, hnodes1,
        hstack1, hfocus1⟩ := recalcTab_record hrc
      have hta : tr1a = trt := by
        rw [htrt] at htr1a
        exact Option.some_inj.mp htr1a.symm
      have hex1 : ∀ j ∈ rest, ∃ trj, s1.trees.get j = some trj ∧
          tabShapeB s1.nodes trj (w j) = true := by
        intro j hj
        obtain ⟨trj, htrj, hpkgj⟩ := hex j (List.mem_cons_of_mem t hj)
        have hjt : j ≠ t := fun hh => hnd.1 (by rw [← hh]; exact hj)
        refine ⟨trj, ?_, ?_⟩
        · rw [hframe1 j hjt]
          exact htrj
        · rw [tabShapeB_congr hskel1]
          exact hpkgj
      have hdisj1 : ∀ j1 ∈ rest, ∀ j2 ∈ rest, j1 ≠ j2 → ∀ v ∈ (w j1).ids, v ∉ (w j2).ids :=
        fun j1 h1 j2 h2 => hdisj j1 (List.mem_cons_of_mem t h1) j2 (List.mem_cons_of_mem t h2)
      obtain ⟨ihskel, ihnk, ihtnk, ihunt, ihframe, ihtab⟩ :=
        recalcAllGo_spec w rest s1 s2 hnd.2 hex1 hdisj1 h
      refine ⟨?_, ?_, ?_, ?_, ?_, ?_⟩
      · intro k
        rw [ihskel k, hskel1 k]
      · rw [ihnk, hnext1]
      · rw [ihtnk, htnk1]
      · intro k hk
        rw [ihunt k (fun j hj => hk j (List.mem_cons_of_mem t hj)),
          hunt1 k (hk t (List.mem_cons_self t rest))]
      · intro j hj
        rw [ihframe j (fun hh => hj (List.mem_cons_of_mem t hh)),
          hframe1 j (fun hh => hj (by rw [hh]; exact List.mem_cons_self t rest))]
      · intro j hj trj htrj
        rcases List.mem_cons.mp hj with rfl | hjr
        · have htj : trj = trt := by
            rw [htrt] at htrj
            exact Option.some_inj.mp htrj.symm
          subst htj
          subst hta
          refine ⟨tr1b, ?_, harea1, hroot1, hid1, hnodes1, hstack1, hfocus1, ?_⟩
          · rw [ihframe j hnd.1]
            exact htr1b
          · intro cs heq hne
            obtain ⟨htreesS1, hassS1⟩ := hass1 cs heq hne
            constructor
            · rw [ihframe j hnd.1, htreesS1 j]
              exact htrt
            · refine Assigned_congr ?_ hassS1
              intro i hi
              apply ihunt i
              intro j2 hj2
              have hiwt : i ∈ (w j).ids := by
                rw [heq]
                exact hi
              exact hdisj j (List.mem_cons_self j rest) j2 (List.mem_cons_of_mem j hj2)
                (fun hh => hnd.1 (by rw [hh]; exact hj2)) i hiwt
        · have hjt : j ≠ t := fun hh => hnd.1 (by rw [← hh]; exact hjr)
          have htrj1 : s1.trees.get j = some trj := by
            rw [hframe1 j hjt]
            exact htrj
          exact ihtab j hjr trj htrj1

/-- After a successful whole-set `recalculate` under the global package,
every non-empty workspace keeps its stored area and is assigned from it. -/
theorem recalculate_fresh {smid s2 : Tabs} (w : TabId → RTree)
    (hall : allTabsShapeB smid w = true) (hnodup : smid.trees.keys.Nodup)
    (hrun : smid.recalculate = some s2) :
    ∀ ww trw cs, smid.trees.get ww = some trw → w ww = .cont trw.root cs → cs ≠ .nil →
      (∃ trw2, s2.trees.get ww = some trw2 ∧ trw2.area = trw.area) ∧
      Assigned s2.nodes (.cont trw.root cs) trw.area := by
  rw [Tabs.recalculate] at hrun
  obtain ⟨hex, hdisj⟩ := allTabsShapeB_spec hall
  obtain ⟨_, _, _, _, _, ihtab⟩ :=
    recalcAllGo_spec w smid.trees.keys smid s2 hnodup hex hdisj hrun
  intro ww trw cs htrw heq hne
  have hmem : ww ∈ smid.trees.keys := SMap.get_some_mem_keys htrw
  obtain ⟨trw2, hg2, ha2, _, _, _, _, _, hass⟩ := ihtab ww hmem trw htrw
  exact ⟨⟨trw2, hg2, ha2⟩, (hass cs heq hne).2⟩

/-! ### Frame properties of the mutation phases -/

/-- The removal cascade changes the tree table only at the addressed tab
and keeps its next key. -/
theorem removeLoop_treesFrame : ∀ (fuel : Nat) (stack : List ViewId) (s s2 : Tabs) (tab : TabId),
    Tabs.removeLoop fuel s tab stack = some s2 →
    (∀ j, j ≠ tab → s2.trees.get j = s.trees.get j) ∧ s2.trees.nextKey = s.trees.nextKey
  | 0, [], s, s2, tab, h => by
    rw [Tabs.removeLoop] at h
    obtain rfl := Option.some_inj.mp h
    exact ⟨fun j _ => rfl, rfl⟩
  | fuel + 1, [], s, s2, tab, h => by
    rw [Tabs.removeLoop] at h
    obtain rfl := Option.some_inj.mp h
    exact ⟨fun j _ => rfl, rfl⟩
  | 0, i :: stk, s, s2, tab, h => by
    rw [Tabs.removeLoop] at h
    cases h
  | fuel + 1, index :: stack, s, s2, tab, h => by
    rw [Tabs.removeLoop] at h
    simp only [Option.bind_eq_bind, Option.bind_eq_some] at h
    obtain ⟨n, hn, pn, hpn, hm⟩ := h
    obtain ⟨pp, pc⟩ := pn
    cases pc with
    | view v =>
      dsimp only at hm
      simp only [Option.pure_def, Option.bind_eq_bind, Option.some_bind,
        Option.bind_eq_some] at hm
      obtain ⟨tree1, ht1, hrec⟩ := hm
      obtain ⟨ihf, ihnk⟩ := removeLoop_treesFrame fuel stack _ s2 tab hrec
      constructor
      · intro j hj
        rw [ihf j hj]
        show (s.trees.set tab _).get j = s.trees.get j
        rw [SMap.get_set_ne s.trees tab _ hj]
      · rw [ihnk]; rfl
    | container co =>
      dsimp only at hm
      cases hidx : co.children.findIdx? (· == index) with
      | none =>
        rw [hidx] at hm
        simp only [Option.pure_def, Option.bind_eq_bind, Option.some_bind,
          Option.bind_eq_some] at hm
        obtain ⟨tree1, ht1, hrec⟩ := hm
        obtain ⟨ihf, ihnk⟩ := removeLoop_treesFrame fuel stack _ s2 tab hrec
        constructor
        · intro j hj
          rw [ihf j hj]
          show (s.trees.set tab _).get j = s.trees.get j
          rw [SMap.get_set_ne s.trees tab _ hj]
        · rw [ihnk]; rfl
      | some pos =>
        rw [hidx] at hm
        simp only [Option.pure_def, Option.bind_eq_bind, Option.some_bind,
          Option.bind_eq_some] at hm
        obtain ⟨treeM, htM, hif⟩ := hm
        split at hif
        · simp only [Option.pure_def, Option.bind_eq_bind, Option.some_bind,
            Option.bind_eq_some] at hif
          obtain ⟨tree1, ht1, hrec⟩ := hif
          obtain ⟨ihf, ihnk⟩ := removeLoop_treesFrame fuel _ _ s2 tab hrec
          constructor
          · intro j hj
            rw [ihf j hj]
            show (s.trees.set tab _).get j = s.trees.get j
            rw [SMap.get_set_ne s.trees tab _ hj]
          · rw [ihnk]; rfl
        · simp only [Option.pure_def, Option.bind_eq_bind, Option.some_bind,
            Option.bind_eq_some] at hif
          obtain ⟨tree1, ht1, hrec⟩ := hif
          obtain ⟨ihf, ihnk⟩ := removeLoop_treesFrame fuel _ _ s2 tab hrec
          constructor
          · intro j hj
            rw [ihf j hj]
            show (s.trees.set tab _).get j = s.trees.get j
            rw [SMap.get_set_ne s.trees tab _ hj]
          · rw [ihnk]; rfl

/-- The mutation phase of `insert` changes the tree table only at the
addressed tab and keeps its next key. -/
theorem insertPre_frame {s smid : Tabs} {tab : TabId} {view : View} {vid : ViewId}
    (h : s.insertPre tab view = some (smid, vid)) :
    (∀ j, j ≠ tab → smid.trees.get j = s.trees.get j) ∧
    smid.trees.nextKey = s.trees.nextKey := by
  unfold Tabs.insertPre at h
  simp only [Option.bind_eq_bind, Option.bind_eq_some] at h
  obtain ⟨tree, ht, fnode, hf, nodes2, hsv, pnode, hp, co, hco, hite⟩ := h
  split at hite
  · simp only [Option.pure_def, Option.bind_eq_bind, Option.some_bind, Option.bind_eq_some,
      Option.some.injEq, Prod.mk.injEq] at hite
    obtain ⟨tree2, ht2, hfin, hvid⟩ := hite
    rw [← hfin]
    exact ⟨fun j hj => SMap.get_set_ne s.trees tab _ hj, rfl⟩
  · simp only [Option.pure_def, Option.bind_eq_bind, Option.some_bind, Option.bind_eq_some,
      Option.some.injEq, Prod.mk.injEq] at hite
    obtain ⟨pos, hpos, tree2, ht2, hfin, hvid⟩ := hite
    rw [← hfin]
    exact ⟨fun j hj => SMap.get_set_ne s.trees tab _ hj, rfl⟩

/-- The mutation phase of `split` changes the tree table only at the
addressed tab and keeps its next key. -/
theorem splitPre_frame {s smid : Tabs} {tab : TabId} {view : View} {layout : Layout}
    {vid : ViewId} (h : s.splitPre tab view layout = some (smid, vid)) :
    (∀ j, j ≠ tab → smid.trees.get j = s.trees.get j) ∧
    smid.trees.nextKey = s.trees.nextKey := by
  unfold Tabs.splitPre at h
  simp only [Option.bind_eq_bind, Option.bind_eq_some] at h
  obtain ⟨tree, ht, fnode, hf, nodes2, hsv, pnode, hp, co, hco, hite⟩ := h
  split at hite
  · split at hite
    · simp only [Option.pure_def, Option.bind_eq_bind, Option.some_bind, Option.bind_eq_some,
        Option.some.injEq, Prod.mk.injEq] at hite
      obtain ⟨tree2, ht2, hfin, hvid⟩ := hite
      rw [← hfin]
      exact ⟨fun j hj => SMap.get_set_ne s.trees tab _ hj, rfl⟩
    · simp only [Option.pure_def, Option.bind_eq_bind, Option.some_bind, Option.bind_eq_some,
        Option.some.injEq, Prod.mk.injEq] at hite
      obtain ⟨pos, hpos, tree2, ht2, hfin, hvid⟩ := hite
      rw [← hfin]
      exact ⟨fun j hj => SMap.get_set_ne s.trees tab _ hj, rfl⟩
  · simp only [Option.pure_def, Option.bind_eq_bind, Option.some_bind, Option.bind_eq_some,
      Option.some.injEq, Prod.mk.injEq] at hite
    obtain ⟨pnode2, hp2, co2, hco2, pos2, hpos2, tree2, ht2, hfin, hvid⟩ := hite
    rw [← hfin]
    exact ⟨fun j hj => SMap.get_set_ne s.trees tab _ hj, rfl⟩

/-- The mutation phase of `remove` changes the tree table only at the
addressed tab and keeps its next key. -/
theorem removePre_frame {s smid : Tabs} {tab : TabId} {index : ViewId}
    (h : s.removePre tab index = some smid) :
    (∀ j, j ≠ tab → smid.trees.get j = s.trees.get j) ∧
    smid.trees.nextKey = s.trees.nextKey := by
  unfold Tabs.removePre at h
  simp only [Option.bind_eq_bind, Option.bind_eq_some] at h
  obtain ⟨tree, ht, hite⟩ := h
  split at hite
  · simp only [Option.pure_def, Option.bind_eq_bind, Option.some_bind,
      Option.bind_eq_some] at hite
    obtain ⟨pv, hpv, tree2, ht2, hloop⟩ := hite
    obtain ⟨lf, lnk⟩ := removeLoop_treesFrame _ _ _ _ _ hloop
    refine ⟨fun j hj => ?_, ?_⟩
    · rw [lf j hj]
      show (s.trees.set tab _).get j = s.trees.get j
      rw [SMap.get_set_ne s.trees tab _ hj]
    · rw [lnk]; rfl
  · simp only [Option.pure_def, Option.some_bind] at hite
    exact removeLoop_treesFrame _ _ _ _ _ hite

/-- `insert` factors as its mutation phase followed by `recalculate`. -/
theorem insert_factor {s s2 : Tabs} {tab : TabId} {view : View} {vid : ViewId}
    (h : Tabs.insert s tab view = some (s2, vid)) :
    ∃ smid, s.insertPre tab view = some (smid, vid) ∧ smid.recalculate = some s2 := by
  unfold Tabs.insert at h
  simp only [Option.pure_def, Option.bind_eq_bind, Option.bind_eq_some, Option.some.injEq,
    Prod.mk.injEq] at h
  obtain ⟨r, hpre, s3, hrec, h1, h2⟩ := h
  subst h1
  refine ⟨r.1, ?_, hrec⟩
  rw [hpre, ← h2]

/-- `split` factors as its mutation phase followed by `recalculate`. -/
theorem split_factor {s s2 : Tabs} {tab : TabId} {view : View} {layout : Layout} {vid : ViewId}
    (h : Tabs.split s tab view layout = some (s2, vid)) :
    ∃ smid, s.splitPre tab view layout = some (smid, vid) ∧ smid.recalculate = some s2 := by
  unfold Tabs.split at h
  simp only [Option.pure_def, Option.bind_eq_bind, Option.bind_eq_some, Option.some.injEq,
    Prod.mk.injEq] at h
  obtain ⟨r, hpre, s3, hrec, h1, h2⟩ := h
  subst h1
  refine ⟨r.1, ?_, hrec⟩
  rw [hpre, ← h2]

/-- `remove` factors as its mutation phase followed by `recalculate`. -/
theorem remove_factor {s s2 : Tabs} {tab : TabId} {index : ViewId}
    (h : Tabs.remove s tab index = some s2) :
    ∃ smid, s.removePre tab index = some smid ∧ smid.recalculate = some s2 := by
  unfold Tabs.remove at h
  simp only [Option.bind_eq_bind, Option.bind_eq_some] at h
  exact h

/-- C10: each of `insert`, `split` and `remove` on one workspace ends with
a whole-set `recalculate` pass: the operation factors through an
intermediate state whose other tree records are untouched, and the final
pass recomputes every workspace (under the global shape package) from its
own stored area — whereas `resize_tab` recomputes only the addressed
workspace, leaving every other tree record and all arena nodes outside the
addressed workspace's subtree untouched. -/
theorem c10_relayout_all_tabs :
    (∀ s s2 : Tabs, ∀ tab vid view, Tabs.insert s tab view = some (s2, vid) →
      ∃ smid, (∀ j, j ≠ tab → smid.trees.get j = s.trees.get j) ∧
        smid.recalculate = some s2 ∧
        (∀ w, allTabsShapeB smid w = true → smid.trees.keys.Nodup →
          ∀ ww trw cs, smid.trees.get ww = some trw → w ww = .cont trw.root cs →
            cs ≠ .nil →
            (∃ trw2, s2.trees.get ww = some trw2 ∧ trw2.area = trw.area) ∧
            Assigned s2.nodes (.cont trw.root cs) trw.area)) ∧
    (∀ s s2 : Tabs, ∀ tab vid view layout, Tabs.split s tab view layout = some (s2, vid) →
      ∃ smid, (∀ j, j ≠ tab → smid.trees.get j = s.trees.get j) ∧
        smid.recalculate = some s2 ∧
        (∀ w, allTabsShapeB smid w = true → smid.trees.keys.Nodup →
          ∀ ww trw cs, smid.trees.get ww = some trw → w ww = .cont trw.root cs →
            cs ≠ .nil →
            (∃ trw2, s2.trees.get ww = some trw2 ∧ trw2.area = trw.area) ∧
            Assigned s2.nodes (.cont trw.root cs) trw.area)) ∧
    (∀ s s2 : Tabs, ∀ tab index, Tabs.remove s tab index = some s2 →
      ∃ smid, (∀ j, j ≠ tab → smid.trees.get j = s.trees.get j) ∧
        smid.recalculate = some s2 ∧
        (∀ w, allTabsShapeB smid w = true → smid.trees.keys.Nodup →
          ∀ ww trw cs, smid.trees.get ww = some trw → w ww = .cont trw.root cs →
            cs ≠ .nil →
            (∃ trw2, s2.trees.get ww = some trw2 ∧ trw2.area = trw.area) ∧
            Assigned s2.nodes (.cont trw.root cs) trw.area)) ∧
    (∀ s s2 : Tabs, ∀ tab area b tr rt, s.trees.get tab = some tr →
      tabShapeB s.nodes tr rt = true → s.resizeTab tab area = some (s2, b) →
      (∀ j, j ≠ tab → s2.trees.get j = s.trees.get j) ∧
      (∀ k, k ∉ rt.ids → s2.nodes.get k = s.nodes.get k)) := by
  refine ⟨?_, ?_, ?_, ?_⟩
  · intro s s2 tab vid view h
    obtain ⟨smid, hpre, hrec⟩ := insert_factor h
    exact ⟨smid, (insertPre_frame hpre).1, hrec,
      fun w hall hnd => recalculate_fresh w hall hnd hrec⟩
  · intro s s2 tab vid view layout h
    obtain ⟨smid, hpre, hrec⟩ := split_factor h
    exact ⟨smid, (splitPre_frame hpre).1, hrec,
      fun w hall hnd => recalculate_fresh w hall hnd hrec⟩
  · intro s s2 tab index h
    obtain ⟨smid, hpre, hrec⟩ := remove_factor h
    exact ⟨smid, (removePre_frame hpre).1, hrec,
      fun w hall hnd => recalculate_fresh w hall hnd hrec⟩
  · intro s s2 tab area b tr rt htr hpkg h
    unfold Tabs.resizeTab at h
    rw [htr] at h
    simp only [Option.bind_eq_bind, Option.some_bind] at h
    by_cases harea : tr.area = area
    · rw [if_neg (fun hc => hc harea)] at h
      obtain ⟨rfl, rfl⟩ := Prod.mk.inj (Option.some_inj.mp (by exact h))
      exact ⟨fun j _ => rfl, fun k _ => rfl⟩
    · rw [if_pos harea] at h
      cases hrc : Tabs.recalcTab { s with trees := s.trees.set tab { tr with area := area } }
          tab with
      | none => rw [hrc] at h; simp at h
      | some s3 =>
        rw [hrc] at h
        simp only [Option.some_bind] at h
        obtain ⟨rfl, rfl⟩ := Prod.mk.inj (Option.some_inj.mp (by exact h))
        have htree1 : ({ s with trees := s.trees.set tab { tr with area := area } } :
            Tabs).trees.get tab = some { tr with area := area } :=
          SMap.get_set_self _ htr
        have hpkg1 : tabShapeB ({ s with trees := s.trees.set tab { tr with area := area } } :
            Tabs).nodes { tr with area := area } rt = true := hpkg
        obtain ⟨_, _, hunt, _⟩ := recalcTab_nodes_spec htree1 hpkg1 hrc
        refine ⟨?_, fun k hk => hunt k hk⟩
        intro j hj
        rw [(recalcTab_record hrc).1 j hj]
        exact SMap.get_set_ne s.trees tab _ hj

/-- C10 witness: no-op resize of the two-pane workspace, checked through
the `resize_tab` clause. -/
theorem c10_witness :
    (∀ j, j ≠ 1 → twoPaneState.trees.get j = twoPaneState.trees.get j) ∧
    (∀ k, k ∉ twoPaneRT.ids → twoPaneState.nodes.get k = twoPaneState.nodes.get k) :=
  c10_relayout_all_tabs.2.2.2 twoPaneState twoPaneState 1 demoRect false
    ((twoPaneState.trees.get 1).getD Tree.tdefault) twoPaneRT (by decide) (by decide) (by decide)

/-! ### Pure lemmas about the removal-cascade witness surgery -/

theorem rootId_mem_ids : ∀ (t : RTree), t.rootId ∈ t.ids
  | .pane i => by rw [RTree.rootId, RTree.ids]; exact List.mem_singleton_self i
  | .cont i cs => by rw [RTree.rootId, RTree.ids]; exact List.mem_cons_self i _

theorem isLeafR_elim {t : RTree} {i : ViewId} (h : isLeafR t i = true) :
    t = .pane i ∨ t = .cont i .nil := by
  cases t with
  | pane x =>
    rw [isLeafR, decide_eq_true_eq] at h
    exact Or.inl (by rw [h])
  | cont x cs =>
    cases cs with
    | nil =>
      rw [isLeafR, decide_eq_true_eq] at h
      exact Or.inr (by rw [h])
    | cons t2 ts2 => exact absurd h (by rw [isLeafR]; simp)

mutual
theorem isLeafF_mem : ∀ {f : RForest} {i : ViewId}, isLeafF f i = true → i ∈ f.idsF
  | .cons t ts, i, h => by
    rw [isLeafF, Bool.or_eq_true, Bool.or_eq_true] at h
    rw [RForest.idsF, List.mem_append]
    rcases h with (hr | hin) | hts
    · rcases isLeafR_elim hr with rfl | rfl
      · exact Or.inl (by rw [RTree.ids]; exact List.mem_singleton_self i)
      · exact Or.inl (by rw [RTree.ids]; exact List.mem_cons_self i _)
    · exact Or.inl (isLeafT_mem hin)
    · exact Or.inr (isLeafF_mem hts)
theorem isLeafT_mem : ∀ {t : RTree} {i : ViewId}, isLeafT t i = true → i ∈ t.ids
  | .cont j cs, i, h => by
    rw [isLeafT] at h
    rw [RTree.ids]
    exact List.mem_cons_of_mem j (isLeafF_mem h)
end

mutual
theorem dropNodeF_not_mem : ∀ {f : RForest} {i : ViewId}, i ∉ f.idsF → dropNodeF f i = f
  | .nil, i, _ => rfl
  | .cons t ts, i, h => by
    rw [RForest.idsF] at h
    have hti : i ∉ t.ids := fun hh => h (List.mem_append.mpr (Or.inl hh))
    have htsi : i ∉ ts.idsF := fun hh => h (List.mem_append.mpr (Or.inr hh))
    have hro : ¬ t.rootId = i := by
      intro hh
      rw [← hh] at hti
      exact hti (rootId_mem_ids t)
    rw [dropNodeF, if_neg hro, dropNodeT_not_mem hti, dropNodeF_not_mem htsi]
theorem dropNodeT_not_mem : ∀ {t : RTree} {i : ViewId}, i ∉ t.ids → dropNodeT t i = t
  | .pane j, i, _ => rfl
  | .cont j cs, i, h => by
    rw [RTree.ids] at h
    rw [dropNodeT, dropNodeF_not_mem (fun hh => h (List.mem_cons_of_mem j hh))]
end

theorem rootId_dropNodeT : ∀ (t : RTree) (i : ViewId), (dropNodeT t i).rootId = t.rootId
  | .pane j, _ => rfl
  | .cont j cs, _ => rfl

mutual
theorem idsF_dropNodeF : ∀ {f : RForest} {i : ViewId}, f.idsF.Nodup → isLeafF f i = true →
    (dropNodeF f i).idsF = f.idsF.erase i
  | .cons t ts, i, hnd, h => by
    rw [RForest.idsF] at hnd
    have hnd1 : t.ids.Nodup := hnd.of_append_left
    have hnd2 : ts.idsF.Nodup := hnd.of_append_right
    have hdisj := List.disjoint_of_nodup_append hnd
    rw [isLeafF, Bool.or_eq_true, Bool.or_eq_true] at h
    by_cases hroot : t.rootId = i
    · have hleafR : isLeafR t i = true := by
        rcases h with (hr | hin) | hts
        · exact hr
        · exfalso
          cases t with
          | pane x => rw [isLeafT] at hin; cases hin
          | cont x cs =>
            rw [isLeafT] at hin
            rw [RTree.rootId] at hroot
            subst hroot
            have := isLeafF_mem hin
            rw [RTree.ids] at hnd1
            exact (List.nodup_cons.mp hnd1).1 this
        · exfalso
          have hri : i ∈ t.ids := by rw [← hroot]; exact rootId_mem_ids t
          exact hdisj hri (isLeafF_mem hts)
      rw [dropNodeF, if_pos hroot]
      rcases isLeafR_elim hleafR with rfl | rfl
      · show ts.idsF = (i :: ts.idsF).erase i
        rw [List.erase_cons_head]
      · show ts.idsF = (i :: ts.idsF).erase i
        rw [List.erase_cons_head]
    · rw [dropNodeF, if_neg hroot]
      show (dropNodeT t i).ids ++ (dropNodeF ts i).idsF = (t.ids ++ ts.idsF).erase i
      rcases h with (hr | hin) | hts
      · exfalso
        rcases isLeafR_elim hr with rfl | rfl
        · exact hroot rfl
        · exact hroot rfl
      · have hit : i ∈ t.ids := isLeafT_mem hin
        have hits : i ∉ ts.idsF := fun hh => hdisj hit hh
        rw [ids_dropNodeT hnd1 hin, dropNodeF_not_mem hits,
          List.erase_append_left ts.idsF hit]
      · have hit : i ∉ t.ids := fun hh => hdisj hh (isLeafF_mem hts)
        rw [dropNodeT_not_mem hit, idsF_dropNodeF hnd2 hts,
          List.erase_append_right ts.idsF hit]
theorem ids_dropNodeT : ∀ {t : RTree} {i : ViewId}, t.ids.Nodup → isLeafT t i = true →
    (dropNodeT t i).ids = t.ids.erase i
  | .cont j cs, i, hnd, h => by
    rw [isLeafT] at h
    rw [RTree.ids] at hnd
    have hji : j ≠ i := by
      intro hh
      subst hh
      exact (List.nodup_cons.mp hnd).1 (isLeafF_mem h)
    rw [dropNodeT]
    show j :: (dropNodeF cs i).idsF = (j :: cs.idsF).erase i
    rw [idsF_dropNodeF (List.nodup_cons.mp hnd).2 h, List.erase_cons_tail]
    simp [hji]
end

mutual
theorem panesF_dropNodeF : ∀ {f : RForest} {i : ViewId}, f.idsF.Nodup → isLeafF f i = true →
    (dropNodeF f i).panesF = f.panesF.erase i
  | .cons t ts, i, hnd, h => by
    rw [RForest.idsF] at hnd
    have hnd1 : t.ids.Nodup := hnd.of_append_left
    have hnd2 : ts.idsF.Nodup := hnd.of_append_right
    have hdisj := List.disjoint_of_nodup_append hnd
    rw [isLeafF, Bool.or_eq_true, Bool.or_eq_true] at h
    by_cases hroot : t.rootId = i
    · have hleafR : isLeafR t i = true := by
        rcases h with (hr | hin) | hts
        · exact hr
        · exfalso
          cases t with
          | pane x => rw [isLeafT] at hin; cases hin
          | cont x cs =>
            rw [isLeafT] at hin
            rw [RTree.rootId] at hroot
            subst hroot
            have := isLeafF_mem hin
            rw [RTree.ids] at hnd1
            exact (List.nodup_cons.mp hnd1).1 this
        · exfalso
          have hri : i ∈ t.ids := by rw [← hroot]; exact rootId_mem_ids t
          exact hdisj hri (isLeafF_mem hts)
      rw [dropNodeF, if_pos hroot]
      rcases isLeafR_elim hleafR with rfl | rfl
      · show ts.panesF = (i :: ts.panesF).erase i
        rw [List.erase_cons_head]
      · show ts.panesF = (RForest.nil.panesF ++ ts.panesF).erase i
        have hits : i ∉ ts.panesF := fun hh =>
          hdisj (by rw [RTree.ids]; exact List.mem_cons_self i _)
            (panesF_subset_idsF ts i hh)
        rw [show (RForest.nil.panesF ++ ts.panesF : List ViewId) = ts.panesF from rfl,
          List.erase_of_not_mem hits]
    · rw [dropNodeF, if_neg hroot]
      show (dropNodeT t i).panes ++ (dropNodeF ts i).panesF = (t.panes ++ ts.panesF).erase i
      rcases h with (hr | hin) | hts
      · exfalso
        rcases isLeafR_elim hr with rfl | rfl
        · exact hroot rfl
        · exact hroot rfl
      · have hit : i ∈ t.ids := isLeafT_mem hin
        have hits : i ∉ ts.idsF := fun hh => hdisj hit hh
        have hitsp : i ∉ ts.panesF := fun hh => hits (panesF_subset_idsF ts i hh)
        rw [panes_dropNodeT hnd1 hin, dropNodeF_not_mem hits]
        by_cases hip : i ∈ t.panes
        · rw [List.erase_append_left ts.panesF hip]
        · rw [List.erase_of_not_mem hip, List.erase_append_right ts.panesF hip,
            List.erase_of_not_mem hitsp]
      · have hit : i ∉ t.ids := fun hh => hdisj hh (isLeafF_mem hts)
        have hitp : i ∉ t.panes := fun hh => hit (panes_subset_ids t i hh)
        rw [dropNodeT_not_mem hit, panesF_dropNodeF hnd2 hts,
          List.erase_append_right ts.panesF hitp]
theorem panes_dropNodeT : ∀ {t : RTree} {i : ViewId}, t.ids.Nodup → isLeafT t i = true →
    (dropNodeT t i).panes = t.panes.erase i
  | .cont j cs, i, hnd, h => by
    rw [isLeafT] at h
    rw [RTree.ids] at hnd
    rw [dropNodeT]
    show (dropNodeF cs i).panesF = cs.panesF.erase i
    rw [panesF_dropNodeF (List.nodup_cons.mp hnd).2 h]
end

theorem panesF_isLeafF : ∀ {f : RForest} {p : ViewId}, p ∈ f.panesF → isLeafF f p = true
  | .cons t ts, p, h => by
    rw [RForest.panesF, List.mem_append] at h
    rw [isLeafF, Bool.or_eq_true, Bool.or_eq_true]
    rcases h with ht | hts
    · cases t with
      | pane x =>
        rw [RTree.panes, List.mem_singleton] at ht
        subst ht
        exact Or.inl (Or.inl (by rw [isLeafR]; simp))
      | cont x cs =>
        rw [RTree.panes] at ht
        exact Or.inl (Or.inr (by rw [isLeafT]; exact panesF_isLeafF ht))
    · exact Or.inr (panesF_isLeafF hts)

mutual
theorem shapeOk_agree : ∀ {a a2 : SMap Node} (p : ViewId) (t : RTree),
    (∀ k ∈ t.ids, a2.get k = a.get k) → shapeOk a2 p t = shapeOk a p t
  | a, a2, p, .pane i, hag => by
    rw [shapeOk, shapeOk, hag i (by rw [RTree.ids]; exact List.mem_singleton_self i)]
  | a, a2, p, .cont i cs, hag => by
    rw [shapeOk, shapeOk, hag i (by rw [RTree.ids]; exact List.mem_cons_self i _)]
    cases a.get i with
    | none => rfl
    | some n =>
      obtain ⟨np, nc⟩ := n
      cases nc with
      | view v => rfl
      | container co =>
        rw [shapeOkF_agree i cs
          (fun k hk => hag k (by rw [RTree.ids]; exact List.mem_cons_of_mem i hk))]
theorem shapeOkF_agree : ∀ {a a2 : SMap Node} (p : ViewId) (f : RForest),
    (∀ k ∈ f.idsF, a2.get k = a.get k) → shapeOkF a2 p f = shapeOkF a p f
  | a, a2, p, .nil, _ => rfl
  | a, a2, p, .cons t ts, hag => by
    rw [shapeOkF, shapeOkF,
      shapeOk_agree p t (fun k hk => hag k (by rw [RForest.idsF]; exact List.mem_append.mpr (Or.inl hk))),
      shapeOkF_agree p ts (fun k hk => hag k (by rw [RForest.idsF]; exact List.mem_append.mpr (Or.inr hk)))]
end

theorem shapeOk_pane_intro {a : SMap Node} {p i : ViewId} {v : View}
    (hg : a.get i = some ⟨p, .view v⟩) (hv : v.id = i) :
    shapeOk a p (.pane i) = true := by
  rw [shapeOk, hg]
  simp [hv]

theorem shapeOk_cont_intro {a : SMap Node} {p i : ViewId} {cs : RForest} {co : Container}
    (hg : a.get i = some ⟨p, .container co⟩) (hch : co.children = cs.rootIds)
    (hf : shapeOkF a i cs = true) :
    shapeOk a p (.cont i cs) = true := by
  rw [shapeOk, hg]
  simp [hch, hf]

theorem rootIds_eq_nil : ∀ {f : RForest}, f.rootIds = [] → f = .nil
  | .nil, _ => rfl
  | .cons t ts, h => by rw [RForest.rootIds] at h; cases h

/-- The machine's `findIdx?`-based child removal coincides with `erase`. -/
theorem findIdx_erase : ∀ (l : List ViewId) (i : ViewId), i ∈ l →
    ∃ pos, l.findIdx? (· == i) = some pos ∧ l.eraseIdx pos = l.erase i
  | a :: l2, i, h => by
    by_cases hai : a = i
    · subst hai
      refine ⟨0, ?_, ?_⟩
      · rw [List.findIdx?_cons]
        simp
      · rw [List.eraseIdx_cons_zero, List.erase_cons_head]
    · have h2 : i ∈ l2 := by
        rcases List.mem_cons.mp h with rfl | h2
        · exact absurd rfl hai
        · exact h2
      obtain ⟨pos, hf, he⟩ := findIdx_erase l2 i h2
      refine ⟨pos + 1, ?_, ?_⟩
      · rw [List.findIdx?_cons]
        have hb : (a == i) = false := by simp [hai]
        rw [hb]
        simp [hf]
      · rw [List.eraseIdx_cons_succ, he, List.erase_cons_tail (by simp [hai])]

/-- Forest-level shape surgery: removing the leaf `i` (and rewiring its
parent's child list) preserves the shape of the pruned forest.  Either `i`
is a top-level element (its stored parent is the enclosing container `j`),
or its parent is a container inside the forest. -/
theorem dropLeafF_shape : ∀ (cs : RForest) (j : ViewId) (a : SMap Node) (i : ViewId),
    shapeOkF a j cs = true → cs.idsF.Nodup → j ∉ cs.idsF → isLeafF cs i = true →
    (∃ n, a.get i = some n ∧ n.parent = j ∧ i ∈ cs.rootIds ∧
      (dropNodeF cs i).rootIds = cs.rootIds.erase i ∧
      (∀ a2 : SMap Node, (∀ k, k ∈ cs.idsF → k ≠ i → a2.get k = a.get k) →
        shapeOkF a2 j (dropNodeF cs i) = true) ∧
      (cs.rootIds.erase i = [] → dropNodeF cs i = .nil))
    ∨
    (∃ pid pn co n, a.get i = some n ∧ n.parent = pid ∧
      a.get pid = some pn ∧ pn.content = .container co ∧ i ∈ co.children ∧
      pid ∈ cs.idsF ∧ pid ≠ i ∧
      (∀ a2 : SMap Node,
        (∀ k, k ∈ cs.idsF → k ≠ i → k ≠ pid → a2.get k = a.get k) →
        a2.get pid = some ⟨pn.parent, .container { co with children := co.children.erase i }⟩ →
        shapeOkF a2 j (dropNodeF cs i) = true) ∧
      (co.children.erase i = [] → isLeafF (dropNodeF cs i) pid = true) ∧
      (dropNodeF cs i).rootIds = cs.rootIds)
  | .cons t ts, j, a, i, hsh, hnd, hj, hleaf => by
    rw [shapeOkF, Bool.and_eq_true] at hsh
    obtain ⟨hsht, hshts⟩ := hsh
    rw [RForest.idsF] at hnd
    have hnd1 : t.ids.Nodup := hnd.of_append_left
    have hnd2 : ts.idsF.Nodup := hnd.of_append_right
    have hdisj := List.disjoint_of_nodup_append hnd
    have hmemL : ∀ {k : ViewId}, k ∈ t.ids → k ∈ (RForest.cons t ts).idsF := by
      intro k hk
      rw [RForest.idsF]
      exact List.mem_append.mpr (Or.inl hk)
    have hmemR : ∀ {k : ViewId}, k ∈ ts.idsF → k ∈ (RForest.cons t ts).idsF := by
      intro k hk
      rw [RForest.idsF]
      exact List.mem_append.mpr (Or.inr hk)
    have hjt : j ∉ t.ids := fun hh => hj (hmemL hh)
    have hjts : j ∉ ts.idsF := fun hh => hj (hmemR hh)
    rw [isLeafF, Bool.or_eq_true, Bool.or_eq_true] at hleaf
    rcases hleaf with (hR | hT) | hF
    · -- i is the top-level element t itself
      have hroot : t.rootId = i := by
        rcases isLeafR_elim hR with rfl | rfl
        · rfl
        · rfl
      have hdrop : dropNodeF (.cons t ts) i = ts := by
        rw [dropNodeF, if_pos hroot]
      refine Or.inl ?_
      have hagree : ∀ a2 : SMap Node,
          (∀ k, k ∈ (RForest.cons t ts).idsF → k ≠ i → a2.get k = a.get k) →
          shapeOkF a2 j (dropNodeF (.cons t ts) i) = true := by
        intro a2 hag
        rw [hdrop]
        rw [shapeOkF_agree j ts ?_]
        · exact hshts
        · intro k hk
          have hki : k ≠ i := by
            intro hh
            subst hh
            have hkt : k ∈ t.ids := by rw [← hroot]; exact rootId_mem_ids t
            exact hdisj hkt hk
          exact hag k (hmemR hk) hki
      have hmemroot : i ∈ (RForest.cons t ts).rootIds := by
        rw [RForest.rootIds, hroot]
        exact List.mem_cons_self i _
      have hrootids : (dropNodeF (.cons t ts) i).rootIds
          = (RForest.cons t ts).rootIds.erase i := by
        rw [hdrop, RForest.rootIds, hroot, List.erase_cons_head]
      have hnilc : (RForest.cons t ts).rootIds.erase i = [] →
          dropNodeF (.cons t ts) i = .nil := by
        intro hnil
        rw [hdrop]
        rw [RForest.rootIds, hroot, List.erase_cons_head] at hnil
        exact rootIds_eq_nil hnil
      rcases isLeafR_elim hR with rfl | rfl
      · obtain ⟨v, hgi, hvid⟩ := shapeOk_pane_elim hsht
        exact ⟨⟨j, .view v⟩, hgi, rfl, hmemroot, hrootids, hagree, hnilc⟩
      · obtain ⟨co2, hgi, hch2, hf2⟩ := shapeOk_cont_elim hsht
        exact ⟨⟨j, .container co2⟩, hgi, rfl, hmemroot, hrootids, hagree, hnilc⟩
    · -- i strictly inside t
      cases t with
      | pane x => rw [isLeafT] at hT; cases hT
      | cont c cs2 =>
        rw [isLeafT] at hT
        obtain ⟨co_c, hgc, hchc, hfc⟩ := shapeOk_cont_elim hsht
        rw [RTree.ids] at hnd1 hjt hdisj hmemL
        have hndc := List.nodup_cons.mp hnd1
        have hic : i ∈ cs2.idsF := isLeafF_mem hT
        have hci : c ≠ i := fun hh => hndc.1 (hh ▸ hic)
        have hroot : (RTree.cont c cs2).rootId ≠ i := hci
        have hits : i ∉ ts.idsF := fun hh => hdisj (List.mem_cons_of_mem c hic) hh
        have hdrop : dropNodeF (.cons (.cont c cs2) ts) i
            = .cons (.cont c (dropNodeF cs2 i)) ts := by
          rw [dropNodeF, if_neg hroot, dropNodeT, dropNodeF_not_mem hits]
        have hcmem : c ∈ (RForest.cons (RTree.cont c cs2) ts).idsF :=
          hmemL (List.mem_cons_self c _)
        have hmemC : ∀ {k : ViewId}, k ∈ cs2.idsF →
            k ∈ (RForest.cons (RTree.cont c cs2) ts).idsF := by
          intro k hk
          exact hmemL (List.mem_cons_of_mem c hk)
        rcases dropLeafF_shape cs2 c a i hfc hndc.2 hndc.1 hT with
          ⟨n, hgi, hpar, hmemr, hrids, hag, hnil⟩ |
          ⟨pid, pn, co, n, hgi, hpar, hgpid, hcontp, himem, hpidmem, hpidne, hag, hcasc, hrids⟩
        · -- i is a direct child of c
          refine Or.inr ⟨c, ⟨j, .container co_c⟩, co_c, n, hgi, hpar, hgc, rfl, ?_, hcmem,
            hci, ?_, ?_, ?_⟩
          · rw [hchc]
            exact hmemr
          · intro a2 hag2 hgpid2
            rw [hdrop, shapeOkF, Bool.and_eq_true]
            constructor
            · refine shapeOk_cont_intro hgpid2 ?_ ?_
              · show co_c.children.erase i = (dropNodeF cs2 i).rootIds
                rw [hchc, hrids]
              · refine hag a2 ?_
                intro k hk hki
                have hkc : k ≠ c := fun hh => hndc.1 (hh ▸ hk)
                exact hag2 k (hmemC hk) hki hkc
            · rw [shapeOkF_agree j ts ?_]
              · exact hshts
              · intro k hk
                have hki : k ≠ i := fun hh =>
                  hdisj (List.mem_cons_of_mem c (hh ▸ hic)) hk
                have hkc : k ≠ c := fun hh =>
                  hdisj (hh ▸ List.mem_cons_self c cs2.idsF) hk
                exact hag2 k (hmemR hk) hki hkc
          · intro hempty
            have hnil2 : dropNodeF cs2 i = .nil := by
              refine hnil ?_
              rw [← hchc]
              exact hempty
            rw [hdrop, hnil2, isLeafF, Bool.or_eq_true, Bool.or_eq_true]
            refine Or.inl (Or.inl ?_)
            rw [isLeafR]
            simp
          · rw [hdrop, RForest.rootIds, RForest.rootIds]
            rfl
        · -- i deeper inside cs2
          have hpidmem2 : pid ∈ (RForest.cons (RTree.cont c cs2) ts).idsF := hmemC hpidmem
          refine Or.inr ⟨pid, pn, co, n, hgi, hpar, hgpid, hcontp, himem, hpidmem2,
            hpidne, ?_, ?_, ?_⟩
          · intro a2 hag2 hgpid2
            have hcpid : c ≠ pid := fun hh => hndc.1 (hh ▸ hpidmem)
            rw [hdrop, shapeOkF, Bool.and_eq_true]
            constructor
            · refine @shapeOk_cont_intro a2 j c (dropNodeF cs2 i) co_c ?_ ?_ ?_
              · rw [hag2 c hcmem hci hcpid]
                exact hgc
              · show co_c.children = (dropNodeF cs2 i).rootIds
                rw [hchc, hrids]
              · refine hag a2 ?_ hgpid2
                intro k hk hki hkpid
                exact hag2 k (hmemC hk) hki hkpid
            · rw [shapeOkF_agree j ts ?_]
              · exact hshts
              · intro k hk
                have hki : k ≠ i := fun hh =>
                  hdisj (List.mem_cons_of_mem c (hh ▸ hic)) hk
                have hkpid : k ≠ pid := fun hh =>
                  hdisj (List.mem_cons_of_mem c (hh ▸ hpidmem)) hk
                exact hag2 k (hmemR hk) hki hkpid
          · intro hempty
            rw [hdrop, isLeafF, Bool.or_eq_true, Bool.or_eq_true]
            refine Or.inl (Or.inr ?_)
            rw [isLeafT]
            exact hcasc hempty
          · rw [hdrop, RForest.rootIds, RForest.rootIds]
            rfl
    · -- i inside ts
      have hit : i ∉ t.ids := fun hh => hdisj hh (isLeafF_mem hF)
      have hroot : ¬ t.rootId = i := by
        intro hh
        rw [← hh] at hit
        exact hit (rootId_mem_ids t)
      have hbroot : ¬ (t.rootId == i) = true := by simp [hroot]
      have hdrop : dropNodeF (.cons t ts) i = .cons t (dropNodeF ts i) := by
        rw [dropNodeF, if_neg hroot, dropNodeT_not_mem hit]
      rcases dropLeafF_shape ts j a i hshts hnd2 hjts hF with
        ⟨n, hgi, hpar, hmemr, hrids, hag, hnil⟩ |
        ⟨pid, pn, co, n, hgi, hpar, hgpid, hcontp, himem, hpidmem, hpidne, hag, hcasc, hrids⟩
      · refine Or.inl ⟨n, hgi, hpar, ?_, ?_, ?_, ?_⟩
        · rw [RForest.rootIds]
          exact List.mem_cons_of_mem _ hmemr
        · rw [hdrop, RForest.rootIds, RForest.rootIds, hrids,
            List.erase_cons_tail hbroot]
        · intro a2 hag2
          rw [hdrop, shapeOkF, Bool.and_eq_true]
          constructor
          · rw [shapeOk_agree j t ?_]
            · exact hsht
            · intro k hk
              have hki : k ≠ i := fun hh => hdisj (hh ▸ hk) (isLeafF_mem hF)
              exact hag2 k (hmemL hk) hki
          · refine hag a2 ?_
            intro k hk hki
            exact hag2 k (hmemR hk) hki
        · intro hnil2
          exfalso
          rw [RForest.rootIds, List.erase_cons_tail hbroot] at hnil2
          cases hnil2
      · refine Or.inr ⟨pid, pn, co, n, hgi, hpar, hgpid, hcontp, himem, hmemR hpidmem,
          hpidne, ?_, ?_, ?_⟩
        · intro a2 hag2 hgpid2
          rw [hdrop, shapeOkF, Bool.and_eq_true]
          constructor
          · rw [shapeOk_agree j t ?_]
            · exact hsht
            · intro k hk
              have hki : k ≠ i := fun hh => hdisj (hh ▸ hk) (isLeafF_mem hF)
              have hkpid : k ≠ pid := fun hh => hdisj (hh ▸ hk) hpidmem
              exact hag2 k (hmemL hk) hki hkpid
          · refine hag a2 ?_ hgpid2
            intro k hk hki hkpid
            exact hag2 k (hmemR hk) hki hkpid
        · intro hempty
          rw [hdrop, isLeafF, Bool.or_eq_true, Bool.or_eq_true]
          exact Or.inr (hcasc hempty)
        · rw [hdrop, RForest.rootIds, RForest.rootIds, hrids]

/-- Container-level shape surgery, as performed by one iteration of the
removal cascade: locate leaf `i`'s parent container, remove `i` from its
child list and from the arena, and the pruned witness keeps its shape. -/
theorem dropLeaf_step (cs : RForest) (j pj : ViewId) (a : SMap Node) (i : ViewId)
    (hshape : shapeOk a pj (.cont j cs) = true)
    (hnodup : (RTree.cont j cs).ids.Nodup)
    (hleaf : isLeafF cs i = true) :
    ∃ pid pn co pos n,
      a.get i = some n ∧ n.parent = pid ∧
      a.get pid = some pn ∧ pn.content = .container co ∧
      co.children.findIdx? (· == i) = some pos ∧
      co.children.eraseIdx pos = co.children.erase i ∧
      pid ≠ i ∧ i ∈ co.children ∧ pid ∈ (RTree.cont j cs).ids ∧
      shapeOk ((a.set pid ⟨pn.parent, .container { co with children := co.children.erase i }⟩).erase i)
        pj (.cont j (dropNodeF cs i)) = true ∧
      ((co.children.erase i).isEmpty = true → pid ≠ j → isLeafF (dropNodeF cs i) pid = true) := by
  obtain ⟨co_j, hgj, hchj, hfj⟩ := shapeOk_cont_elim hshape
  rw [RTree.ids] at hnodup
  have hndc := List.nodup_cons.mp hnodup
  have hii : i ∈ cs.idsF := isLeafF_mem hleaf
  have hji : j ≠ i := fun hh => hndc.1 (hh ▸ hii)
  have hjmem : j ∈ (RTree.cont j cs).ids := by
    rw [RTree.ids]
    exact List.mem_cons_self j _
  rcases dropLeafF_shape cs j a i hfj hndc.2 hndc.1 hleaf with
    ⟨n, hgi, hpar, hmemr, hrids, hag, hnil⟩ |
    ⟨pid, pn, co, n, hgi, hpar, hgpid, hcontp, himem, hpidmem, hpidne, hag, hcasc, hrids⟩
  · -- the leaf hangs directly off the enclosing container j
    have himem : i ∈ co_j.children := by rw [hchj]; exact hmemr
    obtain ⟨pos, hfind, heridx⟩ := findIdx_erase co_j.children i himem
    refine ⟨j, ⟨pj, .container co_j⟩, co_j, pos, n, hgi, hpar, hgj, rfl, hfind, heridx,
      hji, himem, hjmem, ?_, ?_⟩
    · refine @shapeOk_cont_intro _ pj j (dropNodeF cs i)
        { co_j with children := co_j.children.erase i } ?_ ?_ ?_
      · rw [SMap.get_erase, if_neg hji]
        exact SMap.get_set_self _ hgj
      · show co_j.children.erase i = (dropNodeF cs i).rootIds
        rw [hchj, hrids]
      · refine hag _ ?_
        intro k hk hki
        have hkj : k ≠ j := fun hh => hndc.1 (hh ▸ hk)
        rw [SMap.get_erase, if_neg hki, SMap.get_set_ne _ _ _ hkj]
    · intro _ hcon
      exact absurd rfl hcon
  · -- the leaf's parent is a container inside the forest
    obtain ⟨pos, hfind, heridx⟩ := findIdx_erase co.children i himem
    have hjpid : j ≠ pid := fun hh => hndc.1 (hh ▸ hpidmem)
    refine ⟨pid, pn, co, pos, n, hgi, hpar, hgpid, hcontp, hfind, heridx, hpidne, himem,
      by rw [RTree.ids]; exact List.mem_cons_of_mem j hpidmem, ?_, ?_⟩
    · refine @shapeOk_cont_intro _ pj j (dropNodeF cs i) co_j ?_ ?_ ?_
      · rw [SMap.get_erase, if_neg hji, SMap.get_set_ne _ _ _ hjpid]
        exact hgj
      · show co_j.children = (dropNodeF cs i).rootIds
        rw [hchj, hrids]
      · refine hag _ ?_ ?_
        · intro k hk hki hkpid
          rw [SMap.get_erase, if_neg hki, SMap.get_set_ne _ _ _ hkpid]
        · rw [SMap.get_erase, if_neg hpidne]
          exact SMap.get_set_self _ hgpid
    · intro hempty _
      refine hcasc ?_
      rw [← List.isEmpty_iff]
      exact hempty

theorem removeLoop_nil : ∀ (fuel : Nat) (s : Tabs) (tab : TabId),
    Tabs.removeLoop fuel s tab [] = some s
  | 0, s, tab => by rw [Tabs.removeLoop]
  | fuel + 1, s, tab => by rw [Tabs.removeLoop]

/-- One iteration of the removal cascade, written out: detach `i` from its
parent's child list, filter it out of the member list, erase it from the
arena, and push the parent when it became an empty non-root container. -/
theorem removeLoop_step_eq (stk : List ViewId) {s : Tabs} {tab : TabId} {tr : Tree}
    {fuel : Nat} {i pid : ViewId} {n : Node} {pnp : ViewId} {co : Container} {pos : Nat}
    (hgi : s.nodes.get i = some n) (hpar : n.parent = pid)
    (hgpid : s.nodes.get pid = some ⟨pnp, .container co⟩)
    (hfind : co.children.findIdx? (· == i) = some pos)
    (htr : s.trees.get tab = some tr) :
    Tabs.removeLoop (fuel + 1) s tab (i :: stk) =
      Tabs.removeLoop fuel
        { trees := s.trees.set tab { tr with nodes := tr.nodes.filter (· ≠ i) },
          nodes := (s.nodes.set pid
            ⟨pnp, .container { co with children := co.children.eraseIdx pos }⟩).erase i,
          focus := s.focus } tab
        (if (co.children.eraseIdx pos).isEmpty = true ∧ ¬ pid = tr.root
         then pid :: stk else stk) := by
  rw [Tabs.removeLoop]
  rw [hgi]
  simp only [Option.bind_eq_bind, Option.some_bind]
  rw [hpar, hgpid]
  simp only [Option.some_bind]
  rw [hfind]
  rw [htr]
  simp only [Option.some_bind]
  by_cases hcond : (co.children.eraseIdx pos).isEmpty = true ∧ ¬ pid = tr.root
  · rw [if_pos hcond, if_pos hcond]
    simp only [Option.pure_def, Option.some_bind]
    rw [htr]
    simp only [Option.some_bind]
  · rw [if_neg hcond, if_neg hcond]
    simp only [Option.pure_def, Option.some_bind]
    rw [htr]
    simp only [Option.some_bind]

mutual
theorem panes_view : ∀ {a : SMap Node} {p : ViewId} {t : RTree} {x : ViewId},
    shapeOk a p t = true → x ∈ t.panes → ∃ q v, a.get x = some ⟨q, .view v⟩
  | a, p, .pane i, x, hok, hx => by
    rw [RTree.panes, List.mem_singleton] at hx
    subst hx
    obtain ⟨v, hg, _⟩ := shapeOk_pane_elim hok
    exact ⟨p, v, hg⟩
  | a, p, .cont i cs, x, hok, hx => by
    rw [RTree.panes] at hx
    obtain ⟨co, hg, hch, hf⟩ := shapeOk_cont_elim hok
    exact panesF_view hf hx
theorem panesF_view : ∀ {a : SMap Node} {p : ViewId} {f : RForest} {x : ViewId},
    shapeOkF a p f = true → x ∈ f.panesF → ∃ q v, a.get x = some ⟨q, .view v⟩
  | a, p, .cons t ts, x, hok, hx => by
    rw [shapeOkF, Bool.and_eq_true] at hok
    rw [RForest.panesF, List.mem_append] at hx
    rcases hx with hx | hx
    · exact panes_view hok.1 hx
    · exact panesF_view hok.2 hx
end

/-- The removal cascade run to completion from a removable leaf of a
well-shaped workspace: it succeeds, prunes the shape witness, erases
exactly the cascade chain from the arena and the member list, updates the
surviving parent's child list, and touches nothing else. -/
theorem removeLoop_cascade : ∀ (fuel : Nat) (s : Tabs) (tab : TabId) (tr : Tree)
    (cs : RForest) (i : ViewId),
    s.trees.get tab = some tr →
    shapeOk s.nodes tr.root (.cont tr.root cs) = true →
    (RTree.cont tr.root cs).ids.Nodup →
    isLeafF cs i = true →
    cs.rsizeF + 1 ≤ fuel →
    ∃ (s2 : Tabs) (cs2 : RForest) (rem : List ViewId),
      Tabs.removeLoop fuel s tab [i] = some s2 ∧
      shapeOk s2.nodes tr.root (.cont tr.root cs2) = true ∧
      (∀ v, v ∈ cs2.idsF ↔ (v ∈ cs.idsF ∧ v ∉ rem)) ∧
      (∀ v, v ∈ cs2.panesF ↔ (v ∈ cs.panesF ∧ v ∉ rem)) ∧
      (RTree.cont tr.root cs2).ids.Nodup ∧
      i ∈ rem ∧ (∀ x ∈ rem, x ∈ cs.idsF) ∧
      (∀ x ∈ rem, x = i ∨ x ∉ cs.panesF) ∧
      (∀ k, k ∈ rem → s2.nodes.get k = none) ∧
      (∀ k, k ∉ (RTree.cont tr.root cs).ids → s2.nodes.get k = s.nodes.get k) ∧
      s2.nodes.nextKey = s.nodes.nextKey ∧
      s2.trees.keys = s.trees.keys ∧ s2.trees.nextKey = s.trees.nextKey ∧
      s2.focus = s.focus ∧
      (∃ tr2, s2.trees.get tab = some tr2 ∧ tr2.root = tr.root ∧ tr2.focus = tr.focus ∧
        tr2.area = tr.area ∧ tr2.id = tr.id ∧ tr2.stack = tr.stack ∧
        (∀ v, v ∈ tr2.nodes ↔ (v ∈ tr.nodes ∧ v ∉ rem))) ∧
      (∀ n2 pn2 co2, s.nodes.get i = some n2 → s.nodes.get n2.parent = some pn2 →
        pn2.content = .container co2 → co2.children = [i] → n2.parent ≠ tr.root →
        n2.parent ∈ rem) ∧
      (∀ n2 pn2 co2, s.nodes.get i = some n2 → s.nodes.get n2.parent = some pn2 →
        pn2.content = .container co2 → n2.parent ∉ rem →
        s2.nodes.get n2.parent
          = some ⟨pn2.parent, .container { co2 with children := co2.children.erase i }⟩) := by
  intro fuel
  induction fuel with
  | zero =>
    intro s tab tr cs i htr hshape hnodup hleaf hfuel
    exfalso
    omega
  | succ fuel ih =>
    intro s tab tr cs i htr hshape hnodup hleaf hfuel
    obtain ⟨pid, pn, co, pos, n, hgi, hpar, hgpid, hcontp, hfind, heridx, hpidne, himem,
      hpidmem, hshape2, hleafcasc⟩ := dropLeaf_step cs tr.root tr.root s.nodes i hshape hnodup hleaf
    obtain ⟨pnp, pnc⟩ := pn
    have hpnc : pnc = .container co := hcontp
    subst hpnc
    have hrun1 := @removeLoop_step_eq [] s tab tr fuel i pid n pnp co pos hgi hpar hgpid hfind htr
    rw [heridx] at hrun1
    have hnodupl : (tr.root :: cs.idsF).Nodup := by rw [RTree.ids] at hnodup; exact hnodup
    have hndc := List.nodup_cons.mp hnodupl
    have hii : i ∈ cs.idsF := isLeafF_mem hleaf
    have hroot_i : tr.root ≠ i := fun hh => hndc.1 (hh ▸ hii)
    have hpid_mem_l : pid ∈ tr.root :: cs.idsF := by rw [← RTree.ids]; exact hpidmem
    have hidseq : (dropNodeF cs i).idsF = cs.idsF.erase i := idsF_dropNodeF hndc.2 hleaf
    have hpaneseq : (dropNodeF cs i).panesF = cs.panesF.erase i := panesF_dropNodeF hndc.2 hleaf
    have hpnodup : cs.panesF.Nodup := hndc.2.sublist (panesF_sublist_idsF cs)
    have hlen : cs.idsF.length = (dropNodeF cs i).idsF.length + 1 := by
      rw [hidseq, List.length_erase_of_mem hii]
      have hpos := List.length_pos_of_mem hii
      omega
    have hsize2 : (dropNodeF cs i).rsizeF + 1 ≤ fuel := by
      have h1 := rsizeF_eq_length_idsF cs
      have h2 := rsizeF_eq_length_idsF (dropNodeF cs i)
      omega
    have hnodupB : (RTree.cont tr.root (dropNodeF cs i)).ids.Nodup := by
      rw [RTree.ids, hidseq]
      refine List.nodup_cons.mpr ⟨fun hh => hndc.1 (List.mem_of_mem_erase hh), ?_⟩
      exact List.Nodup.erase i hndc.2
    by_cases hcond : (co.children.erase i).isEmpty = true ∧ ¬ pid = tr.root
    · -- the parent container became empty: the cascade continues on it
      rw [if_pos hcond] at hrun1
      have hleafB : isLeafF (dropNodeF cs i) pid := hleafcasc hcond.1 hcond.2
      have htrB : (Tabs.mk (s.trees.set tab { tr with nodes := tr.nodes.filter (· ≠ i) })
          ((s.nodes.set pid
            ⟨pnp, .container { co with children := co.children.erase i }⟩).erase i)
          s.focus).trees.get tab
          = some { tr with nodes := tr.nodes.filter (· ≠ i) } :=
        SMap.get_set_self _ htr
      obtain ⟨s3, cs3, rem3, hrun3, hshape3, hids3, hpanes3, hnodup3, hpidrem3, hsub3,
        hpane3, hnone3, hunt3, hnk3, hkeys3, htnk3, hfoc3,
        ⟨tr3, hgt3, hroot3, hfocus3, harea3, hid3, hstack3, hmem3⟩,
        hcascB, hdetachB⟩ :=
        ih _ tab { tr with nodes := tr.nodes.filter (· ≠ i) } (dropNodeF cs i) pid
          htrB hshape2 hnodupB hleafB hsize2
      have hpidnotpane : pid ∉ cs.panesF := by
        intro hh
        obtain ⟨co_r, hgr, hchr, hfr⟩ := shapeOk_cont_elim hshape
        obtain ⟨q, v, hgv⟩ := panesF_view hfr hh
        rw [hgpid] at hgv
        have hgv2 : (⟨pnp, .container co⟩ : Node) = ⟨q, .view v⟩ := Option.some_inj.mp hgv
        have hgv3 : Content.container co = Content.view v := congrArg Node.content hgv2
        cases hgv3
      refine ⟨s3, cs3, i :: rem3, hrun1.trans hrun3, hshape3, ?_, ?_, hnodup3,
        List.mem_cons_self i rem3, ?_, ?_, ?_, ?_, hnk3,
        hkeys3.trans (SMap.keys_set s.trees tab _), htnk3, hfoc3,
        ⟨tr3, hgt3, hroot3, hfocus3, harea3, hid3, hstack3, ?_⟩, ?_, ?_⟩
      · intro v
        rw [hids3 v, hidseq, List.Nodup.mem_erase_iff hndc.2]
        constructor
        · rintro ⟨⟨hvi, hv⟩, hvr⟩
          exact ⟨hv, fun hh => (List.mem_cons.mp hh).elim hvi hvr⟩
        · rintro ⟨hv, hvr⟩
          refine ⟨⟨?_, hv⟩, fun hh => hvr (List.mem_cons_of_mem i hh)⟩
          intro hh
          exact hvr (by rw [hh]; exact List.mem_cons_self i rem3)
      · intro v
        rw [hpanes3 v, hpaneseq, List.Nodup.mem_erase_iff hpnodup]
        constructor
        · rintro ⟨⟨hvi, hv⟩, hvr⟩
          exact ⟨hv, fun hh => (List.mem_cons.mp hh).elim hvi hvr⟩
        · rintro ⟨hv, hvr⟩
          refine ⟨⟨?_, hv⟩, fun hh => hvr (List.mem_cons_of_mem i hh)⟩
          intro hh
          exact hvr (by rw [hh]; exact List.mem_cons_self i rem3)
      · intro x hx
        rcases List.mem_cons.mp hx with rfl | hx2
        · exact hii
        · have := hsub3 x hx2
          rw [hidseq] at this
          exact List.mem_of_mem_erase this
      · intro x hx
        rcases List.mem_cons.mp hx with rfl | hx2
        · exact Or.inl rfl
        · rcases hpane3 x hx2 with heq | hnp
          · rw [heq]
            exact Or.inr hpidnotpane
          · by_cases hxi : x = i
            · exact Or.inl hxi
            · refine Or.inr ?_
              intro hxp
              refine hnp ?_
              rw [hpaneseq]
              exact (List.Nodup.mem_erase_iff hpnodup).mpr ⟨hxi, hxp⟩
      · intro k hk
        rcases List.mem_cons.mp hk with heq | hk2
        · rw [heq]
          have hknot : i ∉ (RTree.cont tr.root (dropNodeF cs i)).ids := by
            rw [RTree.ids, hidseq]
            intro hh
            rcases List.mem_cons.mp hh with hh2 | hh2
            · exact hroot_i hh2.symm
            · exact (List.Nodup.mem_erase_iff hndc.2).mp hh2 |>.1 rfl
          rw [hunt3 i hknot]
          show ((s.nodes.set pid _).erase i).get i = none
          rw [SMap.get_erase, if_pos rfl]
        · exact hnone3 k hk2
      · intro k hk
        rw [RTree.ids] at hk
        have hki : k ≠ i := fun hh => hk (hh ▸ List.mem_cons_of_mem tr.root hii)
        have hkpid : k ≠ pid := fun hh => hk (hh ▸ hpid_mem_l)
        have hknot : k ∉ (RTree.cont tr.root (dropNodeF cs i)).ids := by
          rw [RTree.ids, hidseq]
          intro hh
          rcases List.mem_cons.mp hh with hh2 | hh2
          · exact hk (hh2 ▸ List.mem_cons_self tr.root cs.idsF)
          · exact hk (List.mem_cons_of_mem tr.root (List.mem_of_mem_erase hh2))
        rw [hunt3 k hknot]
        show ((s.nodes.set pid _).erase i).get k = s.nodes.get k
        rw [SMap.get_erase, if_neg hki, SMap.get_set_ne _ _ _ hkpid]
      · intro v
        rw [hmem3 v]
        show v ∈ tr.nodes.filter (· ≠ i) ∧ v ∉ rem3 ↔ v ∈ tr.nodes ∧ v ∉ i :: rem3
        simp only [List.mem_filter, decide_eq_true_eq]
        constructor
        · rintro ⟨⟨hv, hvi⟩, hvr⟩
          exact ⟨hv, fun hh => (List.mem_cons.mp hh).elim hvi hvr⟩
        · rintro ⟨hv, hvr⟩
          refine ⟨⟨hv, ?_⟩, fun hh => hvr (List.mem_cons_of_mem i hh)⟩
          intro hh
          exact hvr (by rw [hh]; exact List.mem_cons_self i rem3)
      · intro n2 pn2 co2 hg2 hgp2 hc2 hch2 hnroot
        obtain rfl : n2 = n := Option.some_inj.mp (hg2.symm.trans hgi)
        rw [hpar]
        exact List.mem_cons_of_mem i hpidrem3
      · intro n2 pn2 co2 hg2 hgp2 hc2 hnrem
        exfalso
        obtain rfl : n2 = n := Option.some_inj.mp (hg2.symm.trans hgi)
        rw [hpar] at hnrem
        exact hnrem (List.mem_cons_of_mem i hpidrem3)
    · -- the parent container survives: single iteration
      rw [if_neg hcond] at hrun1
      have hrun : Tabs.removeLoop (fuel + 1) s tab [i]
          = some (Tabs.mk (s.trees.set tab { tr with nodes := tr.nodes.filter (· ≠ i) })
              ((s.nodes.set pid
                ⟨pnp, .container { co with children := co.children.erase i }⟩).erase i)
              s.focus) := hrun1.trans (removeLoop_nil fuel _ tab)
      refine ⟨_, dropNodeF cs i, [i], hrun, hshape2, ?_, ?_, hnodupB,
        List.mem_singleton_self i, ?_, ?_, ?_, ?_, rfl,
        SMap.keys_set s.trees tab _, rfl, rfl,
        ⟨{ tr with nodes := tr.nodes.filter (· ≠ i) }, SMap.get_set_self _ htr, rfl, rfl,
          rfl, rfl, rfl, ?_⟩, ?_, ?_⟩
      · intro v
        rw [hidseq, List.Nodup.mem_erase_iff hndc.2]
        simp only [List.mem_singleton]
        exact ⟨fun h => ⟨h.2, h.1⟩, fun h => ⟨h.2, h.1⟩⟩
      · intro v
        rw [hpaneseq, List.Nodup.mem_erase_iff hpnodup]
        simp only [List.mem_singleton]
        exact ⟨fun h => ⟨h.2, h.1⟩, fun h => ⟨h.2, h.1⟩⟩
      · intro x hx
        rw [List.mem_singleton] at hx
        rw [hx]
        exact hii
      · intro x hx
        rw [List.mem_singleton] at hx
        exact Or.inl hx
      · intro k hk
        rw [List.mem_singleton] at hk
        rw [hk]
        show ((s.nodes.set pid _).erase i).get i = none
        rw [SMap.get_erase, if_pos rfl]
      · intro k hk
        rw [RTree.ids] at hk
        have hki : k ≠ i := fun hh => hk (hh ▸ List.mem_cons_of_mem tr.root hii)
        have hkpid : k ≠ pid := fun hh => hk (hh ▸ hpid_mem_l)
        show ((s.nodes.set pid _).erase i).get k = s.nodes.get k
        rw [SMap.get_erase, if_neg hki, SMap.get_set_ne _ _ _ hkpid]
      · intro v
        show v ∈ tr.nodes.filter (· ≠ i) ↔ v ∈ tr.nodes ∧ v ∉ [i]
        simp only [List.mem_filter, decide_eq_true_eq, List.mem_singleton]
      · intro n2 pn2 co2 hg2 hgp2 hc2 hch2 hnroot
        exfalso
        obtain rfl : n2 = n := Option.some_inj.mp (hg2.symm.trans hgi)
        rw [hpar] at hgp2 hnroot
        obtain rfl : pn2 = ⟨pnp, .container co⟩ := Option.some_inj.mp (hgp2.symm.trans hgpid)
        have hc2b : Content.container co = Content.container co2 := hc2
        injection hc2b with hco2
        subst hco2
        refine hcond ⟨?_, hnroot⟩
        rw [hch2, List.erase_cons_head]
        rfl
      · intro n2 pn2 co2 hg2 hgp2 hc2 hnrem
        obtain rfl : n2 = n := Option.some_inj.mp (hg2.symm.trans hgi)
        rw [hpar] at hgp2 ⊢
        obtain rfl : pn2 = ⟨pnp, .container co⟩ := Option.some_inj.mp (hgp2.symm.trans hgpid)
        have hc2b : Content.container co = Content.container co2 := hc2
        injection hc2b with hco2
        subst hco2
        show ((s.nodes.set pid _).erase i).get pid = _
        rw [SMap.get_erase, if_neg hpidne]
        exact SMap.get_set_self _ hgpid

theorem tabShapeB_intro {a : SMap Node} {tree : Tree} {i : ViewId} {cs : RForest}
    (hroot : i = tree.root)
    (hshape : shapeOk a tree.root (.cont i cs) = true)
    (hnodup : (RTree.cont i cs).ids.Nodup) (hstack : tree.stack = []) :
    tabShapeB a tree (.cont i cs) = true := by
  subst hroot
  rw [tabShapeB]
  simp [hshape, hnodup, hstack]

/-- C5 (amended): removing the focused pane of the *active* workspace
first moves focus to the previous pane in traversal order, then detaches
the pane and deregisters it — and, cascading, every ancestor container the
removal empties, unless it is the tree root — from both the member set and
the arena; the root always survives. -/
theorem c5_remove_focus_prev (s s2 : Tabs) (tab : TabId) (tr : Tree) (cs : RForest)
    (p : ViewId) (w : TabId → RTree)
    (htr : s.trees.get tab = some tr)
    (hactive : s.focus = tr.id)
    (hfocused : tr.focus = p)
    (hw : w tab = .cont tr.root cs)
    (hall : allTabsShapeB s w = true)
    (hknodup : s.trees.keys.Nodup)
    (hp : p ∈ cs.panesF)
    (hpanes2 : 2 ≤ cs.panesF.length)
    (hrun : s.remove tab p = some s2) :
    ∃ (pv : ViewId) (rem : List ViewId) (tr2 : Tree),
      s.prev tab = some pv ∧
      s2.trees.get tab = some tr2 ∧ tr2.focus = pv ∧ tr2.root = tr.root ∧
      p ∈ rem ∧
      (∀ v, v ∈ tr2.nodes ↔ (v ∈ tr.nodes ∧ v ∉ rem)) ∧
      (∀ k, k ∈ rem → s2.nodes.get k = none) ∧
      (∃ rn, s2.nodes.get tr.root = some rn) ∧
      (∀ n2 pn2 co2, s.nodes.get p = some n2 → s.nodes.get n2.parent = some pn2 →
        pn2.content = .container co2 → co2.children = [p] → n2.parent ≠ tr.root →
        n2.parent ∈ rem) := by
  obtain ⟨smid, hpre, hrec⟩ := remove_factor hrun
  obtain ⟨hex, hdisj⟩ := allTabsShapeB_spec hall
  have htabmem : tab ∈ s.trees.keys := SMap.get_some_mem_keys htr
  obtain ⟨tr', htr', hpkg⟩ := hex tab htabmem
  have htreq : tr' = tr := Option.some_inj.mp (htr'.symm.trans htr)
  rw [htreq] at hpkg
  obtain ⟨⟨cs', hcs'⟩, hshape, hnodup, hstack⟩ := tabShapeB_spec hpkg
  rw [hw] at hshape hnodup
  have hndl : (tr.root :: cs.idsF).Nodup := by
    rw [RTree.ids] at hnodup
    exact hnodup
  have hndc := List.nodup_cons.mp hndl
  have hpnodup : cs.panesF.Nodup := hndc.2.sublist (panesF_sublist_idsF cs)
  -- peel the mutation phase
  unfold Tabs.removePre at hpre
  simp only [Option.bind_eq_bind, Option.bind_eq_some] at hpre
  obtain ⟨tree, ht, hite⟩ := hpre
  have hteq : tree = tr := Option.some_inj.mp (ht.symm.trans htr)
  rw [hteq] at hite
  rw [if_pos ⟨hactive, hfocused⟩] at hite
  simp only [Option.pure_def, Option.bind_eq_bind, Option.some_bind,
    Option.bind_eq_some] at hite
  obtain ⟨pv, hpv, tree2, ht2, hloop⟩ := hite
  have ht2eq : tree2 = tr := Option.some_inj.mp (ht2.symm.trans htr)
  rw [ht2eq] at hloop
  -- run the cascade on the focus-moved state
  have hstruct := shapeOk_structOk hshape
  have hfuel : cs.rsizeF + 1 ≤ s.nodes.entries.length + 1 := by
    have hle := rsize_le_arena hstruct hnodup
    rw [RTree.rsize] at hle
    omega
  have htrM : (({ s with trees := s.trees.set tab { tr with focus := pv } } : Tabs)).trees.get tab
      = some { tr with focus := pv } := SMap.get_set_self _ htr
  obtain ⟨smid2, cs2, rem, hrunLoop, hshapeS, hidsS, hpanesS, hnodupS, hpremS, hsubS,
    hpaneS, hnoneS, huntS, hnkS, hkeysS, htnkS, hfocS,
    ⟨trS, hgTS, hrootS, hfocusS, hareaS, hidS, hstackS, hmemS⟩, hcascS, hdetachS⟩ :=
    removeLoop_cascade (s.nodes.entries.length + 1)
      { s with trees := s.trees.set tab { tr with focus := pv } } tab
      { tr with focus := pv } cs p htrM hshape hnodup (panesF_isLeafF hp) hfuel
  have hsmid : smid = smid2 := Option.some_inj.mp (hloop.symm.trans hrunLoop)
  rw [hsmid] at hrec hloop
  -- a pane other than p survives, so the pruned workspace is non-empty
  have hqex : ∃ q, q ∈ cs.panesF ∧ q ≠ p := by
    cases hl : cs.panesF with
    | nil => rw [hl] at hpanes2; simp at hpanes2
    | cons a l2 =>
      cases l2 with
      | nil => rw [hl] at hpanes2; simp at hpanes2
      | cons b l3 =>
        have hnodupP : (a :: b :: l3).Nodup := by rw [← hl]; exact hpnodup
        by_cases hap : a = p
        · refine ⟨b, ?_, ?_⟩
          · exact List.mem_cons_of_mem a (List.mem_cons_self b l3)
          · intro hh
            refine (List.nodup_cons.mp hnodupP).1 ?_
            rw [hap, ← hh]
            exact List.mem_cons_self b l3
        · exact ⟨a, List.mem_cons_self a _, hap⟩
  obtain ⟨q, hqmem, hqp⟩ := hqex
  have hqnotrem : q ∉ rem := by
    intro hqrem
    rcases hpaneS q hqrem with heq | hnp
    · exact hqp heq
    · exact hnp hqmem
  have hqcs2 : q ∈ cs2.panesF := (hpanesS q).mpr ⟨hqmem, hqnotrem⟩
  have hcs2ne : cs2 ≠ .nil := by
    intro hh
    rw [hh, RForest.panesF] at hqcs2
    cases hqcs2
  -- the whole-set pass after the cascade
  have hkeys : smid2.trees.keys = s.trees.keys :=
    hkeysS.trans (SMap.keys_set s.trees tab _)
  rw [Tabs.recalculate] at hrec
  have hltf := removeLoop_treesFrame _ _ _ _ _ hloop
  have hframe1 : ∀ j, j ≠ tab → smid2.trees.get j = s.trees.get j := by
    intro j hj
    rw [hltf.1 j hj]
    exact SMap.get_set_ne s.trees tab _ hj
  have hrootrem : ∀ x ∈ rem, x ≠ tr.root := by
    intro x hx hh
    have hxcs := hsubS x hx
    rw [hh] at hxcs
    exact hndc.1 hxcs
  have hcs2sub : ∀ v ∈ cs2.idsF, v ∈ cs.idsF := fun v hv => ((hidsS v).mp hv).1
  have hremnot2 : ∀ k ∈ rem, ∀ j ∈ smid2.trees.keys,
      k ∉ (if j = tab then RTree.cont tr.root cs2 else w j).ids := by
    intro k hk j hj
    rw [hkeys] at hj
    by_cases hjt : j = tab
    · subst hjt
      rw [if_pos rfl, RTree.ids]
      intro hmem
      rcases List.mem_cons.mp hmem with heq | hdeep
      · exact hrootrem k hk heq
      · exact ((hidsS k).mp hdeep).2 hk
    · rw [if_neg hjt]
      intro hmem
      have hkw : k ∈ (w tab).ids := by
        rw [hw, RTree.ids]
        exact List.mem_cons_of_mem tr.root (hsubS k hk)
      exact hdisj tab htabmem j hj (fun hh => hjt hh.symm) k hkw hmem
  have hex2 : ∀ j ∈ smid2.trees.keys, ∃ trj, smid2.trees.get j = some trj ∧
      tabShapeB smid2.nodes trj
        (if j = tab then RTree.cont tr.root cs2 else w j) = true := by
    intro j hj
    rw [hkeys] at hj
    by_cases hjt : j = tab
    · subst hjt
      refine ⟨trS, hgTS, ?_⟩
      rw [if_pos rfl]
      refine tabShapeB_intro hrootS.symm ?_ ?_ ?_
      · rw [hrootS]
        exact hshapeS
      · exact hnodupS
      · rw [hstackS]
        exact hstack
    · obtain ⟨trj, htrj, hpkgj⟩ := hex j hj
      obtain ⟨⟨csj, hcsj⟩, hshj, hndj, hstj⟩ := tabShapeB_spec hpkgj
      refine ⟨trj, ?_, ?_⟩
      · rw [hframe1 j hjt]
        exact htrj
      · rw [if_neg hjt, hcsj]
        rw [hcsj] at hshj hndj
        refine tabShapeB_intro rfl ?_ hndj hstj
        have hagree : ∀ k, k ∈ (RTree.cont trj.root csj).ids → smid2.nodes.get k = s.nodes.get k := by
          intro k hk
          have hkw : k ∈ (w j).ids := by rw [hcsj]; exact hk
          have hknot : k ∉ (RTree.cont tr.root cs).ids := by
            intro hmem
            have hkw2 : k ∈ (w tab).ids := by rw [hw]; exact hmem
            exact hdisj j hj tab htabmem hjt k hkw hkw2
          exact huntS k hknot
        rw [shapeOk_agree trj.root (.cont trj.root csj) hagree]
        exact hshj
  have hdisj2 : ∀ j1 ∈ smid2.trees.keys, ∀ j2 ∈ smid2.trees.keys, j1 ≠ j2 →
      ∀ v ∈ (if j1 = tab then RTree.cont tr.root cs2 else w j1).ids,
        v ∉ (if j2 = tab then RTree.cont tr.root cs2 else w j2).ids := by
    intro j1 h1 j2 h2 hne v hv
    rw [hkeys] at h1 h2
    have hsubTab : ∀ x, x ∈ (RTree.cont tr.root cs2).ids → x ∈ (w tab).ids := by
      intro x hx
      rw [hw, RTree.ids]
      rw [RTree.ids] at hx
      rcases List.mem_cons.mp hx with heq | hdeep
      · rw [heq]
        exact List.mem_cons_self tr.root cs.idsF
      · exact List.mem_cons_of_mem tr.root (hcs2sub x hdeep)
    by_cases h1t : j1 = tab
    · rw [if_pos h1t] at hv
      have h2t : ¬ j2 = tab := fun hh => hne (h1t.trans hh.symm)
      rw [if_neg h2t]
      have hv1 : v ∈ (w j1).ids := by rw [h1t]; exact hsubTab v hv
      exact hdisj j1 h1 j2 h2 hne v hv1
    · rw [if_neg h1t] at hv
      by_cases h2t : j2 = tab
      · rw [if_pos h2t]
        intro hv2
        have hv2' : v ∈ (w j2).ids := by rw [h2t]; exact hsubTab v hv2
        exact hdisj j1 h1 j2 h2 hne v hv hv2'
      · rw [if_neg h2t]
        exact hdisj j1 h1 j2 h2 hne v hv
  obtain ⟨fskel, fnk, ftnk, funt, fframe, ftab⟩ :=
    recalcAllGo_spec (fun j => if j = tab then RTree.cont tr.root cs2 else w j)
      smid2.trees.keys smid2 s2 (by rw [hkeys]; exact hknodup) hex2 hdisj2 hrec
  have htabmem2 : tab ∈ smid2.trees.keys := by rw [hkeys]; exact htabmem
  obtain ⟨trF, hgF, hareaF, hrootF, hidF, hnodesF, hstackF, hfocusF, hassF⟩ :=
    ftab tab htabmem2 trS hgTS
  have hfinaltab : s2.trees.get tab = some trS := by
    have := hassF cs2 (show (if tab = tab then RTree.cont tr.root cs2 else w tab)
      = RTree.cont trS.root cs2 from by rw [if_pos rfl, hrootS]) hcs2ne
    exact this.1
  refine ⟨pv, rem, trS, hpv, hfinaltab, hfocusS, hrootS, hpremS, ?_, ?_, ?_, ?_⟩
  · intro v
    exact hmemS v
  · intro k hk
    rw [funt k (hremnot2 k hk)]
    exact hnoneS k hk
  · obtain ⟨coR, hgR, _, _⟩ := shapeOk_cont_elim hshapeS
    have hmap := fskel tr.root
    rw [hgR] at hmap
    cases hgf : s2.nodes.get tr.root with
    | none => rw [hgf] at hmap; cases hmap
    | some rn => exact ⟨rn, rfl⟩
  · intro n2 pn2 co2 hg2 hgp2 hc2 hch2 hnroot
    exact hcascS n2 pn2 co2 hg2 hgp2 hc2 hch2 hnroot


set_option maxHeartbeats 1600000 in
/-- C5 witness: removing the focused pane 3 from the active two-pane
workspace moves focus to the previous pane and detaches pane 3. -/
theorem c5_witness :
    ∃ (pv : ViewId) (rem : List ViewId) (tr2 : Tree),
      twoPaneState.prev 1 = some pv ∧
      c5Out.trees.get 1 = some tr2 ∧ tr2.focus = pv ∧ tr2.root = c5Tr.root ∧
      3 ∈ rem ∧
      (∀ v, v ∈ tr2.nodes ↔ (v ∈ c5Tr.nodes ∧ v ∉ rem)) ∧
      (∀ k, k ∈ rem → c5Out.nodes.get k = none) ∧
      (∃ rn, c5Out.nodes.get c5Tr.root = some rn) ∧
      (∀ n2 pn2 co2, twoPaneState.nodes.get 3 = some n2 →
        twoPaneState.nodes.get n2.parent = some pn2 →
        pn2.content = .container co2 → co2.children = [3] →
        n2.parent ≠ c5Tr.root → n2.parent ∈ rem) :=
  c5_remove_focus_prev twoPaneState c5Out 1 c5Tr
    (.cons (.pane 2) (.cons (.pane 3) .nil)) 3
    (fun j => if j = 1 then twoPaneRT else .pane 0)
    (by decide) (by decide) rfl ((if_pos rfl).trans rfl) (by decide) (by decide)
    (by decide) (by decide) (by decide)
/-! ### Workspace closure (spec-modelled) -/

theorem takeWhile_append_stop {α : Type} (p : α → Bool) (pre : List α) (a : α)
    (post : List α) (hpre : ∀ x ∈ pre, p x = true) (ha : p a = false) :
    (pre ++ a :: post).takeWhile p = pre := by
  induction pre with
  | nil => simp [List.takeWhile_cons, ha]
  | cons b bs ih =>
    have hb : p b = true := hpre b (List.mem_cons_self b bs)
    simp only [List.cons_append, List.takeWhile_cons, hb, if_true]
    rw [ih (fun x hx => hpre x (List.mem_cons_of_mem b hx))]

theorem filter_ne_append_cons (pre post : List Nat) (tab : Nat)
    (hpre : tab ∉ pre) (hpost : tab ∉ post) :
    (pre ++ tab :: post).filter (fun x => x ≠ tab) = pre ++ post := by
  induction pre with
  | nil =>
    rw [List.nil_append, List.filter_cons_of_neg (by simp)]
    exact List.filter_eq_self.mpr
      (fun x hx => decide_eq_true (fun he => hpost (he ▸ hx)))
  | cons b bs ih =>
    have hb : decide (b ≠ tab) = true :=
      decide_eq_true (fun he => hpre (he ▸ List.mem_cons_self b bs))
    have hstep : List.filter (fun x => decide (x ≠ tab)) (b :: (bs ++ tab :: post))
        = b :: List.filter (fun x => decide (x ≠ tab)) (bs ++ tab :: post) :=
      List.filter_cons_of_pos hb
    rw [List.cons_append, hstep, ih (fun hx => hpre (List.mem_cons_of_mem b hx))]
    rfl

theorem SMap.get_foldl_erase_not_mem {α : Type} (l : List Nat) (m : SMap α) (v : Nat)
    (h : v ∉ l) : (l.foldl (fun m2 x => m2.erase x) m).get v = m.get v := by
  induction l generalizing m with
  | nil => rfl
  | cons x xs ih =>
    rw [List.foldl_cons]
    rw [ih _ (fun hx => h (List.mem_cons_of_mem x hx))]
    have hne : ¬ v = x := fun he => h (List.mem_cons.mpr (Or.inl he))
    rw [SMap.get_erase, if_neg hne]

theorem SMap.get_foldl_erase_mem {α : Type} (l : List Nat) (m : SMap α) (v : Nat)
    (h : v ∈ l) : (l.foldl (fun m2 x => m2.erase x) m).get v = none := by
  induction l generalizing m with
  | nil => cases h
  | cons x xs ih =>
    rw [List.foldl_cons]
    by_cases hvx : v ∈ xs
    · exact ih _ hvx
    · have hveq : v = x := by
        rcases List.mem_cons.mp h with h1 | h2
        · exact h1
        · exact absurd h2 hvx
      rw [SMap.get_foldl_erase_not_mem xs _ v hvx, SMap.get_erase, if_pos hveq]

/-- C6 (spec-modelled): closing a workspace is refused when it is the only
one; otherwise the tree is removed, every member node is erased from the
arena, the other workspaces are untouched, and the next active tab is the
closed tab's predecessor in iteration order - the surviving focus when the
closed tab was not active, and wrapping to the last remaining key when no
key precedes the closed one. -/
theorem c6_close_workspace (s : Tabs) (tab : TabId) (tree : Tree)
    (pre post : List TabId)
    (htree : s.trees.get tab = some tree)
    (hkeys : s.trees.keys = pre ++ tab :: post)
    (hpre : tab ∉ pre) (hpost : tab ∉ post)
    (hlen : 2 ≤ s.trees.entries.length) :
    (∀ (s1 : Tabs) (t1 : TabId), s1.trees.entries.length ≤ 1 →
      s1.closeWorkspace t1 = none) ∧
    ∃ (s2 : Tabs) (next : TabId), s.closeWorkspace tab = some (s2, next) ∧
      s2.trees.get tab = none ∧
      (∀ j, j ≠ tab → s2.trees.get j = s.trees.get j) ∧
      (∀ v, v ∈ tree.nodes → s2.nodes.get v = none) ∧
      (∀ v, v ∉ tree.nodes → s2.nodes.get v = s.nodes.get v) ∧
      s2.focus = next ∧
      (s.focus ≠ tab → next = s.focus) ∧
      (s.focus = tab → ∀ h2 : pre ≠ [], next = pre.getLast h2) ∧
      (s.focus = tab → pre = [] → ∀ h3 : post ≠ [], next = post.getLast h3) := by
  constructor
  · intro s1 t1 hle
    rw [Tabs.closeWorkspace, if_pos hle]
  · have hnle : ¬ s.trees.entries.length ≤ 1 := by omega
    have hlenK : 2 ≤ s.trees.keys.length := by
      show 2 ≤ (s.trees.entries.map _).length
      rw [List.length_map]
      exact hlen
    have htw : s.trees.keys.takeWhile (· ≠ tab) = pre := by
      rw [hkeys]
      refine takeWhile_append_stop _ pre tab post ?_ ?_
      · intro x hx
        exact decide_eq_true (fun he => hpre (he ▸ hx))
      · simp
    have hfil : s.trees.keys.filter (· ≠ tab) = pre ++ post := by
      rw [hkeys]
      exact filter_ne_append_cons pre post tab hpre hpost
    by_cases hfoc : s.focus = tab
    · cases hpreC : pre with
      | nil =>
        have hpostne : post ≠ [] := by
          intro hpn
          rw [hkeys, hpreC, hpn] at hlenK
          simp at hlenK
        rw [hpreC] at htw hfil
        refine ⟨⟨s.trees.erase tab,
          tree.nodes.foldl (fun m2 v => m2.erase v) s.nodes,
          post.getLast hpostne⟩, post.getLast hpostne, ?_, ?_, ?_, ?_, ?_, rfl,
          ?_, ?_, ?_⟩
        · rw [Tabs.closeWorkspace, if_neg hnle, htree]
          dsimp only
          rw [if_pos hfoc, htw, hfil]
          rw [List.nil_append, List.getLast?_eq_getLast post hpostne]
          rfl
        · show (s.trees.erase tab).get tab = none
          rw [SMap.get_erase, if_pos rfl]
        · intro j hj
          show (s.trees.erase tab).get j = s.trees.get j
          rw [SMap.get_erase, if_neg hj]
        · intro v hv
          exact SMap.get_foldl_erase_mem tree.nodes s.nodes v hv
        · intro v hv
          exact SMap.get_foldl_erase_not_mem tree.nodes s.nodes v hv
        · intro hf
          exact absurd hfoc hf
        · intro _ h2
          exact absurd rfl h2
        · intro _ _ h3
          rfl
      | cons a as =>
        rw [hpreC] at htw
        refine ⟨⟨s.trees.erase tab,
          tree.nodes.foldl (fun m2 v => m2.erase v) s.nodes,
          (a :: as).getLast (List.cons_ne_nil a as)⟩,
          (a :: as).getLast (List.cons_ne_nil a as), ?_, ?_, ?_, ?_, ?_, rfl,
          ?_, ?_, ?_⟩
        · rw [Tabs.closeWorkspace, if_neg hnle, htree]
          dsimp only
          rw [if_pos hfoc, htw]
          rw [List.getLast?_eq_getLast (a :: as) (List.cons_ne_nil a as)]
        · show (s.trees.erase tab).get tab = none
          rw [SMap.get_erase, if_pos rfl]
        · intro j hj
          show (s.trees.erase tab).get j = s.trees.get j
          rw [SMap.get_erase, if_neg hj]
        · intro v hv
          exact SMap.get_foldl_erase_mem tree.nodes s.nodes v hv
        · intro v hv
          exact SMap.get_foldl_erase_not_mem tree.nodes s.nodes v hv
        · intro hf
          exact absurd hfoc hf
        · intro _ h2
          rfl
        · intro _ hnil
          exact absurd hnil (List.cons_ne_nil a as)
    · refine ⟨⟨s.trees.erase tab,
        tree.nodes.foldl (fun m2 v => m2.erase v) s.nodes, s.focus⟩,
        s.focus, ?_, ?_, ?_, ?_, ?_, rfl, ?_, ?_, ?_⟩
      · rw [Tabs.closeWorkspace, if_neg hnle, htree]
        dsimp only
        rw [if_neg hfoc]
      · show (s.trees.erase tab).get tab = none
        rw [SMap.get_erase, if_pos rfl]
      · intro j hj
        show (s.trees.erase tab).get j = s.trees.get j
        rw [SMap.get_erase, if_neg hj]
      · intro v hv
        exact SMap.get_foldl_erase_mem tree.nodes s.nodes v hv
      · intro v hv
        exact SMap.get_foldl_erase_not_mem tree.nodes s.nodes v hv
      · intro _
        rfl
      · intro hf
        exact absurd hf hfoc
      · intro hf
        exact absurd hf hfoc

set_option maxHeartbeats 800000 in
/-- C6 witness: closing the active workspace 2 of the two-workspace state. -/
theorem c6_witness :
    (∀ (s1 : Tabs) (t1 : TabId), s1.trees.entries.length ≤ 1 →
      s1.closeWorkspace t1 = none) ∧
    ∃ (s2 : Tabs) (next : TabId), c6State.closeWorkspace 2 = some (s2, next) ∧
      s2.trees.get 2 = none ∧
      (∀ j, j ≠ 2 → s2.trees.get j = c6State.trees.get j) ∧
      (∀ v, v ∈ ((c6State.trees.get 2).getD Tree.tdefault).nodes →
        s2.nodes.get v = none) ∧
      (∀ v, v ∉ ((c6State.trees.get 2).getD Tree.tdefault).nodes →
        s2.nodes.get v = c6State.nodes.get v) ∧
      s2.focus = next ∧
      (c6State.focus ≠ 2 → next = c6State.focus) ∧
      (c6State.focus = 2 → ∀ h2 : ([1] : List TabId) ≠ [],
        next = ([1] : List TabId).getLast h2) ∧
      (c6State.focus = 2 → ([1] : List TabId) = [] →
        ∀ h3 : ([] : List TabId) ≠ [], next = ([] : List TabId).getLast h3) :=
  c6_close_workspace c6State 2 ((c6State.trees.get 2).getD Tree.tdefault) [1] []
    (by decide) (by decide) (by decide) (by decide) (by decide)
/-! ### Swap round trip: list and slot-map surgery lemmas -/

theorem findIdx?_beq_getElem {a : Nat} : ∀ {l : List Nat} {i : Nat},
    l.findIdx? (· == a) = some i → l[i]? = some a := by
  intro l
  induction l with
  | nil => intro i h; simp [List.findIdx?] at h
  | cons x xs ih =>
    intro i h
    rw [List.findIdx?_cons, List.findIdx?_succ] at h
    by_cases hx : (x == a) = true
    · rw [if_pos hx] at h
      have h0 : (0 : Nat) = i := Option.some_inj.mp h
      rw [← h0, List.getElem?_cons_zero]
      exact congrArg some (eq_of_beq hx)
    · rw [if_neg hx] at h
      rcases Option.map_eq_some'.mp h with ⟨j, hj, hji⟩
      rw [← hji, List.getElem?_cons_succ]
      exact ih hj

theorem findIdx?_beq_of_unique {a : Nat} : ∀ {l : List Nat} {i : Nat},
    l[i]? = some a → (∀ j, l[j]? = some a → j = i) →
    l.findIdx? (· == a) = some i := by
  intro l
  induction l with
  | nil => intro i h _; simp at h
  | cons x xs ih =>
    intro i h huniq
    rw [List.findIdx?_cons, List.findIdx?_succ]
    by_cases hx : (x == a) = true
    · have h0 : (0 : Nat) = i := huniq 0 (by
        rw [List.getElem?_cons_zero]
        exact congrArg some (eq_of_beq hx))
      rw [if_pos hx, h0]
    · rw [if_neg hx]
      cases i with
      | zero =>
        rw [List.getElem?_cons_zero] at h
        exact absurd (beq_iff_eq.mpr (Option.some_inj.mp h)) hx
      | succ i2 =>
        rw [List.getElem?_cons_succ] at h
        have hu2 : ∀ j, xs[j]? = some a → j = i2 := by
          intro j hj
          have := huniq (j + 1) (by rw [List.getElem?_cons_succ]; exact hj)
          omega
        rw [ih h hu2]
        rfl

theorem count_le_one_getElem_unique {a : Nat} : ∀ {l : List Nat}, l.count a ≤ 1 →
    ∀ {i j : Nat}, l[i]? = some a → l[j]? = some a → i = j := by
  intro l
  induction l with
  | nil => intro _ i j hi _; simp at hi
  | cons x xs ih =>
    intro hc i j hi hj
    rw [List.count_cons] at hc
    by_cases hx : (x == a) = true
    · rw [if_pos hx] at hc
      have hc0 : xs.count a = 0 := by omega
      have hnm : a ∉ xs := List.count_eq_zero.mp hc0
      cases i with
      | zero =>
        cases j with
        | zero => rfl
        | succ j2 =>
          rw [List.getElem?_cons_succ] at hj
          exact absurd (List.getElem?_mem hj) hnm
      | succ i2 =>
        rw [List.getElem?_cons_succ] at hi
        exact absurd (List.getElem?_mem hi) hnm
    · rw [if_neg hx] at hc
      cases i with
      | zero =>
        rw [List.getElem?_cons_zero] at hi
        exact absurd (beq_iff_eq.mpr (Option.some_inj.mp hi)) hx
      | succ i2 =>
        cases j with
        | zero =>
          rw [List.getElem?_cons_zero] at hj
          exact absurd (beq_iff_eq.mpr (Option.some_inj.mp hj)) hx
        | succ j2 =>
          rw [List.getElem?_cons_succ] at hi hj
          exact congrArg Nat.succ (ih hc hi hj)

theorem setL_not_mem {α : Type} (k : Nat) (a : α) : ∀ (l : List (Nat × α)),
    k ∉ l.map Prod.fst → setL l k a = l := by
  intro l
  induction l with
  | nil => intro _; rfl
  | cons e es ih =>
    intro h
    rw [List.map_cons] at h
    have hek : ¬ e.1 = k := fun he => h (he ▸ List.mem_cons_self e.1 _)
    rw [setL, if_neg hek, ih (fun hm => h (List.mem_cons_of_mem _ hm))]

theorem setL_setL_same {α : Type} (k : Nat) (a b : α) : ∀ (l : List (Nat × α)),
    setL (setL l k a) k b = setL l k b := by
  intro l
  induction l with
  | nil => rfl
  | cons e es ih =>
    by_cases he : e.1 = k
    · simp [setL, he, ih]
    · simp [setL, he, ih]

theorem setL_setL_comm {α : Type} {k j : Nat} (hkj : k ≠ j) (a b : α) :
    ∀ (l : List (Nat × α)), setL (setL l k a) j b = setL (setL l j b) k a := by
  intro l
  induction l with
  | nil => rfl
  | cons e es ih =>
    by_cases hek : e.1 = k
    · have hej : ¬ e.1 = j := fun h => hkj (hek.symm.trans h)
      simp [setL, hek, hej, hkj, ih]
    · by_cases hej : e.1 = j
      · have hjk : ¬ (j = k) := fun h => hkj h.symm
        simp [setL, hek, hej, hjk, ih]
      · simp [setL, hek, hej, ih]

theorem setL_lookup_same {α : Type} {k : Nat} {v : α} : ∀ {l : List (Nat × α)},
    (l.map Prod.fst).Nodup → lookupL l k = some v → setL l k v = l := by
  intro l
  induction l with
  | nil => intro _ h; cases h
  | cons e es ih =>
    intro hnd h
    rw [List.map_cons, List.nodup_cons] at hnd
    rw [lookupL] at h
    by_cases hek : e.1 = k
    · rw [if_pos hek] at h
      have hev : e.2 = v := Option.some_inj.mp h
      rw [setL, if_pos hek, setL_not_mem k v es (hek ▸ hnd.1)]
      have hkv : (k, v) = e := by rw [← hek, ← hev]
      rw [hkv]
    · rw [if_neg hek] at h
      rw [setL, if_neg hek, ih hnd.2 h]

theorem SMap.set_set_same {α : Type} (m : SMap α) (k : Nat) (a b : α) :
    (m.set k a).set k b = m.set k b :=
  congrArg (SMap.mk m.nextKey) (setL_setL_same k a b m.entries)

theorem SMap.set_swap {α : Type} (m : SMap α) {k j : Nat} (h : k ≠ j) (a b : α) :
    (m.set k a).set j b = (m.set j b).set k a :=
  congrArg (SMap.mk m.nextKey) (setL_setL_comm h a b m.entries)

theorem SMap.set_same {α : Type} {m : SMap α} {k : Nat} {v : α}
    (hnd : m.keys.Nodup) (h : m.get k = some v) : m.set k v = m :=
  congrArg (SMap.mk m.nextKey) (setL_lookup_same hnd h)

theorem SMap.set_restore3 {α : Type} (m : SMap α) {k1 k2 k3 : Nat}
    (a1 a2 a3 : α) {b1 b2 b3 : α}
    (h12 : k1 ≠ k2) (h13 : k1 ≠ k3) (h23 : k2 ≠ k3) (hnd : m.keys.Nodup)
    (g1 : m.get k1 = some b1) (g2 : m.get k2 = some b2) (g3 : m.get k3 = some b3) :
    (((((m.set k1 a1).set k2 a2).set k3 a3).set k1 b1).set k2 b2).set k3 b3 = m := by
  rw [SMap.set_swap _ h13.symm a3 b1, SMap.set_swap _ h12.symm a2 b1,
    SMap.set_set_same, SMap.set_same hnd g1]
  rw [SMap.set_swap _ h23.symm a3 b2, SMap.set_set_same, SMap.set_set_same,
    SMap.set_same hnd g2, SMap.set_same hnd g3]

theorem SMap.set_restore4 {α : Type} (m : SMap α) {k1 k2 k3 k4 : Nat}
    (a1 a2 a3 a4 : α) {b1 b2 b3 b4 : α}
    (h12 : k1 ≠ k2) (h13 : k1 ≠ k3) (h14 : k1 ≠ k4)
    (h23 : k2 ≠ k3) (h24 : k2 ≠ k4) (h34 : k3 ≠ k4) (hnd : m.keys.Nodup)
    (g1 : m.get k1 = some b1) (g2 : m.get k2 = some b2)
    (g3 : m.get k3 = some b3) (g4 : m.get k4 = some b4) :
    (((((((m.set k1 a1).set k2 a2).set k3 a3).set k4 a4).set k2 b2).set
      k1 b1).set k3 b3).set k4 b4 = m := by
  rw [SMap.set_swap _ h24.symm a4 b2, SMap.set_swap _ h23.symm a3 b2,
    SMap.set_set_same, SMap.set_swap _ h12 a1 b2, SMap.set_same hnd g2]
  rw [SMap.set_swap _ h14.symm a4 b1, SMap.set_swap _ h13.symm a3 b1,
    SMap.set_set_same, SMap.set_same hnd g1]
  rw [SMap.set_swap _ h34.symm a4 b3, SMap.set_set_same, SMap.set_set_same,
    SMap.set_same hnd g3, SMap.set_same hnd g4]
theorem set_getElem?_self {α : Type} : ∀ {l : List α} {i : Nat} {a : α},
    l[i]? = some a → l.set i a = l := by
  intro l
  induction l with
  | nil => intro i a h; simp at h
  | cons x xs ih =>
    intro i a h
    cases i with
    | zero =>
      rw [List.getElem?_cons_zero] at h
      rw [List.set_cons_zero, Option.some_inj.mp h]
    | succ i2 =>
      rw [List.getElem?_cons_succ] at h
      rw [List.set_cons_succ, ih h]

theorem set_swap_twice {l : List Nat} {p q : Nat} {a b : Nat}
    (hp : l[p]? = some a) (hq : l[q]? = some b) :
    (((l.set p b).set q a).set q b).set p a = l := by
  have hplen : p < l.length := (List.getElem?_eq_some_iff.mp hp).1
  have hqlen : q < l.length := (List.getElem?_eq_some_iff.mp hq).1
  by_cases hpq : p = q
  · subst hpq
    have hab : a = b := Option.some_inj.mp (hp.symm.trans hq)
    subst hab
    rw [List.set_set, List.set_set, List.set_set, set_getElem?_self hp]
  · apply List.ext_getElem?
    intro n
    by_cases hnp : n = p
    · subst hnp
      rw [List.getElem?_set_eq (by simp [hplen]), hp]
    · rw [List.getElem?_set_ne (fun hh => hnp hh.symm)]
      by_cases hnq : n = q
      · subst hnq
        rw [List.getElem?_set_eq (by simp [hqlen]), hq]
      · rw [List.getElem?_set_ne (fun hh => hnq hh.symm),
          List.getElem?_set_ne (fun hh => hnq hh.symm),
          List.getElem?_set_ne (fun hh => hnp hh.symm)]

theorem asView_eq_some {c : Content} {v : View} (h : c.asView = some v) :
    c = .view v := by
  cases c with
  | view v2 => exact congrArg Content.view (Option.some_inj.mp h)
  | container c2 => cases h

theorem asContainer_eq_some {c : Content} {co : Container} (h : c.asContainer = some co) :
    c = .container co := by
  cases c with
  | view v2 => cases h
  | container c2 => exact congrArg Content.container (Option.some_inj.mp h)

/-- Replaying the same-parent swap on the swapped state restores the
original state. -/
theorem swapWithTarget_sameParent_back
    (s : Tabs) (focus target : ViewId) (fn tn pn : Node) (fv tv : View)
    (pco : Container) (fpos tpos : Nat)
    (hnd : s.nodes.keys.Nodup)
    (hfn : s.nodes.get focus = some fn) (htn : s.nodes.get target = some tn)
    (hpp : fn.parent = tn.parent)
    (hpn : s.nodes.get fn.parent = some pn)
    (hpf : fn.parent ≠ focus) (hpt : fn.parent ≠ target) (hft : focus ≠ target)
    (hfnc : fn.content = .view fv) (htnc : tn.content = .view tv)
    (hpnc : pn.content = .container pco)
    (hfpos2 : ((pco.children.set fpos tv.id).set tpos fv.id).findIdx?
      (· == fv.id) = some tpos)
    (htpos2 : ((pco.children.set fpos tv.id).set tpos fv.id).findIdx?
      (· == tv.id) = some fpos)
    (hgf : pco.children[fpos]? = some fv.id)
    (hgt : pco.children[tpos]? = some tv.id) :
    (Tabs.mk s.trees
      (((s.nodes.set fn.parent (Node.mk pn.parent
          (.container (Container.mk pco.layout
            ((pco.children.set fpos tv.id).set tpos fv.id) pco.area)))).set focus
        (Node.mk fn.parent (.view (View.mk fv.id fv.doc tv.area)))).set target
        (Node.mk tn.parent (.view (View.mk tv.id tv.doc fv.area))))
      s.focus).swapWithTarget focus target = some (s, true) := by
  rw [Tabs.swapWithTarget]
  dsimp only
  rw [SMap.get_set_ne _ _ _ hft,
    SMap.get_set_self _ ((SMap.get_set_ne _ _ _ (Ne.symm hpf)).trans hfn)]
  simp only [Option.bind_eq_bind, Option.some_bind]
  rw [SMap.get_set_self _ ((SMap.get_set_ne _ _ _ (Ne.symm hft)).trans
    ((SMap.get_set_ne _ _ _ (Ne.symm hpt)).trans htn))]
  simp only [Option.some_bind]
  rw [if_pos hpp]
  rw [SMap.get_set_ne _ _ _ hpt, SMap.get_set_ne _ _ _ hpf,
    SMap.get_set_self _ hpn]
  dsimp only
  rw [if_neg (not_or.mpr ⟨hpf, not_or.mpr ⟨hpt, hft⟩⟩)]
  dsimp only [Content.asContainer, Content.asView]
  simp only [Option.some_bind]
  rw [hfpos2, htpos2]
  dsimp only
  rw [set_swap_twice hgf hgt]
  have hP2 : Node.mk pn.parent (Content.container
      (Container.mk pco.layout pco.children pco.area)) = pn := by
    rw [show Container.mk pco.layout pco.children pco.area = pco from rfl, ← hpnc]
  have hF2 : Node.mk fn.parent (Content.view (View.mk fv.id fv.doc fv.area)) = fn := by
    rw [show View.mk fv.id fv.doc fv.area = fv from rfl, ← hfnc]
  have hT2 : Node.mk tn.parent (Content.view (View.mk tv.id tv.doc tv.area)) = tn := by
    rw [show View.mk tv.id tv.doc tv.area = tv from rfl, ← htnc]
  rw [hP2, hF2, hT2]
  rw [SMap.set_restore3 s.nodes _ _ _ hpf hpt hft hnd hpn hfn htn]
  rfl
/-- Replaying the cross-parent swap on the swapped state restores the
original state. -/
theorem swapWithTarget_crossParent_back
    (s : Tabs) (focus target : ViewId) (fn tn fpn tpn : Node) (fv tv : View)
    (fpc tpc : Container) (fpos tpos : Nat)
    (hnd : s.nodes.keys.Nodup)
    (hfn : s.nodes.get focus = some fn) (htn : s.nodes.get target = some tn)
    (hnpp : ¬ fn.parent = tn.parent)
    (hfpn : s.nodes.get fn.parent = some fpn)
    (htpn : s.nodes.get tn.parent = some tpn)
    (hfp_f : fn.parent ≠ focus) (hfp_t : fn.parent ≠ target)
    (htp_f : tn.parent ≠ focus) (htp_t : tn.parent ≠ target)
    (hft : focus ≠ target)
    (hfnc : fn.content = .view fv) (htnc : tn.content = .view tv)
    (hfpnc : fpn.content = .container fpc) (htpnc : tpn.content = .container tpc)
    (hfpos2 : (tpc.children.set tpos fv.id).findIdx? (· == fv.id) = some tpos)
    (htpos2 : (fpc.children.set fpos tv.id).findIdx? (· == tv.id) = some fpos)
    (hgf : fpc.children[fpos]? = some fv.id)
    (hgt : tpc.children[tpos]? = some tv.id) :
    (Tabs.mk s.trees
      ((((s.nodes.set fn.parent (Node.mk fpn.parent
            (.container (Container.mk fpc.layout
              (fpc.children.set fpos tv.id) fpc.area)))).set tn.parent
          (Node.mk tpn.parent (.container (Container.mk tpc.layout
            (tpc.children.set tpos fv.id) tpc.area)))).set focus
        (Node.mk tn.parent (.view (View.mk fv.id fv.doc tv.area)))).set target
        (Node.mk fn.parent (.view (View.mk tv.id tv.doc fv.area))))
      s.focus).swapWithTarget focus target = some (s, true) := by
  rw [Tabs.swapWithTarget]
  dsimp only
  rw [SMap.get_set_ne _ _ _ hft,
    SMap.get_set_self _ ((SMap.get_set_ne _ _ _ (Ne.symm htp_f)).trans
      ((SMap.get_set_ne _ _ _ (Ne.symm hfp_f)).trans hfn))]
  simp only [Option.bind_eq_bind, Option.some_bind]
  rw [SMap.get_set_self _ ((SMap.get_set_ne _ _ _ (Ne.symm hft)).trans
    ((SMap.get_set_ne _ _ _ (Ne.symm htp_t)).trans
      ((SMap.get_set_ne _ _ _ (Ne.symm hfp_t)).trans htn)))]
  simp only [Option.some_bind]
  rw [if_neg (fun h => hnpp h.symm)]
  rw [SMap.get_set_ne _ _ _ htp_t, SMap.get_set_ne _ _ _ htp_f,
    SMap.get_set_self _ ((SMap.get_set_ne _ _ _ (fun h => hnpp h.symm)).trans htpn)]
  rw [SMap.get_set_ne _ _ _ hfp_t, SMap.get_set_ne _ _ _ hfp_f,
    SMap.get_set_ne _ _ _ hnpp, SMap.get_set_self _ hfpn]
  dsimp only
  rw [if_neg (not_or.mpr ⟨fun h => hnpp h.symm, not_or.mpr ⟨htp_f, not_or.mpr
    ⟨htp_t, not_or.mpr ⟨hfp_f, not_or.mpr ⟨hfp_t, hft⟩⟩⟩⟩⟩)]
  dsimp only [Content.asContainer, Content.asView]
  simp only [Option.some_bind]
  rw [hfpos2, htpos2]
  dsimp only
  have hchT : (tpc.children.set tpos fv.id).set tpos tv.id = tpc.children := by
    rw [List.set_set]
    exact set_getElem?_self hgt
  have hchF : (fpc.children.set fpos tv.id).set fpos fv.id = fpc.children := by
    rw [List.set_set]
    exact set_getElem?_self hgf
  rw [hchT, hchF]
  have hTP2 : Node.mk tpn.parent (Content.container
      (Container.mk tpc.layout tpc.children tpc.area)) = tpn := by
    rw [show Container.mk tpc.layout tpc.children tpc.area = tpc from rfl, ← htpnc]
  have hFP2 : Node.mk fpn.parent (Content.container
      (Container.mk fpc.layout fpc.children fpc.area)) = fpn := by
    rw [show Container.mk fpc.layout fpc.children fpc.area = fpc from rfl, ← hfpnc]
  have hF2 : Node.mk fn.parent (Content.view (View.mk fv.id fv.doc fv.area)) = fn := by
    rw [show View.mk fv.id fv.doc fv.area = fv from rfl, ← hfnc]
  have hT2 : Node.mk tn.parent (Content.view (View.mk tv.id tv.doc tv.area)) = tn := by
    rw [show View.mk tv.id tv.doc tv.area = tv from rfl, ← htnc]
  rw [hTP2, hFP2, hF2, hT2]
  rw [SMap.set_restore4 s.nodes _ _ _ _ hnpp hfp_f hfp_t htp_f htp_t hft hnd
    hfpn htpn hfn htn]
  rfl
/-- The swap body is self-inverse on well-formed child lists: replaying
`swap_split_in_direction`'s mutation with the same focus and target undoes
it exactly. -/
theorem swapWithTarget_roundtrip (s s2 : Tabs) (tab : TabId) (tree : Tree)
    (focus target : ViewId)
    (ht : s.trees.get tab = some tree)
    (hfocus : tree.focus = focus)
    (hnd : s.nodes.keys.Nodup)
    (hback : swapBackCond s tab target = true)
    (hswap : s.swapWithTarget focus target = some (s2, true)) :
    s2.trees = s.trees ∧ s2.focus = s.focus ∧
    s2.swapWithTarget focus target = some (s, true) := by
  rw [Tabs.swapWithTarget] at hswap
  simp only [Option.bind_eq_bind, Option.bind_eq_some] at hswap
  obtain ⟨fn, hfn, tn, htn, hswap⟩ := hswap
  rw [swapBackCond.eq_def, ht] at hback
  dsimp only at hback
  rw [hfocus, hfn, htn] at hback
  dsimp only at hback
  split at hswap
  case isTrue hpp =>
    cases hpn : s.nodes.get fn.parent with
    | none =>
      rw [hpn] at hswap
      dsimp only at hswap
      exact Bool.noConfusion (congrArg Prod.snd (Option.some_inj.mp hswap))
    | some pn =>
      rw [hpn] at hswap
      dsimp only at hswap
      split at hswap
      case isTrue hguard =>
        exact Bool.noConfusion (congrArg Prod.snd (Option.some_inj.mp hswap))
      case isFalse hg =>
        simp only [Option.bind_eq_bind, Option.bind_eq_some, Option.pure_def]
          at hswap
        obtain ⟨pco, hpco, fv, hfv, tv, htv, hswap⟩ := hswap
        have hpnc := asContainer_eq_some hpco
        have hfnc := asView_eq_some hfv
        have htnc := asView_eq_some htv
        obtain ⟨hpf, hg2⟩ := not_or.mp hg
        obtain ⟨hpt, hft⟩ := not_or.mp hg2
        cases hfi : pco.children.findIdx? (· == fv.id) with
        | none =>
          rw [hfi] at hswap
          dsimp only at hswap
          exact Bool.noConfusion (congrArg Prod.snd (Option.some_inj.mp hswap))
        | some fpos =>
          rw [hfi] at hswap
          cases hti : pco.children.findIdx? (· == tv.id) with
          | none =>
            rw [hti] at hswap
            dsimp only at hswap
            exact Bool.noConfusion (congrArg Prod.snd (Option.some_inj.mp hswap))
          | some tpos =>
            rw [hti] at hswap
            dsimp only at hswap
            obtain ⟨hs2, -⟩ := Prod.mk.inj (Option.some_inj.mp hswap)
            rw [hfnc, htnc] at hback
            dsimp only at hback
            rw [if_pos hpp, hpn] at hback
            dsimp only at hback
            rw [hpnc] at hback
            dsimp only at hback
            simp only [Bool.and_eq_true, decide_eq_true_eq] at hback
            obtain ⟨hcf, hct⟩ := hback
            have hgf := findIdx?_beq_getElem hfi
            have hgt := findIdx?_beq_getElem hti
            have hflen : fpos < pco.children.length :=
              (List.getElem?_eq_some_iff.mp hgf).1
            have htlen : tpos < pco.children.length :=
              (List.getElem?_eq_some_iff.mp hgt).1
            have huf : ∀ j, pco.children[j]? = some fv.id → j = fpos :=
              fun j hj => count_le_one_getElem_unique hcf hj hgf
            have hut : ∀ j, pco.children[j]? = some tv.id → j = tpos :=
              fun j hj => count_le_one_getElem_unique hct hj hgt
            have hfpos2 : ((pco.children.set fpos tv.id).set tpos
                fv.id).findIdx? (· == fv.id) = some tpos := by
              apply findIdx?_beq_of_unique
              · exact List.getElem?_set_eq (by rw [List.length_set]; exact htlen)
              · intro j hj
                by_cases hjt : j = tpos
                · exact hjt
                · rw [List.getElem?_set_ne (fun hh => hjt hh.symm)] at hj
                  by_cases hjf : j = fpos
                  · rw [hjf, List.getElem?_set_eq hflen] at hj
                    have hidq : tv.id = fv.id := Option.some_inj.mp hj
                    have hq : tpos = fpos := huf tpos (by rw [← hidq]; exact hgt)
                    exact hjf.trans hq.symm
                  · rw [List.getElem?_set_ne (fun hh => hjf hh.symm)] at hj
                    exact absurd (huf j hj) hjf
            have htpos2 : ((pco.children.set fpos tv.id).set tpos
                fv.id).findIdx? (· == tv.id) = some fpos := by
              apply findIdx?_beq_of_unique
              · by_cases hfpt : fpos = tpos
                · have hidq : fv.id = tv.id :=
                    Option.some_inj.mp ((hfpt ▸ hgf).symm.trans hgt)
                  rw [hfpt, List.getElem?_set_eq
                    (by rw [List.length_set]; exact htlen), hidq]
                · rw [List.getElem?_set_ne (fun hh => hfpt hh.symm)]
                  exact List.getElem?_set_eq hflen
              · intro j hj
                by_cases hjt : j = tpos
                · subst hjt
                  rw [List.getElem?_set_eq
                    (by rw [List.length_set]; exact htlen)] at hj
                  have hidq : fv.id = tv.id := Option.some_inj.mp hj
                  exact (hut fpos (by rw [← hidq]; exact hgf)).symm
                · rw [List.getElem?_set_ne (fun hh => hjt hh.symm)] at hj
                  by_cases hjf : j = fpos
                  · exact hjf
                  · rw [List.getElem?_set_ne (fun hh => hjf hh.symm)] at hj
                    exact absurd (hut j hj) hjt
            refine ⟨?_, ?_, ?_⟩
            · rw [← hs2]
            · rw [← hs2]
            · rw [← hs2]
              exact swapWithTarget_sameParent_back s focus target fn tn pn fv tv
                pco fpos tpos hnd hfn htn hpp hpn hpf hpt hft hfnc htnc hpnc
                hfpos2 htpos2 hgf hgt
  case isFalse hnpp =>
    cases hfpn : s.nodes.get fn.parent with
    | none =>
      rw [hfpn] at hswap
      dsimp only at hswap
      exact Bool.noConfusion (congrArg Prod.snd (Option.some_inj.mp hswap))
    | some fpn =>
      rw [hfpn] at hswap
      cases htpn : s.nodes.get tn.parent with
      | none =>
        rw [htpn] at hswap
        dsimp only at hswap
        exact Bool.noConfusion (congrArg Prod.snd (Option.some_inj.mp hswap))
      | some tpn =>
        rw [htpn] at hswap
        dsimp only at hswap
        split at hswap
        case isTrue hguard =>
          exact Bool.noConfusion (congrArg Prod.snd (Option.some_inj.mp hswap))
        case isFalse hg6 =>
          simp only [Option.bind_eq_bind, Option.bind_eq_some, Option.pure_def]
            at hswap
          obtain ⟨fpc, hfpc, tpc, htpc, fv, hfv, tv, htv, hswap⟩ := hswap
          have hfpnc := asContainer_eq_some hfpc
          have htpnc := asContainer_eq_some htpc
          have hfnc := asView_eq_some hfv
          have htnc := asView_eq_some htv
          obtain ⟨_, hg5⟩ := not_or.mp hg6
          obtain ⟨hfp_f, hg4⟩ := not_or.mp hg5
          obtain ⟨hfp_t, hg3⟩ := not_or.mp hg4
          obtain ⟨htp_f, hg2⟩ := not_or.mp hg3
          obtain ⟨htp_t, hft⟩ := not_or.mp hg2
          cases hfi : fpc.children.findIdx? (· == fv.id) with
          | none =>
            rw [hfi] at hswap
            dsimp only at hswap
            exact Bool.noConfusion (congrArg Prod.snd (Option.some_inj.mp hswap))
          | some fpos =>
            rw [hfi] at hswap
            cases hti : tpc.children.findIdx? (· == tv.id) with
            | none =>
              rw [hti] at hswap
              dsimp only at hswap
              exact Bool.noConfusion
                (congrArg Prod.snd (Option.some_inj.mp hswap))
            | some tpos =>
              rw [hti] at hswap
              dsimp only at hswap
              obtain ⟨hs2, -⟩ := Prod.mk.inj (Option.some_inj.mp hswap)
              rw [hfnc, htnc] at hback
              dsimp only at hback
              rw [if_neg hnpp, hfpn, htpn] at hback
              dsimp only at hback
              rw [hfpnc, htpnc] at hback
              dsimp only at hback
              simp only [Bool.and_eq_true, decide_eq_true_eq] at hback
              obtain ⟨hfnm, htnm⟩ := hback
              have hgf := findIdx?_beq_getElem hfi
              have hgt := findIdx?_beq_getElem hti
              have hflen : fpos < fpc.children.length :=
                (List.getElem?_eq_some_iff.mp hgf).1
              have htlen : tpos < tpc.children.length :=
                (List.getElem?_eq_some_iff.mp hgt).1
              have hfpos2 : (tpc.children.set tpos fv.id).findIdx?
                  (· == fv.id) = some tpos := by
                apply findIdx?_beq_of_unique
                · exact List.getElem?_set_eq htlen
                · intro j hj
                  by_cases hjt : j = tpos
                  · exact hjt
                  · rw [List.getElem?_set_ne (fun hh => hjt hh.symm)] at hj
                    exact absurd (List.getElem?_mem hj) hfnm
              have htpos2 : (fpc.children.set fpos tv.id).findIdx?
                  (· == tv.id) = some fpos := by
                apply findIdx?_beq_of_unique
                · exact List.getElem?_set_eq hflen
                · intro j hj
                  by_cases hjf : j = fpos
                  · exact hjf
                  · rw [List.getElem?_set_ne (fun hh => hjf hh.symm)] at hj
                    exact absurd (List.getElem?_mem hj) htnm
              refine ⟨?_, ?_, ?_⟩
              · rw [← hs2]
              · rw [← hs2]
              · rw [← hs2]
                exact swapWithTarget_crossParent_back s focus target fn tn fpn
                  tpn fv tv fpc tpc fpos tpos hnd hfn htn hnpp hfpn htpn hfp_f
                  hfp_t htp_f htp_t hft hfnc htnc hfpnc htpnc hfpos2 htpos2
                  hgf hgt
/-- C4: applying `swap_split_in_direction` twice with the same direction,
when the second call locates the same target pane as the first, restores
the original workspace state exactly - panes return to their original tree
positions and rectangles (the whole state is restored).  The occurrence
discipline `swapBackCond` and key-uniqueness hold in every well-formed
tree. -/
theorem c4_swap_swap_restores (s s2 : Tabs) (tab : TabId) (dir : Direction)
    (tree : Tree) (target : ViewId)
    (ht : s.trees.get tab = some tree)
    (hnd : s.nodes.keys.Nodup)
    (hback : swapBackCond s tab target = true)
    (hfind1 : s.findSplitInDirection tab tree.focus dir = some (some target))
    (hswap1 : s.swapSplitInDirection tab dir = some (s2, true))
    (hfind2 : s2.findSplitInDirection tab tree.focus dir = some (some target)) :
    s2.swapSplitInDirection tab dir = some (s, true) := by
  rw [Tabs.swapSplitInDirection] at hswap1
  simp only [Option.bind_eq_bind, Option.bind_eq_some] at hswap1
  obtain ⟨tree2, ht2, hswap1⟩ := hswap1
  have htreq : tree2 = tree := Option.some_inj.mp (ht2.symm.trans ht)
  rw [htreq] at hswap1
  obtain ⟨r, hr, hswap1⟩ := hswap1
  have hreq : r = some target := Option.some_inj.mp (hr.symm.trans hfind1)
  rw [hreq] at hswap1
  dsimp only at hswap1
  obtain ⟨htrees, hfoc, hback2⟩ :=
    swapWithTarget_roundtrip s s2 tab tree tree.focus target ht rfl hnd hback
      hswap1
  rw [Tabs.swapSplitInDirection]
  simp only [Option.bind_eq_bind]
  rw [htrees, ht]
  simp only [Option.some_bind]
  rw [hfind2]
  simp only [Option.some_bind]
  exact hback2

set_option maxHeartbeats 1600000 in
/-- C4 witness: in `swapDemo` the focused pane 3 swaps rightward with pane
4; a second rightward swap locates pane 4 again and restores the original
state. -/
theorem c4_witness :
    swapDemo2.swapSplitInDirection 1 .Right = some (swapDemo, true) :=
  c4_swap_swap_restores swapDemo swapDemo2 1 .Right
    ((swapDemo.trees.get 1).getD Tree.tdefault) 4
    (by decide) (by decide) (by decide) (by decide) (by decide) (by decide)
/-! ### Surgery lemmas for the member-set invariant -/

theorem rootIds_insertIdxF : ∀ (n : Nat) (t : RTree) (cs : RForest),
    (insertIdxF n t cs).rootIds = cs.rootIds.insertIdx n t.rootId
  | 0, t, cs => by
    rw [insertIdxF, RForest.rootIds, List.insertIdx_zero]
  | n + 1, t, .nil => by
    rw [insertIdxF, RForest.rootIds, List.insertIdx_succ_nil]
  | n + 1, t, .cons u us => by
    rw [insertIdxF, RForest.rootIds, RForest.rootIds, List.insertIdx_succ_cons,
      rootIds_insertIdxF n t us]

theorem perm_shuffle {α : Type} (l1 l2 l3 : List α) :
    (l1 ++ (l2 ++ l3)).Perm (l2 ++ (l1 ++ l3)) := by
  rw [← List.append_assoc, ← List.append_assoc]
  exact (List.perm_append_comm).append_right l3

theorem idsF_insertIdxF_perm : ∀ (n : Nat) (t : RTree) (cs : RForest),
    n ≤ cs.rootIds.length → (insertIdxF n t cs).idsF.Perm (t.ids ++ cs.idsF)
  | 0, t, cs, _ => by
    rw [insertIdxF, RForest.idsF]
  | n + 1, t, .nil, h => by
    rw [RForest.rootIds] at h
    simp at h
  | n + 1, t, .cons u us, h => by
    rw [insertIdxF, RForest.idsF, RForest.idsF]
    have hb : n ≤ us.rootIds.length := by
      rw [RForest.rootIds, List.length_cons] at h
      omega
    exact ((idsF_insertIdxF_perm n t us hb).append_left u.ids).trans
      (perm_shuffle u.ids t.ids us.idsF)

theorem panesF_insertIdxF_perm : ∀ (n : Nat) (t : RTree) (cs : RForest),
    n ≤ cs.rootIds.length → (insertIdxF n t cs).panesF.Perm (t.panes ++ cs.panesF)
  | 0, t, cs, _ => by
    rw [insertIdxF, RForest.panesF]
  | n + 1, t, .nil, h => by
    rw [RForest.rootIds] at h
    simp at h
  | n + 1, t, .cons u us, h => by
    rw [insertIdxF, RForest.panesF, RForest.panesF]
    have hb : n ≤ us.rootIds.length := by
      rw [RForest.rootIds, List.length_cons] at h
      omega
    exact ((panesF_insertIdxF_perm n t us hb).append_left u.panes).trans
      (perm_shuffle u.panes t.panes us.panesF)

theorem shapeOkF_insertIdxF {a : SMap Node} {q : ViewId} :
    ∀ (n : Nat) (t : RTree) (cs : RForest),
    shapeOkF a q cs = true → shapeOk a q t = true →
    shapeOkF a q (insertIdxF n t cs) = true
  | 0, t, cs, hf, ht => by
    rw [insertIdxF, shapeOkF, ht, hf]
    rfl
  | n + 1, t, .nil, hf, _ => hf
  | n + 1, t, .cons u us, hf, ht => by
    rw [shapeOkF, Bool.and_eq_true] at hf
    rw [insertIdxF, shapeOkF, hf.1, shapeOkF_insertIdxF n t us hf.2 ht]
    rfl

mutual
theorem addChildT_not_mem : ∀ (p : ViewId) (pos : Nat) (x : ViewId) (t : RTree),
    p ∉ t.ids → addChildT p pos x t = t
  | p, pos, x, .pane i, _ => by rw [addChildT]
  | p, pos, x, .cont i cs, h => by
    have hip : ¬ i = p := fun he => h (by
      rw [← he, RTree.ids]
      exact List.mem_cons_self i _)
    rw [addChildT, if_neg hip,
      addChildF_not_mem p pos x cs
        (fun hm => h (by rw [RTree.ids]; exact List.mem_cons_of_mem i hm))]
theorem addChildF_not_mem : ∀ (p : ViewId) (pos : Nat) (x : ViewId) (cs : RForest),
    p ∉ cs.idsF → addChildF p pos x cs = cs
  | p, pos, x, .nil, _ => by rw [addChildF]
  | p, pos, x, .cons t ts, h => by
    rw [addChildF,
      addChildT_not_mem p pos x t
        (fun hm => h (by rw [RForest.idsF]; exact List.mem_append.mpr (Or.inl hm))),
      addChildF_not_mem p pos x ts
        (fun hm => h (by rw [RForest.idsF]; exact List.mem_append.mpr (Or.inr hm)))]
end

mutual
theorem wrapT_not_mem : ∀ (f sid x : ViewId) (t : RTree),
    f ∉ t.ids → wrapT f sid x t = t
  | f, sid, x, .pane i, h => by
    have hif : ¬ i = f := fun he => h (by
      rw [← he, RTree.ids]
      exact List.mem_singleton_self i)
    rw [wrapT, if_neg hif]
  | f, sid, x, .cont i cs, h => by
    have hif : ¬ i = f := fun he => h (by
      rw [← he, RTree.ids]
      exact List.mem_cons_self i _)
    rw [wrapT, if_neg hif,
      wrapF_not_mem f sid x cs
        (fun hm => h (by rw [RTree.ids]; exact List.mem_cons_of_mem i hm))]
theorem wrapF_not_mem : ∀ (f sid x : ViewId) (cs : RForest),
    f ∉ cs.idsF → wrapF f sid x cs = cs
  | f, sid, x, .nil, _ => by rw [wrapF]
  | f, sid, x, .cons t ts, h => by
    rw [wrapF,
      wrapT_not_mem f sid x t
        (fun hm => h (by rw [RForest.idsF]; exact List.mem_append.mpr (Or.inl hm))),
      wrapF_not_mem f sid x ts
        (fun hm => h (by rw [RForest.idsF]; exact List.mem_append.mpr (Or.inr hm)))]
end

theorem rootId_addChildT (p : ViewId) (pos : Nat) (x : ViewId) (t : RTree) :
    (addChildT p pos x t).rootId = t.rootId := by
  cases t with
  | pane i => rw [addChildT]
  | cont i cs =>
    by_cases hip : i = p
    · rw [addChildT, if_pos hip, RTree.rootId, RTree.rootId]
    · rw [addChildT, if_neg hip, RTree.rootId, RTree.rootId]

theorem rootIds_addChildF : ∀ (p : ViewId) (pos : Nat) (x : ViewId) (cs : RForest),
    (addChildF p pos x cs).rootIds = cs.rootIds
  | p, pos, x, .nil => by rw [addChildF]
  | p, pos, x, .cons t ts => by
    rw [addChildF, RForest.rootIds, RForest.rootIds, rootId_addChildT,
      rootIds_addChildF p pos x ts]

theorem rootId_wrapT (f sid x : ViewId) (t : RTree) :
    (wrapT f sid x t).rootId = if t.rootId = f then sid else t.rootId := by
  cases t with
  | pane i =>
    by_cases hif : i = f
    · rw [wrapT, if_pos hif, RTree.rootId, RTree.rootId, if_pos hif]
    · rw [wrapT, if_neg hif, RTree.rootId, if_neg hif]
  | cont i cs =>
    by_cases hif : i = f
    · rw [wrapT, if_pos hif, RTree.rootId, RTree.rootId, if_pos hif]
    · rw [wrapT, if_neg hif, RTree.rootId, RTree.rootId, if_neg hif]

theorem rootIds_wrapF : ∀ (f sid x : ViewId) (cs : RForest),
    (wrapF f sid x cs).rootIds = cs.rootIds.map (fun r => if r = f then sid else r)
  | f, sid, x, .nil => by rw [wrapF, RForest.rootIds, List.map_nil]
  | f, sid, x, .cons t ts => by
    rw [wrapF, RForest.rootIds, RForest.rootIds, List.map_cons, rootId_wrapT,
      rootIds_wrapF f sid x ts]

theorem map_if_not_mem {f sid : Nat} : ∀ {l : List Nat},
    f ∉ l → l.map (fun r => if r = f then sid else r) = l := by
  intro l
  induction l with
  | nil => intro _; rfl
  | cons a l2 ih =>
    intro h
    have haf : ¬ a = f := fun he => h (by rw [← he]; exact List.mem_cons_self a l2)
    rw [List.map_cons, if_neg haf, ih (fun hm => h (List.mem_cons_of_mem a hm))]

theorem map_if_eq_set {f sid : Nat} : ∀ {l : List Nat} {pos : Nat},
    l.Nodup → l.findIdx? (· == f) = some pos →
    l.map (fun r => if r = f then sid else r) = l.set pos sid := by
  intro l
  induction l with
  | nil => intro pos _ h; simp [List.findIdx?] at h
  | cons a l2 ih =>
    intro pos hnd hf
    rw [List.nodup_cons] at hnd
    rw [List.findIdx?_cons, List.findIdx?_succ] at hf
    by_cases ha : (a == f) = true
    · rw [if_pos ha] at hf
      have h0 : (0 : Nat) = pos := Option.some_inj.mp hf
      have haf : a = f := eq_of_beq ha
      rw [← h0, List.map_cons, if_pos haf, List.set_cons_zero,
        map_if_not_mem (haf ▸ hnd.1)]
    · rw [if_neg ha] at hf
      rcases Option.map_eq_some'.mp hf with ⟨p2, hp2, hp2e⟩
      rw [← hp2e, List.map_cons, if_neg (fun he => ha (beq_iff_eq.mpr he)),
        List.set_cons_succ, ih hnd.2 hp2]

theorem ids_head : ∀ (t : RTree), ∃ tl, t.ids = t.rootId :: tl
  | .pane i => ⟨[], by rw [RTree.ids, RTree.rootId]⟩
  | .cont i cs => ⟨cs.idsF, by rw [RTree.ids, RTree.rootId]⟩

theorem rootIds_sublist_idsF : ∀ (cs : RForest), cs.rootIds.Sublist cs.idsF
  | .nil => by rw [RForest.rootIds, RForest.idsF]
  | .cons t ts => by
    rw [RForest.rootIds, RForest.idsF]
    obtain ⟨tl, htl⟩ := ids_head t
    rw [htl]
    exact List.Sublist.cons₂ t.rootId
      ((rootIds_sublist_idsF ts).trans (List.sublist_append_right tl ts.idsF))

mutual
theorem shape_ids_get : ∀ {a : SMap Node} {q : ViewId} (t : RTree),
    shapeOk a q t = true → ∀ v ∈ t.ids, ∃ n, a.get v = some n
  | a, q, .pane i, h, v, hv => by
    rw [RTree.ids, List.mem_singleton] at hv
    obtain ⟨vv, hg, _⟩ := shapeOk_pane_elim h
    exact ⟨_, hv ▸ hg⟩
  | a, q, .cont i cs, h, v, hv => by
    rw [RTree.ids] at hv
    obtain ⟨co, hg, _, hf⟩ := shapeOk_cont_elim h
    rcases List.mem_cons.mp hv with rfl | hv2
    · exact ⟨_, hg⟩
    · exact shapeF_ids_get cs hf v hv2
theorem shapeF_ids_get : ∀ {a : SMap Node} {q : ViewId} (cs : RForest),
    shapeOkF a q cs = true → ∀ v ∈ cs.idsF, ∃ n, a.get v = some n
  | a, q, .nil, _, v, hv => absurd hv (by rw [RForest.idsF]; exact List.not_mem_nil v)
  | a, q, .cons t ts, h, v, hv => by
    rw [shapeOkF, Bool.and_eq_true] at h
    rw [RForest.idsF] at hv
    rcases List.mem_append.mp hv with hv2 | hv2
    · exact shape_ids_get t h.1 v hv2
    · exact shapeF_ids_get ts h.2 v hv2
end

mutual
theorem parent_insideT : ∀ {a : SMap Node} {q : ViewId} (t : RTree) {f : ViewId}
    {fn : Node}, shapeOk a q t = true → f ∈ t.ids → f ≠ t.rootId →
    a.get f = some fn → fn.parent ∈ t.ids
  | a, q, .pane i, f, fn, h, hf, hne, hg => by
    rw [RTree.ids, List.mem_singleton] at hf
    exact absurd (hf.trans (by rw [RTree.rootId])) hne
  | a, q, .cont i cs, f, fn, h, hf, hne, hg => by
    rw [RTree.ids] at hf
    rw [RTree.rootId] at hne
    obtain ⟨co, hgc, hch, hsf⟩ := shapeOk_cont_elim h
    rcases List.mem_cons.mp hf with rfl | hf2
    · exact absurd rfl hne
    · rw [RTree.ids]
      rcases parent_insideF cs hsf hf2 hg with hq | hin
      · rw [hq]
        exact List.mem_cons_self i _
      · exact List.mem_cons_of_mem i hin
theorem parent_insideF : ∀ {a : SMap Node} {q : ViewId} (cs : RForest) {f : ViewId}
    {fn : Node}, shapeOkF a q cs = true → f ∈ cs.idsF →
    a.get f = some fn → fn.parent = q ∨ fn.parent ∈ cs.idsF
  | a, q, .nil, f, fn, _, hf, _ =>
    absurd hf (by rw [RForest.idsF]; exact List.not_mem_nil f)
  | a, q, .cons t ts, f, fn, h, hf, hg => by
    rw [shapeOkF, Bool.and_eq_true] at h
    rw [RForest.idsF] at hf
    rcases List.mem_append.mp hf with hf2 | hf2
    · by_cases hroot : f = t.rootId
      · left
        subst hroot
        cases t with
        | pane i =>
          obtain ⟨vv, hgc, _⟩ := shapeOk_pane_elim h.1
          rw [RTree.rootId] at hg
          have : fn = ⟨q, .view vv⟩ := Option.some_inj.mp (hg.symm.trans hgc)
          rw [this]
        | cont i cs2 =>
          obtain ⟨co, hgc, _, _⟩ := shapeOk_cont_elim h.1
          rw [RTree.rootId] at hg
          have : fn = ⟨q, .container co⟩ := Option.some_inj.mp (hg.symm.trans hgc)
          rw [this]
      · right
        rw [RForest.idsF]
        exact List.mem_append.mpr
          (Or.inl (parent_insideT t h.1 hf2 hroot hg))
    · rcases parent_insideF ts h.2 hf2 hg with hq | hin
      · exact Or.inl hq
      · right
        rw [RForest.idsF]
        exact List.mem_append.mpr (Or.inr hin)
end
mutual
/-- Inserting pane `x` as a child of container `p` preserves the shape
invariant and grows the id and pane sets by exactly `x`. -/
theorem addChildT_shape : ∀ {a a2 : SMap Node} {p x : ViewId} {pos : Nat}
    {pn : Node} {co : Container} {vx : View} (t : RTree) (par0 : ViewId),
    (∀ k, k ≠ p → k ≠ x → a2.get k = a.get k) →
    a.get p = some pn → pn.content = .container co →
    pos ≤ co.children.length →
    a2.get p = some ⟨pn.parent,
      .container { co with children := co.children.insertIdx pos x }⟩ →
    a2.get x = some ⟨p, .view vx⟩ → vx.id = x →
    shapeOk a par0 t = true → t.ids.Nodup → p ∈ t.ids → x ∉ t.ids →
    shapeOk a2 par0 (addChildT p pos x t) = true ∧
    (addChildT p pos x t).ids.Perm (x :: t.ids) ∧
    (addChildT p pos x t).panes.Perm (x :: t.panes)
  | a, a2, p, x, pos, pn, co, vx, .pane i, par0, hframe, hpn, hpnc, hpos, hpup,
      hx2, hvx, hsh, hnd, hpmem, hxn => by
    rw [RTree.ids, List.mem_singleton] at hpmem
    obtain ⟨v, hg, _⟩ := shapeOk_pane_elim hsh
    rw [← hpmem] at hg
    have hne : pn = ⟨par0, .view v⟩ := Option.some_inj.mp (hpn.symm.trans hg)
    rw [hne] at hpnc
    cases hpnc
  | a, a2, p, x, pos, pn, co, vx, .cont i cs, par0, hframe, hpn, hpnc, hpos, hpup,
      hx2, hvx, hsh, hnd, hpmem, hxn => by
    rw [RTree.ids, List.nodup_cons] at hnd
    obtain ⟨co_i, hgi, hchi, hsfi⟩ := shapeOk_cont_elim hsh
    have hxni : x ∉ cs.idsF := fun hm =>
      hxn (by rw [RTree.ids]; exact List.mem_cons_of_mem i hm)
    have hxi : ¬ i = x := fun he =>
      hxn (by rw [← he, RTree.ids]; exact List.mem_cons_self i _)
    by_cases hip : i = p
    · have hpni : pn = ⟨par0, .container co_i⟩ := by
        rw [hip] at hgi
        exact Option.some_inj.mp (hpn.symm.trans hgi)
      have hcoi : co_i = co := by
        have := congrArg Node.content hpni
        rw [hpnc] at this
        injection this.symm
      have hppar : pn.parent = par0 := congrArg Node.parent hpni
      rw [addChildT, if_pos hip]
      have hbound : pos ≤ cs.rootIds.length := by
        rw [← hcoi, hchi] at hpos
        exact hpos
      have hg2 : a2.get i = some ⟨par0, .container
          { co with children := co.children.insertIdx pos x }⟩ := by
        rw [hip, hpup, hppar]
      refine ⟨?_, ?_, ?_⟩
      · refine shapeOk_cont_intro hg2 ?_ ?_
        · rw [rootIds_insertIdxF, RTree.rootId, ← hchi, hcoi]
        · refine shapeOkF_insertIdxF pos (.pane x) cs ?_ ?_
          · rw [shapeOkF_agree i cs (fun k hk => hframe k
              (fun he => hnd.1 (by rw [hip, ← he]; exact hk))
              (fun he => hxni (by rw [← he]; exact hk)))]
            exact hsfi
          · refine shapeOk_pane_intro ?_ hvx
            rw [hip]
            exact hx2
      · rw [RTree.ids, RTree.ids]
        exact ((idsF_insertIdxF_perm pos (.pane x) cs hbound).cons i).trans
          (List.Perm.swap x i cs.idsF)
      · rw [RTree.panes, RTree.panes]
        exact panesF_insertIdxF_perm pos (.pane x) cs hbound
    · have hpmem2 : p ∈ cs.idsF := by
        rcases List.mem_cons.mp (by rw [RTree.ids] at hpmem; exact hpmem)
          with he | hm
        · exact absurd he.symm hip
        · exact hm
      rw [addChildT, if_neg hip]
      obtain ⟨hfsh, hfids, hfpanes⟩ := addChildF_shape cs i hframe hpn hpnc hpos
        hpup hx2 hvx hsfi hnd.2 hpmem2 hxni
      have hg2 : a2.get i = some ⟨par0, .container co_i⟩ := by
        rw [hframe i hip hxi]
        exact hgi
      refine ⟨?_, ?_, ?_⟩
      · refine shapeOk_cont_intro hg2 ?_ hfsh
        rw [rootIds_addChildF, hchi]
      · rw [RTree.ids, RTree.ids]
        exact (hfids.cons i).trans (List.Perm.swap x i cs.idsF)
      · rw [RTree.panes, RTree.panes]
        exact hfpanes
theorem addChildF_shape : ∀ {a a2 : SMap Node} {p x : ViewId} {pos : Nat}
    {pn : Node} {co : Container} {vx : View} (cs : RForest) (par0 : ViewId),
    (∀ k, k ≠ p → k ≠ x → a2.get k = a.get k) →
    a.get p = some pn → pn.content = .container co →
    pos ≤ co.children.length →
    a2.get p = some ⟨pn.parent,
      .container { co with children := co.children.insertIdx pos x }⟩ →
    a2.get x = some ⟨p, .view vx⟩ → vx.id = x →
    shapeOkF a par0 cs = true → cs.idsF.Nodup → p ∈ cs.idsF → x ∉ cs.idsF →
    shapeOkF a2 par0 (addChildF p pos x cs) = true ∧
    (addChildF p pos x cs).idsF.Perm (x :: cs.idsF) ∧
    (addChildF p pos x cs).panesF.Perm (x :: cs.panesF)
  | a, a2, p, x, pos, pn, co, vx, .nil, par0, _, _, _, _, _, _, _, _, _, hpmem, _ =>
    absurd hpmem (by rw [RForest.idsF]; exact List.not_mem_nil p)
  | a, a2, p, x, pos, pn, co, vx, .cons t ts, par0, hframe, hpn, hpnc, hpos, hpup,
      hx2, hvx, hsh, hnd, hpmem, hxn => by
    rw [shapeOkF, Bool.and_eq_true] at hsh
    rw [RForest.idsF] at hnd hpmem
    rw [RForest.idsF] at hxn
    have hxt : x ∉ t.ids := fun hm => hxn (List.mem_append.mpr (Or.inl hm))
    have hxts : x ∉ ts.idsF := fun hm => hxn (List.mem_append.mpr (Or.inr hm))
    obtain ⟨hndt, hndts, hdisj⟩ := List.nodup_append.mp hnd
    rcases List.mem_append.mp hpmem with hpt | hpts
    · obtain ⟨hts, htids, htpanes⟩ := addChildT_shape t par0 hframe hpn hpnc hpos
        hpup hx2 hvx hsh.1 hndt hpt hxt
      have hts2 : addChildF p pos x ts = ts :=
        addChildF_not_mem p pos x ts (fun hm => hdisj hpt hm)
      refine ⟨?_, ?_, ?_⟩
      · rw [addChildF, shapeOkF, hts2, hts]
        rw [shapeOkF_agree par0 ts (fun k hk => hframe k
          (fun he => hdisj hpt (he ▸ hk)) (fun he => hxts (he ▸ hk)))]
        rw [hsh.2]
        rfl
      · rw [addChildF, RForest.idsF, hts2, RForest.idsF]
        exact (htids.append_right ts.idsF).trans
          (by rw [List.cons_append])
      · rw [addChildF, RForest.panesF, hts2, RForest.panesF]
        exact (htpanes.append_right ts.panesF).trans
          (by rw [List.cons_append])
    · obtain ⟨hts, htids, htpanes⟩ := addChildF_shape ts par0 hframe hpn hpnc hpos
        hpup hx2 hvx hsh.2 hndts hpts hxts
      have ht2 : addChildT p pos x t = t :=
        addChildT_not_mem p pos x t (fun hm => hdisj hm hpts)
      refine ⟨?_, ?_, ?_⟩
      · rw [addChildF, shapeOkF, ht2, hts]
        rw [shapeOk_agree par0 t (fun k hk => hframe k
          (fun he => hdisj (he ▸ hk) hpts) (fun he => hxt (he ▸ hk)))]
        rw [hsh.1]
        rfl
      · rw [addChildF, RForest.idsF, ht2, RForest.idsF]
        exact (htids.append_left t.ids).trans (perm_shuffle t.ids [x] ts.idsF)
      · rw [addChildF, RForest.panesF, ht2, RForest.panesF]
        exact (htpanes.append_left t.panes).trans
          (perm_shuffle t.panes [x] ts.panesF)
end
/-- A shape-correct subtree can be reparented: if the arena changes only
its root node, and only that node's parent field, the shape check holds
against the new parent. -/
theorem shape_reparent {a a2 : SMap Node} (t : RTree) (p p2 : ViewId)
    (hsh : shapeOk a p t = true) (hnd : t.ids.Nodup)
    (hag : ∀ k ∈ t.ids, k ≠ t.rootId → a2.get k = a.get k)
    (hroot : ∀ n, a.get t.rootId = some n → a2.get t.rootId = some ⟨p2, n.content⟩) :
    shapeOk a2 p2 t = true := by
  cases t with
  | pane i =>
    obtain ⟨v, hg, hvid⟩ := shapeOk_pane_elim hsh
    have hg2 : a2.get i = some ⟨p2, .view v⟩ := by
      have h3 := hroot ⟨p, .view v⟩ (by rw [RTree.rootId]; exact hg)
      rw [RTree.rootId] at h3
      exact h3
    exact shapeOk_pane_intro hg2 hvid
  | cont i cs =>
    obtain ⟨co, hg, hch, hf⟩ := shapeOk_cont_elim hsh
    have hg2 : a2.get i = some ⟨p2, .container co⟩ := by
      have h3 := hroot ⟨p, .container co⟩ (by rw [RTree.rootId]; exact hg)
      rw [RTree.rootId] at h3
      exact h3
    refine shapeOk_cont_intro hg2 hch ?_
    rw [RTree.ids, List.nodup_cons] at hnd
    rw [shapeOkF_agree i cs (fun k hk => hag k
      (by rw [RTree.ids]; exact List.mem_cons_of_mem i hk)
      (by rw [RTree.rootId]; exact fun he => hnd.1 (he ▸ hk)))]
    exact hf

theorem root_parent_of_tree {a : SMap Node} {q f : ViewId} {fn : Node} (t : RTree)
    (hsh : shapeOk a q t = true) (hroot : t.rootId = f)
    (hg : a.get f = some fn) : fn.parent = q := by
  cases t with
  | pane i =>
    obtain ⟨v, hgi, _⟩ := shapeOk_pane_elim hsh
    rw [RTree.rootId] at hroot
    rw [hroot] at hgi
    have : fn = ⟨q, .view v⟩ := Option.some_inj.mp (hg.symm.trans hgi)
    rw [this]
  | cont i cs =>
    obtain ⟨co, hgi, _, _⟩ := shapeOk_cont_elim hsh
    rw [RTree.rootId] at hroot
    rw [hroot] at hgi
    have : fn = ⟨q, .container co⟩ := Option.some_inj.mp (hg.symm.trans hgi)
    rw [this]

theorem root_parent_of_forest {a : SMap Node} {q f : ViewId} {fn : Node} :
    ∀ (cs : RForest), shapeOkF a q cs = true → f ∈ cs.rootIds →
    a.get f = some fn → fn.parent = q
  | .nil, _, hf, _ => absurd hf (by rw [RForest.rootIds]; exact List.not_mem_nil f)
  | .cons t ts, hsh, hf, hg => by
    rw [shapeOkF, Bool.and_eq_true] at hsh
    rw [RForest.rootIds] at hf
    rcases List.mem_cons.mp hf with he | hm
    · exact root_parent_of_tree t hsh.1 he.symm hg
    · exact root_parent_of_forest ts hsh.2 hm hg
mutual
/-- Wrapping the subtree rooted at `f` into a new container `sid` with
second child `x` (split's axis-changing branch) preserves the shape
invariant; ids grow by `sid` and `x`, panes by `x`. -/
theorem wrapT_shape : ∀ {a a2 : SMap Node} {f sid x par : ViewId} {fn pn : Node}
    {co : Container} {pos : Nat} {vx : View} {lay : Layout} (t : RTree)
    (par0 : ViewId),
    (∀ k, k ≠ par → k ≠ f → k ≠ x → k ≠ sid → a2.get k = a.get k) →
    a.get f = some fn → fn.parent = par →
    a.get par = some pn → pn.content = .container co →
    co.children.findIdx? (· == f) = some pos →
    a2.get par = some ⟨pn.parent,
      .container { co with children := co.children.set pos sid }⟩ →
    a2.get f = some ⟨sid, fn.content⟩ →
    a2.get x = some ⟨sid, .view vx⟩ → vx.id = x →
    a2.get sid = some ⟨par, .container ⟨lay, [f, x], Rect.rdefault⟩⟩ →
    shapeOk a par0 t = true → t.ids.Nodup → f ∈ t.ids →
    x ∉ t.ids → sid ∉ t.ids → par0 ∉ t.ids →
    shapeOk a2 par0 (wrapT f sid x t) = true ∧
    (wrapT f sid x t).ids.Perm (sid :: x :: t.ids) ∧
    (wrapT f sid x t).panes.Perm (x :: t.panes)
  | a, a2, f, sid, x, par, fn, pn, co, pos, vx, lay, .pane i, par0, hframe, hfget,
      hfpar, hpn, hpnc, hfind, hparup, hfup, hx2, hvx, hsid2, hsh, hnd, hfmem,
      hxn, hsn, hp0 => by
    rw [RTree.ids, List.mem_singleton] at hfmem
    obtain ⟨v, hg, hvid⟩ := shapeOk_pane_elim hsh
    have hfeq : fn = ⟨par0, .view v⟩ := by
      rw [← hfmem] at hg
      exact Option.some_inj.mp (hfget.symm.trans hg)
    have hpar0 : par0 = par := by
      rw [← hfpar, hfeq]
    rw [wrapT, if_pos hfmem.symm]
    refine ⟨?_, ?_, ?_⟩
    · refine shapeOk_cont_intro (by rw [hsid2, hpar0]) ?_ ?_
      · rw [RForest.rootIds, RForest.rootIds, RForest.rootIds, RTree.rootId,
          RTree.rootId, hfmem]
      · rw [shapeOkF, shapeOkF, shapeOkF, Bool.and_eq_true, Bool.and_eq_true]
        refine ⟨?_, ?_, rfl⟩
        · refine shapeOk_pane_intro ?_ hvid
          rw [← hfmem, hfup, hfeq]
        · exact shapeOk_pane_intro hx2 hvx
    · simp only [RTree.ids, RForest.idsF, List.append_nil, List.cons_append,
        List.nil_append]
      exact (List.Perm.swap x i []).cons sid
    · simp only [RTree.panes, RForest.panesF, List.append_nil, List.cons_append,
        List.nil_append]
      exact List.Perm.swap x i []
  | a, a2, f, sid, x, par, fn, pn, co, pos, vx, lay, .cont i cs, par0, hframe,
      hfget, hfpar, hpn, hpnc, hfind, hparup, hfup, hx2, hvx, hsid2, hsh, hnd,
      hfmem, hxn, hsn, hp0 => by
    have hndc := hnd
    rw [RTree.ids, List.nodup_cons] at hndc
    obtain ⟨co_i, hgi, hchi, hsfi⟩ := shapeOk_cont_elim hsh
    have hxni : x ∉ cs.idsF := fun hm =>
      hxn (by rw [RTree.ids]; exact List.mem_cons_of_mem i hm)
    have hsni : sid ∉ cs.idsF := fun hm =>
      hsn (by rw [RTree.ids]; exact List.mem_cons_of_mem i hm)
    have hp0i : par0 ∉ cs.idsF := fun hm =>
      hp0 (by rw [RTree.ids]; exact List.mem_cons_of_mem i hm)
    have hxi : ¬ i = x := fun he =>
      hxn (by rw [← he, RTree.ids]; exact List.mem_cons_self i _)
    have hsi : ¬ i = sid := fun he =>
      hsn (by rw [← he, RTree.ids]; exact List.mem_cons_self i _)
    by_cases hif : i = f
    · have hfeq : fn = ⟨par0, .container co_i⟩ := by
        rw [hif] at hgi
        exact Option.some_inj.mp (hfget.symm.trans hgi)
      have hpar0 : par0 = par := by
        rw [← hfpar, hfeq]
      rw [wrapT, if_pos hif]
      refine ⟨?_, ?_, ?_⟩
      · refine shapeOk_cont_intro (by rw [hsid2, hpar0]) ?_ ?_
        · rw [RForest.rootIds, RForest.rootIds, RForest.rootIds, RTree.rootId,
            RTree.rootId, hif]
        · rw [shapeOkF, shapeOkF, shapeOkF, Bool.and_eq_true, Bool.and_eq_true]
          refine ⟨?_, ?_, rfl⟩
          · refine shape_reparent (.cont i cs) par0 sid hsh hnd ?_ ?_
            · intro k hk hkr
              rw [RTree.rootId] at hkr
              refine hframe k ?_ (fun he => hkr (by rw [he, ← hif]))
                (fun he => hxn (by rw [← he]; exact hk))
                (fun he => hsn (by rw [← he]; exact hk))
              rw [← hpar0]
              exact fun he => hp0 (by rw [← he]; exact hk)
            · intro n hn
              rw [RTree.rootId] at hn ⊢
              rw [hif, hfup]
              have : n = fn := Option.some_inj.mp
                (hn.symm.trans (by rw [← hif] at hfget; exact hfget))
              rw [this]
          · exact shapeOk_pane_intro hx2 hvx
      · simp only [RTree.ids, RForest.idsF, List.append_nil, List.cons_append,
          List.nil_append]
        exact ((List.perm_append_singleton x (i :: cs.idsF)).cons sid)
      · simp only [RTree.panes, RForest.panesF, List.append_nil, List.cons_append,
          List.nil_append]
        exact List.perm_append_singleton x cs.panesF
    · have hfmem2 : f ∈ cs.idsF := by
        rcases List.mem_cons.mp (by rw [RTree.ids] at hfmem; exact hfmem)
          with he | hm
        · exact absurd he.symm hif
        · exact hm
      rw [wrapT, if_neg hif]
      obtain ⟨hfsh, hfids, hfpanes⟩ := wrapF_shape cs i hframe hfget hfpar hpn
        hpnc hfind hparup hfup hx2 hvx hsid2 hsfi hndc.2 hfmem2 hxni hsni hndc.1
      by_cases hipar : i = par
      · have hpni : pn = ⟨par0, .container co_i⟩ := by
          rw [hipar] at hgi
          exact Option.some_inj.mp (hpn.symm.trans hgi)
        have hcoi : co_i = co := by
          have h3 := congrArg Node.content hpni
          rw [hpnc] at h3
          injection h3.symm
        have hrootnodup : cs.rootIds.Nodup :=
          hndc.2.sublist (rootIds_sublist_idsF cs)
        refine ⟨?_, ?_, ?_⟩
        · refine shapeOk_cont_intro
            (by rw [hipar, hparup, congrArg Node.parent hpni]) ?_ hfsh
          rw [rootIds_wrapF, ← hchi, hcoi,
            map_if_eq_set (hcoi ▸ hchi ▸ hrootnodup) hfind]
        · rw [RTree.ids, RTree.ids]
          exact (hfids.cons i).trans ((List.Perm.swap sid i (x :: cs.idsF)).trans
            ((List.Perm.swap x i cs.idsF).cons sid))
        · rw [RTree.panes, RTree.panes]
          exact hfpanes
      · have hfnotroot : f ∉ cs.rootIds := by
          intro hm
          exact hipar (root_parent_of_forest cs hsfi hm hfget ▸ hfpar ▸ rfl)
        refine ⟨?_, ?_, ?_⟩
        · refine shapeOk_cont_intro
            (by rw [hframe i hipar hif hxi hsi]; exact hgi) ?_ hfsh
          rw [rootIds_wrapF, map_if_not_mem hfnotroot, hchi]
        · rw [RTree.ids, RTree.ids]
          exact (hfids.cons i).trans ((List.Perm.swap sid i (x :: cs.idsF)).trans
            ((List.Perm.swap x i cs.idsF).cons sid))
        · rw [RTree.panes, RTree.panes]
          exact hfpanes
theorem wrapF_shape : ∀ {a a2 : SMap Node} {f sid x par : ViewId} {fn pn : Node}
    {co : Container} {pos : Nat} {vx : View} {lay : Layout} (cs : RForest)
    (par0 : ViewId),
    (∀ k, k ≠ par → k ≠ f → k ≠ x → k ≠ sid → a2.get k = a.get k) →
    a.get f = some fn → fn.parent = par →
    a.get par = some pn → pn.content = .container co →
    co.children.findIdx? (· == f) = some pos →
    a2.get par = some ⟨pn.parent,
      .container { co with children := co.children.set pos sid }⟩ →
    a2.get f = some ⟨sid, fn.content⟩ →
    a2.get x = some ⟨sid, .view vx⟩ → vx.id = x →
    a2.get sid = some ⟨par, .container ⟨lay, [f, x], Rect.rdefault⟩⟩ →
    shapeOkF a par0 cs = true → cs.idsF.Nodup → f ∈ cs.idsF →
    x ∉ cs.idsF → sid ∉ cs.idsF → par0 ∉ cs.idsF →
    shapeOkF a2 par0 (wrapF f sid x cs) = true ∧
    (wrapF f sid x cs).idsF.Perm (sid :: x :: cs.idsF) ∧
    (wrapF f sid x cs).panesF.Perm (x :: cs.panesF)
  | a, a2, f, sid, x, par, fn, pn, co, pos, vx, lay, .nil, par0, _, _, _, _, _,
      _, _, _, _, _, _, _, _, hfmem, _, _, _ =>
    absurd hfmem (by rw [RForest.idsF]; exact List.not_mem_nil f)
  | a, a2, f, sid, x, par, fn, pn, co, pos, vx, lay, .cons t ts, par0, hframe,
      hfget, hfpar, hpn, hpnc, hfind, hparup, hfup, hx2, hvx, hsid2, hsh, hnd,
      hfmem, hxn, hsn, hp0 => by
    rw [shapeOkF, Bool.and_eq_true] at hsh
    rw [RForest.idsF] at hnd hfmem hxn hsn hp0
    have hxt : x ∉ t.ids := fun hm => hxn (List.mem_append.mpr (Or.inl hm))
    have hxts : x ∉ ts.idsF := fun hm => hxn (List.mem_append.mpr (Or.inr hm))
    have hst : sid ∉ t.ids := fun hm => hsn (List.mem_append.mpr (Or.inl hm))
    have hsts : sid ∉ ts.idsF := fun hm => hsn (List.mem_append.mpr (Or.inr hm))
    have hp0t : par0 ∉ t.ids := fun hm => hp0 (List.mem_append.mpr (Or.inl hm))
    have hp0ts : par0 ∉ ts.idsF := fun hm => hp0 (List.mem_append.mpr (Or.inr hm))
    obtain ⟨hndt, hndts, hdisj⟩ := List.nodup_append.mp hnd
    rcases List.mem_append.mp hfmem with hft | hfts
    · have hparnot : par ∉ ts.idsF := by
        by_cases hroot : t.rootId = f
        · have h3 : fn.parent = par0 := root_parent_of_tree t hsh.1 hroot hfget
          rw [hfpar] at h3
          rw [h3]
          exact hp0ts
        · have hin := parent_insideT t hsh.1 hft (fun he => hroot he.symm) hfget
          rw [hfpar] at hin
          exact fun hm => hdisj hin hm
      obtain ⟨hts, htids, htpanes⟩ := wrapT_shape t par0 hframe hfget hfpar hpn
        hpnc hfind hparup hfup hx2 hvx hsid2 hsh.1 hndt hft hxt hst hp0t
      have hts2 : wrapF f sid x ts = ts :=
        wrapF_not_mem f sid x ts (fun hm => hdisj hft hm)
      refine ⟨?_, ?_, ?_⟩
      · rw [wrapF, shapeOkF, hts2, hts]
        rw [shapeOkF_agree par0 ts (fun k hk => hframe k
          (fun he => hparnot (by rw [← he]; exact hk))
          (fun he => hdisj hft (by rw [he] at hk; exact hk))
          (fun he => hxts (by rw [← he]; exact hk))
          (fun he => hsts (by rw [← he]; exact hk)))]
        rw [hsh.2]
        rfl
      · rw [wrapF, RForest.idsF, hts2, RForest.idsF]
        exact (htids.append_right ts.idsF).trans
          (by rw [List.cons_append, List.cons_append])
      · rw [wrapF, RForest.panesF, hts2, RForest.panesF]
        exact (htpanes.append_right ts.panesF).trans
          (by rw [List.cons_append])
    · have hparnot : par ∉ t.ids := by
        rcases parent_insideF ts hsh.2 hfts hfget with hq | hin
        · rw [hfpar] at hq
          rw [hq]
          exact hp0t
        · rw [hfpar] at hin
          exact fun hm => hdisj hm hin
      obtain ⟨hts, htids, htpanes⟩ := wrapF_shape ts par0 hframe hfget hfpar hpn
        hpnc hfind hparup hfup hx2 hvx hsid2 hsh.2 hndts hfts hxts hsts hp0ts
      have ht2 : wrapT f sid x t = t :=
        wrapT_not_mem f sid x t (fun hm => hdisj hm hfts)
      refine ⟨?_, ?_, ?_⟩
      · rw [wrapF, shapeOkF, ht2, hts]
        rw [shapeOk_agree par0 t (fun k hk => hframe k
          (fun he => hparnot (by rw [← he]; exact hk))
          (fun he => hdisj (by rw [he] at hk; exact hk) hfts)
          (fun he => hxt (by rw [← he]; exact hk))
          (fun he => hst (by rw [← he]; exact hk)))]
        rw [hsh.1]
        rfl
      · rw [wrapF, RForest.idsF, ht2, RForest.idsF]
        exact (htids.append_left t.ids).trans (perm_shuffle t.ids (sid :: [x]) ts.idsF)
      · rw [wrapF, RForest.panesF, ht2, RForest.panesF]
        exact (htpanes.append_left t.panes).trans
          (perm_shuffle t.panes [x] ts.panesF)
end
/-! ### Reachability versus shape witnesses -/

theorem reach_trans {a : SMap Node} {r c v : ViewId}
    (h1 : Reach a r c) (h2 : Reach a c v) : Reach a r v := by
  induction h2 with
  | root => exact h1
  | child h2r h2get h2c h2m ih => exact Reach.child ih h2get h2c h2m

mutual
theorem closedT : ∀ {a : SMap Node} (t : RTree) (q : ViewId),
    shapeOk a q t = true → ∀ (c : ViewId) (n : Node) (co : Container),
    c ∈ t.ids → a.get c = some n → n.content = .container co →
    ∀ ch ∈ co.children, ch ∈ t.ids
  | a, .pane i, q, hsh, c, n, co, hc, hg, hco, ch, hch => by
    rw [RTree.ids, List.mem_singleton] at hc
    obtain ⟨v, hgi, _⟩ := shapeOk_pane_elim hsh
    rw [hc] at hg
    have : n = ⟨q, .view v⟩ := Option.some_inj.mp (hg.symm.trans hgi)
    rw [this] at hco
    cases hco
  | a, .cont i cs, q, hsh, c, n, co, hc, hg, hco, ch, hch => by
    obtain ⟨co_i, hgi, hchi, hsf⟩ := shapeOk_cont_elim hsh
    rw [RTree.ids] at hc
    rcases List.mem_cons.mp hc with rfl | hc2
    · have hni : n = ⟨q, .container co_i⟩ := Option.some_inj.mp (hg.symm.trans hgi)
      have hcoi : co = co_i := by
        have h3 := congrArg Node.content hni
        rw [hco] at h3
        injection h3
      rw [hcoi, hchi] at hch
      rw [RTree.ids]
      exact List.mem_cons_of_mem c ((rootIds_sublist_idsF cs).mem hch)
    · rw [RTree.ids]
      exact List.mem_cons_of_mem i (closedF cs i hsf c n co hc2 hg hco ch hch)
theorem closedF : ∀ {a : SMap Node} (cs : RForest) (q : ViewId),
    shapeOkF a q cs = true → ∀ (c : ViewId) (n : Node) (co : Container),
    c ∈ cs.idsF → a.get c = some n → n.content = .container co →
    ∀ ch ∈ co.children, ch ∈ cs.idsF
  | a, .nil, q, _, c, _, _, hc, _, _, _, _ =>
    absurd hc (by rw [RForest.idsF]; exact List.not_mem_nil c)
  | a, .cons t ts, q, hsh, c, n, co, hc, hg, hco, ch, hch => by
    rw [shapeOkF, Bool.and_eq_true] at hsh
    rw [RForest.idsF] at hc
    rw [RForest.idsF]
    rcases List.mem_append.mp hc with hc2 | hc2
    · exact List.mem_append.mpr (Or.inl (closedT t q hsh.1 c n co hc2 hg hco ch hch))
    · exact List.mem_append.mpr (Or.inr (closedF ts q hsh.2 c n co hc2 hg hco ch hch))
end

theorem reach_in_ids {a : SMap Node} (t : RTree) (q : ViewId)
    (hsh : shapeOk a q t = true) : ∀ v, Reach a t.rootId v → v ∈ t.ids := by
  intro v hr
  induction hr with
  | root => exact rootId_mem_ids t
  | child hrr hg hc hm ih => exact closedT t q hsh _ _ _ ih hg hc _ hm

mutual
theorem ids_reachT : ∀ {a : SMap Node} (t : RTree) (q : ViewId),
    shapeOk a q t = true → ∀ v ∈ t.ids, Reach a t.rootId v
  | a, .pane i, q, hsh, v, hv => by
    rw [RTree.ids, List.mem_singleton] at hv
    rw [hv, RTree.rootId]
    exact Reach.root
  | a, .cont i cs, q, hsh, v, hv => by
    obtain ⟨co_i, hgi, hchi, hsf⟩ := shapeOk_cont_elim hsh
    rw [RTree.ids] at hv
    rw [RTree.rootId]
    rcases List.mem_cons.mp hv with rfl | hv2
    · exact Reach.root
    · obtain ⟨r, hrm, hreach⟩ := ids_reachF cs i hsf v hv2
      refine reach_trans ?_ hreach
      refine Reach.child Reach.root hgi rfl ?_
      rw [hchi]
      exact hrm
theorem ids_reachF : ∀ {a : SMap Node} (cs : RForest) (q : ViewId),
    shapeOkF a q cs = true → ∀ v ∈ cs.idsF, ∃ r ∈ cs.rootIds, Reach a r v
  | a, .nil, q, _, v, hv =>
    absurd hv (by rw [RForest.idsF]; exact List.not_mem_nil v)
  | a, .cons t ts, q, hsh, v, hv => by
    rw [shapeOkF, Bool.and_eq_true] at hsh
    rw [RForest.idsF] at hv
    rw [RForest.rootIds]
    rcases List.mem_append.mp hv with hv2 | hv2
    · exact ⟨t.rootId, List.mem_cons_self _ _, ids_reachT t q hsh.1 v hv2⟩
    · obtain ⟨r, hrm, hreach⟩ := ids_reachF ts q hsh.2 v hv2
      exact ⟨r, List.mem_cons_of_mem _ hrm, hreach⟩
end

mutual
theorem view_paneT : ∀ {a : SMap Node} (t : RTree) (q : ViewId),
    shapeOk a q t = true → ∀ (v : ViewId) (n : Node) (vv : View),
    v ∈ t.ids → a.get v = some n → n.content = .view vv → v ∈ t.panes
  | a, .pane i, q, hsh, v, n, vv, hv, _, _ => by
    rw [RTree.ids] at hv
    rw [RTree.panes]
    exact hv
  | a, .cont i cs, q, hsh, v, n, vv, hv, hg, hco => by
    obtain ⟨co_i, hgi, _, hsf⟩ := shapeOk_cont_elim hsh
    rw [RTree.ids] at hv
    rcases List.mem_cons.mp hv with rfl | hv2
    · have hni : n = ⟨q, .container co_i⟩ := Option.some_inj.mp (hg.symm.trans hgi)
      have h3 := congrArg Node.content hni
      rw [hco] at h3
      cases h3
    · rw [RTree.panes]
      exact view_paneF cs i hsf v n vv hv2 hg hco
theorem view_paneF : ∀ {a : SMap Node} (cs : RForest) (q : ViewId),
    shapeOkF a q cs = true → ∀ (v : ViewId) (n : Node) (vv : View),
    v ∈ cs.idsF → a.get v = some n → n.content = .view vv → v ∈ cs.panesF
  | a, .nil, q, _, v, _, _, hv, _, _ =>
    absurd hv (by rw [RForest.idsF]; exact List.not_mem_nil v)
  | a, .cons t ts, q, hsh, v, n, vv, hv, hg, hco => by
    rw [shapeOkF, Bool.and_eq_true] at hsh
    rw [RForest.idsF] at hv
    rw [RForest.panesF]
    rcases List.mem_append.mp hv with hv2 | hv2
    · exact List.mem_append.mpr (Or.inl (view_paneT t q hsh.1 v n vv hv2 hg hco))
    · exact List.mem_append.mpr (Or.inr (view_paneF ts q hsh.2 v n vv hv2 hg hco))
end

theorem isPaneAt_iff (s : Tabs) (v : ViewId) :
    isPaneAt s v = true ↔ ∃ n vv, s.nodes.get v = some n ∧ n.content = .view vv := by
  rw [isPaneAt]
  cases hg : s.nodes.get v with
  | none =>
    dsimp only
    constructor
    · intro h
      cases h
    · intro ⟨n, vv, hn, _⟩
      cases hn
  | some n =>
    dsimp only
    cases hc : n.content with
    | view vv =>
      constructor
      · intro _
        exact ⟨n, vv, rfl, hc⟩
      · intro _
        rfl
    | container co =>
      constructor
      · intro h
        cases h
      · intro ⟨n2, vv, hn2, hc2⟩
        have h4 : n2 = n := (Option.some_inj.mp hn2).symm
        rw [h4, hc] at hc2
        cases hc2
/-! ### Key-set preservation of the layout pass, and invariant preservation -/

theorem SMap.get_of_mem_keys {α : Type} {m : SMap α} {k : Nat} (h : k ∈ m.keys) :
    ∃ v, m.get k = some v := by
  have h2 := (SMap.containsKey_iff m k).mpr h
  rw [SMap.containsKey] at h2
  exact Option.isSome_iff_exists.mp h2

theorem recalcLoop_keys : ∀ (fuel : Nat) (s : Tabs) (stk : List (ViewId × Rect))
    (s2 : Tabs), Tabs.recalcLoop fuel s stk = some s2 →
    s2.nodes.keys = s.nodes.keys ∧ s2.nodes.nextKey = s.nodes.nextKey ∧
    s2.trees = s.trees := by
  intro fuel
  induction fuel with
  | zero =>
    intro s stk s2 h
    cases stk with
    | nil =>
      rw [Tabs.recalcLoop] at h
      obtain rfl := Option.some_inj.mp h
      exact ⟨rfl, rfl, rfl⟩
    | cons e es =>
      rw [Tabs.recalcLoop] at h
      cases h
  | succ fuel ih =>
    intro s stk s2 h
    cases stk with
    | nil =>
      rw [Tabs.recalcLoop] at h
      obtain rfl := Option.some_inj.mp h
      exact ⟨rfl, rfl, rfl⟩
    | cons e es =>
      obtain ⟨key, area⟩ := e
      rw [Tabs.recalcLoop] at h
      simp only [Option.bind_eq_bind, Option.bind_eq_some] at h
      obtain ⟨n, hn, h⟩ := h
      cases hc : n.content with
      | view v =>
        rw [hc] at h
        dsimp only at h
        obtain ⟨k1, k2, k3⟩ := ih _ _ _ h
        rw [k1, k2, k3]
        exact ⟨SMap.keys_set _ _ _, rfl, rfl⟩
      | container co =>
        rw [hc] at h
        dsimp only at h
        simp only [Option.bind_eq_bind, Option.bind_eq_some] at h
        obtain ⟨rects, _, h⟩ := h
        obtain ⟨k1, k2, k3⟩ := ih _ _ _ h
        rw [k1, k2, k3]
        exact ⟨SMap.keys_set _ _ _, rfl, rfl⟩

theorem recalcTab_keys (s : Tabs) (tab : TabId) (s2 : Tabs)
    (h : s.recalcTab tab = some s2) :
    s2.nodes.keys = s.nodes.keys ∧ s2.nodes.nextKey = s.nodes.nextKey ∧
    s2.trees.keys = s.trees.keys ∧ s2.trees.nextKey = s.trees.nextKey := by
  rw [Tabs.recalcTab] at h
  simp only [Option.bind_eq_bind, Option.bind_eq_some] at h
  obtain ⟨emp, hemp, h⟩ := h
  split at h
  · simp only [Option.bind_eq_bind, Option.bind_eq_some, Option.pure_def] at h
    obtain ⟨tree, htree, h⟩ := h
    obtain rfl := Option.some_inj.mp h
    exact ⟨rfl, rfl, SMap.keys_set _ _ _, rfl⟩
  · simp only [Option.bind_eq_bind, Option.bind_eq_some, Option.pure_def] at h
    obtain ⟨tree, htree, smid, hloop, tree2, htree2, h⟩ := h
    obtain rfl := Option.some_inj.mp h
    obtain ⟨k1, k2, k3⟩ := recalcLoop_keys _ _ _ _ hloop
    refine ⟨k1, k2, ?_, ?_⟩
    · show (smid.trees.set tab _).keys = s.trees.keys
      rw [SMap.keys_set, k3]
    · show (smid.trees.set tab _).nextKey = s.trees.nextKey
      rw [SMap.nextKey_set, k3]

theorem recalcAllGo_keys : ∀ (l : List TabId) (s s2 : Tabs),
    Tabs.recalcAllGo s l = some s2 →
    s2.nodes.keys = s.nodes.keys ∧ s2.nodes.nextKey = s.nodes.nextKey ∧
    s2.trees.keys = s.trees.keys ∧ s2.trees.nextKey = s.trees.nextKey
  | [], s, s2, h => by
    rw [Tabs.recalcAllGo] at h
    obtain rfl := Option.some_inj.mp h
    exact ⟨rfl, rfl, rfl, rfl⟩
  | t :: rest, s, s2, h => by
    rw [Tabs.recalcAllGo] at h
    simp only [Option.bind_eq_bind, Option.bind_eq_some] at h
    obtain ⟨s1, hrc, h⟩ := h
    obtain ⟨k1, k2, k3, k4⟩ := recalcAllGo_keys rest s1 s2 h
    obtain ⟨m1, m2, m3, m4⟩ := recalcTab_keys s t s1 hrc
    exact ⟨k1.trans m1, k2.trans m2, k3.trans m3, k4.trans m4⟩

/-- `recalculate` preserves global well-formedness with the same shape
witnesses. -/
theorem recalculate_inv (s s2 : Tabs) (w : TabId → RTree)
    (hinv : InvW s w) (hrec : s.recalculate = some s2) : InvW s2 w := by
  have hex : ∀ j ∈ s.trees.keys, ∃ trj, s.trees.get j = some trj ∧
      tabShapeB s.nodes trj (w j) = true := by
    intro j hj
    obtain ⟨trj, htrj⟩ := SMap.get_of_mem_keys hj
    refine ⟨trj, htrj, ?_⟩
    obtain ⟨cs, hcs⟩ := (hinv.wf j trj htrj).is_cont
    rw [hcs]
    refine tabShapeB_intro rfl ?_ ?_ (hinv.wf j trj htrj).stack_empty
    · rw [← hcs]
      exact (hinv.wf j trj htrj).shape
    · rw [← hcs]
      exact (hinv.wf j trj htrj).nodup
  have hdisj : ∀ j1 ∈ s.trees.keys, ∀ j2 ∈ s.trees.keys, j1 ≠ j2 →
      ∀ v ∈ (w j1).ids, v ∉ (w j2).ids := by
    intro j1 h1 j2 h2 hne v hv
    obtain ⟨t1, ht1⟩ := SMap.get_of_mem_keys h1
    obtain ⟨t2, ht2⟩ := SMap.get_of_mem_keys h2
    exact hinv.disj j1 j2 t1 t2 ht1 ht2 hne v hv
  obtain ⟨fskel, fnk, ftnk, funt, fframe, ftab⟩ :=
    recalcAllGo_spec w s.trees.keys s s2 hinv.trees_nodup hex hdisj hrec
  obtain ⟨k1, k2, k3, k4⟩ := recalcAllGo_keys s.trees.keys s s2 hrec
  have hgetpres : ∀ j trj2, s2.trees.get j = some trj2 → ∃ trj,
      s.trees.get j = some trj ∧ trj2.area = trj.area ∧ trj2.root = trj.root ∧
      trj2.id = trj.id ∧ trj2.nodes = trj.nodes ∧
      (trj2.stack = trj.stack ∨ trj2.stack = []) ∧
      (trj2.focus = trj.focus ∨ trj2.focus = trj.root) := by
    intro j trj2 hg2
    have hjmem : j ∈ s.trees.keys := by
      rw [← k3]
      exact SMap.get_some_mem_keys hg2
    obtain ⟨trj, htrj⟩ := SMap.get_of_mem_keys hjmem
    obtain ⟨trj2b, hg2b, hrest⟩ := ftab j hjmem trj htrj
    have : trj2b = trj2 := Option.some_inj.mp (hg2b.symm.trans hg2)
    rw [this] at hrest
    exact ⟨trj, htrj, hrest.1, hrest.2.1, hrest.2.2.1, hrest.2.2.2.1,
      hrest.2.2.2.2.1, hrest.2.2.2.2.2.1⟩
  have hroot_in : ∀ j trj, s.trees.get j = some trj → trj.root ∈ (w j).ids := by
    intro j trj htrj
    obtain ⟨cs, hcs⟩ := (hinv.wf j trj htrj).is_cont
    rw [hcs]
    rw [RTree.ids]
    exact List.mem_cons_self _ _
  refine ⟨?_, ?_, ?_, ?_, ?_, ?_, ?_, ?_, ?_⟩
  · rw [k1]
    exact hinv.nodes_nodup
  · intro k hk
    rw [k1] at hk
    rw [k2]
    exact hinv.nodes_lt k hk
  · rw [k3]
    exact hinv.trees_nodup
  · intro k hk
    rw [k3] at hk
    rw [k4]
    exact hinv.trees_lt k hk
  · intro k t hgt
    obtain ⟨trj, htrj, _, _, hid, _, _, _⟩ := hgetpres k t hgt
    rw [hid]
    exact hinv.tree_id k trj htrj
  · intro k t hgt
    obtain ⟨trj, htrj, harea, hroot, hid, hnodes, hstack, hfocus⟩ := hgetpres k t hgt
    have hwf := hinv.wf k trj htrj
    obtain ⟨cs, hcs⟩ := hwf.is_cont
    refine ⟨⟨cs, by rw [hroot]; exact hcs⟩, ?_, hwf.nodup, ?_, ?_, ?_⟩
    · rw [hroot, hcs, shapeOk_congr s.nodes s2.nodes fskel, ← hcs]
      exact hwf.shape
    · intro v
      rw [hnodes, hroot]
      exact hwf.members v
    · rw [hnodes]
      exact hwf.members_nodup
    · rcases hstack with h | h
      · rw [h]
        exact hwf.stack_empty
      · exact h
  · intro k1x k2x t1 t2 hg1 hg2 hne v hv
    obtain ⟨trj1, htrj1, _⟩ := hgetpres k1x t1 hg1
    obtain ⟨trj2, htrj2, _⟩ := hgetpres k2x t2 hg2
    exact hinv.disj k1x k2x trj1 trj2 htrj1 htrj2 hne v hv
  · intro k t hgt
    obtain ⟨trj, htrj, _, hroot, _, _, _, hfocus⟩ := hgetpres k t hgt
    rcases hfocus with h | h
    · rw [h, k2]
      exact hinv.focus_lt k trj htrj
    · rw [h, k2]
      have hmem := hroot_in k trj htrj
      obtain ⟨n, hgn⟩ := shape_ids_get (w k) (hinv.wf k trj htrj).shape trj.root hmem
      exact hinv.nodes_lt trj.root (SMap.get_some_mem_keys hgn)
  · intro k t hgt hck
    obtain ⟨trj, htrj, _, hroot, _, _, _, hfocus⟩ := hgetpres k t hgt
    rcases hfocus with h | h
    · rw [h]
      refine hinv.focus_mem k trj htrj ?_
      rw [← h]
      rw [SMap.containsKey] at hck ⊢
      have hsk := fskel t.focus
      cases hg1 : s.nodes.get t.focus with
      | none =>
        rw [hg1] at hsk
        cases hg2 : s2.nodes.get t.focus with
        | none =>
          rw [hg2] at hsk
          rw [hg2] at hck
          cases hck
        | some n2 => rw [hg2] at hsk; cases hsk
      | some n1 => rfl
    · rw [h]
      exact hroot_in k trj htrj
/-! ### Invariant preservation by the mutating operations -/

theorem wnext_mem {l : List ViewId} {f g : ViewId} (h : wnext l f = some g) :
    g ∈ l := by
  rw [wnext] at h
  cases h2 : (l.dropWhile (· ≠ f)).drop 1 with
  | nil =>
    rw [h2] at h
    cases l with
    | nil => cases h
    | cons a as =>
      have h3 : a = g := Option.some_inj.mp h
      rw [← h3]
      exact List.mem_cons_self a as
  | cons x xs =>
    rw [h2] at h
    have hg : x = g := Option.some_inj.mp h
    have hsub : ((l.dropWhile (· ≠ f)).drop 1).Sublist l :=
      List.Sublist.trans (List.drop_sublist 1 _) (List.dropWhile_sublist _)
    rw [← hg]
    exact hsub.mem (by rw [h2]; exact List.mem_cons_self x xs)

theorem findIdx?_beq_mem {a : Nat} {l : List Nat} {i : Nat}
    (h : l.findIdx? (· == a) = some i) : a ∈ l ∧ i < l.length := by
  have h2 := findIdx?_beq_getElem h
  have h3 : i < l.length := by
    by_contra hge
    rw [List.getElem?_eq_none (Nat.le_of_not_lt hge)] at h2
    cases h2
  refine ⟨?_, h3⟩
  have h4 : l[i] = a := by
    have h5 := List.getElem?_eq_getElem h3
    rw [h5] at h2
    exact Option.some_inj.mp h2
  rw [← h4]
  exact List.getElem_mem h3

theorem ids_lt_nextKey {a : SMap Node} {q : ViewId} {t : RTree}
    (hsh : shapeOk a q t = true) (hlt : ∀ k ∈ a.keys, k < a.nextKey) :
    ∀ v ∈ t.ids, v < a.nextKey := by
  intro v hv
  obtain ⟨n, hn⟩ := shape_ids_get t hsh v hv
  exact hlt v (SMap.get_some_mem_keys hn)

theorem mem_memInsert (l : List ViewId) (v x : ViewId) :
    x ∈ memInsert l v ↔ x ∈ l ∨ x = v := by
  by_cases hvl : v ∈ l
  · rw [memInsert, if_pos hvl]
    constructor
    · exact Or.inl
    · rintro (h | rfl)
      · exact h
      · exact hvl
  · rw [memInsert, if_neg hvl, List.mem_append, List.mem_singleton]

theorem memInsert_nodup {l : List ViewId} {v : ViewId} (hnd : l.Nodup) :
    (memInsert l v).Nodup := by
  by_cases hvl : v ∈ l
  · rw [memInsert, if_pos hvl]
    exact hnd
  · rw [memInsert, if_neg hvl, List.nodup_append]
    refine ⟨hnd, List.nodup_singleton v, ?_⟩
    intro x hx hx2
    rw [List.mem_singleton] at hx2
    rw [hx2] at hx
    exact hvl hx

/-- Transfer a tree's well-formedness record across an arena change that
leaves every node of its shape witness untouched. -/
theorem TreeWF_agree {a a2 : SMap Node} {tree : Tree} {rt : RTree}
    (hwf : TreeWF a tree rt) (hag : ∀ k ∈ rt.ids, a2.get k = a.get k) :
    TreeWF a2 tree rt :=
  ⟨hwf.is_cont, by rw [shapeOk_agree tree.root rt hag]; exact hwf.shape,
   hwf.nodup, hwf.members, hwf.members_nodup, hwf.stack_empty⟩

/-- The stored parent of the focused node is an id of the focused tree's
shape witness (the root when the focus is the root). -/
theorem focus_parent_mem {s : Tabs} {w : TabId → RTree} (hinv : InvW s w)
    {tab : TabId} {tree : Tree} {fnode : Node}
    (htree : s.trees.get tab = some tree)
    (hfn : s.nodes.get tree.focus = some fnode) :
    fnode.parent ∈ (w tab).ids := by
  have hwf := hinv.wf tab tree htree
  have hfm : tree.focus ∈ (w tab).ids :=
    hinv.focus_mem tab tree htree (by rw [SMap.containsKey, hfn]; rfl)
  by_cases hroot : tree.focus = (w tab).rootId
  · have hpar := root_parent_of_tree (w tab) hwf.shape hroot.symm hfn
    rw [hpar]
    obtain ⟨cs, hcs⟩ := hwf.is_cont
    rw [hcs, RTree.ids]
    exact List.mem_cons_self _ _
  · exact parent_insideT (w tab) hwf.shape hfm hroot hfn

/-- The common mutation of `insert` and the matching-axis branch of
`split`: allocate a fresh pane under the focused node's parent container
and register it, at child index `pos`.  The global invariant is preserved,
with the tab's shape witness grown by `addChildT`. -/
theorem insert_core (s : Tabs) (tab : TabId) (view : View) (p0 : ViewId)
    (w : TabId → RTree) (hinv : InvW s w)
    (tree : Tree) (fnode pnode : Node) (co : Container) (pos : Nat)
    (htree : s.trees.get tab = some tree)
    (hfn : s.nodes.get tree.focus = some fnode)
    (hpnS : s.nodes.get fnode.parent = some pnode)
    (hpnc : pnode.content = .container co)
    (hposle : pos ≤ co.children.length) :
    InvW { s with
        nodes := ((s.nodes.insertNew ⟨p0, .view view⟩).1.set s.nodes.nextKey
            ⟨fnode.parent, .view { view with id := s.nodes.nextKey }⟩).set fnode.parent
            ⟨pnode.parent, .container { co with children := co.children.insertIdx pos s.nodes.nextKey }⟩,
        trees := s.trees.set tab { tree with
            focus := s.nodes.nextKey,
            nodes := memInsert tree.nodes s.nodes.nextKey } }
      (fun j => if j = tab then addChildT fnode.parent pos s.nodes.nextKey (w tab) else w j) := by
  set nodes3 := ((s.nodes.insertNew ⟨p0, .view view⟩).1.set s.nodes.nextKey
      ⟨fnode.parent, .view { view with id := s.nodes.nextKey }⟩).set fnode.parent
      ⟨pnode.parent, .container { co with children := co.children.insertIdx pos s.nodes.nextKey }⟩ with hnodes3
  set tr2 := { tree with
      focus := s.nodes.nextKey,
      nodes := memInsert tree.nodes s.nodes.nextKey } with htr2
  have h0 : s.nodes.get s.nodes.nextKey = none :=
    SMap.get_none_of_not_mem_keys (fun hmem => absurd (hinv.nodes_lt _ hmem) (Nat.lt_irrefl _))
  have hparmem : fnode.parent ∈ (w tab).ids := focus_parent_mem hinv htree hfn
  have hwf := hinv.wf tab tree htree
  have hidlt : ∀ v ∈ (w tab).ids, v < s.nodes.nextKey :=
    ids_lt_nextKey hwf.shape hinv.nodes_lt
  have hparne : fnode.parent ≠ s.nodes.nextKey := Nat.ne_of_lt (hidlt _ hparmem)
  have hndnotin : s.nodes.nextKey ∉ (w tab).ids :=
    fun hm => absurd (hidlt _ hm) (Nat.lt_irrefl _)
  have hframe : ∀ k, k ≠ fnode.parent → k ≠ s.nodes.nextKey →
      nodes3.get k = s.nodes.get k := by
    intro k hk1 hk2
    rw [hnodes3, SMap.get_set_ne _ _ _ hk1, SMap.get_set_ne _ _ _ hk2,
      SMap.get_insertNew_ne _ _ hk2]
  have hget1 : (s.nodes.insertNew ⟨p0, .view view⟩).1.get s.nodes.nextKey
      = some ⟨p0, .view view⟩ := SMap.get_insertNew_self s.nodes _ h0
  have hx2 : nodes3.get s.nodes.nextKey
      = some ⟨fnode.parent, .view { view with id := s.nodes.nextKey }⟩ := by
    rw [hnodes3, SMap.get_set_ne _ _ _ (fun he => hparne he.symm)]
    exact SMap.get_set_self _ hget1
  have hget2p : ((s.nodes.insertNew ⟨p0, .view view⟩).1.set s.nodes.nextKey
      ⟨fnode.parent, .view { view with id := s.nodes.nextKey }⟩).get fnode.parent
      = some pnode := by
    rw [SMap.get_set_ne _ _ _ hparne, SMap.get_insertNew_ne _ _ hparne]
    exact hpnS
  have hpup : nodes3.get fnode.parent = some ⟨pnode.parent,
      .container { co with children := co.children.insertIdx pos s.nodes.nextKey }⟩ := by
    rw [hnodes3]
    exact SMap.get_set_self _ hget2p
  obtain ⟨hshape2, hidsP, hpanesP⟩ := addChildT_shape (w tab) tree.root hframe hpnS
    hpnc hposle hpup hx2 rfl hwf.shape hwf.nodup hparmem hndnotin
  have hkeys3 : nodes3.keys = s.nodes.keys ++ [s.nodes.nextKey] := by
    rw [hnodes3, SMap.keys_set, SMap.keys_set, SMap.keys_insertNew]
  have hnk3 : nodes3.nextKey = s.nodes.nextKey + 1 := by
    rw [hnodes3]
    rfl
  obtain ⟨cs, hcs⟩ := hwf.is_cont
  have hic : ∃ cs2, addChildT fnode.parent pos s.nodes.nextKey (w tab)
      = .cont tree.root cs2 := by
    rw [hcs]
    by_cases hrp : tree.root = fnode.parent
    · exact ⟨_, by rw [addChildT, if_pos hrp]⟩
    · exact ⟨_, by rw [addChildT, if_neg hrp]⟩
  refine ⟨?_, ?_, ?_, ?_, ?_, ?_, ?_, ?_, ?_⟩
  · show nodes3.keys.Nodup
    rw [hkeys3, List.nodup_append]
    refine ⟨hinv.nodes_nodup, List.nodup_singleton _, ?_⟩
    intro k hk hk2
    rw [List.mem_singleton] at hk2
    rw [hk2] at hk
    exact absurd (hinv.nodes_lt _ hk) (Nat.lt_irrefl _)
  · show ∀ k ∈ nodes3.keys, k < nodes3.nextKey
    intro k hk
    rw [hkeys3] at hk
    rw [hnk3]
    rcases List.mem_append.mp hk with hk | hk
    · exact Nat.lt_succ_of_lt (hinv.nodes_lt k hk)
    · rw [List.mem_singleton] at hk
      omega
  · show (s.trees.set tab tr2).keys.Nodup
    rw [SMap.keys_set]
    exact hinv.trees_nodup
  · show ∀ k ∈ (s.trees.set tab tr2).keys, k < (s.trees.set tab tr2).nextKey
    intro k hk
    rw [SMap.keys_set] at hk
    rw [SMap.nextKey_set]
    exact hinv.trees_lt k hk
  · show ∀ k t, (s.trees.set tab tr2).get k = some t → t.id = k
    intro k t hgt
    by_cases hkt : k = tab
    · rw [hkt] at hgt
      rw [SMap.get_set_self _ htree] at hgt
      rw [← Option.some_inj.mp hgt, hkt]
      exact hinv.tree_id tab tree htree
    · rw [SMap.get_set_ne _ _ _ hkt] at hgt
      exact hinv.tree_id k t hgt
  · intro k t hgt
    show TreeWF nodes3 t (if k = tab then
      addChildT fnode.parent pos s.nodes.nextKey (w tab) else w k)
    by_cases hkt : k = tab
    · rw [hkt] at hgt
      rw [hkt, if_pos rfl]
      rw [show (s.trees.set tab tr2).get tab = some tr2 from SMap.get_set_self _ htree] at hgt
      obtain rfl := Option.some_inj.mp hgt
      refine ⟨hic, hshape2, ?_, ?_, ?_, hwf.stack_empty⟩
      · exact (List.Perm.nodup_iff hidsP).mpr (List.nodup_cons.mpr ⟨hndnotin, hwf.nodup⟩)
      · intro v
        show v ∈ memInsert tree.nodes s.nodes.nextKey ↔ v = tree.root ∨
          v ∈ (addChildT fnode.parent pos s.nodes.nextKey (w tab)).panes
        rw [mem_memInsert, hwf.members v, hpanesP.mem_iff, List.mem_cons]
        tauto
      · exact memInsert_nodup hwf.members_nodup
    · rw [if_neg hkt]
      rw [show (s.trees.set tab tr2).get k = s.trees.get k from SMap.get_set_ne _ _ _ hkt] at hgt
      refine TreeWF_agree (hinv.wf k t hgt) ?_
      intro v hv
      have hvne1 : v ≠ fnode.parent := fun he =>
        hinv.disj k tab t tree hgt htree hkt v hv (by rw [he]; exact hparmem)
      have hvne2 : v ≠ s.nodes.nextKey :=
        Nat.ne_of_lt (ids_lt_nextKey (hinv.wf k t hgt).shape hinv.nodes_lt v hv)
      exact hframe v hvne1 hvne2
  · intro k1 k2 t1 t2 hg1 hg2 hne v hv
    show v ∉ (if k2 = tab then
      addChildT fnode.parent pos s.nodes.nextKey (w tab) else w k2).ids
    have hv2 : v ∈ (if k1 = tab then
        addChildT fnode.parent pos s.nodes.nextKey (w tab) else w k1).ids := hv
    by_cases h1 : k1 = tab <;> by_cases h2 : k2 = tab
    · exact absurd (h1.trans h2.symm) hne
    · rw [h1, if_pos rfl, hidsP.mem_iff, List.mem_cons] at hv2
      rw [if_neg h2]
      rw [show (s.trees.set tab tr2).get k2 = s.trees.get k2 from
        SMap.get_set_ne _ _ _ h2] at hg2
      rcases hv2 with rfl | hv2
      · exact fun hm => absurd (ids_lt_nextKey (hinv.wf k2 t2 hg2).shape
          hinv.nodes_lt _ hm) (Nat.lt_irrefl _)
      · exact hinv.disj tab k2 tree t2 htree hg2 (fun he => hne (h1.trans he)) v hv2
    · rw [if_neg h1] at hv2
      rw [h2, if_pos rfl]
      rw [show (s.trees.set tab tr2).get k1 = s.trees.get k1 from
        SMap.get_set_ne _ _ _ h1] at hg1
      intro hm
      rw [hidsP.mem_iff, List.mem_cons] at hm
      rcases hm with rfl | hm
      · exact absurd (ids_lt_nextKey (hinv.wf k1 t1 hg1).shape hinv.nodes_lt _ hv2)
          (Nat.lt_irrefl _)
      · exact hinv.disj k1 tab t1 tree hg1 htree h1 v hv2 hm
    · rw [if_neg h1] at hv2
      rw [if_neg h2]
      rw [show (s.trees.set tab tr2).get k1 = s.trees.get k1 from
        SMap.get_set_ne _ _ _ h1] at hg1
      rw [show (s.trees.set tab tr2).get k2 = s.trees.get k2 from
        SMap.get_set_ne _ _ _ h2] at hg2
      exact hinv.disj k1 k2 t1 t2 hg1 hg2 hne v hv2
  · intro k t hgt
    show t.focus < nodes3.nextKey
    rw [hnk3]
    by_cases hkt : k = tab
    · rw [hkt] at hgt
      rw [show (s.trees.set tab tr2).get tab = some tr2 from
        SMap.get_set_self _ htree] at hgt
      rw [← Option.some_inj.mp hgt]
      show s.nodes.nextKey < s.nodes.nextKey + 1
      omega
    · rw [show (s.trees.set tab tr2).get k = s.trees.get k from
        SMap.get_set_ne _ _ _ hkt] at hgt
      exact Nat.lt_succ_of_lt (hinv.focus_lt k t hgt)
  · intro k t hgt hck
    show t.focus ∈ (if k = tab then
      addChildT fnode.parent pos s.nodes.nextKey (w tab) else w k).ids
    by_cases hkt : k = tab
    · rw [hkt] at hgt
      rw [hkt, if_pos rfl]
      rw [show (s.trees.set tab tr2).get tab = some tr2 from
        SMap.get_set_self _ htree] at hgt
      rw [← Option.some_inj.mp hgt]
      show s.nodes.nextKey ∈ (addChildT fnode.parent pos s.nodes.nextKey (w tab)).ids
      rw [hidsP.mem_iff]
      exact List.mem_cons_self _ _
    · rw [if_neg hkt]
      rw [show (s.trees.set tab tr2).get k = s.trees.get k from
        SMap.get_set_ne _ _ _ hkt] at hgt
      refine hinv.focus_mem k t hgt ?_
      have hck2 : (nodes3.get t.focus).isSome = true := hck
      rw [SMap.containsKey]
      by_cases hfp : t.focus = fnode.parent
      · rw [hfp, hpnS]
        rfl
      · have hfnd : t.focus ≠ s.nodes.nextKey := Nat.ne_of_lt (hinv.focus_lt k t hgt)
        rw [← hframe t.focus hfp hfnd]
        exact hck2

/-- Insertion's mutation phase preserves the global invariant. -/
theorem insertPre_inv {s : Tabs} {tab : TabId} {view : View} {s2 : Tabs} {nd : ViewId}
    {w : TabId → RTree} (hinv : InvW s w)
    (hins : s.insertPre tab view = some (s2, nd)) : Inv s2 := by
  unfold Tabs.insertPre at hins
  simp only [Option.bind_eq_bind, Option.bind_eq_some] at hins
  obtain ⟨tree, htree, fnode, hfn, nodes2, hsv, pnode, hpn, co, hco, hrest⟩ := hins
  have h0 : s.nodes.get s.nodes.nextKey = none :=
    SMap.get_none_of_not_mem_keys (fun hmem => absurd (hinv.nodes_lt _ hmem) (Nat.lt_irrefl _))
  have h2eq : (s.nodes.insertNew ⟨fnode.parent, Content.view view⟩).2 = s.nodes.nextKey := rfl
  rw [h2eq] at hsv hrest
  unfold Tabs.setViewId at hsv
  simp only [Option.bind_eq_bind, Option.bind_eq_some] at hsv
  obtain ⟨n0, hn0, hsv⟩ := hsv
  have hn0e : n0 = ⟨fnode.parent, .view view⟩ :=
    Option.some_inj.mp (hn0.symm.trans (SMap.get_insertNew_self s.nodes _ h0))
  subst hn0e
  dsimp only at hsv
  simp only [Option.pure_def, Option.some_inj] at hsv
  have hn2e : nodes2 = (s.nodes.insertNew ⟨fnode.parent, .view view⟩).1.set s.nodes.nextKey
      ⟨fnode.parent, .view { view with id := s.nodes.nextKey }⟩ := hsv.symm
  subst hn2e
  have hparmem : fnode.parent ∈ (w tab).ids := focus_parent_mem hinv htree hfn
  have hparne : fnode.parent ≠ s.nodes.nextKey :=
    Nat.ne_of_lt (ids_lt_nextKey (hinv.wf tab tree htree).shape hinv.nodes_lt _ hparmem)
  have hpnS : s.nodes.get fnode.parent = some pnode := by
    rw [SMap.get_set_ne _ _ _ hparne, SMap.get_insertNew_ne _ _ hparne] at hpn
    exact hpn
  have hpnc : pnode.content = .container co := asContainer_eq_some hco
  split at hrest
  case isTrue hemp =>
    simp only [Option.pure_def, Option.some_bind, Option.bind_eq_bind,
      Option.bind_eq_some, Option.some_inj] at hrest
    obtain ⟨tree2, htree2, hfin⟩ := hrest
    have htreq : tree2 = tree := Option.some_inj.mp (htree2.symm.trans htree)
    rw [htreq] at hfin
    obtain ⟨hs2, -⟩ := Prod.mk.inj hfin
    rw [← hs2]
    exact ⟨_, insert_core s tab view fnode.parent w hinv tree fnode pnode co 0
      htree hfn hpnS hpnc (Nat.zero_le _)⟩
  case isFalse hemp =>
    simp only [Option.map_eq_map, Option.bind_eq_bind, Option.bind_eq_some,
      Option.map_eq_some', Option.some_inj] at hrest
    obtain ⟨pos, ⟨q, hq, hq1⟩, tree2, htree2, hfin⟩ := hrest
    have htreq : tree2 = tree := Option.some_inj.mp (htree2.symm.trans htree)
    rw [htreq] at hfin
    have hposle : pos ≤ co.children.length := by
      obtain ⟨-, hlt⟩ := findIdx?_beq_mem hq
      omega
    obtain ⟨hs2, -⟩ := Prod.mk.inj (Option.some_inj.mp hfin)
    rw [← hs2]
    exact ⟨_, insert_core s tab view fnode.parent w hinv tree fnode pnode co pos
      htree hfn hpnS hpnc hposle⟩
theorem SMap.get_modify_ne {α : Type} (m : SMap α) (k : Nat) (f : α → α) {j : Nat}
    (h : j ≠ k) : (m.modify k f).get j = m.get j := by
  unfold SMap.modify
  cases m.get k with
  | none => rfl
  | some a => exact SMap.get_set_ne _ _ _ h

theorem SMap.keys_modify {α : Type} (m : SMap α) (k : Nat) (f : α → α) :
    (m.modify k f).keys = m.keys := by
  unfold SMap.modify
  cases m.get k with
  | none => rfl
  | some a => exact SMap.keys_set m k (f a)

theorem SMap.nextKey_modify {α : Type} (m : SMap α) (k : Nat) (f : α → α) :
    (m.modify k f).nextKey = m.nextKey := by
  unfold SMap.modify
  cases m.get k with
  | none => rfl
  | some a => exact SMap.nextKey_set m k (f a)

mutual
/-- In a well-shaped duplicate-free tree, no container lists itself among
its own children. -/
theorem cont_not_own_childT : ∀ {a : SMap Node} {q : ViewId} (t : RTree),
    shapeOk a q t = true → t.ids.Nodup → ∀ {x : ViewId} {nx : Node} {cox : Container},
    x ∈ t.ids → a.get x = some nx → nx.content = .container cox → x ∉ cox.children
  | a, q, .pane i, hsh, hnd, x, nx, cox, hx, hg, hc => by
    rw [RTree.ids, List.mem_singleton] at hx
    obtain ⟨v, hgi, -⟩ := shapeOk_pane_elim hsh
    rw [hx] at hg
    have he : nx = ⟨q, .view v⟩ := Option.some_inj.mp (hg.symm.trans hgi)
    rw [he] at hc
    cases hc
  | a, q, .cont i cs, hsh, hnd, x, nx, cox, hx, hg, hc => by
    obtain ⟨co_i, hgi, hchi, hsfi⟩ := shapeOk_cont_elim hsh
    rw [RTree.ids, List.nodup_cons] at hnd
    rw [RTree.ids] at hx
    rcases List.mem_cons.mp hx with he | hx2
    · rw [he] at hg
      have hne : nx = ⟨q, .container co_i⟩ := Option.some_inj.mp (hg.symm.trans hgi)
      have hcoe : cox = co_i := by
        have h3 := congrArg Node.content hne
        rw [hc] at h3
        injection h3
      rw [he, hcoe, hchi]
      intro hm
      exact hnd.1 ((rootIds_sublist_idsF cs).mem hm)
    · exact cont_not_own_childF cs hsfi hnd.2 hx2 hg hc
theorem cont_not_own_childF : ∀ {a : SMap Node} {q : ViewId} (cs : RForest),
    shapeOkF a q cs = true → cs.idsF.Nodup → ∀ {x : ViewId} {nx : Node} {cox : Container},
    x ∈ cs.idsF → a.get x = some nx → nx.content = .container cox → x ∉ cox.children
  | a, q, .nil, _, _, x, _, _, hx, _, _ =>
    absurd hx (by rw [RForest.idsF]; exact List.not_mem_nil x)
  | a, q, .cons t ts, hsh, hnd, x, nx, cox, hx, hg, hc => by
    rw [shapeOkF, Bool.and_eq_true] at hsh
    rw [RForest.idsF] at hx
    rw [RForest.idsF, List.nodup_append] at hnd
    rcases List.mem_append.mp hx with hx2 | hx2
    · exact cont_not_own_childT t hsh.1 hnd.1 hx2 hg hc
    · exact cont_not_own_childF ts hsh.2 hnd.2.1 hx2 hg hc
end

/-- `wrapT_shape` specialised to the whole workspace tree: the root is its
own stored parent, so the side condition becomes `root ≠ focus`. -/
theorem wrapT_shape_root {a a2 : SMap Node} {f sid x par : ViewId} {fn pn : Node}
    {co : Container} {pos : Nat} {vx : View} {lay : Layout} (i : ViewId) (cs : RForest)
    (hframe : ∀ k, k ≠ par → k ≠ f → k ≠ x → k ≠ sid → a2.get k = a.get k)
    (hfget : a.get f = some fn) (hfpar : fn.parent = par)
    (hpn : a.get par = some pn) (hpnc : pn.content = .container co)
    (hfind : co.children.findIdx? (· == f) = some pos)
    (hparup : a2.get par = some ⟨pn.parent,
      .container { co with children := co.children.set pos sid }⟩)
    (hfup : a2.get f = some ⟨sid, fn.content⟩)
    (hx2 : a2.get x = some ⟨sid, .view vx⟩) (hvx : vx.id = x)
    (hsid2 : a2.get sid = some ⟨par, .container ⟨lay, [f, x], Rect.rdefault⟩⟩)
    (hsh : shapeOk a i (.cont i cs) = true) (hnd : (RTree.cont i cs).ids.Nodup)
    (hfmem : f ∈ (RTree.cont i cs).ids)
    (hxn : x ∉ (RTree.cont i cs).ids) (hsn : sid ∉ (RTree.cont i cs).ids)
    (hif : ¬ i = f) :
    shapeOk a2 i (wrapT f sid x (.cont i cs)) = true ∧
    (wrapT f sid x (.cont i cs)).ids.Perm (sid :: x :: (RTree.cont i cs).ids) ∧
    (wrapT f sid x (.cont i cs)).panes.Perm (x :: (RTree.cont i cs).panes) := by
  have hndc := hnd
  rw [RTree.ids, List.nodup_cons] at hndc
  obtain ⟨co_i, hgi, hchi, hsfi⟩ := shapeOk_cont_elim hsh
  have hxni : x ∉ cs.idsF := fun hm =>
    hxn (by rw [RTree.ids]; exact List.mem_cons_of_mem i hm)
  have hsni : sid ∉ cs.idsF := fun hm =>
    hsn (by rw [RTree.ids]; exact List.mem_cons_of_mem i hm)
  have hxi : ¬ i = x := fun he =>
    hxn (by rw [← he, RTree.ids]; exact List.mem_cons_self i _)
  have hsi : ¬ i = sid := fun he =>
    hsn (by rw [← he, RTree.ids]; exact List.mem_cons_self i _)
  have hfmem2 : f ∈ cs.idsF := by
    rcases List.mem_cons.mp (by rw [RTree.ids] at hfmem; exact hfmem) with he | hm
    · exact absurd he.symm hif
    · exact hm
  rw [wrapT, if_neg hif]
  obtain ⟨hfsh, hfids, hfpanes⟩ := wrapF_shape cs i hframe hfget hfpar hpn
    hpnc hfind hparup hfup hx2 hvx hsid2 hsfi hndc.2 hfmem2 hxni hsni hndc.1
  by_cases hipar : i = par
  · have hpni : pn = ⟨par, .container co_i⟩ := by
      rw [hipar] at hgi
      exact Option.some_inj.mp (hpn.symm.trans hgi)
    have hcoi : co_i = co := by
      have h3 := congrArg Node.content hpni
      rw [hpnc] at h3
      injection h3.symm
    have hpnpar : pn.parent = par := congrArg Node.parent hpni
    have hrootnodup : cs.rootIds.Nodup := hndc.2.sublist (rootIds_sublist_idsF cs)
    have hg2 : a2.get i = some ⟨i,
        .container { co with children := co.children.set pos sid }⟩ := by
      rw [hipar, hparup, hpnpar]
    refine ⟨?_, ?_, ?_⟩
    · refine shapeOk_cont_intro hg2 ?_ hfsh
      rw [rootIds_wrapF, ← hchi, hcoi,
        map_if_eq_set (hcoi ▸ hchi ▸ hrootnodup) hfind]
    · rw [RTree.ids, RTree.ids]
      exact (hfids.cons i).trans ((List.Perm.swap sid i (x :: cs.idsF)).trans
        ((List.Perm.swap x i cs.idsF).cons sid))
    · rw [RTree.panes, RTree.panes]
      exact hfpanes
  · have hfnotroot : f ∉ cs.rootIds := by
      intro hm
      have h3 : fn.parent = i := root_parent_of_forest cs hsfi hm hfget
      rw [hfpar] at h3
      exact hipar h3.symm
    refine ⟨?_, ?_, ?_⟩
    · refine shapeOk_cont_intro
        (by rw [hframe i hipar hif hxi hsi]; exact hgi) ?_ hfsh
      rw [rootIds_wrapF, map_if_not_mem hfnotroot, hchi]
    · rw [RTree.ids, RTree.ids]
      exact (hfids.cons i).trans ((List.Perm.swap sid i (x :: cs.idsF)).trans
        ((List.Perm.swap x i cs.idsF).cons sid))
    · rw [RTree.panes, RTree.panes]
      exact hfpanes

set_option maxHeartbeats 1600000 in
/-- The axis-changing branch of `split`: a fresh container wraps the
focused subtree together with a fresh pane.  The global invariant is
preserved, with the tab's shape witness rewritten by `wrapT`. -/
theorem split_core (s : Tabs) (tab : TabId) (view : View) (layout : Layout)
    (w : TabId → RTree) (hinv : InvW s w)
    (tree : Tree) (fnode pnode : Node) (co : Container) (pos : Nat)
    (htree : s.trees.get tab = some tree)
    (hfn : s.nodes.get tree.focus = some fnode)
    (hpnS : s.nodes.get fnode.parent = some pnode)
    (hpnc : pnode.content = .container co)
    (hfind : co.children.findIdx? (· == tree.focus) = some pos)
    (hfp : tree.focus ≠ fnode.parent) :
    InvW { s with
        nodes := ((((((s.nodes.insertNew ⟨0, .view view⟩).1.set s.nodes.nextKey
            ⟨0, .view { view with id := s.nodes.nextKey }⟩).insertNew
            ⟨fnode.parent, .container (Container.cnew layout)⟩).1.set (s.nodes.nextKey + 1)
            ⟨fnode.parent, .container ⟨layout, [tree.focus, s.nodes.nextKey], Rect.rdefault⟩⟩).modify tree.focus
            (fun n => { n with parent := s.nodes.nextKey + 1 })).modify s.nodes.nextKey
            (fun n => { n with parent := s.nodes.nextKey + 1 })).set fnode.parent
            ⟨pnode.parent, .container { co with children := co.children.set pos (s.nodes.nextKey + 1) }⟩,
        trees := s.trees.set tab { tree with
            focus := s.nodes.nextKey,
            nodes := memInsert tree.nodes s.nodes.nextKey } }
      (fun j => if j = tab then
        wrapT tree.focus (s.nodes.nextKey + 1) s.nodes.nextKey (w tab) else w j) := by
  set n1 := (s.nodes.insertNew ⟨0, .view view⟩).1 with hn1
  set n2 := n1.set s.nodes.nextKey ⟨0, .view { view with id := s.nodes.nextKey }⟩ with hn2
  set n3 := (n2.insertNew ⟨fnode.parent, .container (Container.cnew layout)⟩).1 with hn3
  set n4 := n3.set (s.nodes.nextKey + 1)
      ⟨fnode.parent, .container ⟨layout, [tree.focus, s.nodes.nextKey], Rect.rdefault⟩⟩ with hn4
  set n5 := n4.modify tree.focus (fun n => { n with parent := s.nodes.nextKey + 1 }) with hn5
  set n6 := n5.modify s.nodes.nextKey (fun n => { n with parent := s.nodes.nextKey + 1 }) with hn6
  set NA := n6.set fnode.parent
      ⟨pnode.parent, .container { co with children := co.children.set pos (s.nodes.nextKey + 1) }⟩ with hNA
  set tr2 := { tree with
      focus := s.nodes.nextKey,
      nodes := memInsert tree.nodes s.nodes.nextKey } with htr2
  have hwf := hinv.wf tab tree htree
  have hidlt : ∀ v ∈ (w tab).ids, v < s.nodes.nextKey :=
    ids_lt_nextKey hwf.shape hinv.nodes_lt
  have hfmem : tree.focus ∈ (w tab).ids :=
    hinv.focus_mem tab tree htree (by rw [SMap.containsKey, hfn]; rfl)
  have hparmem : fnode.parent ∈ (w tab).ids := focus_parent_mem hinv htree hfn
  have hparlt : fnode.parent < s.nodes.nextKey := hidlt _ hparmem
  have hflt : tree.focus < s.nodes.nextKey := hidlt _ hfmem
  have hparne : fnode.parent ≠ s.nodes.nextKey := Nat.ne_of_lt hparlt
  have hparns : fnode.parent ≠ s.nodes.nextKey + 1 := Nat.ne_of_lt (Nat.lt_succ_of_lt hparlt)
  have hfne : tree.focus ≠ s.nodes.nextKey := Nat.ne_of_lt hflt
  have hfns : tree.focus ≠ s.nodes.nextKey + 1 := Nat.ne_of_lt (Nat.lt_succ_of_lt hflt)
  have h0 : s.nodes.get s.nodes.nextKey = none :=
    SMap.get_none_of_not_mem_keys (fun hmem => absurd (hinv.nodes_lt _ hmem) (Nat.lt_irrefl _))
  have hg2nd : n2.get s.nodes.nextKey
      = some ⟨0, .view { view with id := s.nodes.nextKey }⟩ := by
    rw [hn2]
    exact SMap.get_set_self _ (SMap.get_insertNew_self s.nodes _ h0)
  have hk2 : n2.keys = s.nodes.keys ++ [s.nodes.nextKey] := by
    rw [hn2, SMap.keys_set, hn1, SMap.keys_insertNew]
  have hnk2 : n2.nextKey = s.nodes.nextKey + 1 := by
    rw [hn2, hn1]
    rfl
  have h0b : n2.get n2.nextKey = none := by
    refine SMap.get_none_of_not_mem_keys ?_
    rw [hk2, hnk2]
    intro hm
    rcases List.mem_append.mp hm with hm | hm
    · exact absurd (hinv.nodes_lt _ hm) (by omega)
    · rw [List.mem_singleton] at hm
      omega
  have hg3sid : n3.get (s.nodes.nextKey + 1)
      = some ⟨fnode.parent, .container (Container.cnew layout)⟩ := by
    rw [hn3, ← hnk2]
    exact SMap.get_insertNew_self n2 _ h0b
  have hg4sid : n4.get (s.nodes.nextKey + 1)
      = some ⟨fnode.parent, .container ⟨layout, [tree.focus, s.nodes.nextKey], Rect.rdefault⟩⟩ := by
    rw [hn4]
    exact SMap.get_set_self _ hg3sid
  have hg4f : n4.get tree.focus = some fnode := by
    rw [hn4, SMap.get_set_ne _ _ _ hfns, hn3,
      SMap.get_insertNew_ne _ _ (by rw [hnk2]; exact hfns), hn2,
      SMap.get_set_ne _ _ _ hfne, hn1, SMap.get_insertNew_ne _ _ hfne]
    exact hfn
  have hg5f : n5.get tree.focus = some ⟨s.nodes.nextKey + 1, fnode.content⟩ := by
    rw [hn5, SMap.modify_eq _ _ _ hg4f]
    exact SMap.get_set_self _ hg4f
  have hg4nd : n4.get s.nodes.nextKey
      = some ⟨0, .view { view with id := s.nodes.nextKey }⟩ := by
    rw [hn4, SMap.get_set_ne _ _ _ (by omega : s.nodes.nextKey ≠ s.nodes.nextKey + 1),
      hn3, SMap.get_insertNew_ne _ _ (by rw [hnk2]; omega)]
    exact hg2nd
  have hg5nd : n5.get s.nodes.nextKey
      = some ⟨0, .view { view with id := s.nodes.nextKey }⟩ := by
    rw [hn5, SMap.get_modify_ne _ _ _ hfne.symm]
    exact hg4nd
  have hg6nd : n6.get s.nodes.nextKey
      = some ⟨s.nodes.nextKey + 1, .view { view with id := s.nodes.nextKey }⟩ := by
    rw [hn6, SMap.modify_eq _ _ _ hg5nd]
    exact SMap.get_set_self _ hg5nd
  have hg6f : n6.get tree.focus = some ⟨s.nodes.nextKey + 1, fnode.content⟩ := by
    rw [hn6, SMap.get_modify_ne _ _ _ hfne]
    exact hg5f
  have hg6sid : n6.get (s.nodes.nextKey + 1)
      = some ⟨fnode.parent, .container ⟨layout, [tree.focus, s.nodes.nextKey], Rect.rdefault⟩⟩ := by
    rw [hn6, SMap.get_modify_ne _ _ _ (by omega), hn5,
      SMap.get_modify_ne _ _ _ hfns.symm]
    exact hg4sid
  have hg6par : n6.get fnode.parent = some pnode := by
    rw [hn6, SMap.get_modify_ne _ _ _ hparne, hn5,
      SMap.get_modify_ne _ _ _ (fun he => hfp he.symm), hn4,
      SMap.get_set_ne _ _ _ hparns, hn3,
      SMap.get_insertNew_ne _ _ (by rw [hnk2]; exact hparns), hn2,
      SMap.get_set_ne _ _ _ hparne, hn1, SMap.get_insertNew_ne _ _ hparne]
    exact hpnS
  have hframe : ∀ k, k ≠ fnode.parent → k ≠ tree.focus → k ≠ s.nodes.nextKey →
      k ≠ s.nodes.nextKey + 1 → NA.get k = s.nodes.get k := by
    intro k hk1 hk2 hk3 hk4
    rw [hNA, SMap.get_set_ne _ _ _ hk1, hn6, SMap.get_modify_ne _ _ _ hk3, hn5,
      SMap.get_modify_ne _ _ _ hk2, hn4, SMap.get_set_ne _ _ _ hk4, hn3,
      SMap.get_insertNew_ne _ _ (by rw [hnk2]; exact hk4), hn2,
      SMap.get_set_ne _ _ _ hk3, hn1, SMap.get_insertNew_ne _ _ hk3]
  have hparup : NA.get fnode.parent = some ⟨pnode.parent,
      .container { co with children := co.children.set pos (s.nodes.nextKey + 1) }⟩ := by
    rw [hNA]
    exact SMap.get_set_self _ hg6par
  have hfup : NA.get tree.focus = some ⟨s.nodes.nextKey + 1, fnode.content⟩ := by
    rw [hNA, SMap.get_set_ne _ _ _ hfp]
    exact hg6f
  have hx2 : NA.get s.nodes.nextKey
      = some ⟨s.nodes.nextKey + 1, .view { view with id := s.nodes.nextKey }⟩ := by
    rw [hNA, SMap.get_set_ne _ _ _ hparne.symm]
    exact hg6nd
  have hsidup : NA.get (s.nodes.nextKey + 1)
      = some ⟨fnode.parent, .container ⟨layout, [tree.focus, s.nodes.nextKey], Rect.rdefault⟩⟩ := by
    rw [hNA, SMap.get_set_ne _ _ _ hparns.symm]
    exact hg6sid
  obtain ⟨cs, hcs⟩ := hwf.is_cont
  have hndnotin : s.nodes.nextKey ∉ (w tab).ids :=
    fun hm => absurd (hidlt _ hm) (Nat.lt_irrefl _)
  have hsidnotin : s.nodes.nextKey + 1 ∉ (w tab).ids :=
    fun hm => absurd (hidlt _ hm) (Nat.not_lt.mpr (Nat.le_succ _))
  have hrf : ¬ tree.root = tree.focus := by
    intro he
    have h3 : fnode.parent = tree.root :=
      root_parent_of_tree (w tab) hwf.shape (by rw [hcs, RTree.rootId]; exact he) hfn
    exact hfp (he.symm.trans h3.symm)
  have hw2 := wrapT_shape_root tree.root cs hframe hfn rfl hpnS hpnc hfind hparup
    hfup hx2 rfl hsidup (by rw [← hcs]; exact hwf.shape) (by rw [← hcs]; exact hwf.nodup)
    (by rw [← hcs]; exact hfmem) (by rw [← hcs]; exact hndnotin)
    (by rw [← hcs]; exact hsidnotin) hrf
  rw [← hcs] at hw2
  obtain ⟨hshape2, hidsP, hpanesP⟩ := hw2
  have hic : ∃ cs2, wrapT tree.focus (s.nodes.nextKey + 1) s.nodes.nextKey (w tab)
      = .cont tree.root cs2 := by
    rw [hcs]
    exact ⟨_, by rw [wrapT, if_neg hrf]⟩
  have hkeysNA : NA.keys = (s.nodes.keys ++ [s.nodes.nextKey]) ++ [s.nodes.nextKey + 1] := by
    rw [hNA, SMap.keys_set, hn6, SMap.keys_modify, hn5, SMap.keys_modify, hn4,
      SMap.keys_set, hn3, SMap.keys_insertNew, hk2, hnk2]
  have hnkNA : NA.nextKey = s.nodes.nextKey + 2 := by
    rw [hNA, SMap.nextKey_set, hn6, SMap.nextKey_modify, hn5, SMap.nextKey_modify,
      hn4, SMap.nextKey_set, hn3, SMap.nextKey_insertNew, hnk2]
  refine ⟨?_, ?_, ?_, ?_, ?_, ?_, ?_, ?_, ?_⟩
  · show NA.keys.Nodup
    rw [hkeysNA, List.nodup_append, List.nodup_append]
    refine ⟨⟨hinv.nodes_nodup, List.nodup_singleton _, ?_⟩, List.nodup_singleton _, ?_⟩
    · intro k hk hk2
      rw [List.mem_singleton] at hk2
      rw [hk2] at hk
      exact absurd (hinv.nodes_lt _ hk) (Nat.lt_irrefl _)
    · intro k hk hk2
      rw [List.mem_singleton] at hk2
      rw [hk2] at hk
      rcases List.mem_append.mp hk with hk | hk
      · exact absurd (hinv.nodes_lt _ hk) (by omega)
      · rw [List.mem_singleton] at hk
        omega
  · show ∀ k ∈ NA.keys, k < NA.nextKey
    intro k hk
    rw [hkeysNA] at hk
    rw [hnkNA]
    rcases List.mem_append.mp hk with hk | hk
    · rcases List.mem_append.mp hk with hk | hk
      · have := hinv.nodes_lt k hk
        omega
      · rw [List.mem_singleton] at hk
        omega
    · rw [List.mem_singleton] at hk
      omega
  · show (s.trees.set tab tr2).keys.Nodup
    rw [SMap.keys_set]
    exact hinv.trees_nodup
  · show ∀ k ∈ (s.trees.set tab tr2).keys, k < (s.trees.set tab tr2).nextKey
    intro k hk
    rw [SMap.keys_set] at hk
    rw [SMap.nextKey_set]
    exact hinv.trees_lt k hk
  · show ∀ k t, (s.trees.set tab tr2).get k = some t → t.id = k
    intro k t hgt
    by_cases hkt : k = tab
    · rw [hkt] at hgt
      rw [SMap.get_set_self _ htree] at hgt
      rw [← Option.some_inj.mp hgt, hkt]
      exact hinv.tree_id tab tree htree
    · rw [SMap.get_set_ne _ _ _ hkt] at hgt
      exact hinv.tree_id k t hgt
  · intro k t hgt
    show TreeWF NA t (if k = tab then
      wrapT tree.focus (s.nodes.nextKey + 1) s.nodes.nextKey (w tab) else w k)
    by_cases hkt : k = tab
    · rw [hkt] at hgt
      rw [hkt, if_pos rfl]
      rw [show (s.trees.set tab tr2).get tab = some tr2 from SMap.get_set_self _ htree] at hgt
      obtain rfl := Option.some_inj.mp hgt
      refine ⟨hic, hshape2, ?_, ?_, ?_, hwf.stack_empty⟩
      · refine (List.Perm.nodup_iff hidsP).mpr ?_
        refine List.nodup_cons.mpr ⟨?_, List.nodup_cons.mpr ⟨hndnotin, hwf.nodup⟩⟩
        intro hm
        rcases List.mem_cons.mp hm with he | hm2
        · exact absurd he (Nat.succ_ne_self _)
        · exact hsidnotin hm2
      · intro v
        show v ∈ memInsert tree.nodes s.nodes.nextKey ↔ v = tree.root ∨
          v ∈ (wrapT tree.focus (s.nodes.nextKey + 1) s.nodes.nextKey (w tab)).panes
        rw [mem_memInsert, hwf.members v, hpanesP.mem_iff, List.mem_cons]
        tauto
      · exact memInsert_nodup hwf.members_nodup
    · rw [if_neg hkt]
      rw [show (s.trees.set tab tr2).get k = s.trees.get k from SMap.get_set_ne _ _ _ hkt] at hgt
      refine TreeWF_agree (hinv.wf k t hgt) ?_
      intro v hv
      have hvlt : v < s.nodes.nextKey :=
        ids_lt_nextKey (hinv.wf k t hgt).shape hinv.nodes_lt v hv
      have hvne1 : v ≠ fnode.parent := fun he =>
        hinv.disj k tab t tree hgt htree hkt v hv (by rw [he]; exact hparmem)
      have hvne2 : v ≠ tree.focus := fun he =>
        hinv.disj k tab t tree hgt htree hkt v hv (by rw [he]; exact hfmem)
      exact hframe v hvne1 hvne2 (Nat.ne_of_lt hvlt) (Nat.ne_of_lt (Nat.lt_succ_of_lt hvlt))
  · intro k1 k2 t1 t2 hg1 hg2 hne v hv
    show v ∉ (if k2 = tab then
      wrapT tree.focus (s.nodes.nextKey + 1) s.nodes.nextKey (w tab) else w k2).ids
    have hv2 : v ∈ (if k1 = tab then
        wrapT tree.focus (s.nodes.nextKey + 1) s.nodes.nextKey (w tab) else w k1).ids := hv
    by_cases h1 : k1 = tab <;> by_cases h2 : k2 = tab
    · exact absurd (h1.trans h2.symm) hne
    · rw [h1, if_pos rfl, hidsP.mem_iff, List.mem_cons, List.mem_cons] at hv2
      rw [if_neg h2]
      rw [show (s.trees.set tab tr2).get k2 = s.trees.get k2 from
        SMap.get_set_ne _ _ _ h2] at hg2
      rcases hv2 with he | he | hv2
      · intro hm
        have h4 := ids_lt_nextKey (hinv.wf k2 t2 hg2).shape hinv.nodes_lt v hm
        rw [he] at h4
        exact absurd h4 (Nat.not_lt.mpr (Nat.le_succ _))
      · intro hm
        have h4 := ids_lt_nextKey (hinv.wf k2 t2 hg2).shape hinv.nodes_lt v hm
        rw [he] at h4
        exact absurd h4 (Nat.lt_irrefl _)
      · exact hinv.disj tab k2 tree t2 htree hg2 (fun he => hne (h1.trans he)) v hv2
    · rw [if_neg h1] at hv2
      rw [h2, if_pos rfl]
      rw [show (s.trees.set tab tr2).get k1 = s.trees.get k1 from
        SMap.get_set_ne _ _ _ h1] at hg1
      intro hm
      rw [hidsP.mem_iff, List.mem_cons, List.mem_cons] at hm
      have hvlt : v < s.nodes.nextKey :=
        ids_lt_nextKey (hinv.wf k1 t1 hg1).shape hinv.nodes_lt _ hv2
      rcases hm with he | he | hm
      · rw [he] at hvlt
        exact absurd hvlt (Nat.not_lt.mpr (Nat.le_succ _))
      · rw [he] at hvlt
        exact absurd hvlt (Nat.lt_irrefl _)
      · exact hinv.disj k1 tab t1 tree hg1 htree h1 v hv2 hm
    · rw [if_neg h1] at hv2
      rw [if_neg h2]
      rw [show (s.trees.set tab tr2).get k1 = s.trees.get k1 from
        SMap.get_set_ne _ _ _ h1] at hg1
      rw [show (s.trees.set tab tr2).get k2 = s.trees.get k2 from
        SMap.get_set_ne _ _ _ h2] at hg2
      exact hinv.disj k1 k2 t1 t2 hg1 hg2 hne v hv2
  · intro k t hgt
    show t.focus < NA.nextKey
    rw [hnkNA]
    by_cases hkt : k = tab
    · rw [hkt] at hgt
      rw [show (s.trees.set tab tr2).get tab = some tr2 from
        SMap.get_set_self _ htree] at hgt
      rw [← Option.some_inj.mp hgt]
      show s.nodes.nextKey < s.nodes.nextKey + 2
      omega
    · rw [show (s.trees.set tab tr2).get k = s.trees.get k from
        SMap.get_set_ne _ _ _ hkt] at hgt
      exact Nat.lt_succ_of_lt (Nat.lt_succ_of_lt (hinv.focus_lt k t hgt))
  · intro k t hgt hck
    show t.focus ∈ (if k = tab then
      wrapT tree.focus (s.nodes.nextKey + 1) s.nodes.nextKey (w tab) else w k).ids
    by_cases hkt : k = tab
    · rw [hkt] at hgt
      rw [hkt, if_pos rfl]
      rw [show (s.trees.set tab tr2).get tab = some tr2 from
        SMap.get_set_self _ htree] at hgt
      rw [← Option.some_inj.mp hgt]
      show s.nodes.nextKey ∈
        (wrapT tree.focus (s.nodes.nextKey + 1) s.nodes.nextKey (w tab)).ids
      rw [hidsP.mem_iff]
      exact List.mem_cons_of_mem _ (List.mem_cons_self _ _)
    · rw [if_neg hkt]
      rw [show (s.trees.set tab tr2).get k = s.trees.get k from
        SMap.get_set_ne _ _ _ hkt] at hgt
      refine hinv.focus_mem k t hgt ?_
      have hck2 : (NA.get t.focus).isSome = true := hck
      rw [SMap.containsKey]
      by_cases hc1 : t.focus = fnode.parent
      · rw [hc1, hpnS]
        rfl
      · by_cases hc2 : t.focus = tree.focus
        · rw [hc2, hfn]
          rfl
        · have h3 := hinv.focus_lt k t hgt
          rw [← hframe t.focus hc1 hc2 (Nat.ne_of_lt h3) (Nat.ne_of_lt (Nat.lt_succ_of_lt h3))]
          exact hck2

set_option maxHeartbeats 1600000 in
/-- The mutation phase of `split` preserves the global invariant. -/
theorem splitPre_inv {s : Tabs} {tab : TabId} {view : View} {layout : Layout}
    {s2 : Tabs} {nd : ViewId} {w : TabId → RTree} (hinv : InvW s w)
    (hins : s.splitPre tab view layout = some (s2, nd)) : Inv s2 := by
  unfold Tabs.splitPre at hins
  simp only [Option.bind_eq_bind, Option.bind_eq_some] at hins
  obtain ⟨tree, htree, fnode, hfn, nodes2, hsv, pnode, hpn, co, hco, hrest⟩ := hins
  have h0 : s.nodes.get s.nodes.nextKey = none :=
    SMap.get_none_of_not_mem_keys (fun hmem => absurd (hinv.nodes_lt _ hmem) (Nat.lt_irrefl _))
  have h2eq : (s.nodes.insertNew ⟨0, Content.view view⟩).2 = s.nodes.nextKey := rfl
  rw [h2eq] at hsv hrest
  unfold Tabs.setViewId at hsv
  simp only [Option.bind_eq_bind, Option.bind_eq_some] at hsv
  obtain ⟨n0, hn0, hsv⟩ := hsv
  have hn0e : n0 = ⟨0, .view view⟩ :=
    Option.some_inj.mp (hn0.symm.trans (SMap.get_insertNew_self s.nodes _ h0))
  subst hn0e
  dsimp only at hsv
  simp only [Option.pure_def, Option.some_inj] at hsv
  have hn2e : nodes2 = (s.nodes.insertNew ⟨0, .view view⟩).1.set s.nodes.nextKey
      ⟨0, .view { view with id := s.nodes.nextKey }⟩ := hsv.symm
  subst hn2e
  have hparmem : fnode.parent ∈ (w tab).ids := focus_parent_mem hinv htree hfn
  have hfmem : tree.focus ∈ (w tab).ids :=
    hinv.focus_mem tab tree htree (by rw [SMap.containsKey, hfn]; rfl)
  have hidlt : ∀ v ∈ (w tab).ids, v < s.nodes.nextKey :=
    ids_lt_nextKey (hinv.wf tab tree htree).shape hinv.nodes_lt
  have hparne : fnode.parent ≠ s.nodes.nextKey := Nat.ne_of_lt (hidlt _ hparmem)
  have hpnS : s.nodes.get fnode.parent = some pnode := by
    rw [SMap.get_set_ne _ _ _ hparne, SMap.get_insertNew_ne _ _ hparne] at hpn
    exact hpn
  have hpnc : pnode.content = .container co := asContainer_eq_some hco
  split at hrest
  case isTrue hsame =>
    have hcollapse : ∀ (X : Node),
        (((s.nodes.insertNew ⟨0, Content.view view⟩).1.set s.nodes.nextKey
          ⟨0, .view { view with id := s.nodes.nextKey }⟩).set fnode.parent X).modify
          s.nodes.nextKey (fun n => ⟨fnode.parent, n.content⟩)
        = ((s.nodes.insertNew ⟨0, Content.view view⟩).1.set s.nodes.nextKey
          ⟨fnode.parent, .view { view with id := s.nodes.nextKey }⟩).set fnode.parent X := by
      intro X
      have hg1 : (((s.nodes.insertNew ⟨0, Content.view view⟩).1.set s.nodes.nextKey
          ⟨0, .view { view with id := s.nodes.nextKey }⟩).set fnode.parent X).get s.nodes.nextKey
          = some ⟨0, .view { view with id := s.nodes.nextKey }⟩ := by
        rw [SMap.get_set_ne _ _ _ hparne.symm]
        exact SMap.get_set_self _ (SMap.get_insertNew_self s.nodes _ h0)
      rw [SMap.modify_eq _ _ _ hg1, SMap.set_swap _ hparne _ _, SMap.set_set_same]
    split at hrest
    case isTrue hemp =>
      simp only [Option.pure_def, Option.some_bind, Option.bind_eq_bind,
        Option.bind_eq_some, Option.some_inj] at hrest
      obtain ⟨tree2, htree2, hfin⟩ := hrest
      have htreq : tree2 = tree := Option.some_inj.mp (htree2.symm.trans htree)
      rw [htreq, hcollapse] at hfin
      obtain ⟨hs2, -⟩ := Prod.mk.inj hfin
      rw [← hs2]
      exact ⟨_, insert_core s tab view 0 w hinv tree fnode pnode co 0
        htree hfn hpnS hpnc (Nat.zero_le _)⟩
    case isFalse hemp =>
      simp only [Option.pure_def, Option.some_bind, Option.map_eq_map,
        Option.bind_eq_bind, Option.bind_eq_some, Option.map_eq_some',
        Option.some_inj] at hrest
      obtain ⟨pos, ⟨q, hq, hq1⟩, tree2, htree2, hfin⟩ := hrest
      have htreq : tree2 = tree := Option.some_inj.mp (htree2.symm.trans htree)
      rw [htreq, hcollapse] at hfin
      have hposle : pos ≤ co.children.length := by
        obtain ⟨-, hlt⟩ := findIdx?_beq_mem hq
        omega
      obtain ⟨hs2, -⟩ := Prod.mk.inj hfin
      rw [← hs2]
      exact ⟨_, insert_core s tab view 0 w hinv tree fnode pnode co pos
        htree hfn hpnS hpnc hposle⟩
  case isFalse hsame =>
    have h3eq : (((s.nodes.insertNew ⟨0, Content.view view⟩).1.set s.nodes.nextKey
        ⟨0, .view { view with id := s.nodes.nextKey }⟩).insertNew
        ⟨fnode.parent, .container (Container.cnew layout)⟩).2 = s.nodes.nextKey + 1 := rfl
    rw [h3eq] at hrest
    simp only [Option.pure_def, Option.bind_eq_bind, Option.bind_eq_some,
      Option.some_inj] at hrest
    obtain ⟨pnode2, hpn2, co2, hco2, pos, hposF, na, hna, tree2, htree2, hfin⟩ := hrest
    subst hna
    have htreq : tree2 = tree := Option.some_inj.mp (htree2.symm.trans htree)
    rw [htreq] at hfin
    set n2 := (s.nodes.insertNew ⟨0, .view view⟩).1.set s.nodes.nextKey
        ⟨0, .view { view with id := s.nodes.nextKey }⟩ with hn2
    set n3 := (n2.insertNew ⟨fnode.parent, .container (Container.cnew layout)⟩).1 with hn3
    set n4 := n3.set (s.nodes.nextKey + 1)
        ⟨fnode.parent, .container ⟨layout, [tree.focus, s.nodes.nextKey], Rect.rdefault⟩⟩ with hn4
    set n5 := n4.modify tree.focus (fun n => { n with parent := s.nodes.nextKey + 1 }) with hn5
    set n6 := n5.modify s.nodes.nextKey (fun n => { n with parent := s.nodes.nextKey + 1 }) with hn6
    have hflt : tree.focus < s.nodes.nextKey := hidlt _ hfmem
    have hparlt : fnode.parent < s.nodes.nextKey := hidlt _ hparmem
    have hnk2 : n2.nextKey = s.nodes.nextKey + 1 := by
      rw [hn2]
      rfl
    have hg4par : n4.get fnode.parent = some pnode := by
      rw [hn4, SMap.get_set_ne _ _ _ (Nat.ne_of_lt (Nat.lt_succ_of_lt hparlt)), hn3,
        SMap.get_insertNew_ne _ _ (by rw [hnk2]; exact Nat.ne_of_lt (Nat.lt_succ_of_lt hparlt)),
        hn2, SMap.get_set_ne _ _ _ hparne, SMap.get_insertNew_ne _ _ hparne]
      exact hpnS
    have hpn2c : pnode2.content = pnode.content := by
      by_cases hfp : tree.focus = fnode.parent
      · have hg4f : n4.get tree.focus = some pnode := by
          rw [hfp]
          exact hg4par
        have hg5par : n5.get fnode.parent = some ⟨s.nodes.nextKey + 1, pnode.content⟩ := by
          rw [hn5, SMap.modify_eq _ _ _ hg4f, ← hfp]
          exact SMap.get_set_self _ hg4f
        have hg6par : n6.get fnode.parent = some ⟨s.nodes.nextKey + 1, pnode.content⟩ := by
          rw [hn6, SMap.get_modify_ne _ _ _ hparne]
          exact hg5par
        have hpe := Option.some_inj.mp (hpn2.symm.trans hg6par)
        rw [hpe]
      · have hg5par : n5.get fnode.parent = some pnode := by
          rw [hn5, SMap.get_modify_ne _ _ _ (fun he => hfp he.symm)]
          exact hg4par
        have hg6par : n6.get fnode.parent = some pnode := by
          rw [hn6, SMap.get_modify_ne _ _ _ hparne]
          exact hg5par
        have hpe := Option.some_inj.mp (hpn2.symm.trans hg6par)
        rw [hpe]
    have hco2e : co2 = co := by
      have h4 : pnode2.content = .container co := by
        rw [hpn2c]
        exact hpnc
      have h5 := asContainer_eq_some hco2
      rw [h4] at h5
      injection h5 with h6
      exact h6.symm
    have hfind : co.children.findIdx? (· == tree.focus) = some pos := by
      rw [← hco2e]
      exact hposF
    by_cases hfp : tree.focus = fnode.parent
    · exfalso
      have hfnp : fnode = pnode := by
        have h4 : s.nodes.get tree.focus = some pnode := by
          rw [hfp]
          exact hpnS
        exact Option.some_inj.mp (hfn.symm.trans h4)
      have hnotown := cont_not_own_childT (w tab) (hinv.wf tab tree htree).shape
        (hinv.wf tab tree htree).nodup hfmem hfn (by rw [hfnp]; exact hpnc)
      exact hnotown (findIdx?_beq_mem hfind).1
    · have hg5par : n5.get fnode.parent = some pnode := by
        rw [hn5, SMap.get_modify_ne _ _ _ (fun he => hfp he.symm)]
        exact hg4par
      have hg6par : n6.get fnode.parent = some pnode := by
        rw [hn6, SMap.get_modify_ne _ _ _ hparne]
        exact hg5par
      have hpn2e : pnode2 = pnode := Option.some_inj.mp (hpn2.symm.trans hg6par)
      rw [hpn2e, hco2e] at hfin
      obtain ⟨hs2, -⟩ := Prod.mk.inj hfin
      rw [← hs2]
      exact ⟨_, split_core s tab view layout w hinv tree fnode pnode co pos
        htree hfn hpnS hpnc hfind hfp⟩
/-- Every arena key surviving the removal cascade was already present. -/
theorem removeLoop_keys_sub : ∀ (fuel : Nat) (stack : List ViewId) (s s2 : Tabs) (tab : TabId),
    Tabs.removeLoop fuel s tab stack = some s2 →
    s2.nodes.keys.Sublist s.nodes.keys
  | 0, [], s, s2, tab, h => by
    rw [Tabs.removeLoop] at h
    obtain rfl := Option.some_inj.mp h
    exact List.Sublist.refl _
  | fuel + 1, [], s, s2, tab, h => by
    rw [Tabs.removeLoop] at h
    obtain rfl := Option.some_inj.mp h
    exact List.Sublist.refl _
  | 0, i :: stk, s, s2, tab, h => by
    rw [Tabs.removeLoop] at h
    cases h
  | fuel + 1, index :: stack, s, s2, tab, h => by
    rw [Tabs.removeLoop] at h
    simp only [Option.bind_eq_bind, Option.bind_eq_some] at h
    obtain ⟨n, hn, pn, hpn, hm⟩ := h
    obtain ⟨pp, pc⟩ := pn
    have hsub1 : ∀ (m : SMap Node), ((m.erase index).keys).Sublist m.keys := by
      intro m
      rw [SMap.keys_erase]
      exact List.filter_sublist _
    have hsub2 : ∀ (m : SMap Node) (k : Nat) (a : Node),
        (((m.set k a).erase index).keys).Sublist m.keys := by
      intro m k a
      rw [SMap.keys_erase, SMap.keys_set]
      exact List.filter_sublist _
    cases pc with
    | view v =>
      dsimp only at hm
      simp only [Option.pure_def, Option.bind_eq_bind, Option.some_bind,
        Option.bind_eq_some] at hm
      obtain ⟨tree1, ht1, hrec⟩ := hm
      exact (removeLoop_keys_sub fuel stack _ s2 tab hrec).trans (hsub1 _)
    | container co =>
      dsimp only at hm
      cases hidx : co.children.findIdx? (· == index) with
      | none =>
        rw [hidx] at hm
        simp only [Option.pure_def, Option.bind_eq_bind, Option.some_bind,
          Option.bind_eq_some] at hm
        obtain ⟨tree1, ht1, hrec⟩ := hm
        exact (removeLoop_keys_sub fuel stack _ s2 tab hrec).trans (hsub1 _)
      | some pos =>
        rw [hidx] at hm
        simp only [Option.pure_def, Option.bind_eq_bind, Option.some_bind,
          Option.bind_eq_some] at hm
        obtain ⟨treeM, htM, hif⟩ := hm
        split at hif
        · simp only [Option.pure_def, Option.bind_eq_bind, Option.some_bind,
            Option.bind_eq_some] at hif
          obtain ⟨tree1, ht1, hrec⟩ := hif
          exact (removeLoop_keys_sub fuel _ _ s2 tab hrec).trans (hsub2 _ _ _)
        · simp only [Option.pure_def, Option.bind_eq_bind, Option.some_bind,
            Option.bind_eq_some] at hif
          obtain ⟨tree1, ht1, hrec⟩ := hif
          exact (removeLoop_keys_sub fuel _ _ s2 tab hrec).trans (hsub2 _ _ _)

/-- The addressed tab's member list only loses entries during the cascade. -/
theorem removeLoop_nodes_sub : ∀ (fuel : Nat) (stack : List ViewId) (s s2 : Tabs)
    (tab : TabId) (tr : Tree),
    Tabs.removeLoop fuel s tab stack = some s2 → s.trees.get tab = some tr →
    ∃ tr2, s2.trees.get tab = some tr2 ∧ tr2.nodes.Sublist tr.nodes
  | 0, [], s, s2, tab, tr, h, hgt => by
    rw [Tabs.removeLoop] at h
    obtain rfl := Option.some_inj.mp h
    exact ⟨tr, hgt, List.Sublist.refl _⟩
  | fuel + 1, [], s, s2, tab, tr, h, hgt => by
    rw [Tabs.removeLoop] at h
    obtain rfl := Option.some_inj.mp h
    exact ⟨tr, hgt, List.Sublist.refl _⟩
  | 0, i :: stk, s, s2, tab, tr, h, hgt => by
    rw [Tabs.removeLoop] at h
    cases h
  | fuel + 1, index :: stack, s, s2, tab, tr, h, hgt => by
    rw [Tabs.removeLoop] at h
    simp only [Option.bind_eq_bind, Option.bind_eq_some] at h
    obtain ⟨n, hn, pn, hpn, hm⟩ := h
    obtain ⟨pp, pc⟩ := pn
    cases pc with
    | view v =>
      dsimp only at hm
      simp only [Option.pure_def, Option.bind_eq_bind, Option.some_bind,
        Option.bind_eq_some] at hm
      obtain ⟨tree1, ht1, hrec⟩ := hm
      have htr1 : tree1 = tr := Option.some_inj.mp (ht1.symm.trans hgt)
      obtain ⟨tr2, hg2, hsub2⟩ := removeLoop_nodes_sub fuel stack _ s2 tab
        { tree1 with nodes := tree1.nodes.filter (· ≠ index) } hrec
        (SMap.get_set_self _ ht1)
      refine ⟨tr2, hg2, hsub2.trans ?_⟩
      rw [htr1]
      exact List.filter_sublist _
    | container co =>
      dsimp only at hm
      cases hidx : co.children.findIdx? (· == index) with
      | none =>
        rw [hidx] at hm
        simp only [Option.pure_def, Option.bind_eq_bind, Option.some_bind,
          Option.bind_eq_some] at hm
        obtain ⟨tree1, ht1, hrec⟩ := hm
        have htr1 : tree1 = tr := Option.some_inj.mp (ht1.symm.trans hgt)
        obtain ⟨tr2, hg2, hsub2⟩ := removeLoop_nodes_sub fuel stack _ s2 tab
          { tree1 with nodes := tree1.nodes.filter (· ≠ index) } hrec
          (SMap.get_set_self _ ht1)
        refine ⟨tr2, hg2, hsub2.trans ?_⟩
        rw [htr1]
        exact List.filter_sublist _
      | some pos =>
        rw [hidx] at hm
        simp only [Option.pure_def, Option.bind_eq_bind, Option.some_bind,
          Option.bind_eq_some] at hm
        obtain ⟨treeM, htM, hif⟩ := hm
        split at hif
        · simp only [Option.pure_def, Option.bind_eq_bind, Option.some_bind,
            Option.bind_eq_some] at hif
          obtain ⟨tree1, ht1, hrec⟩ := hif
          have htr1 : tree1 = tr :=
            Option.some_inj.mp ((show s.trees.get tab = some tree1 from ht1).symm.trans hgt)
          obtain ⟨tr2, hg2, hsub2⟩ := removeLoop_nodes_sub fuel _ _ s2 tab
            { tree1 with nodes := tree1.nodes.filter (· ≠ index) } hrec
            (SMap.get_set_self _ ht1)
          refine ⟨tr2, hg2, hsub2.trans ?_⟩
          rw [htr1]
          exact List.filter_sublist _
        · simp only [Option.pure_def, Option.bind_eq_bind, Option.some_bind,
            Option.bind_eq_some] at hif
          obtain ⟨tree1, ht1, hrec⟩ := hif
          have htr1 : tree1 = tr :=
            Option.some_inj.mp ((show s.trees.get tab = some tree1 from ht1).symm.trans hgt)
          obtain ⟨tr2, hg2, hsub2⟩ := removeLoop_nodes_sub fuel _ _ s2 tab
            { tree1 with nodes := tree1.nodes.filter (· ≠ index) } hrec
            (SMap.get_set_self _ ht1)
          refine ⟨tr2, hg2, hsub2.trans ?_⟩
          rw [htr1]
          exact List.filter_sublist _

set_option maxHeartbeats 1600000 in
/-- Running the removal cascade from a removable leaf of a well-formed
workspace preserves the global invariant.  The pre-state's addressed tab
record `tr1` may differ from the invariant's record only in its focus. -/
theorem removeLoop_run_inv {s : Tabs} {tab : TabId} {i : ViewId} {s2 : Tabs}
    {w : TabId → RTree} (hinv : InvW s w) {tree : Tree} {cs : RForest}
    (htree : s.trees.get tab = some tree) (hcs : w tab = .cont tree.root cs)
    (hleaf : isLeafF cs i = true) (tr1 : Tree)
    (hroot1 : tr1.root = tree.root) (hid1 : tr1.id = tree.id)
    (hnodes1 : tr1.nodes = tree.nodes) (hstack1 : tr1.stack = tree.stack)
    (hfoclt : tr1.focus < s.nodes.nextKey)
    (hfocmem : s.nodes.containsKey tr1.focus = true → tr1.focus ∈ (w tab).ids)
    (hloop : Tabs.removeLoop (s.nodes.entries.length + 1)
      { s with trees := s.trees.set tab tr1 } tab [i] = some s2) : Inv s2 := by
  have hwf := hinv.wf tab tree htree
  have hshapeC : shapeOk s.nodes tree.root (.cont tree.root cs) = true := by
    rw [← hcs]
    exact hwf.shape
  have hnodupC : (RTree.cont tree.root cs).ids.Nodup := by
    rw [← hcs]
    exact hwf.nodup
  have hndl : tree.root ∉ cs.idsF ∧ cs.idsF.Nodup := by
    refine List.nodup_cons.mp ?_
    rw [← RTree.ids]
    exact hnodupC
  have hfuel : cs.rsizeF + 1 ≤ s.nodes.entries.length + 1 := by
    have hle := rsize_le_arena (shapeOk_structOk hshapeC) hnodupC
    rw [RTree.rsize] at hle
    omega
  have htrM : ({ s with trees := s.trees.set tab tr1 } : Tabs).trees.get tab = some tr1 :=
    SMap.get_set_self _ htree
  obtain ⟨s2x, cs2, rem, hrun, hshapeS, hidsS, hpanesS, hnodupS, hiremS, hsubS, hpaneS,
    hnoneS, huntS, hnkS, hkeysS, htnkS, hfocS,
    ⟨trS, hgTS, hrootS, hfocusS, hareaS, hidS, hstackS, hmemS⟩, hcascS, hdetachS⟩ :=
    removeLoop_cascade (s.nodes.entries.length + 1) { s with trees := s.trees.set tab tr1 }
      tab tr1 cs i htrM (by rw [hroot1]; exact hshapeC) (by rw [hroot1]; exact hnodupC)
      hleaf hfuel
  have hs2x : s2x = s2 := Option.some_inj.mp (hrun.symm.trans hloop)
  rw [hs2x] at hshapeS hnoneS huntS hnkS hkeysS htnkS hgTS
  rw [hroot1] at hshapeS hnodupS huntS hrootS
  have hltf := removeLoop_treesFrame _ _ _ _ _ hloop
  have hksub : s2.nodes.keys.Sublist s.nodes.keys :=
    removeLoop_keys_sub (s.nodes.entries.length + 1) [i]
      { s with trees := s.trees.set tab tr1 } s2 tab hloop
  have hrootnotrem : tree.root ∉ rem := fun hr => hndl.1 (hsubS _ hr)
  have hgframe : ∀ k, k ≠ tab → s2.trees.get k = s.trees.get k := by
    intro k hkt
    rw [hltf.1 k hkt]
    exact SMap.get_set_ne s.trees tab tr1 hkt
  refine ⟨fun j => if j = tab then RTree.cont tree.root cs2 else w j,
    ?_, ?_, ?_, ?_, ?_, ?_, ?_, ?_, ?_⟩
  · exact hinv.nodes_nodup.sublist hksub
  · intro k hk
    have h4 : k < s.nodes.nextKey := hinv.nodes_lt k (hksub.mem hk)
    have h5 : s2.nodes.nextKey = s.nodes.nextKey := hnkS
    rw [h5]
    exact h4
  · have h5 : s2.trees.keys = s.trees.keys := by
      have h6 : s2.trees.keys = (s.trees.set tab tr1).keys := hkeysS
      rw [h6, SMap.keys_set]
    rw [h5]
    exact hinv.trees_nodup
  · intro k hk
    have h5 : s2.trees.keys = s.trees.keys := by
      have h6 : s2.trees.keys = (s.trees.set tab tr1).keys := hkeysS
      rw [h6, SMap.keys_set]
    have h7 : s2.trees.nextKey = s.trees.nextKey := htnkS
    rw [h5] at hk
    rw [h7]
    exact hinv.trees_lt k hk
  · intro k t hgt
    by_cases hkt : k = tab
    · rw [hkt] at hgt
      have h4 := Option.some_inj.mp (hgt.symm.trans hgTS)
      rw [h4, hidS, hid1, hkt]
      exact hinv.tree_id tab tree htree
    · rw [hgframe k hkt] at hgt
      exact hinv.tree_id k t hgt
  · intro k t hgt
    show TreeWF s2.nodes t (if k = tab then RTree.cont tree.root cs2 else w k)
    by_cases hkt : k = tab
    · rw [hkt] at hgt
      rw [hkt, if_pos rfl]
      have h4 := Option.some_inj.mp (hgt.symm.trans hgTS)
      rw [h4]
      refine ⟨⟨cs2, by rw [hrootS]⟩, ?_, hnodupS, ?_, ?_, ?_⟩
      · rw [hrootS]
        exact hshapeS
      · intro v
        rw [hmemS v, hnodes1, hwf.members v, hcs, hrootS, RTree.panes, RTree.panes]
        constructor
        · rintro ⟨he | hp, hnr⟩
          · exact Or.inl he
          · exact Or.inr ((hpanesS v).mpr ⟨hp, hnr⟩)
        · rintro (he | hp)
          · refine ⟨Or.inl he, ?_⟩
            rw [he]
            exact hrootnotrem
          · obtain ⟨hp1, hp2⟩ := (hpanesS v).mp hp
            exact ⟨Or.inr hp1, hp2⟩
      · obtain ⟨tr2b, hg2b, hsubb⟩ := removeLoop_nodes_sub _ _ _ _ _ tr1 hloop htrM
        have h7 : tr2b = trS := Option.some_inj.mp (hg2b.symm.trans hgTS)
        rw [h7] at hsubb
        have h8 : tr1.nodes.Nodup := by
          rw [hnodes1]
          exact hwf.members_nodup
        exact h8.sublist hsubb
      · rw [hstackS, hstack1]
        exact hwf.stack_empty
    · rw [if_neg hkt]
      rw [hgframe k hkt] at hgt
      refine TreeWF_agree (hinv.wf k t hgt) ?_
      intro v hv
      have hvnot : v ∉ (RTree.cont tree.root cs).ids := by
        intro hm
        exact hinv.disj k tab t tree hgt htree hkt v hv (by rw [hcs]; exact hm)
      exact huntS v hvnot
  · intro k1 k2 t1 t2 hg1 hg2 hne v hv
    show v ∉ (if k2 = tab then RTree.cont tree.root cs2 else w k2).ids
    have hv2 : v ∈ (if k1 = tab then RTree.cont tree.root cs2 else w k1).ids := hv
    have hids2sub : ∀ x, x ∈ (RTree.cont tree.root cs2).ids → x ∈ (w tab).ids := by
      intro x hx
      rw [RTree.ids] at hx
      rw [hcs, RTree.ids]
      rcases List.mem_cons.mp hx with he | hm
      · exact List.mem_cons.mpr (Or.inl he)
      · exact List.mem_cons.mpr (Or.inr ((hidsS x).mp hm).1)
    by_cases h1 : k1 = tab <;> by_cases h2 : k2 = tab
    · exact absurd (h1.trans h2.symm) hne
    · rw [h1, if_pos rfl] at hv2
      rw [if_neg h2]
      rw [hgframe k2 h2] at hg2
      exact hinv.disj tab k2 tree t2 htree hg2 (fun he => hne (h1.trans he)) v (hids2sub v hv2)
    · rw [if_neg h1] at hv2
      rw [h2, if_pos rfl]
      rw [hgframe k1 h1] at hg1
      intro hm
      exact hinv.disj k1 tab t1 tree hg1 htree h1 v hv2 (hids2sub v hm)
    · rw [if_neg h1] at hv2
      rw [if_neg h2]
      rw [hgframe k1 h1] at hg1
      rw [hgframe k2 h2] at hg2
      exact hinv.disj k1 k2 t1 t2 hg1 hg2 hne v hv2
  · intro k t hgt
    have h5 : s2.nodes.nextKey = s.nodes.nextKey := hnkS
    rw [h5]
    by_cases hkt : k = tab
    · rw [hkt] at hgt
      have h4 := Option.some_inj.mp (hgt.symm.trans hgTS)
      rw [h4, hfocusS]
      exact hfoclt
    · rw [hgframe k hkt] at hgt
      exact hinv.focus_lt k t hgt
  · intro k t hgt hck
    show t.focus ∈ (if k = tab then RTree.cont tree.root cs2 else w k).ids
    by_cases hkt : k = tab
    · rw [hkt] at hgt
      rw [hkt, if_pos rfl]
      have h4 := Option.some_inj.mp (hgt.symm.trans hgTS)
      rw [h4, hfocusS]
      rw [h4, hfocusS] at hck
      have hckS : (s2.nodes.get tr1.focus).isSome = true := hck
      have hnr : tr1.focus ∉ rem := by
        intro hr
        rw [hnoneS _ hr] at hckS
        cases hckS
      by_cases hvi : tr1.focus ∈ (RTree.cont tree.root cs).ids
      · rw [RTree.ids] at hvi
        rw [RTree.ids]
        rcases List.mem_cons.mp hvi with he | hm
        · exact List.mem_cons.mpr (Or.inl he)
        · exact List.mem_cons.mpr (Or.inr ((hidsS tr1.focus).mpr ⟨hm, hnr⟩))
      · exfalso
        have h5 : s2.nodes.get tr1.focus = s.nodes.get tr1.focus := huntS _ hvi
        have h6 : s.nodes.containsKey tr1.focus = true := by
          rw [SMap.containsKey, ← h5]
          exact hckS
        have h7 := hfocmem h6
        rw [hcs] at h7
        exact hvi h7
    · rw [if_neg hkt]
      rw [hgframe k hkt] at hgt
      refine hinv.focus_mem k t hgt ?_
      by_cases hvi : t.focus ∈ (RTree.cont tree.root cs).ids
      · obtain ⟨n4, hn4⟩ := shape_ids_get _ hshapeC _ hvi
        rw [SMap.containsKey, hn4]
        rfl
      · have h5 : s2.nodes.get t.focus = s.nodes.get t.focus := huntS _ hvi
        rw [SMap.containsKey, ← h5]
        exact hck

set_option maxHeartbeats 1600000 in
/-- The mutation phase of `remove` preserves the global invariant, given
the membership and pane guards that `Application` checks before calling
`remove`. -/
theorem removePre_inv {s : Tabs} {tab : TabId} {i : ViewId} {s2 : Tabs}
    {w : TabId → RTree} (hinv : InvW s w) {tree : Tree}
    (htree : s.trees.get tab = some tree) (hmemN : i ∈ tree.nodes)
    (hpane : isPaneAt s i = true) (hrem : s.removePre tab i = some s2) : Inv s2 := by
  have hwf := hinv.wf tab tree htree
  obtain ⟨cs, hcs⟩ := hwf.is_cont
  have hshapeC : shapeOk s.nodes tree.root (.cont tree.root cs) = true := by
    rw [← hcs]
    exact hwf.shape
  obtain ⟨ni, vi, hgi, hci⟩ := (isPaneAt_iff s i).mp hpane
  obtain ⟨co_r, hgr, hchr, hsfr⟩ := shapeOk_cont_elim hshapeC
  have hiroot : ¬ i = tree.root := by
    intro he
    rw [he, hgr] at hgi
    have h4 : (⟨tree.root, .container co_r⟩ : Node) = ni := Option.some_inj.mp hgi
    rw [← h4] at hci
    cases hci
  have hipane : i ∈ cs.panesF := by
    rcases (hwf.members i).mp hmemN with he | hp
    · exact absurd he hiroot
    · rw [hcs, RTree.panes] at hp
      exact hp
  have hleaf : isLeafF cs i = true := panesF_isLeafF hipane
  unfold Tabs.removePre at hrem
  simp only [Option.bind_eq_bind, Option.bind_eq_some] at hrem
  obtain ⟨tree0, ht0, hite⟩ := hrem
  have ht0e : tree0 = tree := Option.some_inj.mp (ht0.symm.trans htree)
  rw [ht0e] at hite
  split at hite
  case isTrue hcond =>
    simp only [Option.pure_def, Option.bind_eq_bind, Option.some_bind,
      Option.bind_eq_some] at hite
    obtain ⟨pv, hpv, tree2, ht2, hloop⟩ := hite
    have ht2e : tree2 = tree := Option.some_inj.mp (ht2.symm.trans htree)
    rw [ht2e] at hloop
    have hprev : s.prev tab = wnext (w tab).panes.reverse tree.focus :=
      prev_eq_wnext_rev htree (shapeOk_structOk hwf.shape)
        (by rw [hcs, RTree.rootId]) hwf.nodup
    rw [hprev] at hpv
    have hpvmem : pv ∈ (w tab).panes := by
      have h4 := wnext_mem hpv
      rw [List.mem_reverse] at h4
      exact h4
    have hpvids : pv ∈ (w tab).ids := (panes_sublist_ids (w tab)).mem hpvmem
    refine removeLoop_run_inv hinv htree hcs hleaf { tree with focus := pv }
      rfl rfl rfl rfl ?_ ?_ ?_
    · exact ids_lt_nextKey hwf.shape hinv.nodes_lt _ hpvids
    · intro hck
      exact hpvids
    · exact hloop
  case isFalse hcond =>
    simp only [Option.pure_def, Option.some_bind] at hite
    have hs1 : ({ s with trees := s.trees.set tab tree } : Tabs) = s := by
      rw [SMap.set_same hinv.trees_nodup htree]
    refine removeLoop_run_inv hinv htree hcs hleaf tree rfl rfl rfl rfl
      (hinv.focus_lt tab tree htree) (hinv.focus_mem tab tree htree) ?_
    rw [hs1]
    exact hite

/-- `remove` (mutation phase plus the global relayout) preserves the
invariant. -/
theorem remove_inv {s : Tabs} {tab : TabId} {i : ViewId} {s2 : Tabs}
    {w : TabId → RTree} (hinv : InvW s w) {tree : Tree}
    (htree : s.trees.get tab = some tree) (hmemN : i ∈ tree.nodes)
    (hpane : isPaneAt s i = true) (hrem : s.remove tab i = some s2) : Inv s2 := by
  obtain ⟨smid, hpre, hrec⟩ := remove_factor hrem
  obtain ⟨w2, hinv2⟩ := removePre_inv hinv htree hmemN hpane hpre
  exact ⟨w2, recalculate_inv smid s2 w2 hinv2 hrec⟩

/-- Every operation of the claim's alphabet preserves the invariant. -/
theorem applyOp_inv {s s2 : Tabs} {w : TabId → RTree} (op : Op) (hinv : InvW s w)
    (h : applyOp s op = some s2) : Inv s2 := by
  cases op with
  | ins tab v =>
    rw [applyOp] at h
    rcases Option.map_eq_some'.mp h with ⟨r, hins, he⟩
    unfold Tabs.insert at hins
    simp only [Option.pure_def, Option.bind_eq_bind, Option.bind_eq_some,
      Option.some_inj] at hins
    obtain ⟨r0, hpre, s4, hrec4, hfin⟩ := hins
    obtain ⟨w2, hinv2⟩ := insertPre_inv hinv hpre
    have hs4 : s4 = s2 := by
      rw [← he, ← hfin]
    rw [← hs4]
    exact ⟨w2, recalculate_inv r0.1 s4 w2 hinv2 hrec4⟩
  | spl tab v l =>
    rw [applyOp] at h
    rcases Option.map_eq_some'.mp h with ⟨r, hins, he⟩
    unfold Tabs.split at hins
    simp only [Option.pure_def, Option.bind_eq_bind, Option.bind_eq_some,
      Option.some_inj] at hins
    obtain ⟨r0, hpre, s4, hrec4, hfin⟩ := hins
    obtain ⟨w2, hinv2⟩ := splitPre_inv hinv hpre
    have hs4 : s4 = s2 := by
      rw [← he, ← hfin]
    rw [← hs4]
    exact ⟨w2, recalculate_inv r0.1 s4 w2 hinv2 hrec4⟩
  | rem tab v =>
    rw [applyOp] at h
    cases htr : s.trees.get tab with
    | none =>
      rw [htr] at h
      cases h
    | some tree =>
      rw [htr] at h
      dsimp only at h
      by_cases hcond : v ∈ tree.nodes ∧ isPaneAt s v = true
      · rw [if_pos hcond] at h
        exact remove_inv hinv htr hcond.1 hcond.2 h
      · rw [if_neg hcond] at h
        cases h

/-- A whole sequence of insert/split/remove operations preserves the
invariant. -/
theorem runSeq_inv : ∀ (ops : List Op) (s s2 : Tabs), Inv s →
    runSeq s ops = some s2 → Inv s2
  | [], s, s2, hinv, h => by
    rw [runSeq] at h
    obtain rfl := Option.some_inj.mp h
    exact hinv
  | op :: ops, s, s2, hinv, h => by
    rw [runSeq] at h
    rcases Option.bind_eq_some.mp h with ⟨smid, hop, hrest⟩
    obtain ⟨w0, hw0⟩ := hinv
    exact runSeq_inv ops smid s2 (applyOp_inv op hw0 hop) hrest

/-- In any invariant state the member set is the root plus exactly the
panes reachable from the root via children lists. -/
theorem inv_members_reach {s : Tabs} {w : TabId → RTree} (hinv : InvW s w)
    {tab : TabId} {tree : Tree} (htree : s.trees.get tab = some tree) :
    ∀ v, v ∈ tree.nodes ↔
      (v = tree.root ∨ (Reach s.nodes tree.root v ∧ isPaneAt s v = true)) := by
  intro v
  have hwf := hinv.wf tab tree htree
  obtain ⟨cs, hcs⟩ := hwf.is_cont
  have hshapeC : shapeOk s.nodes tree.root (.cont tree.root cs) = true := by
    rw [← hcs]
    exact hwf.shape
  obtain ⟨co_r, hgr, hchr, hsfr⟩ := shapeOk_cont_elim hshapeC
  rw [hwf.members v, hcs, RTree.panes]
  constructor
  · rintro (he | hp)
    · exact Or.inl he
    · right
      have hvids : v ∈ (RTree.cont tree.root cs).ids := by
        refine (panes_sublist_ids (RTree.cont tree.root cs)).mem ?_
        rw [RTree.panes]
        exact hp
      refine ⟨?_, ?_⟩
      · exact ids_reachT (RTree.cont tree.root cs) tree.root hshapeC v hvids
      · obtain ⟨q, vv, hgv⟩ := panesF_view hsfr hp
        exact (isPaneAt_iff s v).mpr ⟨_, vv, hgv, rfl⟩
  · rintro (he | ⟨hreach, hpane⟩)
    · exact Or.inl he
    · right
      have hvids : v ∈ (RTree.cont tree.root cs).ids :=
        reach_in_ids (RTree.cont tree.root cs) tree.root hshapeC v hreach
      obtain ⟨n4, vv, hg4, hc4⟩ := (isPaneAt_iff s v).mp hpane
      have h5 := view_paneT (RTree.cont tree.root cs) tree.root hshapeC v n4 vv hvids hg4 hc4
      rw [RTree.panes] at h5
      exact h5
theorem newTabs_key_one {k : TabId} {t : Tree}
    (h : (Tabs.new demoRect).trees.get k = some t) : k = 1 := by
  have h2 : (Tabs.new demoRect).trees.keys = [1] := by decide
  have h3 := SMap.get_some_mem_keys h
  rw [h2, List.mem_singleton] at h3
  exact h3

theorem newTabs_get_one :
    (Tabs.new demoRect).trees.get 1 = some (Tree.mk 1 1 1 demoRect [1] []) := by
  decide

/-- The freshly created single-workspace state is well formed, with an
empty root container as its only shape witness. -/
theorem invw_new : InvW (Tabs.new demoRect)
    (fun j => if j = 1 then RTree.cont 1 RForest.nil else RTree.pane 0) := by
  refine ⟨?_, ?_, ?_, ?_, ?_, ?_, ?_, ?_, ?_⟩
  · decide
  · decide
  · decide
  · decide
  · intro k t hgt
    have hk : k = 1 := newTabs_key_one hgt
    rw [hk] at hgt
    have h4 := Option.some_inj.mp (hgt.symm.trans newTabs_get_one)
    rw [h4, hk]
  · intro k t hgt
    have hk : k = 1 := newTabs_key_one hgt
    rw [hk] at hgt
    have h4 := Option.some_inj.mp (hgt.symm.trans newTabs_get_one)
    show TreeWF (Tabs.new demoRect).nodes t
      (if k = 1 then RTree.cont 1 RForest.nil else RTree.pane 0)
    rw [hk, if_pos rfl, h4]
    refine ⟨⟨.nil, rfl⟩, by decide, by decide, ?_, by decide, rfl⟩
    intro v
    show v ∈ [1] ↔ v = 1 ∨ v ∈ ([] : List ViewId)
    rw [List.mem_singleton]
    constructor
    · exact Or.inl
    · rintro (h | h)
      · exact h
      · exact absurd h (List.not_mem_nil v)
  · intro k1 k2 t1 t2 hg1 hg2 hne v hv
    exact absurd ((newTabs_key_one hg1).trans (newTabs_key_one hg2).symm) hne
  · intro k t hgt
    have hk : k = 1 := newTabs_key_one hgt
    rw [hk] at hgt
    have h4 := Option.some_inj.mp (hgt.symm.trans newTabs_get_one)
    rw [h4]
    decide
  · intro k t hgt hck
    have hk : k = 1 := newTabs_key_one hgt
    rw [hk] at hgt
    have h4 := Option.some_inj.mp (hgt.symm.trans newTabs_get_one)
    show t.focus ∈ (if k = 1 then RTree.cont 1 RForest.nil else RTree.pane 0).ids
    rw [hk, if_pos rfl, h4]
    decide

/-- C1, corrected: starting from any well-formed state, after any
successful sequence of `insert`, `split` and `remove` operations a
workspace's member set (`Tree.nodes`) equals its root plus exactly the
*panes* reachable from the root by following container children lists.
The claim's unrestricted version — that every reachable id, container or
pane, is registered — is false: the axis-changing branch of `split`
creates container nodes that are reachable but never registered (see
`c1_split_container_unregistered`). -/
theorem c1_member_set_reachable (s0 : Tabs) (ops : List Op) (s2 : Tabs)
    (tab : TabId) (tree : Tree) (hinv : Inv s0)
    (hrun : runSeq s0 ops = some s2) (htree : s2.trees.get tab = some tree) :
    ∀ v, v ∈ tree.nodes ↔
      (v = tree.root ∨ (Reach s2.nodes tree.root v ∧ isPaneAt s2 v = true)) := by
  obtain ⟨w2, hw2⟩ := runSeq_inv ops s0 s2 hinv hrun
  exact inv_members_reach hw2 htree

set_option maxHeartbeats 1600000 in
/-- C1 witness: the insert-then-axis-changing-split sequence behind
`c1SeqState`, with the member-set characterisation checked at pane 2. -/
theorem c1_witness :
    2 ∈ ((c1SeqState.trees.get 1).getD Tree.tdefault).nodes ↔
      (2 = ((c1SeqState.trees.get 1).getD Tree.tdefault).root ∨
        (Reach c1SeqState.nodes ((c1SeqState.trees.get 1).getD Tree.tdefault).root 2 ∧
          isPaneAt c1SeqState 2 = true)) :=
  c1_member_set_reachable (Tabs.new demoRect)
    [.ins 1 ⟨0, 10, Rect.rdefault⟩, .spl 1 ⟨0, 20, Rect.rdefault⟩ .Horizontal]
    c1SeqState 1 ((c1SeqState.trees.get 1).getD Tree.tdefault)
    ⟨fun j => if j = 1 then RTree.cont 1 RForest.nil else RTree.pane 0, invw_new⟩
    (by decide) (by decide) 2
end HelixView
